import Mathlib

/-!
# last.json: the string codec, the parser and the writer

A shallow embedding of `include/lastjson/{impl_helpers,stringrep,parse,stringify}.hpp`,
with the lookup `object_get` of `value.hpp`.

* A byte (`char`) is a `Nat`; a `std::string` is a `List Nat`.
* A forward iterator into the buffer being parsed is the list of bytes from the
  cursor to `end`: `it == end` is `it = []`, `*it` is the head, `++it` the tail.
* A function that throws returns `Except exn _`.
* A function that writes to a `std::ostream` returns the bytes it appends.
* Loops and the recursion of `parse_fragment` are driven by a fuel argument that
  the entry points set from the length of the input.
-/

namespace lastjson

/-! ## Exceptions -/

/-- One constructor per `what()` text of a `parser_error` thrown by the library. -/
inductive parser_error where
  | premature_end
  | invalid_json_data
  | premature_end_array
  | error_parsing_array
  | premature_end_object
  | error_parsing_object
  | premature_end_float
  | additional_data
  | surrogate_escape
  | backslash_escape
  | premature_end_string
  | premature_end_json_string
  | unicode_escape
  deriving DecidableEq, Repr

/-- The message a `parser_error` is constructed with. -/
def parser_error.what : parser_error → String
  | .premature_end => "premature end of json data"
  | .invalid_json_data => "invalid json data"
  | .premature_end_array => "premature end of json data while parsing array"
  | .error_parsing_array => "error parsing json array"
  | .premature_end_object => "premature end of json data while parsing object"
  | .error_parsing_object => "error parsing json object"
  | .premature_end_float => "premature end of json data while parsing float"
  | .additional_data => "additional data at the end of json data"
  | .surrogate_escape => "error decoding surrogate unicode escape sequence"
  | .backslash_escape => "error while parsing backslash escape sequence"
  | .premature_end_string => "premature end of json data while parsing string"
  | .premature_end_json_string => "premature end of json string"
  | .unicode_escape => "error decoding unicode escape sequence"

/-- What a call can end with instead of a result.
* `parser e`: a `parser_error` was thrown;
* `utf8_sequence_error`: the exception of `escape_string`;
* `conversion`: `stoll` or `stod` threw (`std::invalid_argument`, `std::out_of_range`,
  or `boost::bad_lexical_cast` in the build without `LASTJSON_CXX11`);
* `past_the_end`: the source dereferenced an iterator equal to `end`;
* `fuel`: the fuel of the embedding ran out (shown below never to happen). -/
inductive exn where
  | parser (e : parser_error)
  | utf8_sequence_error
  | conversion
  | past_the_end
  | fuel
  deriving DecidableEq, Repr

/-- The bytes of an ASCII text. -/
def ascii (s : String) : List Nat := s.toList.map Char.toNat

/-! ## Iterator ranges -/

/-- The number of increments from cursor `first` to cursor `last` of the same buffer. -/
def distance (first last : List Nat) : Nat := first.length - last.length

/-- The bytes of `std::string(first, last)`. -/
def range (first last : List Nat) : List Nat := first.take (distance first last)

/-! ## impl_helpers.hpp -/

namespace impl

/-- Embeds `skipws`: advance `begin` over space, tab, LF and CR. -/
def skipws : List Nat → List Nat
  | [] => []
  | c :: rest =>
    if c = 0x20 ∨ c = 0x09 ∨ c = 0x0a ∨ c = 0x0d then skipws rest else c :: rest

/-- The `for` loop of `read4hex`, with `i` iterations left and `rv` a `uint16_t`. -/
def read4hex_loop : Nat → Nat → List Nat → Except exn (Nat × List Nat)
  | 0, rv, it => .ok (rv, it)
  | i + 1, rv, it =>
    match it with
    | [] => .error (.parser .premature_end_json_string)
    | c :: rest =>
      let rv := (rv <<< 4) % 65536
      if 0x30 ≤ c ∧ c ≤ 0x39 then read4hex_loop i (rv ||| (c - 0x30)) rest
      else if 0x61 ≤ c ∧ c ≤ 0x66 then read4hex_loop i (rv ||| (c - 0x61 + 0xa)) rest
      else if 0x41 ≤ c ∧ c ≤ 0x46 then read4hex_loop i (rv ||| (c - 0x41 + 0xa)) rest
      else .error (.parser .unicode_escape)

/-- Embeds `read4hex`: the value of four hex digits and the cursor after them. -/
def read4hex (it : List Nat) : Except exn (Nat × List Nat) := read4hex_loop 4 0 it

/-! ## stringrep.hpp -/

/-- Lines 99-118 of stringrep.hpp: after the escape of a high surrogate `codepoint`,
the escape of a low surrogate has to follow; the four bytes stored for the pair, and the
cursor after it. -/
def unescape_surrogate (codepoint : Nat) (it : List Nat) : Except exn (List Nat × List Nat) :=
  match it with
  | [] => .error (.parser .surrogate_escape)
  | b :: it =>
    if b ≠ 0x5c then .error (.parser .surrogate_escape)
    else
      match it with
      | [] => .error (.parser .surrogate_escape)
      | u :: it =>
        if u ≠ 0x75 then .error (.parser .surrogate_escape)
        else
          match read4hex it with
          | .error e => .error e
          | .ok (codepoint2, it) =>
            if codepoint2 < 0xdc00 ∨ codepoint2 ≥ 0xe000 then .error (.parser .surrogate_escape)
            else
              let cp := (((codepoint &&& 0x3ff) <<< 10) ||| (codepoint2 &&& 0x3ff)) + 0x10000
              .ok ([0xf0 ||| ((cp >>> 18) &&& 0x07),
                    0x80 ||| ((cp >>> 12) &&& 0x3f),
                    0x80 ||| ((cp >>> 6) &&& 0x3f),
                    0x80 ||| (cp &&& 0x3f)], it)

/-- The case `'u'` of the escape switch (lines 81-124 of stringrep.hpp), entered with
`it` after the `u`: the bytes stored and the cursor after the escape. -/
def unescape_unicode (it : List Nat) : Except exn (List Nat × List Nat) :=
  match read4hex it with
  | .error e => .error e
  | .ok (codepoint, it) =>
    if codepoint < 0x80 then .ok ([codepoint], it)
    else if codepoint < 0x800 then
      .ok ([0xc0 ||| ((codepoint >>> 6) &&& 0x1f), 0x80 ||| (codepoint &&& 0x3f)], it)
    else if codepoint < 0xd800 ∨ codepoint ≥ 0xe000 then
      .ok ([0xe0 ||| ((codepoint >>> 12) &&& 0x0f),
            0x80 ||| ((codepoint >>> 6) &&& 0x3f),
            0x80 ||| (codepoint &&& 0x3f)], it)
    else if codepoint < 0xdc00 then unescape_surrogate codepoint it
    else .error (.parser .surrogate_escape)

/-- One turn of the `while (it != end)` loop of `unescape_string_inplace` at a byte `c`
that is not the closing quote, with `it` the cursor after `c`: the bytes stored through
`outit` in this turn, and the read cursor for the next turn. The `break` at the end of
the input after a backslash leads to the `throw` that follows the loop. -/
def unescape_turn (c : Nat) (it : List Nat) : Except exn (List Nat × List Nat) :=
  if c = 0x5c then
    match it with
    | [] => .error (.parser .premature_end_string)
    | esc :: it =>
      if esc = 0x62 then .ok ([0x08], it)
      else if esc = 0x66 then .ok ([0x0c], it)
      else if esc = 0x6e then .ok ([0x0a], it)
      else if esc = 0x72 then .ok ([0x0d], it)
      else if esc = 0x74 then .ok ([0x09], it)
      else if esc = 0x2f ∨ esc = 0x5c ∨ esc = 0x22 then .ok ([esc], it)
      else if esc = 0x75 then unescape_unicode it
      else .error (.parser .backslash_escape)
  else .ok ([c], it)

/-- The `while (it != end)` loop of `unescape_string_inplace`. `out` holds the bytes
written so far, the range from `str_begin` to `outit`; `it` is the read cursor. -/
def unescape_loop : Nat → List Nat → List Nat → Except exn (List Nat × List Nat)
  | 0, _, _ => .error .fuel
  | fuel + 1, out, it =>
    match it with
    | [] => .error (.parser .premature_end_string)
    | c :: it =>
      if c = 0x22 then .ok (out, it)
      else
        match unescape_turn c it with
        | .error e => .error e
        | .ok (bytes, it) => unescape_loop fuel (out ++ bytes) it

/-- Embeds `unescape_string_inplace(it, end, a, b)`, called with `it` just after the
opening quote: the unescaped bytes of the range `[a, b)` and the cursor `it` after the
closing quote. Each turn of the loop reads at least one byte, so `it.length + 1` turns
are enough. -/
def unescape_string_inplace (it : List Nat) : Except exn (List Nat × List Nat) :=
  unescape_loop (it.length + 1) [] it

/-- The character `"0123456789abcdef"[i]`. -/
def hex_char (i : Nat) : Nat := (ascii "0123456789abcdef").getD i 0

/-- Embeds `output_hex(out, value, digits)`. -/
def output_hex (value : Nat) : Nat → List Nat
  | 0 => []
  | digits + 1 => hex_char ((value >>> (digits * 4)) &&& 0xf) :: output_hex value digits

end impl

/-- Sequencing of two writes to the same stream: the second is not reached when the
first throws. -/
def seq_out (a b : Except exn (List Nat)) : Except exn (List Nat) :=
  match a with
  | .error e => .error e
  | .ok x =>
    match b with
    | .error e => .error e
    | .ok y => .ok (x ++ y)

/-- The switch for a control character `c < 0x20` (lines 161-181 of stringrep.hpp):
the bytes written. -/
def escape_control (c : Nat) : List Nat :=
  if c = 0x08 then ascii "\\b"
  else if c = 0x0c then ascii "\\f"
  else if c = 0x0a then ascii "\\n"
  else if c = 0x0d then ascii "\\r"
  else if c = 0x09 then ascii "\\t"
  else ascii "\\u00" ++ impl.output_hex c 2

/-- The switch for a byte `c` from `0x20` to `0x7f` (lines 282-303): the bytes
written. -/
def escape_ascii (escape_slash : Bool) (c : Nat) : List Nat :=
  if c = 0x22 then ascii "\\\""
  else if c = 0x5c then ascii "\\\\"
  else if c = 0x2f then
    if escape_slash then ascii "\\/" else [0x2f]
  else [c]

/-- The two byte sequence (lines 187-200), with lead byte `c` and `it` the bytes after
it: the escape written and the cursor at the last byte of the sequence, advanced by the
`++it` of the loop header. -/
def escape_two (c : Nat) (it : List Nat) : Except exn (List Nat × List Nat) :=
  let codepoint := (c &&& 0x1f) <<< 6
  match it with
  | [] => .error .utf8_sequence_error
  | c1 :: it =>
    if c1 &&& 0xc0 ≠ 0x80 then .error .utf8_sequence_error
    else
      let codepoint := codepoint ||| (c1 &&& 0x3f)
      .ok (ascii "\\u" ++ impl.output_hex codepoint 4, it)

/-- The three byte sequence (lines 201-221). -/
def escape_three (c : Nat) (it : List Nat) : Except exn (List Nat × List Nat) :=
  let codepoint := (c &&& 0x0f) <<< 12
  match it with
  | [] => .error .utf8_sequence_error
  | c1 :: it =>
    if c1 &&& 0xc0 ≠ 0x80 then .error .utf8_sequence_error
    else
      let codepoint := codepoint ||| ((c1 &&& 0x3f) <<< 6)
      match it with
      | [] => .error .utf8_sequence_error
      | c2 :: it =>
        if c2 &&& 0xc0 ≠ 0x80 then .error .utf8_sequence_error
        else
          let codepoint := codepoint ||| (c2 &&& 0x3f)
          .ok (ascii "\\u" ++ impl.output_hex codepoint 4, it)

/-- The escapes written for the code point of a four byte sequence (lines 247-268). -/
def escape_four_codepoint (codepoint : Nat) : Except exn (List Nat) :=
  if codepoint < 0x10000 then
    if codepoint ≥ 0xd800 ∧ codepoint < 0xe000 then .error .utf8_sequence_error
    else .ok (ascii "\\u" ++ impl.output_hex codepoint 4)
  else if codepoint ≤ 0x10ffff then
    let codepoint := codepoint - 0x10000
    .ok (ascii "\\u" ++ impl.output_hex (((codepoint &&& 0xffc00) >>> 10) ||| 0xd800) 4
          ++ ascii "\\u" ++ impl.output_hex ((codepoint &&& 0x003ff) ||| 0xdc00) 4)
  else .error .utf8_sequence_error

/-- The four byte sequence (lines 222-269). -/
def escape_four (c : Nat) (it : List Nat) : Except exn (List Nat × List Nat) :=
  let codepoint := (c &&& 0x07) <<< 18
  match it with
  | [] => .error .utf8_sequence_error
  | c1 :: it =>
    if c1 &&& 0xc0 ≠ 0x80 then .error .utf8_sequence_error
    else
      let codepoint := codepoint ||| ((c1 &&& 0x3f) <<< 12)
      match it with
      | [] => .error .utf8_sequence_error
      | c2 :: it =>
        if c2 &&& 0xc0 ≠ 0x80 then .error .utf8_sequence_error
        else
          let codepoint := codepoint ||| ((c2 &&& 0x3f) <<< 6)
          match it with
          | [] => .error .utf8_sequence_error
          | c3 :: it =>
            if c3 &&& 0xc0 ≠ 0x80 then .error .utf8_sequence_error
            else
              let codepoint := codepoint ||| (c3 &&& 0x3f)
              match escape_four_codepoint codepoint with
              | .error e => .error e
              | .ok piece => .ok (piece, it)

/-- One turn of the `for` loop of `escape_string`, entered with `*it == c` and `it` the
bytes after `c`: the bytes written, and the cursor after the `++it` of the loop header.
The turn advances over the continuation bytes of a multi-byte sequence itself. -/
def escape_step (escape_utf8 escape_slash : Bool) (c : Nat) (it : List Nat) :
    Except exn (List Nat × List Nat) :=
  if c < 0x20 then .ok (escape_control c, it)
  else if c ≥ 0x80 then
    if escape_utf8 then
      if c &&& 0xe0 = 0xc0 then escape_two c it
      else if c &&& 0xf0 = 0xe0 then escape_three c it
      else if c &&& 0xf8 = 0xf0 then escape_four c it
      else .error .utf8_sequence_error
    else .ok ([c], it)
  else .ok (escape_ascii escape_slash c, it)

/-- The `for` loop of `escape_string`: the bytes written for the text from `it` on.
Each turn advances `it`, so a fuel of the length of the text is enough. -/
def escape_string_loop (escape_utf8 escape_slash : Bool) :
    Nat → List Nat → Except exn (List Nat)
  | _, [] => .ok []
  | 0, _ :: _ => .error .fuel
  | fuel + 1, c :: it =>
    match escape_step escape_utf8 escape_slash c it with
    | .error e => .error e
    | .ok (piece, it) =>
      seq_out (.ok piece) (escape_string_loop escape_utf8 escape_slash fuel it)

/-- Embeds `escape_string(out, txt, escape_utf8, escape_slash)`: the JSON string literal
of `txt`, quotes included. The C++ defaults are `escape_utf8 = true`,
`escape_slash = false`. -/
def escape_string (txt : List Nat) (escape_utf8 escape_slash : Bool) :
    Except exn (List Nat) :=
  seq_out (.ok [0x22])
    (seq_out (escape_string_loop escape_utf8 escape_slash txt.length txt) (.ok [0x22]))

/-! ## value.hpp -/

/-- The enum `jsontype`. -/
inductive jsontype where
  | JSONNULL | BOOL | INT | FLOAT | STRING | ARRAY | OBJECT
  deriving DecidableEq, Repr

/-- The class `value` as a tree. `F` stands for `float_type` (`double`), which this
development leaves abstract. An `int_type` payload is an `Int` (the source keeps it in
an `int64_t`), a string payload its bytes, an array payload its elements in order, an
object payload the entries of the `std::map` in iteration order, that is, by ascending
key. -/
inductive value (F : Type) where
  | null : value F
  | bool (boolean : Bool) : value F
  | int (integer : Int) : value F
  | float (floatingpoint : F) : value F
  | string (s : List Nat) : value F
  | array (a : List (value F)) : value F
  | object (o : List (List Nat × value F)) : value F

/-- Embeds `get_type`. -/
def value.get_type {F : Type} : value F → jsontype
  | .null => .JSONNULL
  | .bool _ => .BOOL
  | .int _ => .INT
  | .float _ => .FLOAT
  | .string _ => .STRING
  | .array _ => .ARRAY
  | .object _ => .OBJECT

/-- The order `std::less<std::string>` puts on keys: lexicographic on the bytes as
unsigned values, a proper prefix first. -/
def string_lt : List Nat → List Nat → Bool
  | [], [] => false
  | [], _ :: _ => true
  | _ :: _, [] => false
  | a :: as, b :: bs => if a < b then true else if b < a then false else string_lt as bs

/-- The statement `object[key] = v` on a `std::map`: the entry of `key` is replaced
when there is one, and is otherwise inserted at its place in key order. -/
def object_assign {F : Type} :
    List (List Nat × value F) → List Nat → value F → List (List Nat × value F)
  | [], key, v => [(key, v)]
  | (k, w) :: rest, key, v =>
    if string_lt key k then (key, v) :: (k, w) :: rest
    else if string_lt k key then (k, w) :: object_assign rest key v
    else (k, v) :: rest

/-- The services for `double` that the library takes from the C++ runtime. The
theorems below hold for every choice of them.
* `stod text`: the conversion `stod(text)` of parse.hpp, `none` when it throws;
* `mul sign x`: the product `sign * x` for an `int` sign;
* `put x`: the bytes of `stream << std::dec << x`. -/
structure float_ops (F : Type) where
  stod : List Nat → Option F
  mul : Int → F → F
  put : F → List Nat

/-- A `double` kept as the text it was read from and the sign factor applied to it. -/
structure float_text where
  sign : Int
  text : List Nat
  deriving DecidableEq, Repr

/-- A concrete choice of `float_ops`, used to evaluate the parser at given inputs.
`stod` converts when the text starts with a digit, or with a period and a digit, as
`strtod` does; no rounding and no range error is represented, and `put` returns the
text that was read. -/
def text_float : float_ops float_text where
  stod text :=
    match text with
    | [] => none
    | c :: rest =>
      if 0x30 ≤ c ∧ c ≤ 0x39 then some ⟨1, text⟩
      else if c = 0x2e then
        match rest with
        | [] => none
        | d :: _ => if 0x30 ≤ d ∧ d ≤ 0x39 then some ⟨1, text⟩ else none
      else none
  mul sign x := ⟨sign * x.sign, x.text⟩
  put x := if x.sign < 0 then 0x2d :: x.text else x.text

/-! ## parse.hpp -/

/-- The value `stoll(text)` takes on a non-empty run of decimal digits, the only texts
`parse_fragment` hands to it: the number they denote, or an exception when it is above
`2^63 - 1`, the largest `long long`. -/
def stoll (text : List Nat) : Except exn Int :=
  if text = [] ∨ ¬ (∀ d ∈ text, 0x30 ≤ d ∧ d ≤ 0x39) then .error .conversion
  else
    let n := text.foldl (fun acc d => acc * 10 + (d - 0x30)) 0
    if n ≤ 2 ^ 63 - 1 then .ok (Int.ofNat n) else .error .conversion

namespace impl

/-- The loop `while (it != end && *it >= '0' && *it <= '9') ++it;`. -/
def skip_digits : List Nat → List Nat
  | [] => []
  | c :: rest => if 0x30 ≤ c ∧ c ≤ 0x39 then skip_digits rest else c :: rest

/-- The nested tests `it != end && *it == k` of a keyword, each followed by `++it`:
the cursor after the characters `ks`, or `none` when one of the tests fails. -/
def accept : List Nat → List Nat → Option (List Nat)
  | [], it => some it
  | k :: ks, it =>
    match it with
    | [] => none
    | c :: rest => if c = k then accept ks rest else none

/-- Lines 249-262 of parse.hpp, entered with `it` at a period or an exponent marker:
the cursor after the fraction. -/
def parse_fraction (digits_begin it : List Nat) : Except exn (List Nat) :=
  match it with
  | [] => .ok []
  | m :: it1 =>
    if m = 0x2e then
      let it := skip_digits it1
      if distance digits_begin it = 1 then .error (.parser .invalid_json_data)
      else .ok it
    else .ok (m :: it1)

/-- Lines 264-292 of parse.hpp: the cursor after the exponent, when there is one. -/
def parse_exponent (it : List Nat) : Except exn (List Nat) :=
  match it with
  | [] => .ok []
  | m :: it1 =>
    if m = 0x65 ∨ m = 0x45 then
      match it1 with
      | [] => .error (.parser .premature_end_float)
      | s :: it2 =>
        match (if s = 0x2b ∨ s = 0x2d then it2 else s :: it2) with
        | [] => .error (.parser .premature_end_float)
        | d :: it3 =>
          if d < 0x30 ∨ d > 0x39 then .error (.parser .invalid_json_data)
          else .ok (skip_digits it3)
    else .ok (m :: it1)

/-- The numeric case of `parse_fragment` (lines 225-305), entered with `input` at a
digit, a sign or a period. -/
def parse_number {F : Type} (ops : float_ops F) (input : List Nat) :
    Except exn (value F × List Nat) :=
  match input with
  | [] => .error .past_the_end
  | c :: rest =>
    let sign : Int := if c = 0x2b then 1 else if c = 0x2d then -1 else 1
    let digits_begin := if c = 0x2b then rest else if c = 0x2d then rest else c :: rest
    let it := skip_digits digits_begin
    if it.head? = some 0x2e ∨ it.head? = some 0x65 ∨ it.head? = some 0x45 then
      match parse_fraction digits_begin it with
      | .error e => .error e
      | .ok it =>
        match parse_exponent it with
        | .error e => .error e
        | .ok it =>
          match ops.stod (range digits_begin it) with
          | none => .error .conversion
          | some x => .ok (.float (ops.mul sign x), it)
    else
      if distance digits_begin it = 0 then .error (.parser .invalid_json_data)
      else
        match stoll (range digits_begin it) with
        | .error e => .error e
        | .ok n => .ok (.int (sign * n), it)

mutual
/-- Embeds `parse_fragment(it, end)`: the value read and the cursor after it. -/
def parse_fragment_aux {F : Type} (ops : float_ops F) :
    Nat → List Nat → Except exn (value F × List Nat)
  | 0, _ => .error .fuel
  | fuel + 1, input =>
    match input with
    | [] => .error (.parser .premature_end)
    | c :: it =>
      if c = 0x6e then
        match accept (ascii "ull") it with
        | some it => .ok (.null, it)
        | none => .error (.parser .invalid_json_data)
      else if c = 0x66 then
        match accept (ascii "alse") it with
        | some it => .ok (.bool false, it)
        | none => .error (.parser .invalid_json_data)
      else if c = 0x74 then
        match accept (ascii "rue") it with
        | some it => .ok (.bool true, it)
        | none => .error (.parser .invalid_json_data)
      else if c = 0x22 then
        match unescape_string_inplace it with
        | .error e => .error e
        | .ok (s, it) => .ok (.string s, it)
      else if c = 0x5b then
        match skipws it with
        | [] => .error (.parser .premature_end_array)
        | d :: it =>
          if d ≠ 0x5d then parse_array_loop ops fuel [] (d :: it)
          else .ok (.array [], it)
      else if c = 0x7b then
        match skipws it with
        | [] => .error (.parser .premature_end_object)
        | d :: it =>
          if d ≠ 0x7d then parse_object_loop ops fuel [] (d :: it)
          else .ok (.object [], it)
      else if (0x30 ≤ c ∧ c ≤ 0x39) ∨ c = 0x2b ∨ c = 0x2d ∨ c = 0x2e then
        parse_number ops (c :: it)
      else .error (.parser .invalid_json_data)
/-- The `while (true)` loop of the array case (lines 130-151) with the `++it` and the
`return` that follow it. -/
def parse_array_loop {F : Type} (ops : float_ops F) :
    Nat → List (value F) → List Nat → Except exn (value F × List Nat)
  | 0, _, _ => .error .fuel
  | fuel + 1, array, it =>
    match parse_fragment_aux ops fuel it with
    | .error e => .error e
    | .ok (v, it) =>
      match skipws it with
      | [] => .error (.parser .premature_end_array)
      | d :: it =>
        if d = 0x5d then .ok (.array (array ++ [v]), it)
        else if d ≠ 0x2c then .error (.parser .error_parsing_array)
        else parse_array_loop ops fuel (array ++ [v]) (skipws it)
/-- The `while (true)` loop of the object case (lines 171-218) with the `++it` and the
`return` that follow it. On re-entry after a comma line 173 reads `*it` without a test
for `end`. -/
def parse_object_loop {F : Type} (ops : float_ops F) :
    Nat → List (List Nat × value F) → List Nat → Except exn (value F × List Nat)
  | 0, _, _ => .error .fuel
  | fuel + 1, object, it =>
    match it with
    | [] => .error .past_the_end
    | q :: it =>
      if q ≠ 0x22 then .error (.parser .error_parsing_object)
      else
        match unescape_string_inplace it with
        | .error e => .error e
        | .ok (key, it) =>
          match skipws it with
          | [] => .error (.parser .premature_end_object)
          | c :: it =>
            if c ≠ 0x3a then .error (.parser .error_parsing_object)
            else
              match skipws it with
              | [] => .error (.parser .premature_end_object)
              | c1 :: it =>
                match parse_fragment_aux ops fuel (c1 :: it) with
                | .error e => .error e
                | .ok (v, it) =>
                  match skipws it with
                  | [] => .error (.parser .premature_end_object)
                  | d :: it =>
                    if d = 0x7d then .ok (.object (object_assign object key v), it)
                    else if d ≠ 0x2c then .error (.parser .premature_end_object)
                    else parse_object_loop ops fuel (object_assign object key v) (skipws it)
end

/-- Embeds `parse_fragment(it, end)` with the fuel an input of this length needs. -/
def parse_fragment {F : Type} (ops : float_ops F) (it : List Nat) :
    Except exn (value F × List Nat) :=
  parse_fragment_aux ops (2 * it.length + 1) it

/-- Embeds `impl::parse(begin, end)`. The text written to `std::cerr` is left out. -/
def parse {F : Type} (ops : float_ops F) (begin_ : List Nat) : Except exn (value F) :=
  match parse_fragment ops begin_ with
  | .error e => .error e
  | .ok (result, it) =>
    if skipws it ≠ [] then .error (.parser .additional_data) else .ok result

end impl

/-- Embeds `parse(std::string const & str)`, which parses a copy of the text from its
first byte that is not whitespace. -/
def parse {F : Type} (ops : float_ops F) (str : List Nat) : Except exn (value F) :=
  impl.parse ops (impl.skipws str)

/-- Embeds `parse_destructive(std::string str)`. -/
def parse_destructive {F : Type} (ops : float_ops F) (str : List Nat) :
    Except exn (value F) :=
  impl.parse ops (impl.skipws str)

/-! ## stringify.hpp -/

/-- The decimal digits of `n`, most significant first, with `fuel` digits at most. -/
def dec_digits_aux : Nat → Nat → List Nat → List Nat
  | 0, _, acc => acc
  | fuel + 1, n, acc =>
    if n < 10 then (0x30 + n) :: acc
    else dec_digits_aux fuel (n / 10) ((0x30 + n % 10) :: acc)

/-- The decimal digits of `n`, most significant first. -/
def dec_digits (n : Nat) : List Nat := dec_digits_aux (n + 1) n []

/-- The bytes of `stream << std::dec << data` for an integer `data`. -/
def write_int (data : Int) : List Nat :=
  if data < 0 then 0x2d :: dec_digits data.natAbs else dec_digits data.natAbs

/-- Embeds `basic_value::write_json(stream)` with `impl::write_json_array` and
`impl::write_json_object`. -/
def value.write_json {F : Type} (ops : float_ops F) : value F → Except exn (List Nat)
  | .null => .ok (ascii "null")
  | .bool data => .ok (if data then ascii "true" else ascii "false")
  | .int data => .ok (write_int data)
  | .float data => .ok (ops.put data)
  | .string data => escape_string data true false
  | .array [] => .ok [0x5b, 0x5d]
  | .array (v :: rest) =>
    seq_out (.ok [0x5b]) (seq_out (v.write_json ops) (seq_out (array_rest ops rest) (.ok [0x5d])))
  | .object [] => .ok [0x7b, 0x7d]
  | .object ((k, v) :: rest) =>
    seq_out (.ok [0x7b]) (seq_out (escape_string k true false) (seq_out (.ok [0x3a])
      (seq_out (v.write_json ops) (seq_out (object_rest ops rest) (.ok [0x7d])))))
where
  /-- The `for` loop of `write_json_array`. -/
  array_rest {F : Type} (ops : float_ops F) : List (value F) → Except exn (List Nat)
    | [] => .ok []
    | v :: rest => seq_out (.ok [0x2c]) (seq_out (v.write_json ops) (array_rest ops rest))
  /-- The `for` loop of `write_json_object`. -/
  object_rest {F : Type} (ops : float_ops F) :
      List (List Nat × value F) → Except exn (List Nat)
    | [] => .ok []
    | (k, v) :: rest =>
      seq_out (.ok [0x2c]) (seq_out (escape_string k true false) (seq_out (.ok [0x3a])
        (seq_out (v.write_json ops) (object_rest ops rest))))

/-- Embeds `stringify(t)` for a `value`. -/
def stringify {F : Type} (ops : float_ops F) (t : value F) : Except exn (List Nat) :=
  t.write_json ops

/-! ## Notions the claims are stated with -/

/-- A continuation byte of UTF-8, `10xxxxxx`. -/
def is_cont (c : Nat) : Prop := 0x80 ≤ c ∧ c ≤ 0xbf

/-- Well-formed UTF-8 as the Unicode standard tabulates it (Table 3-7): every code
point in its shortest form, none in the surrogate range `D800..DFFF`, none above
`10FFFF`. -/
inductive valid_utf8 : List Nat → Prop where
  | nil : valid_utf8 []
  | one (c : Nat) (rest : List Nat) :
      c < 0x80 → valid_utf8 rest → valid_utf8 (c :: rest)
  | two (c c1 : Nat) (rest : List Nat) :
      0xc2 ≤ c → c ≤ 0xdf → is_cont c1 → valid_utf8 rest → valid_utf8 (c :: c1 :: rest)
  | three (c c1 c2 : Nat) (rest : List Nat) :
      0xe0 ≤ c → c ≤ 0xef → is_cont c1 → is_cont c2 →
      (c = 0xe0 → 0xa0 ≤ c1) → (c = 0xed → c1 ≤ 0x9f) →
      valid_utf8 rest → valid_utf8 (c :: c1 :: c2 :: rest)
  | four (c c1 c2 c3 : Nat) (rest : List Nat) :
      0xf0 ≤ c → c ≤ 0xf4 → is_cont c1 → is_cont c2 → is_cont c3 →
      (c = 0xf0 → 0x90 ≤ c1) → (c = 0xf4 → c1 ≤ 0x8f) →
      valid_utf8 rest → valid_utf8 (c :: c1 :: c2 :: c3 :: rest)

/-- Space, tab, LF or CR: the whitespace of JSON. -/
def is_ws (c : Nat) : Prop := c = 0x20 ∨ c = 0x09 ∨ c = 0x0a ∨ c = 0x0d

instance (c : Nat) : Decidable (is_ws c) := by unfold is_ws; infer_instance

/-- A decimal digit, `'0'` to `'9'`. -/
def is_digit (c : Nat) : Prop := 0x30 ≤ c ∧ c ≤ 0x39

instance (c : Nat) : Decidable (is_digit c) := by unfold is_digit; infer_instance

/-- The number a run of decimal digits denotes. -/
def decimal_value : List Nat → Nat
  | [] => 0
  | d :: ds => (d - 0x30) * 10 ^ ds.length + decimal_value ds

/-- The text after an exponent marker holds no exponent: after an optional sign it
ends or goes on with a byte that is not a digit. -/
def lacks_exponent_digits : List Nat → Prop
  | [] => True
  | c :: r =>
    if c = 0x2b ∨ c = 0x2d then ∀ d, r.head? = some d → ¬ is_digit d else ¬ is_digit c

/-- The invariant of the `std::map` behind an object, on its entries in iteration
order: every key is below every later key, so no key occurs twice. -/
def keys_ascending {F : Type} (o : List (List Nat × value F)) : Prop :=
  o.Pairwise (fun a b => string_lt a.1 b.1 = true)

/-- A value built from Null, Bool, Int, String, Array and Object only, in which every
Int is a 64-bit integer other than `-2^63`, every string and every key is well-formed
UTF-8, and every object holds its entries as a `std::map` does. -/
inductive plain {F : Type} : value F → Prop where
  | null : plain .null
  | bool (b : Bool) : plain (.bool b)
  | int (n : Int) : -(2 ^ 63) < n → n < 2 ^ 63 → plain (.int n)
  | string (s : List Nat) : valid_utf8 s → plain (.string s)
  | array (a : List (value F)) : (∀ v ∈ a, plain v) → plain (.array a)
  | object (o : List (List Nat × value F)) :
      (∀ kv ∈ o, valid_utf8 kv.1) → (∀ kv ∈ o, plain kv.2) → keys_ascending o →
      plain (.object o)

/-! ## Notions the proofs are organised with -/

/-- The text `rest` does not continue a number: it does not start with a digit, a
period or an exponent marker. -/
def stops_number (rest : List Nat) : Prop :=
  ∀ c, rest.head? = some c → ¬ is_digit c ∧ c ≠ 0x2e ∧ c ≠ 0x65 ∧ c ≠ 0x45

/-- The text `piece` is read by one turn of the unescape loop, which writes `bs` for it. -/
def unescapes_to (piece bs : List Nat) : Prop :=
  piece ≠ [] ∧ ∀ fuel out it,
    impl.unescape_loop (fuel + 1) out (piece ++ it) = impl.unescape_loop fuel (out ++ bs) it

/-- What one turn of `escape_string` writes for the sequence `c :: t` is read back by one
turn of the unescape loop as `c :: t`. -/
def escapes_to (es : Bool) (c : Nat) (t : List Nat) : Prop :=
  ∃ piece, (∀ rest, escape_step true es c (t ++ rest) = .ok (piece, rest))
    ∧ unescapes_to piece (c :: t)

/-- The text written for `s` and closed by a quote is read back as `s`. -/
def reads_back (es : Bool) (s : List Nat) : Prop :=
  ∀ n, s.length ≤ n → ∃ body, escape_string_loop true es n s = .ok body ∧
    ∀ fuel out rest, body.length < fuel →
      impl.unescape_loop fuel out (body ++ 0x22 :: rest) = .ok (out ++ s, rest)

/-- The text `t` starts with a byte that is neither whitespace nor a closing bracket. -/
def starts_value (t : List Nat) : Prop :=
  ∃ c t', t = c :: t' ∧ ¬ is_ws c ∧ c ≠ 0x5d ∧ c ≠ 0x7d

/-- The text `t` is read by `parse_fragment` as the value `v`, whatever follows it that
does not continue a number. -/
def reads_as {F : Type} (ops : float_ops F) (v : value F) (t : List Nat) : Prop :=
  starts_value t ∧ ∀ rest, stops_number rest → ∀ n, 2 * t.length + 1 ≤ n →
    impl.parse_fragment_aux ops n (t ++ rest) = .ok (v, rest)

/-- The writer renders `v`, and the parser reads the rendering as `v`. -/
def round_trips {F : Type} (ops : float_ops F) (v : value F) : Prop :=
  ∃ t, v.write_json ops = .ok t ∧ reads_as ops v t

/-! ## Notions the claims on the string codec are stated with -/

/-- The UTF-8 encoding of a code point, by the bit distribution of the Unicode standard
(Table 3-6): one byte below `0x80`, two below `0x800`, three below `0x10000`, four
from there on. -/
def utf8_encode (cp : Nat) : List Nat :=
  if cp < 0x80 then [cp]
  else if cp < 0x800 then [0xc0 + cp / 64, 0x80 + cp % 64]
  else if cp < 0x10000 then [0xe0 + cp / 4096, 0x80 + cp / 64 % 64, 0x80 + cp % 64]
  else [0xf0 + cp / 262144, 0x80 + cp / 4096 % 64, 0x80 + cp / 64 % 64, 0x80 + cp % 64]

/-- The value of a hexadecimal digit written in either case, `none` for another byte. -/
def hex_digit_value (c : Nat) : Option Nat :=
  if 0x30 ≤ c ∧ c ≤ 0x39 then some (c - 0x30)
  else if 0x61 ≤ c ∧ c ≤ 0x66 then some (c - 0x61 + 10)
  else if 0x41 ≤ c ∧ c ≤ 0x46 then some (c - 0x41 + 10)
  else none

/-- The code unit that exactly four hexadecimal digits denote. -/
def hex4_value (ds : List Nat) : Option Nat :=
  match ds with
  | [a, b, c, d] =>
    match hex_digit_value a, hex_digit_value b, hex_digit_value c, hex_digit_value d with
    | some x, some y, some z, some w => some (x * 4096 + y * 256 + z * 16 + w)
    | _, _, _, _ => none
  | _ => none

/-- The lowercase hexadecimal digit for `d < 16`. -/
def lower_hex (d : Nat) : Nat := if d < 10 then 0x30 + d else 0x61 + (d - 10)

/-- The four lowercase hexadecimal digits of a code unit. -/
def hex4_text (v : Nat) : List Nat :=
  [lower_hex (v / 4096 % 16), lower_hex (v / 256 % 16), lower_hex (v / 16 % 16),
    lower_hex (v % 16)]

/-- The escape `\uXXXX` of a code unit, in lowercase. -/
def u_escape (v : Nat) : List Nat := 0x5c :: 0x75 :: hex4_text v

/-- The code point is a surrogate, `D800..DFFF`. -/
def is_surrogate (cp : Nat) : Prop := 0xd800 ≤ cp ∧ cp ≤ 0xdfff

instance (cp : Nat) : Decidable (is_surrogate cp) := by unfold is_surrogate; infer_instance

/-- The start of the body of a string literal, made of whole items before the closing
quote: bytes other than the quote and the backslash, the two character escapes (a
backslash and one of `b f n r t / \ "`), `\u` escapes of code units that are not
surrogates, and surrogate pairs. -/
inductive literal_start : List Nat → Prop where
  | nil : literal_start []
  | byte (c : Nat) (p : List Nat) :
      c ≠ 0x22 → c ≠ 0x5c → literal_start p → literal_start (c :: p)
  | simple (e : Nat) (p : List Nat) :
      e ∈ [0x62, 0x66, 0x6e, 0x72, 0x74, 0x2f, 0x5c, 0x22] → literal_start p →
      literal_start (0x5c :: e :: p)
  | unit (ds : List Nat) (c : Nat) (p : List Nat) :
      hex4_value ds = some c → ¬ is_surrogate c → literal_start p →
      literal_start (0x5c :: 0x75 :: ds ++ p)
  | pair (hs ls : List Nat) (h l : Nat) (p : List Nat) :
      hex4_value hs = some h → hex4_value ls = some l →
      0xd800 ≤ h → h ≤ 0xdbff → 0xdc00 ≤ l → l ≤ 0xdfff → literal_start p →
      literal_start ((0x5c :: 0x75 :: hs ++ 0x5c :: 0x75 :: ls) ++ p)

/-- What follows the escape of a high surrogate is not the escape of a low surrogate:
the input ends, or goes on with a byte other than a backslash, with a backslash at the
end of the input or before a byte other than `u`, or with a `\u` escape of four
hexadecimal digits that denote a code unit outside `DC00..DFFF`. -/
inductive lacks_low_surrogate : List Nat → Prop where
  | at_end : lacks_low_surrogate []
  | other (b : Nat) (rest : List Nat) : b ≠ 0x5c → lacks_low_surrogate (b :: rest)
  | backslash_end : lacks_low_surrogate [0x5c]
  | not_u (u : Nat) (rest : List Nat) : u ≠ 0x75 → lacks_low_surrogate (0x5c :: u :: rest)
  | not_low (ds : List Nat) (x : Nat) (rest : List Nat) :
      hex4_value ds = some x → ¬ (0xdc00 ≤ x ∧ x ≤ 0xdfff) →
      lacks_low_surrogate (0x5c :: 0x75 :: ds ++ rest)

/-- What the specification has `escape_string` write for one byte below `0x80`: the
named escapes of the five control bytes, `\u00XX` for another byte below `0x20`, the
escapes of the quote and the backslash, the slash as the flag says, and any other byte
itself. -/
def escape_byte_spec (escape_slash : Bool) (c : Nat) : List Nat :=
  if c = 0x08 then [0x5c, 0x62]
  else if c = 0x0c then [0x5c, 0x66]
  else if c = 0x0a then [0x5c, 0x6e]
  else if c = 0x0d then [0x5c, 0x72]
  else if c = 0x09 then [0x5c, 0x74]
  else if c < 0x20 then [0x5c, 0x75, 0x30, 0x30, lower_hex (c / 16), lower_hex (c % 16)]
  else if c = 0x22 then [0x5c, 0x22]
  else if c = 0x5c then [0x5c, 0x5c]
  else if c = 0x2f then (if escape_slash then [0x5c, 0x2f] else [0x2f])
  else [c]

/-- The bytes of a text escaped one by one as the specification says. -/
def escape_text_spec (escape_slash : Bool) : List Nat → List Nat
  | [] => []
  | c :: rest => escape_byte_spec escape_slash c ++ escape_text_spec escape_slash rest

/-- The number of continuation bytes that the form of a lead byte requires: one after
`110xxxxx`, two after `1110xxxx`, three after `11110xxx`; `none` for a byte that leads
no form. -/
def continuation_count (c : Nat) : Option Nat :=
  if 0xc0 ≤ c ∧ c ≤ 0xdf then some 1
  else if 0xe0 ≤ c ∧ c ≤ 0xef then some 2
  else if 0xf0 ≤ c ∧ c ≤ 0xf7 then some 3
  else none

/-- The text starts with `k` continuation bytes. -/
def starts_with_continuations : Nat → List Nat → Prop
  | 0, _ => True
  | _ + 1, [] => False
  | k + 1, c :: rest => is_cont c ∧ starts_with_continuations k rest

/-- A text made of whole forms of UTF-8, by the structure of the bytes alone: a byte
below `0x80`, or a lead byte with the continuation bytes its form requires. -/
inductive utf8_forms : List Nat → Prop where
  | nil : utf8_forms []
  | one (c : Nat) (p : List Nat) : c < 0x80 → utf8_forms p → utf8_forms (c :: p)
  | multi (c k : Nat) (t p : List Nat) :
      continuation_count c = some k → t.length = k → (∀ b ∈ t, is_cont b) → utf8_forms p →
      utf8_forms (c :: t ++ p)

/-- The byte `c`, followed by `rest`, stands where a form starts and starts none: it is
`0x80` or more and leads no form, or it leads a form and fewer continuation bytes follow
than the form requires. -/
def malformed_at (c : Nat) (rest : List Nat) : Prop :=
  0x80 ≤ c ∧
    match continuation_count c with
    | none => True
    | some k => ¬ starts_with_continuations k rest

/-- The body of a string literal made of lowercase `\u` escapes only: escapes of code
units from `0x80` on that are not surrogates, and pairs of the escape of a high surrogate
and the escape of a low surrogate. -/
inductive escaped_body : List Nat → Prop where
  | nil : escaped_body []
  | unit (c : Nat) (p : List Nat) :
      0x80 ≤ c → c < 0x10000 → ¬ is_surrogate c → escaped_body p →
      escaped_body (u_escape c ++ p)
  | pair (h l : Nat) (p : List Nat) :
      0xd800 ≤ h → h ≤ 0xdbff → 0xdc00 ≤ l → l ≤ 0xdfff → escaped_body p →
      escaped_body (u_escape h ++ u_escape l ++ p)

/-! ## Notions the claims on arrays and objects are stated with -/

/-- A comma before each of the texts. -/
def comma_tail : List (List Nat) → List Nat
  | [] => []
  | e :: es => 0x2c :: (e ++ comma_tail es)

/-- The texts with a comma between each two of them. -/
def join_with_commas : List (List Nat) → List Nat
  | [] => []
  | e :: es => e ++ comma_tail es

/-- The text of an array with the element texts `es`: `[` e1 `,` ... `,` en `]`. -/
def array_text (es : List (List Nat)) : List Nat := 0x5b :: (join_with_commas es ++ [0x5d])

/-- The text of a member from the text of its key and the text of its value. -/
def member_text (m : List Nat × List Nat) : List Nat := m.1 ++ 0x3a :: m.2

/-- The text of an object with the members `ms`, each the text of a key and the text of
a value: an opening brace, k1 `:` v1 `,` ... `,` kn `:` vn, a closing brace. -/
def object_text (ms : List (List Nat × List Nat)) : List Nat :=
  0x7b :: (join_with_commas (ms.map member_text) ++ [0x7d])

/-- Embeds `object_get(object, key, returnvalue)` of value.hpp, which looks the key up with
`std::map::find`: the member whose key is neither below nor above `key`. -/
def object_get {F : Type} : List (List Nat × value F) → List Nat → Option (value F)
  | [], _ => none
  | (k, v) :: rest, key =>
    if string_lt k key = false ∧ string_lt key k = false then some v else object_get rest key

/-- The value of the last member with the key `key` in a list of members in the order of
the text. -/
def last_value {F : Type} : List (List Nat × value F) → List Nat → Option (value F)
  | [], _ => none
  | (k, v) :: rest, key =>
    match last_value rest key with
    | some w => some w
    | none => if k = key then some v else none

/-! ## value.hpp: the accessors -/

/-- Modelled from the spec: the exception classes of `exceptions.hpp`, which is not among
the sources, as value.hpp throws them. `type_error what`: an accessor asked for a variant
the value does not hold; `range_error what`: an array index out of bounds, or a key that is
absent on a const lookup; `logic_error what`: the `std::logic_error` of the `default`
branches. Two more outcomes belong to the embedding: `dangerous`, when a `*_ref_dangerous`
dereferences a pointer that does not hold a payload of its kind, and `fuel`. -/
inductive value_error where
  | type_error (what : List Nat)
  | range_error (what : List Nat)
  | logic_error (what : List Nat)
  | dangerous
  | fuel
  deriving DecidableEq, Repr

/-- Embeds `jsontype_name`. The enum has no other value, so `"(unknown)"` is not
returned. -/
def jsontype_name : jsontype → List Nat
  | .JSONNULL => ascii "null"
  | .BOOL => ascii "bool"
  | .INT => ascii "int"
  | .FLOAT => ascii "float"
  | .STRING => ascii "string"
  | .ARRAY => ascii "array"
  | .OBJECT => ascii "object"

/-- The conversions of `double` that the getters take from the language: to `bool`, to
`int64_t`, and from `int64_t`. -/
structure float_casts (F : Type) where
  to_bool : F → Bool
  to_int : F → Int
  of_int : Int → F

/-- A concrete choice of `float_casts` for `float_text`, used to evaluate the getters at
given values: a number is true when its text holds a digit other than zero, its integer
is the digit run the text starts with, and an integer becomes its decimal digits. -/
def text_casts : float_casts float_text where
  to_bool x := x.text.any (fun c => decide (0x31 ≤ c ∧ c ≤ 0x39))
  to_int x := x.sign * Int.ofNat (decimal_value (x.text.takeWhile (fun c => decide (is_digit c))))
  of_int n := ⟨if n < 0 then -1 else 1, dec_digits n.natAbs⟩

/-- Embeds `get_bool`. The `default` branch of the switch has no tag to be taken with. -/
def value.get_bool {F : Type} (fc : float_casts F) : value F → Except value_error Bool
  | .null => .ok false
  | .bool boolean => .ok boolean
  | .int integer => .ok (decide (integer ≠ 0))
  | .float floatingpoint => .ok (fc.to_bool floatingpoint)
  | .string s => .ok (!s.isEmpty)
  | .array a => .ok (!a.isEmpty)
  | .object o => .ok (!o.isEmpty)

/-- Embeds `get_bool_ref`: the referent. -/
def value.get_bool_ref {F : Type} (v : value F) : Except value_error Bool :=
  match v with
  | .bool boolean => .ok boolean
  | _ => .error (.type_error (ascii "Cannot convert " ++ jsontype_name v.get_type ++ ascii " to bool"))

/-- Embeds `get_int`. -/
def value.get_int {F : Type} (fc : float_casts F) (v : value F) : Except value_error Int :=
  match v with
  | .bool boolean => .ok (if boolean then 1 else 0)
  | .int integer => .ok integer
  | .float floatingpoint => .ok (fc.to_int floatingpoint)
  | _ => .error (.type_error (ascii "Cannot convert " ++ jsontype_name v.get_type ++ ascii " to int"))

/-- Embeds `get_int_ref`: the referent. -/
def value.get_int_ref {F : Type} (v : value F) : Except value_error Int :=
  match v with
  | .int integer => .ok integer
  | _ => .error (.type_error (ascii "Cannot convert " ++ jsontype_name v.get_type ++ ascii " to int"))

/-- Embeds `get_float`. -/
def value.get_float {F : Type} (fc : float_casts F) (v : value F) : Except value_error F :=
  match v with
  | .bool boolean => .ok (fc.of_int (if boolean then 1 else 0))
  | .int integer => .ok (fc.of_int integer)
  | .float floatingpoint => .ok floatingpoint
  | _ =>
    .error (.type_error (ascii "Cannot convert " ++ jsontype_name v.get_type ++ ascii " to float"))

/-- Embeds `get_float_ref`: the referent. -/
def value.get_float_ref {F : Type} (v : value F) : Except value_error F :=
  match v with
  | .float floatingpoint => .ok floatingpoint
  | _ =>
    .error (.type_error (ascii "Cannot convert " ++ jsontype_name v.get_type ++ ascii " to float"))

/-- Embeds `get_string`: the referent. -/
def value.get_string {F : Type} (v : value F) : Except value_error (List Nat) :=
  match v with
  | .string s => .ok s
  | _ =>
    .error (.type_error (ascii "Cannot convert " ++ jsontype_name v.get_type ++ ascii " to string"))

/-- Embeds `get_string_ref`: the referent. -/
def value.get_string_ref {F : Type} (v : value F) : Except value_error (List Nat) :=
  match v with
  | .string s => .ok s
  | _ =>
    .error (.type_error (ascii "Cannot convert " ++ jsontype_name v.get_type ++ ascii " to string"))

/-- Embeds `get_array`: the referent. -/
def value.get_array {F : Type} (v : value F) : Except value_error (List (value F)) :=
  match v with
  | .array a => .ok a
  | _ =>
    .error (.type_error (ascii "Cannot convert " ++ jsontype_name v.get_type ++ ascii " to array"))

/-- Embeds `get_array_ref`: the referent. -/
def value.get_array_ref {F : Type} (v : value F) : Except value_error (List (value F)) :=
  match v with
  | .array a => .ok a
  | _ =>
    .error (.type_error (ascii "Cannot convert " ++ jsontype_name v.get_type ++ ascii " to array"))

/-- Embeds `get_object`: the referent. -/
def value.get_object {F : Type} (v : value F) :
    Except value_error (List (List Nat × value F)) :=
  match v with
  | .object o => .ok o
  | _ =>
    .error (.type_error (ascii "Cannot convert " ++ jsontype_name v.get_type ++ ascii " to object"))

/-- Embeds `get_object_ref`: the referent. -/
def value.get_object_ref {F : Type} (v : value F) :
    Except value_error (List (List Nat × value F)) :=
  match v with
  | .object o => .ok o
  | _ =>
    .error (.type_error (ascii "Cannot convert " ++ jsontype_name v.get_type ++ ascii " to object"))

/-- Embeds `operator[](size_type i)`, the mutable form: the referent. -/
def value.at_index {F : Type} (v : value F) (i : Nat) : Except value_error (value F) :=
  match v.get_array_ref with
  | .error e => .error e
  | .ok ref =>
    if h : i < ref.length then .ok (ref.get ⟨i, h⟩)
    else .error (.range_error (ascii "array index out of range"))

/-- Embeds `operator[](size_type i) const`: the referent. -/
def value.at_index_const {F : Type} (v : value F) (i : Nat) : Except value_error (value F) :=
  match v.get_array with
  | .error e => .error e
  | .ok ref =>
    if h : i < ref.length then .ok (ref.get ⟨i, h⟩)
    else .error (.range_error (ascii "array index out of range"))

/-- The `operator[]` of `std::map`: the map afterwards and the entry of `key`, which is
inserted with a default-constructed value, that is null, when the map has none. -/
def map_subscript {F : Type} (o : List (List Nat × value F)) (key : List Nat) :
    List (List Nat × value F) × value F :=
  match object_get o key with
  | some entry => (o, entry)
  | none => (object_assign o key .null, .null)

/-- Embeds `operator[](object_key_type const & i)`, the mutable form: the value afterwards
and the referent. -/
def value.at_key {F : Type} (v : value F) (i : List Nat) :
    Except value_error (value F × value F) :=
  match v.get_object_ref with
  | .error e => .error e
  | .ok ref => .ok (.object (map_subscript ref i).1, (map_subscript ref i).2)

/-- Embeds `operator[](object_key_type const & i) const`: the referent. -/
def value.at_key_const {F : Type} (v : value F) (i : List Nat) :
    Except value_error (value F) :=
  match v.get_object with
  | .error e => .error e
  | .ok ref =>
    match object_get ref i with
    | some entry => .ok entry
    | none => .error (.range_error (ascii "object has no field " ++ i))

/-! ## value.hpp: the convenience getters

An output parameter is an argument that holds the variable before the call and a part
of the result that holds it afterwards. The lookup `object.find(key)` is
`lastjson.object_get` above. -/

/-- Embeds the static `object_get(object, key, returnvalue)`: what it returns, and
`returnvalue` afterwards. -/
def value.object_get {F : Type} (object : List (List Nat × value F)) (key : List Nat)
    (returnvalue : value F) : Bool × value F :=
  match lastjson.object_get object key with
  | some entry => (true, entry)
  | none => (false, returnvalue)

/-- Embeds the static `object_get_bool(object, key, returnvalue)`. -/
def value.object_get_bool {F : Type} (fc : float_casts F)
    (object : List (List Nat × value F)) (key : List Nat) (returnvalue : Bool) :
    Except value_error (Bool × Bool) :=
  match lastjson.object_get object key with
  | some entry =>
    match entry.get_bool fc with
    | .error e => .error e
    | .ok b => .ok (true, b)
  | none => .ok (false, returnvalue)

/-- The conversions to the type `T` of `object_get_number<T>`. -/
structure number_casts (F T : Type) where
  of_bool : Bool → T
  of_int : Int → T
  of_float : F → T

/-- The conversions of `object_get_number<int64_t>` for `float_text`. -/
def text_number_casts : number_casts float_text Int where
  of_bool b := if b then 1 else 0
  of_int n := n
  of_float x := text_casts.to_int x

/-- Embeds the static `object_get_number<T>(object, key, returnvalue)`. -/
def value.object_get_number {F T : Type} (nc : number_casts F T)
    (object : List (List Nat × value F)) (key : List Nat) (returnvalue : T) : Bool × T :=
  match lastjson.object_get object key with
  | some (.bool boolean) => (true, nc.of_bool boolean)
  | some (.int integer) => (true, nc.of_int integer)
  | some (.float floatingpoint) => (true, nc.of_float floatingpoint)
  | _ => (false, returnvalue)

/-- Embeds the static `object_get_string(object, key, returnvalue)`. -/
def value.object_get_string {F : Type} (object : List (List Nat × value F)) (key : List Nat)
    (returnvalue : List Nat) : Bool × List Nat :=
  match lastjson.object_get object key with
  | some (.string s) => (true, s)
  | _ => (false, returnvalue)

/-! ## Notions the claims on the accessors are stated with -/

/-- The message of a type error as the specification words it: `Cannot convert`, the name
of the actual type, `to`, the name of the requested type. -/
def type_error_message (actual requested : jsontype) : List Nat :=
  ascii "Cannot convert " ++ jsontype_name actual ++ ascii " to " ++ jsontype_name requested

/-- The accessor `acc` is strict for the variant `requested`: it succeeds exactly on the
values of that variant, and throws on any other value the type error that names the
actual and the requested type. -/
def strict_accessor {F R : Type} (acc : value F → Except value_error R)
    (requested : jsontype) : Prop :=
  ∀ v : value F, ((∃ r, acc v = .ok r) ↔ v.get_type = requested) ∧
    (v.get_type ≠ requested →
      acc v = .error (.type_error (type_error_message v.get_type requested)))

/-! ## value.hpp: values that share their payloads, and `deepcopy`

For `deepcopy` the three data members of a `basic_value` and the free store are made
explicit. A payload has an address; `new` puts a payload at the next address of the
store. No payload is released: reference counts are not kept. -/

/-- The union `simple_data` by its active member. It is `indeterminate` when no member
was stored, and a read of a member that is not the active one gives `indeterminate`. -/
inductive simple_data (F : Type) where
  | indeterminate
  | integer (i : Int)
  | floatingpoint (x : F)
  | boolean (b : Bool)

/-- The union after `m_data.boolean = d.boolean`. -/
def simple_data.copy_boolean {F : Type} : simple_data F → simple_data F
  | .boolean b => .boolean b
  | _ => .indeterminate

/-- The union after `m_data.integer = d.integer`. -/
def simple_data.copy_integer {F : Type} : simple_data F → simple_data F
  | .integer i => .integer i
  | _ => .indeterminate

/-- The union after `m_data.floatingpoint = d.floatingpoint`. -/
def simple_data.copy_floatingpoint {F : Type} : simple_data F → simple_data F
  | .floatingpoint x => .floatingpoint x
  | _ => .indeterminate

/-- An object of class `basic_value` by its data members. `m_ptr` is the address of the
payload that the `shared_ptr<void>` owns, `none` when the pointer is empty. -/
structure cell (F : Type) where
  m_ptr : Option Nat
  m_data : simple_data F
  m_type : jsontype

/-- What the `m_ptr` of a value points to: a `string_type`, an `array_type` or an
`object_type`. The elements of a vector and the mapped values of a map are objects of
class `basic_value` themselves. -/
inductive payload (F : Type) where
  | string (s : List Nat)
  | array (a : List (cell F))
  | object (o : List (List Nat × cell F))

/-- The free store: the payload at address `p` is `h[p]`. -/
abbrev heap (F : Type) := List (payload F)

/-- Embeds the default constructor `basic_value()`, which leaves `m_data` as it is. -/
def cell.default {F : Type} : cell F := ⟨none, .indeterminate, .JSONNULL⟩

/-- Embeds `string_ref_dangerous()`: the string that `m_ptr` points to. -/
def cell.string_ref_dangerous {F : Type} (h : heap F) (c : cell F) :
    Except value_error (List Nat) :=
  match c.m_ptr with
  | none => .error .dangerous
  | some p =>
    match h[p]? with
    | some (.string s) => .ok s
    | _ => .error .dangerous

/-- Embeds `array_ref_dangerous()`: the vector that `m_ptr` points to. -/
def cell.array_ref_dangerous {F : Type} (h : heap F) (c : cell F) :
    Except value_error (List (cell F)) :=
  match c.m_ptr with
  | none => .error .dangerous
  | some p =>
    match h[p]? with
    | some (.array a) => .ok a
    | _ => .error .dangerous

/-- Embeds `object_ref_dangerous()`: the map that `m_ptr` points to. -/
def cell.object_ref_dangerous {F : Type} (h : heap F) (c : cell F) :
    Except value_error (List (List Nat × cell F)) :=
  match c.m_ptr with
  | none => .error .dangerous
  | some p =>
    match h[p]? with
    | some (.object o) => .ok o
    | _ => .error .dangerous

/-- The two statements `basic_value tmp(s); swap(tmp);` of the string cases: a new string
with the bytes `s`, and `*this` after the swap, which holds the members of `tmp`. -/
def copy_string {F : Type} (h : heap F) (s : List Nat) : heap F × cell F :=
  (h ++ [.string s], ⟨some h.length, .indeterminate, .STRING⟩)

mutual
/-- Embeds `deepcopy(this_type const & other)`: the store and `*this` afterwards. The
object `*this` is held by the caller. -/
def cell.deepcopy {F : Type} :
    Nat → heap F → cell F → cell F → Except value_error (heap F × cell F)
  | 0, _, _, _ => .error .fuel
  | fuel + 1, h, this, other =>
    match other.m_type with
    | .JSONNULL => .ok (h, { this with m_type := .JSONNULL, m_ptr := none })
    | .BOOL => .ok (h, { this with m_type := .BOOL, m_data := other.m_data.copy_boolean })
    | .INT => .ok (h, { this with m_type := .INT, m_data := other.m_data.copy_integer })
    | .FLOAT =>
      .ok (h, { this with m_type := .FLOAT, m_data := other.m_data.copy_floatingpoint })
    | .STRING =>
      match other.string_ref_dangerous h with
      | .error e => .error e
      | .ok s => .ok (copy_string h s)
    | .ARRAY =>
      match other.array_ref_dangerous h with
      | .error e => .error e
      | .ok source => deepcopy_array fuel h source
    | .OBJECT =>
      match other.object_ref_dangerous h with
      | .error e => .error e
      | .ok source => deepcopy_object fuel h source
/-- Embeds `deepcopy(array_type const & source)`: the store and `*this` afterwards, which
is the value constructed from `destination_ptr`. The new vector is put in the store when
its elements are complete: nothing reads it before. -/
def deepcopy_array {F : Type} :
    Nat → heap F → List (cell F) → Except value_error (heap F × cell F)
  | 0, _, _ => .error .fuel
  | fuel + 1, h, source =>
    match deepcopy_array_loop fuel h source with
    | .error e => .error e
    | .ok (h, destination) =>
      .ok (h ++ [.array destination], ⟨some h.length, .indeterminate, .ARRAY⟩)
/-- The `while` loop of `deepcopy(array_type const &)`: each element of `destination` is
default-constructed and takes a deep copy of the element of `source` at its place. -/
def deepcopy_array_loop {F : Type} :
    Nat → heap F → List (cell F) → Except value_error (heap F × List (cell F))
  | 0, _, _ => .error .fuel
  | _ + 1, h, [] => .ok (h, [])
  | fuel + 1, h, sit :: source =>
    match cell.deepcopy fuel h cell.default sit with
    | .error e => .error e
    | .ok (h, dit) =>
      match deepcopy_array_loop fuel h source with
      | .error e => .error e
      | .ok (h, destination) => .ok (h, dit :: destination)
/-- Embeds `deepcopy(object_type const & source)`: the store and `*this` afterwards. The
map `destination` starts as a copy of `source`, whose values share their payloads with
the values of `source`. -/
def deepcopy_object {F : Type} :
    Nat → heap F → List (List Nat × cell F) → Except value_error (heap F × cell F)
  | 0, _, _ => .error .fuel
  | fuel + 1, h, source =>
    match deepcopy_object_loop fuel h source with
    | .error e => .error e
    | .ok (h, destination) =>
      .ok (h ++ [.object destination], ⟨some h.length, .indeterminate, .OBJECT⟩)
/-- The `for` loop of `deepcopy(object_type const &)`: `it->second.deepcopy_self()` for
each entry of `destination`. -/
def deepcopy_object_loop {F : Type} :
    Nat → heap F → List (List Nat × cell F) →
      Except value_error (heap F × List (List Nat × cell F))
  | 0, _, _ => .error .fuel
  | _ + 1, h, [] => .ok (h, [])
  | fuel + 1, h, (key, second) :: it =>
    match cell.deepcopy_self fuel h second with
    | .error e => .error e
    | .ok (h, second) =>
      match deepcopy_object_loop fuel h it with
      | .error e => .error e
      | .ok (h, destination) => .ok (h, (key, second) :: destination)
/-- Embeds `deepcopy_self()`: the store and `*this` afterwards. -/
def cell.deepcopy_self {F : Type} :
    Nat → heap F → cell F → Except value_error (heap F × cell F)
  | 0, _, _ => .error .fuel
  | fuel + 1, h, this =>
    match this.m_type with
    | .JSONNULL => .ok (h, this)
    | .BOOL => .ok (h, this)
    | .INT => .ok (h, this)
    | .FLOAT => .ok (h, this)
    | .STRING =>
      match this.string_ref_dangerous h with
      | .error e => .error e
      | .ok s => .ok (copy_string h s)
    | .ARRAY =>
      match this.array_ref_dangerous h with
      | .error e => .error e
      | .ok source => deepcopy_array fuel h source
    | .OBJECT =>
      match this.object_ref_dangerous h with
      | .error e => .error e
      | .ok source => deepcopy_object fuel h source
end

/-! ## Notions the claims on `deepcopy` are stated with -/

/-- The object `c` holds the value `v` in the store `h`, and every payload it holds it
with has its address in `S`: the payload of `c` when its tag is STRING, ARRAY or OBJECT,
and the payloads of the elements and mapped values. The pointer of a value whose tag is
null, BOOL, INT or FLOAT stands for no payload of the value. -/
def holds {F : Type} (S : Nat → Prop) (h : heap F) : cell F → value F → Prop
  | c, .null => c.m_type = .JSONNULL
  | c, .bool b => c.m_type = .BOOL ∧ c.m_data = .boolean b
  | c, .int n => c.m_type = .INT ∧ c.m_data = .integer n
  | c, .float x => c.m_type = .FLOAT ∧ c.m_data = .floatingpoint x
  | c, .string s =>
    c.m_type = .STRING ∧ ∃ p, c.m_ptr = some p ∧ S p ∧ h[p]? = some (.string s)
  | c, .array vs =>
    c.m_type = .ARRAY ∧ ∃ p cells, c.m_ptr = some p ∧ S p ∧ h[p]? = some (.array cells)
      ∧ elements S h cells vs
  | c, .object kvs =>
    c.m_type = .OBJECT ∧ ∃ p entries, c.m_ptr = some p ∧ S p ∧ h[p]? = some (.object entries)
      ∧ members S h entries kvs
where
  /-- The objects of a vector hold the values of a list, one by one. -/
  elements {F : Type} (S : Nat → Prop) (h : heap F) : List (cell F) → List (value F) → Prop
    | [], [] => True
    | c :: cells, v :: vs => holds S h c v ∧ elements S h cells vs
    | [], _ :: _ => False
    | _ :: _, [] => False
  /-- The entries of a map hold the entries of a list, one by one under the same keys. -/
  members {F : Type} (S : Nat → Prop) (h : heap F) :
      List (List Nat × cell F) → List (List Nat × value F) → Prop
    | [], [] => True
    | (k, c) :: entries, (key, v) :: kvs => k = key ∧ holds S h c v ∧ members S h entries kvs
    | [], _ :: _ => False
    | _ :: _, [] => False

/-- The outcome of a copy of `v` made in the store `h`: the store `h2` is `h` with
payloads added, and the object `c` holds `v` in `h2` with added payloads only. -/
def fresh_copy {F : Type} (h h2 : heap F) (c : cell F) (v : value F) : Prop :=
  (∃ ext, h2 = h ++ ext) ∧ holds (fun p => h.length ≤ p) h2 c v

/-- With a fuel of `n` or more, `deepcopy` and `deepcopy_self` return, and with a fresh
copy, for every object that holds the value `v`. -/
def copies {F : Type} (v : value F) (n : Nat) : Prop :=
  ∀ fuel, n ≤ fuel → ∀ (S : Nat → Prop) (h : heap F) (other : cell F), holds S h other v →
    (∀ this, ∃ h2 c, cell.deepcopy fuel h this other = .ok (h2, c) ∧ fresh_copy h h2 c v) ∧
    (∃ h2 c, cell.deepcopy_self fuel h other = .ok (h2, c) ∧ fresh_copy h h2 c v)

/-- With a fuel of `n` or more, the loop over a vector returns, and with fresh copies of
the values `vs`. -/
def copies_elements {F : Type} (vs : List (value F)) (n : Nat) : Prop :=
  ∀ fuel, n ≤ fuel → ∀ (S : Nat → Prop) (h : heap F) (cells : List (cell F)),
    holds.elements S h cells vs →
    ∃ h2 ds, deepcopy_array_loop fuel h cells = .ok (h2, ds) ∧ (∃ ext, h2 = h ++ ext) ∧
      holds.elements (fun p => h.length ≤ p) h2 ds vs

/-- With a fuel of `n` or more, the loop over a map returns, and with fresh copies of the
entries `kvs`. -/
def copies_members {F : Type} (kvs : List (List Nat × value F)) (n : Nat) : Prop :=
  ∀ fuel, n ≤ fuel → ∀ (S : Nat → Prop) (h : heap F) (entries : List (List Nat × cell F)),
    holds.members S h entries kvs →
    ∃ h2 ds, deepcopy_object_loop fuel h entries = .ok (h2, ds) ∧ (∃ ext, h2 = h ++ ext) ∧
      holds.members (fun p => h.length ≤ p) h2 ds kvs

/-! ## Notions the claims on `stringify` are stated with -/

/-- The decimal text of a natural number: its decimal digits, the most significant one
first, and `0` for zero. -/
def decimal_text (n : Nat) : List Nat :=
  if n = 0 then [0x30] else (Nat.digits 10 n).reverse.map (fun d => 0x30 + d)

/-- The decimal text of an integer: a minus sign before the text of a negative one. -/
def int_text (n : Int) : List Nat :=
  if n < 0 then 0x2d :: decimal_text n.natAbs else decimal_text n.natAbs

/-! ## Notions the claim on the shape of a literal is stated with -/

/-- The number of backslashes right before the end of `pre`. -/
def backslash_run (pre : List Nat) : Nat :=
  (pre.reverse.takeWhile (fun b => decide (b = 0x5c))).length

/-- The scan for the quote that closes a literal: the index of the first quote that is
not the byte after a backslash, a backslash taking the byte after it with it. -/
def first_unescaped_quote : List Nat → Option Nat
  | [] => none
  | [c] => if c = 0x22 then some 0 else none
  | c :: d :: rest =>
    if c = 0x22 then some 0
    else if c = 0x5c then (first_unescaped_quote rest).map (fun i => i + 2)
    else (first_unescaped_quote (d :: rest)).map (fun i => i + 1)

/-- A byte that stands for itself in a literal: from `0x20` to `0x7f`, and neither the
quote nor the backslash. -/
def plain_byte (c : Nat) : Prop := 0x20 ≤ c ∧ c ≤ 0x7f ∧ c ≠ 0x22 ∧ c ≠ 0x5c

instance (c : Nat) : Decidable (plain_byte c) := by unfold plain_byte; infer_instance

/-- A text made of bytes that stand for themselves and of pairs of a backslash and a byte
from `0x20` to `0x7f`. -/
inductive escaped_tokens : List Nat → Prop where
  | nil : escaped_tokens []
  | plain (c : Nat) (rest : List Nat) :
      plain_byte c → escaped_tokens rest → escaped_tokens (c :: rest)
  | pair (e : Nat) (rest : List Nat) :
      0x20 ≤ e → e ≤ 0x7f → escaped_tokens rest → escaped_tokens (0x5c :: e :: rest)

/-! ## stringrep.hpp: `unescape_string_inplace` on the buffer itself -/

namespace impl

/-- The stores `*(outit++) = b` for the bytes `b` of `bytes` in their order: the buffer
afterwards. -/
def store_bytes : List Nat → Nat → List Nat → List Nat
  | buf, _, [] => buf
  | buf, outit, b :: bytes => store_bytes (buf.set outit b) (outit + 1) bytes

/-- One turn of the `while (it != end)` loop of `unescape_string_inplace` on the buffer
itself, at a byte that is not the closing quote. `it` and `outit` are indices into `buf`,
and `end` is its length. The turn reads the bytes the buffer has from `it` on, as
`unescape_turn` does, and then stores what it decoded from `outit` on: in every case of
the switch the reads of a turn come before its stores. The buffer, `it` and `outit` after
the turn. -/
def unescape_turn_inplace (buf : List Nat) (it outit : Nat) :
    Except exn (List Nat × Nat × Nat) :=
  match buf.drop it with
  | [] => .error (.parser .premature_end_string)
  | c :: rest =>
    match unescape_turn c rest with
    | .error e => .error e
    | .ok (bytes, rest) =>
      .ok (store_bytes buf outit bytes, buf.length - rest.length, outit + bytes.length)

/-- The `while (it != end)` loop of `unescape_string_inplace` on the buffer itself: the
buffer, `it` after the closing quote, and `outit`, when the closing quote is met. -/
def unescape_loop_inplace : Nat → List Nat → Nat → Nat → Except exn (List Nat × Nat × Nat)
  | 0, _, _, _ => .error .fuel
  | fuel + 1, buf, it, outit =>
    if (buf.drop it).head? = some 0x22 then .ok (buf, it + 1, outit)
    else
      match unescape_turn_inplace buf it outit with
      | .error e => .error e
      | .ok (buf, it, outit) => unescape_loop_inplace fuel buf it outit

/-- Embeds `unescape_string_inplace(it, end, a, b)` on the buffer itself, called with `it`
the index of the byte after the opening quote: the buffer afterwards, `it` after the
closing quote, and `b`. The iterator `a` is `str_begin`, the index it was called with. -/
def unescape_string_inplace_buffer (buf : List Nat) (it : Nat) :
    Except exn (List Nat × Nat × Nat) :=
  unescape_loop_inplace (buf.length - it + 1) buf it it

end impl

/-! ## value.hpp: constructors, assignment, `swap` and accessors of values that share their
payloads -/

/-- The copy assignment `*this = other`, which the class leaves to the compiler: the three
data members are copied, and the copy of a `shared_ptr` owns the payload of the original.
The store and `*this` afterwards. -/
def cell.assign {F : Type} (h : heap F) (_this other : cell F) : heap F × cell F :=
  (h, ⟨other.m_ptr, other.m_data, other.m_type⟩)

/-- Embeds `swap(other)`: `*this` and `other` afterwards. -/
def cell.swap {F : Type} (this other : cell F) : cell F × cell F :=
  (⟨other.m_ptr, other.m_data, other.m_type⟩, ⟨this.m_ptr, this.m_data, this.m_type⟩)

/-- Embeds `basic_value(bool_type v)`. -/
def cell.of_bool {F : Type} (v : Bool) : cell F := ⟨none, .boolean v, .BOOL⟩

/-- The conversion of an integer to `int_type`, which is `int64_t`: the number from
`-2^63` to `2^63 - 1` that differs from it by a multiple of `2^64`. -/
def to_int64 (v : Int) : Int := (v + 2 ^ 63) % 2 ^ 64 - 2 ^ 63

/-- Embeds the constructors from the ten integer types, `unsigned char` to
`signed long long`: each stores `v` in the member `integer`, an `int_type`. -/
def cell.of_integer {F : Type} (v : Int) : cell F := ⟨none, .integer (to_int64 v), .INT⟩

/-- Embeds `basic_value(float_type v)`. -/
def cell.of_float {F : Type} (v : F) : cell F := ⟨none, .floatingpoint v, .FLOAT⟩

/-- Embeds `basic_value(string_type const & v)`, as well as the constructors from a pair of
iterators and from a `char const *`: a new string with the bytes `v`. -/
def cell.of_string {F : Type} (h : heap F) (v : List Nat) : heap F × cell F :=
  (h ++ [.string v], ⟨some h.length, .indeterminate, .STRING⟩)

/-- Embeds `basic_value(string_pointer const & v)`: the value owns the string of `v`, and a
new empty string when `v` is empty. -/
def cell.of_string_pointer {F : Type} (h : heap F) (v : Option Nat) : heap F × cell F :=
  match v with
  | some p => (h, ⟨some p, .indeterminate, .STRING⟩)
  | none => (h ++ [.string []], ⟨some h.length, .indeterminate, .STRING⟩)

/-- Embeds `basic_value(array_type const & v)`: a new vector with copies of the elements
of `v`, which share the payloads of the elements. -/
def cell.of_array {F : Type} (h : heap F) (v : List (cell F)) : heap F × cell F :=
  (h ++ [.array v], ⟨some h.length, .indeterminate, .ARRAY⟩)

/-- Embeds `basic_value(array_pointer const & v)`. -/
def cell.of_array_pointer {F : Type} (h : heap F) (v : Option Nat) : heap F × cell F :=
  match v with
  | some p => (h, ⟨some p, .indeterminate, .ARRAY⟩)
  | none => (h ++ [.array []], ⟨some h.length, .indeterminate, .ARRAY⟩)

/-- Embeds `basic_value(object_type const & v)`: a new map with copies of the entries of
`v`. -/
def cell.of_object {F : Type} (h : heap F) (v : List (List Nat × cell F)) :
    heap F × cell F :=
  (h ++ [.object v], ⟨some h.length, .indeterminate, .OBJECT⟩)

/-- Embeds `basic_value(object_pointer const & v)`. -/
def cell.of_object_pointer {F : Type} (h : heap F) (v : Option Nat) : heap F × cell F :=
  match v with
  | some p => (h, ⟨some p, .indeterminate, .OBJECT⟩)
  | none => (h ++ [.object []], ⟨some h.length, .indeterminate, .OBJECT⟩)

/-- Embeds `get_string_pointer()`: the pointer of the value. -/
def cell.get_string_pointer {F : Type} (c : cell F) : Except value_error (Option Nat) :=
  if c.m_type = .STRING then .ok c.m_ptr
  else .error (.type_error (type_error_message c.m_type .STRING))

/-- Embeds `get_array_pointer()`. -/
def cell.get_array_pointer {F : Type} (c : cell F) : Except value_error (Option Nat) :=
  if c.m_type = .ARRAY then .ok c.m_ptr
  else .error (.type_error (type_error_message c.m_type .ARRAY))

/-- Embeds `get_object_pointer()`. -/
def cell.get_object_pointer {F : Type} (c : cell F) : Except value_error (Option Nat) :=
  if c.m_type = .OBJECT then .ok c.m_ptr
  else .error (.type_error (type_error_message c.m_type .OBJECT))

/-- The address that a `*_ref_dangerous()` of the mutable overloads refers to. -/
def cell.address_dangerous {F : Type} (c : cell F) : Except value_error Nat :=
  match c.m_ptr with
  | some p => .ok p
  | none => .error .dangerous

/-- Embeds `get_string_ref()`: the reference it returns, as the address of the string. -/
def cell.get_string_ref {F : Type} (c : cell F) : Except value_error Nat :=
  if c.m_type = .STRING then c.address_dangerous
  else .error (.type_error (type_error_message c.m_type .STRING))

/-- Embeds `get_array_ref()`: the reference it returns, as the address of the vector. -/
def cell.get_array_ref {F : Type} (c : cell F) : Except value_error Nat :=
  if c.m_type = .ARRAY then c.address_dangerous
  else .error (.type_error (type_error_message c.m_type .ARRAY))

/-- Embeds `get_object_ref()`: the reference it returns, as the address of the map. -/
def cell.get_object_ref {F : Type} (c : cell F) : Except value_error Nat :=
  if c.m_type = .OBJECT then c.address_dangerous
  else .error (.type_error (type_error_message c.m_type .OBJECT))

/-- Embeds `get_string()` of a value in the store `h`: the bytes of its string. -/
def cell.get_string {F : Type} (h : heap F) (c : cell F) : Except value_error (List Nat) :=
  if c.m_type = .STRING then c.string_ref_dangerous h
  else .error (.type_error (type_error_message c.m_type .STRING))

/-- Embeds `get_array()` of a value in the store `h`: the elements of its vector. -/
def cell.get_array {F : Type} (h : heap F) (c : cell F) :
    Except value_error (List (cell F)) :=
  if c.m_type = .ARRAY then c.array_ref_dangerous h
  else .error (.type_error (type_error_message c.m_type .ARRAY))

/-- Embeds `get_object()` of a value in the store `h`: the entries of its map. -/
def cell.get_object {F : Type} (h : heap F) (c : cell F) :
    Except value_error (List (List Nat × cell F)) :=
  if c.m_type = .OBJECT then c.object_ref_dangerous h
  else .error (.type_error (type_error_message c.m_type .OBJECT))

/-- A change made through a reference to the payload at the address `p`: the store in
which that payload is `x`. -/
def store_payload {F : Type} (h : heap F) (p : Nat) (x : payload F) : heap F := h.set p x

/-- Embeds `get_array_ref().push_back(v)`: the store afterwards. -/
def cell.push_back_ref {F : Type} (h : heap F) (c v : cell F) :
    Except value_error (heap F) :=
  match c.get_array_ref with
  | .error e => .error e
  | .ok p =>
    match h[p]? with
    | some (.array a) => .ok (store_payload h p (.array (a ++ [v])))
    | _ => .error .dangerous

/-! ## stringify.hpp: `write_json` of the native types -/

/-- A datum of the types `write_json` is overloaded for, floating point numbers left
out. `char8` is a `char`, an `unsigned char` or a `signed char` with the value `data`;
`integer` is a datum of the wider integer types, from `short` to `unsigned long long`, with
the value `data`; `map` has its entries in the order of a `std::map`. -/
inductive native where
  | bool (data : Bool)
  | char8 (data : Int)
  | integer (data : Int)
  | string (data : List Nat)
  | vector (data : List native)
  | map (data : List (List Nat × native))

/-- Embeds the overloads of `write_json(stream, data)` for the native types, with
`impl::write_json_array` and `impl::write_json_object`. For the three character types
`stream << std::dec << data` writes the character `data`, not its number. -/
def native.write_json : native → Except exn (List Nat)
  | .bool data => .ok (if data then ascii "true" else ascii "false")
  | .char8 data => .ok [(data % 256).toNat]
  | .integer data => .ok (write_int data)
  | .string data => escape_string data true false
  | .vector [] => .ok [0x5b, 0x5d]
  | .vector (v :: rest) =>
    seq_out (.ok [0x5b]) (seq_out v.write_json (seq_out (array_rest rest) (.ok [0x5d])))
  | .map [] => .ok [0x7b, 0x7d]
  | .map ((k, v) :: rest) =>
    seq_out (.ok [0x7b]) (seq_out (escape_string k true false) (seq_out (.ok [0x3a])
      (seq_out v.write_json (seq_out (object_rest rest) (.ok [0x7d])))))
where
  /-- The `for` loop of `write_json_array`. -/
  array_rest : List native → Except exn (List Nat)
    | [] => .ok []
    | v :: rest => seq_out (.ok [0x2c]) (seq_out v.write_json (array_rest rest))
  /-- The `for` loop of `write_json_object`. -/
  object_rest : List (List Nat × native) → Except exn (List Nat)
    | [] => .ok []
    | (k, v) :: rest =>
      seq_out (.ok [0x2c]) (seq_out (escape_string k true false) (seq_out (.ok [0x3a])
        (seq_out v.write_json (object_rest rest))))

/-- Embeds `stringify(t)` for a datum of a native type. -/
def native.stringify (t : native) : Except exn (List Nat) := t.write_json

/-- The `value` that the constructors of `basic_value` make of a native datum: an integer
of any width is stored as an `int_type`; the elements of a vector and the values of a map
are converted in their turn, the keys of the map are kept. -/
def native.to_value {F : Type} : native → value F
  | .bool data => .bool data
  | .char8 data => .int (to_int64 data)
  | .integer data => .int (to_int64 data)
  | .string data => .string data
  | .vector data => .array (elements data)
  | .map data => .object (entries data)
where
  /-- The elements of `array_type(v.begin(), v.end())`. -/
  elements {F : Type} : List native → List (value F)
    | [] => []
    | v :: rest => v.to_value :: elements rest
  /-- The entries of `object_type(v.begin(), v.end())`. -/
  entries {F : Type} : List (List Nat × native) → List (List Nat × value F)
    | [] => []
    | (k, v) :: rest => (k, v.to_value) :: entries rest

/-- A native datum without a datum of a character type, whose integers an `int64_t`
holds. -/
def native.wide : native → Prop
  | .bool _ => True
  | .char8 _ => False
  | .integer data => -2 ^ 63 ≤ data ∧ data < 2 ^ 63
  | .string _ => True
  | .vector data => each data
  | .map data => each_entry data
where
  /-- Every datum of the list is one. -/
  each : List native → Prop
    | [] => True
    | v :: rest => v.wide ∧ each rest
  /-- Every value of the entries is one. -/
  each_entry : List (List Nat × native) → Prop
    | [] => True
    | (_, v) :: rest => v.wide ∧ each_entry rest

/-! ## Notions the claim on the pointer of a value is stated with -/

/-- The values a program has that makes them with the constructors, the copy assignment,
`swap` and `deepcopy`, in a store `h`. The store only grows: a value the program had in a
store it has in every later one. A `shared_ptr` handed to a constructor is empty, or the
one that `get_string_pointer`, `get_array_pointer` or `get_object_pointer` of a value
returned. -/
inductive built {F : Type} : heap F → cell F → Prop where
  | later (h ext : heap F) (c : cell F) : built h c → built (h ++ ext) c
  | default (h : heap F) : built h cell.default
  | of_bool (h : heap F) (v : Bool) : built h (cell.of_bool v)
  | of_integer (h : heap F) (v : Int) : built h (cell.of_integer v)
  | of_float (h : heap F) (v : F) : built h (cell.of_float v)
  | of_string (h : heap F) (v : List Nat) :
      built (cell.of_string h v).1 (cell.of_string h v).2
  | of_string_pointer (h : heap F) (c : cell F) (v : Option Nat) :
      built h c → c.get_string_pointer = .ok v →
      built (cell.of_string_pointer h v).1 (cell.of_string_pointer h v).2
  | of_empty_string_pointer (h : heap F) :
      built (cell.of_string_pointer h none).1 (cell.of_string_pointer h none).2
  | of_array (h : heap F) (v : List (cell F)) :
      (∀ e, e ∈ v → built h e) → built (cell.of_array h v).1 (cell.of_array h v).2
  | of_array_pointer (h : heap F) (c : cell F) (v : Option Nat) :
      built h c → c.get_array_pointer = .ok v →
      built (cell.of_array_pointer h v).1 (cell.of_array_pointer h v).2
  | of_empty_array_pointer (h : heap F) :
      built (cell.of_array_pointer h none).1 (cell.of_array_pointer h none).2
  | of_object (h : heap F) (v : List (List Nat × cell F)) :
      (∀ e, e ∈ v → built h e.2) → built (cell.of_object h v).1 (cell.of_object h v).2
  | of_object_pointer (h : heap F) (c : cell F) (v : Option Nat) :
      built h c → c.get_object_pointer = .ok v →
      built (cell.of_object_pointer h v).1 (cell.of_object_pointer h v).2
  | of_empty_object_pointer (h : heap F) :
      built (cell.of_object_pointer h none).1 (cell.of_object_pointer h none).2
  | assign (h : heap F) (a b : cell F) :
      built h a → built h b → built (cell.assign h a b).1 (cell.assign h a b).2
  | swap_this (h : heap F) (a b : cell F) : built h a → built h b → built h (cell.swap a b).1
  | swap_other (h : heap F) (a b : cell F) : built h a → built h b → built h (cell.swap a b).2
  | deepcopy (fuel : Nat) (h h2 : heap F) (a b c : cell F) :
      built h a → built h b → cell.deepcopy fuel h a b = .ok (h2, c) → built h2 c
  | deepcopy_self (fuel : Nat) (h h2 : heap F) (a c : cell F) :
      built h a → cell.deepcopy_self fuel h a = .ok (h2, c) → built h2 c

/-- A turn of the loop on the buffer leads from the first state to the second one. -/
def inplace_turn (s t : List Nat × Nat × Nat) : Prop :=
  (s.1.drop s.2.1).head? ≠ some 0x22 ∧ impl.unescape_turn_inplace s.1 s.2.1 s.2.2 = .ok t

/-! # Theorems -/

/-! ## Bit operations as arithmetic -/

theorem or_low (k a b : Nat) (hb : b < 2 ^ k) : (2 ^ k * a) ||| b = 2 ^ k * a + b :=
  (Nat.mul_add_lt_is_or hb a).symm

theorem shl_or (k a b : Nat) (hb : b < 2 ^ k) : (a <<< k) ||| b = a * 2 ^ k + b := by
  rw [Nat.shiftLeft_eq, Nat.mul_comm, or_low k a b hb]

theorem and_mask (k x : Nat) : x &&& (2 ^ k - 1) = x % 2 ^ k :=
  Nat.and_pow_two_sub_one_eq_mod x k

theorem hex_char_eq (d : Nat) (h : d < 16) :
    impl.hex_char d = if d < 10 then 0x30 + d else 0x57 + d := by
  interval_cases d <;> rfl

theorem read4hex_loop_hex (i rv d : Nat) (rest : List Nat) (h : d < 16) :
    impl.read4hex_loop (i + 1) rv (impl.hex_char d :: rest)
      = impl.read4hex_loop i (((rv <<< 4) % 65536) ||| d) rest := by
  rw [hex_char_eq d h]
  by_cases h10 : d < 10
  · simp only [h10, if_true, impl.read4hex_loop]
    rw [if_pos (by omega)]
    congr 2
    omega
  · simp only [h10, if_false, impl.read4hex_loop]
    rw [if_neg (by omega), if_pos (by omega)]
    congr 2
    omega

theorem shl4_or (rv d : Nat) (h : d < 16) :
    ((rv <<< 4) % 65536) ||| d = (rv % 4096) * 16 + d := by
  have h1 : (rv <<< 4) % 65536 = 2 ^ 4 * (rv % 4096) := by
    rw [Nat.shiftLeft_eq]; omega
  rw [h1, or_low 4 _ _ (by simpa using h)]
  omega

theorem nibble (v k : Nat) : (v >>> k) &&& 0xf = v / 2 ^ k % 16 := by
  rw [Nat.shiftRight_eq_div_pow]
  exact and_mask 4 _

/-- Reading back four hex digits written by `output_hex`. -/
theorem read4hex_output_hex (v : Nat) (rest : List Nat) (h : v < 65536) :
    impl.read4hex (impl.output_hex v 4 ++ rest) = .ok (v, rest) := by
  simp only [impl.read4hex, impl.output_hex, List.cons_append, List.nil_append, nibble]
  have b3 : v / 2 ^ (3 * 4) % 16 < 16 := Nat.mod_lt _ (by decide)
  have b2 : v / 2 ^ (2 * 4) % 16 < 16 := Nat.mod_lt _ (by decide)
  have b1 : v / 2 ^ (1 * 4) % 16 < 16 := Nat.mod_lt _ (by decide)
  have b0 : v / 2 ^ (0 * 4) % 16 < 16 := Nat.mod_lt _ (by decide)
  rw [read4hex_loop_hex _ _ _ _ b3, read4hex_loop_hex _ _ _ _ b2,
    read4hex_loop_hex _ _ _ _ b1, read4hex_loop_hex _ _ _ _ b0]
  rw [shl4_or _ _ b3, shl4_or _ _ b2, shl4_or _ _ b1, shl4_or _ _ b0]
  simp only [impl.read4hex_loop]
  congr 2
  norm_num
  omega

theorem or_add (k x y : Nat) (hx : x % 2 ^ k = 0) (hy : y < 2 ^ k) : x ||| y = x + y := by
  have h : x = 2 ^ k * (x / 2 ^ k) := by
    have := Nat.div_add_mod x (2 ^ k)
    omega
  rw [h, or_low k _ _ hy]

theorem byte_masks (c : Nat) (h : c < 256) :
    c &&& 0xe0 = c / 32 * 32 ∧ c &&& 0xf0 = c / 16 * 16 ∧ c &&& 0xf8 = c / 8 * 8
      ∧ c &&& 0xc0 = c / 64 * 64 := by
  interval_cases c <;> decide

theorem and_1f (x : Nat) : x &&& 0x1f = x % 32 := and_mask 5 x
theorem and_0f (x : Nat) : x &&& 0x0f = x % 16 := and_mask 4 x
theorem and_07 (x : Nat) : x &&& 0x07 = x % 8 := and_mask 3 x
theorem and_3f (x : Nat) : x &&& 0x3f = x % 64 := and_mask 6 x
theorem and_3ff (x : Nat) : x &&& 0x3ff = x % 1024 := and_mask 10 x

theorem and_ffc00 (x : Nat) (h : x < 2 ^ 20) : (x &&& 0xffc00) >>> 10 = x / 1024 := by
  have e : (x &&& 0xffc00) >>> 10 = x >>> 10 := by
    apply Nat.eq_of_testBit_eq
    intro i
    simp only [Nat.testBit_shiftRight, Nat.testBit_and]
    have hm : (0xffc00 : Nat) = (2 ^ 10 - 1) <<< 10 := by decide
    rw [hm, Nat.testBit_shiftLeft, Nat.testBit_two_pow_sub_one]
    by_cases hi : i < 10
    · simp [hi]
    · have : x.testBit (10 + i) = false := by
        apply Nat.testBit_lt_two_pow
        calc x < 2 ^ 20 := h
          _ ≤ 2 ^ (10 + i) := Nat.pow_le_pow_right (by decide) (by omega)
      simp [this]
  rw [e, Nat.shiftRight_eq_div_pow]

theorem unescapes_to_of_turn (c : Nat) (t bs : List Nat) (hq : c ≠ 0x22)
    (h : ∀ it, impl.unescape_turn c (t ++ it) = .ok (bs, it)) : unescapes_to (c :: t) bs := by
  refine ⟨by simp, fun fuel out it => ?_⟩
  simp only [List.cons_append, impl.unescape_loop, hq, if_false, h it]

theorem unescapes_plain (c : Nat) (h1 : c ≠ 0x22) (h2 : c ≠ 0x5c) : unescapes_to [c] [c] :=
  unescapes_to_of_turn c [] [c] h1 (fun it => by simp [impl.unescape_turn, h2])

theorem unescapes_u1 (v : Nat) (h : v < 0x80) :
    unescapes_to (0x5c :: 0x75 :: impl.output_hex v 4) [v] := by
  apply unescapes_to_of_turn _ _ _ (by decide)
  intro it
  simp only [List.cons_append, impl.unescape_turn, impl.unescape_unicode, impl.unescape_surrogate, if_true]
  rw [read4hex_output_hex v it (by omega)]
  simp [h]

theorem unescapes_u2 (v : Nat) (h0 : 0x80 ≤ v) (h : v < 0x800) :
    unescapes_to (0x5c :: 0x75 :: impl.output_hex v 4)
      [0xc0 ||| ((v >>> 6) &&& 0x1f), 0x80 ||| (v &&& 0x3f)] := by
  apply unescapes_to_of_turn _ _ _ (by decide)
  intro it
  simp only [List.cons_append, impl.unescape_turn, impl.unescape_unicode, impl.unescape_surrogate, if_true]
  rw [read4hex_output_hex v it (by omega)]
  have : ¬ v < 0x80 := by omega
  simp [h, this]

theorem unescapes_u3 (v : Nat) (h0 : 0x800 ≤ v) (h : v < 0x10000)
    (hs : v < 0xd800 ∨ 0xe000 ≤ v) :
    unescapes_to (0x5c :: 0x75 :: impl.output_hex v 4)
      [0xe0 ||| ((v >>> 12) &&& 0x0f), 0x80 ||| ((v >>> 6) &&& 0x3f), 0x80 ||| (v &&& 0x3f)] := by
  apply unescapes_to_of_turn _ _ _ (by decide)
  intro it
  simp only [List.cons_append, impl.unescape_turn, impl.unescape_unicode, impl.unescape_surrogate, if_true]
  rw [read4hex_output_hex v it (by omega)]
  have h1 : ¬ v < 0x80 := by omega
  have h2 : ¬ v < 0x800 := by omega
  simp [h1, h2, hs]

theorem unescapes_u4 (hi lo : Nat) (h1 : 0xd800 ≤ hi) (h2 : hi < 0xdc00)
    (h3 : 0xdc00 ≤ lo) (h4 : lo < 0xe000) :
    unescapes_to
      (0x5c :: 0x75 :: impl.output_hex hi 4 ++ 0x5c :: 0x75 :: impl.output_hex lo 4)
      [0xf0 ||| ((((((hi &&& 0x3ff) <<< 10) ||| (lo &&& 0x3ff)) + 0x10000) >>> 18) &&& 0x07),
       0x80 ||| ((((((hi &&& 0x3ff) <<< 10) ||| (lo &&& 0x3ff)) + 0x10000) >>> 12) &&& 0x3f),
       0x80 ||| ((((((hi &&& 0x3ff) <<< 10) ||| (lo &&& 0x3ff)) + 0x10000) >>> 6) &&& 0x3f),
       0x80 ||| (((((hi &&& 0x3ff) <<< 10) ||| (lo &&& 0x3ff)) + 0x10000) &&& 0x3f)] := by
  simp only [List.cons_append]
  apply unescapes_to_of_turn _ _ _ (by decide)
  intro it
  simp only [List.cons_append, List.append_assoc, impl.unescape_turn, impl.unescape_unicode, if_true]
  rw [read4hex_output_hex hi _ (by omega)]
  have a1 : ¬ hi < 0x80 := by omega
  have a2 : ¬ hi < 0x800 := by omega
  have a3 : ¬ (hi < 0xd800 ∨ hi ≥ 0xe000) := by omega
  have a4 : ¬ (lo < 0xdc00 ∨ lo ≥ 0xe000) := by omega
  simp only [a1, a2, a3, h2, if_true, if_false, ne_eq, not_true_eq_false, List.cons_append,
    impl.unescape_surrogate]
  rw [read4hex_output_hex lo _ (by omega)]
  simp [a4]

theorem output_hex_byte (c : Nat) (h : c < 256) :
    ascii "\\u00" ++ impl.output_hex c 2 = 0x5c :: 0x75 :: impl.output_hex c 4 := by
  have e3 : (c >>> (3 * 4)) &&& 0xf = 0 := by rw [nibble]; omega
  have e2 : (c >>> (2 * 4)) &&& 0xf = 0 := by rw [nibble]; omega
  simp only [impl.output_hex, e3, e2]
  rfl

theorem ascii_u (x : List Nat) : ascii "\\u" ++ x = 0x5c :: 0x75 :: x := rfl

theorem escapes_one (es : Bool) (c : Nat) (h : c < 0x80) : escapes_to es c [] := by
  by_cases hc : c < 0x20
  · by_cases h8 : c = 0x08
    · subst h8
      refine ⟨ascii "\\b", fun rest => by simp [escape_step, escape_control, escape_ascii], by decide, fun f o i => ?_⟩
      simp [ascii, impl.unescape_loop, impl.unescape_turn]
    by_cases hC : c = 0x0c
    · subst hC
      refine ⟨ascii "\\f", fun rest => by simp [escape_step, escape_control, escape_ascii], by decide, fun f o i => ?_⟩
      simp [ascii, impl.unescape_loop, impl.unescape_turn]
    by_cases hA : c = 0x0a
    · subst hA
      refine ⟨ascii "\\n", fun rest => by simp [escape_step, escape_control, escape_ascii], by decide, fun f o i => ?_⟩
      simp [ascii, impl.unescape_loop, impl.unescape_turn]
    by_cases hD : c = 0x0d
    · subst hD
      refine ⟨ascii "\\r", fun rest => by simp [escape_step, escape_control, escape_ascii], by decide, fun f o i => ?_⟩
      simp [ascii, impl.unescape_loop, impl.unescape_turn]
    by_cases h9 : c = 0x09
    · subst h9
      refine ⟨ascii "\\t", fun rest => by simp [escape_step, escape_control, escape_ascii], by decide, fun f o i => ?_⟩
      simp [ascii, impl.unescape_loop, impl.unescape_turn]
    refine ⟨0x5c :: 0x75 :: impl.output_hex c 4, fun rest => ?_, unescapes_u1 c h⟩
    rw [← output_hex_byte c (by omega)]
    simp [escape_step, escape_control, hc, h8, hC, hA, hD, h9]
  · have hge : ¬ c ≥ 0x80 := by omega
    by_cases hq : c = 0x22
    · subst hq
      refine ⟨ascii "\\\"", fun rest => by simp [escape_step, escape_control, escape_ascii], by decide, fun f o i => ?_⟩
      simp [ascii, impl.unescape_loop, impl.unescape_turn]
    by_cases hb : c = 0x5c
    · subst hb
      refine ⟨ascii "\\\\", fun rest => by simp [escape_step, escape_control, escape_ascii], by decide, fun f o i => ?_⟩
      simp [ascii, impl.unescape_loop, impl.unescape_turn]
    by_cases hsl : c = 0x2f
    · subst hsl
      cases es
      · exact ⟨[0x2f], fun rest => by simp [escape_step, escape_control, escape_ascii],
          unescapes_plain _ (by decide) (by decide)⟩
      · refine ⟨ascii "\\/", fun rest => by simp [escape_step, escape_control, escape_ascii], by decide,
          fun f o i => ?_⟩
        simp [ascii, impl.unescape_loop, impl.unescape_turn]
    · refine ⟨[c], fun rest => ?_, unescapes_plain c hq hb⟩
      simp only [escape_step, escape_ascii, hc, hq, hb, hsl, hge, if_false, List.nil_append]

theorem cont_masks (c : Nat) (h : is_cont c) : c &&& 0xc0 = 0x80 ∧ c &&& 0x3f = c - 0x80 := by
  obtain ⟨h1, h2⟩ := h
  have := (byte_masks c (by omega)).2.2.2
  rw [this, and_3f]
  omega

theorem escapes_two (es : Bool) (c c1 : Nat) (h1 : 0xc2 ≤ c) (h2 : c ≤ 0xdf)
    (k1 : is_cont c1) : escapes_to es c [c1] := by
  have hc : ¬ c < 0x20 := by omega
  have h8 : c ≥ 0x80 := by omega
  have m0 : c &&& 0xe0 = 0xc0 := by rw [(byte_masks c (by omega)).1]; omega
  obtain ⟨m1, m2⟩ := cont_masks c1 k1
  obtain ⟨k1a, k1b⟩ := k1
  have hv : ((c &&& 0x1f) <<< 6) ||| (c1 &&& 0x3f) = (c - 0xc0) * 64 + (c1 - 0x80) := by
    rw [m2, and_1f, shl_or 6 _ _ (by omega)]
    omega
  refine ⟨0x5c :: 0x75 :: impl.output_hex ((c - 0xc0) * 64 + (c1 - 0x80)) 4, fun rest => ?_, ?_⟩
  · simp only [escape_step, escape_two, hc, h8, m0, m1, hv, ascii_u, if_true, if_false, ne_eq,
      not_true_eq_false, List.singleton_append, ge_iff_le]
  · have key := unescapes_u2 ((c - 0xc0) * 64 + (c1 - 0x80)) (by omega) (by omega)
    have e1 : 0xc0 ||| ((((c - 0xc0) * 64 + (c1 - 0x80)) >>> 6) &&& 0x1f) = c := by
      rw [and_1f, Nat.shiftRight_eq_div_pow, or_add 5 _ _ (by decide) (by omega)]
      omega
    have e2 : 0x80 ||| (((c - 0xc0) * 64 + (c1 - 0x80)) &&& 0x3f) = c1 := by
      rw [and_3f, or_add 6 _ _ (by decide) (by omega)]
      omega
    rw [e1, e2] at key
    exact key

theorem escapes_three (es : Bool) (c c1 c2 : Nat) (h1 : 0xe0 ≤ c) (h2 : c ≤ 0xef)
    (k1 : is_cont c1) (k2 : is_cont c2) (lo : c = 0xe0 → 0xa0 ≤ c1) (hi : c = 0xed → c1 ≤ 0x9f) :
    escapes_to es c [c1, c2] := by
  have hc : ¬ c < 0x20 := by omega
  have h8 : c ≥ 0x80 := by omega
  have m0 : ¬ c &&& 0xe0 = 0xc0 := by rw [(byte_masks c (by omega)).1]; omega
  have m0' : c &&& 0xf0 = 0xe0 := by rw [(byte_masks c (by omega)).2.1]; omega
  obtain ⟨m1, m2⟩ := cont_masks c1 k1
  obtain ⟨n1, n2⟩ := cont_masks c2 k2
  obtain ⟨k1a, k1b⟩ := k1
  obtain ⟨k2a, k2b⟩ := k2
  have hv : (((c &&& 0x0f) <<< 12) ||| ((c1 &&& 0x3f) <<< 6)) ||| (c2 &&& 0x3f)
      = (c - 0xe0) * 4096 + (c1 - 0x80) * 64 + (c2 - 0x80) := by
    rw [m2, n2, and_0f, Nat.shiftLeft_eq (c1 - 0x80), shl_or 12 _ _ (by omega),
      or_add 6 _ _ (by omega) (by omega)]
    omega
  refine ⟨0x5c :: 0x75 :: impl.output_hex ((c - 0xe0) * 4096 + (c1 - 0x80) * 64 + (c2 - 0x80)) 4,
    fun rest => ?_, ?_⟩
  · simp only [escape_step, escape_three, hc, h8, m0, m0', m1, n1, hv, ascii_u, if_true, if_false, ne_eq,
      not_true_eq_false, List.cons_append, List.nil_append, ge_iff_le]
  · have key := unescapes_u3 ((c - 0xe0) * 4096 + (c1 - 0x80) * 64 + (c2 - 0x80))
      (by omega) (by omega) (by omega)
    have e1 : 0xe0 ||| ((((c - 0xe0) * 4096 + (c1 - 0x80) * 64 + (c2 - 0x80)) >>> 12) &&& 0x0f)
        = c := by
      rw [and_0f, Nat.shiftRight_eq_div_pow, or_add 4 _ _ (by decide) (by omega)]
      omega
    have e2 : 0x80 ||| ((((c - 0xe0) * 4096 + (c1 - 0x80) * 64 + (c2 - 0x80)) >>> 6) &&& 0x3f)
        = c1 := by
      rw [and_3f, Nat.shiftRight_eq_div_pow, or_add 6 _ _ (by decide) (by omega)]
      omega
    have e3 : 0x80 ||| (((c - 0xe0) * 4096 + (c1 - 0x80) * 64 + (c2 - 0x80)) &&& 0x3f) = c2 := by
      rw [and_3f, or_add 6 _ _ (by decide) (by omega)]
      omega
    rw [e1, e2, e3] at key
    exact key

theorem escapes_four (es : Bool) (c c1 c2 c3 : Nat) (h1 : 0xf0 ≤ c) (h2 : c ≤ 0xf4)
    (k1 : is_cont c1) (k2 : is_cont c2) (k3 : is_cont c3)
    (lo : c = 0xf0 → 0x90 ≤ c1) (hi : c = 0xf4 → c1 ≤ 0x8f) :
    escapes_to es c [c1, c2, c3] := by
  have hc : ¬ c < 0x20 := by omega
  have h8 : c ≥ 0x80 := by omega
  have m0 : ¬ c &&& 0xe0 = 0xc0 := by rw [(byte_masks c (by omega)).1]; omega
  have m0' : ¬ c &&& 0xf0 = 0xe0 := by rw [(byte_masks c (by omega)).2.1]; omega
  have m0'' : c &&& 0xf8 = 0xf0 := by rw [(byte_masks c (by omega)).2.2.1]; omega
  obtain ⟨m1, m2⟩ := cont_masks c1 k1
  obtain ⟨n1, n2⟩ := cont_masks c2 k2
  obtain ⟨p1, p2⟩ := cont_masks c3 k3
  obtain ⟨k1a, k1b⟩ := k1
  obtain ⟨k2a, k2b⟩ := k2
  obtain ⟨k3a, k3b⟩ := k3
  generalize hV : (c - 0xf0) * 262144 + (c1 - 0x80) * 4096 + (c2 - 0x80) * 64 + (c3 - 0x80) = v
  have hv : ((((c &&& 0x07) <<< 18) ||| ((c1 &&& 0x3f) <<< 12)) ||| ((c2 &&& 0x3f) <<< 6))
      ||| (c3 &&& 0x3f) = v := by
    rw [m2, n2, p2, and_07, Nat.shiftLeft_eq (c1 - 0x80), Nat.shiftLeft_eq (c2 - 0x80),
      shl_or 18 _ _ (by omega),
      or_add 12 (c % 8 * 2 ^ 18 + (c1 - 0x80) * 2 ^ 12) ((c2 - 0x80) * 2 ^ 6) (by omega) (by omega),
      or_add 6 _ _ (by omega) (by omega)]
    omega
  have r1 : ¬ v < 0x10000 := by omega
  have r2 : v ≤ 0x10ffff := by omega
  have hhi : (((v - 0x10000) &&& 0xffc00) >>> 10) ||| 0xd800 = (v - 0x10000) / 1024 + 0xd800 := by
    rw [and_ffc00 _ (by omega), Nat.or_comm, or_add 10 _ _ (by decide) (by omega)]
    omega
  have hlo : ((v - 0x10000) &&& 0x003ff) ||| 0xdc00 = (v - 0x10000) % 1024 + 0xdc00 := by
    rw [and_3ff, Nat.or_comm, or_add 10 _ _ (by decide) (by omega)]
    omega
  refine ⟨0x5c :: 0x75 :: impl.output_hex ((v - 0x10000) / 1024 + 0xd800) 4
    ++ 0x5c :: 0x75 :: impl.output_hex ((v - 0x10000) % 1024 + 0xdc00) 4, fun rest => ?_, ?_⟩
  · simp only [escape_step, escape_four, escape_four_codepoint, hc, h8, m0, m0', m0'', m1, n1, p1, hv, r1, r2, hhi, hlo, ascii_u,
      if_true, if_false, ne_eq, not_true_eq_false, List.cons_append, List.nil_append, ge_iff_le,
      List.append_assoc]
  · have key := unescapes_u4 ((v - 0x10000) / 1024 + 0xd800) ((v - 0x10000) % 1024 + 0xdc00)
      (by omega) (by omega) (by omega) (by omega)
    have hcp : ((((v - 0x10000) / 1024 + 0xd800) &&& 0x3ff) <<< 10
        ||| (((v - 0x10000) % 1024 + 0xdc00) &&& 0x3ff)) + 0x10000 = v := by
      rw [and_3ff, and_3ff, shl_or 10 _ _ (by omega)]
      omega
    rw [hcp] at key
    have e1 : 0xf0 ||| ((v >>> 18) &&& 0x07) = c := by
      rw [and_07, Nat.shiftRight_eq_div_pow, or_add 3 _ _ (by decide) (by omega)]
      omega
    have e2 : 0x80 ||| ((v >>> 12) &&& 0x3f) = c1 := by
      rw [and_3f, Nat.shiftRight_eq_div_pow, or_add 6 _ _ (by decide) (by omega)]
      omega
    have e3 : 0x80 ||| ((v >>> 6) &&& 0x3f) = c2 := by
      rw [and_3f, Nat.shiftRight_eq_div_pow, or_add 6 _ _ (by decide) (by omega)]
      omega
    have e4 : 0x80 ||| (v &&& 0x3f) = c3 := by
      rw [and_3f, or_add 6 _ _ (by decide) (by omega)]
      omega
    rw [e1, e2, e3, e4] at key
    exact key

theorem reads_back_nil (es : Bool) : reads_back es [] := by
  intro n _
  refine ⟨[], by cases n <;> rfl, fun fuel out rest hf => ?_⟩
  obtain ⟨f, rfl⟩ : ∃ f, fuel = f + 1 := ⟨fuel - 1, by simp at hf; omega⟩
  simp [impl.unescape_loop]

theorem reads_back_cons (es : Bool) (c : Nat) (t rest : List Nat) (h : escapes_to es c t)
    (ih : reads_back es rest) : reads_back es (c :: (t ++ rest)) := by
  intro n hn
  obtain ⟨piece, hp, hne, hu⟩ := h
  obtain ⟨m, rfl⟩ : ∃ m, n = m + 1 := ⟨n - 1, by simp at hn; omega⟩
  obtain ⟨body, hb, hr⟩ := ih m (by simp at hn; omega)
  refine ⟨piece ++ body, ?_, fun fuel out r hf => ?_⟩
  · rw [escape_string_loop, hp rest]
    simp only [hb, seq_out]
  · have hpos : 0 < piece.length := List.length_pos.mpr hne
    obtain ⟨f, rfl⟩ : ∃ f, fuel = f + 1 := ⟨fuel - 1, by omega⟩
    rw [List.append_assoc, hu f out (body ++ 0x22 :: r),
      hr f (out ++ c :: t) r (by simp at hf; omega)]
    simp

theorem reads_back_of_valid (es : Bool) (s : List Nat) (hs : valid_utf8 s) : reads_back es s := by
  induction hs with
  | nil => exact reads_back_nil es
  | one c rest h _ ih => exact reads_back_cons es c [] rest (escapes_one es c h) ih
  | two c c1 rest h1 h2 k1 _ ih =>
    exact reads_back_cons es c [c1] rest (escapes_two es c c1 h1 h2 k1) ih
  | three c c1 c2 rest h1 h2 k1 k2 lo hi _ ih =>
    exact reads_back_cons es c [c1, c2] rest (escapes_three es c c1 c2 h1 h2 k1 k2 lo hi) ih
  | four c c1 c2 c3 rest h1 h2 k1 k2 k3 lo hi _ ih =>
    exact reads_back_cons es c [c1, c2, c3] rest
      (escapes_four es c c1 c2 c3 h1 h2 k1 k2 k3 lo hi) ih

/-- The literal `escape_string` writes for well-formed UTF-8, and how it is read back. -/
theorem escape_string_valid (es : Bool) (s : List Nat) (hs : valid_utf8 s) :
    ∃ body, escape_string s true es = .ok (0x22 :: (body ++ [0x22])) ∧
      ∀ rest, impl.unescape_string_inplace (body ++ 0x22 :: rest) = .ok (s, rest) := by
  obtain ⟨body, hb, hr⟩ := reads_back_of_valid es s hs s.length (Nat.le_refl _)
  refine ⟨body, ?_, fun rest => ?_⟩
  · simp [escape_string, hb, seq_out]
  · have := hr ((body ++ 0x22 :: rest).length + 1) [] rest (by simp; omega)
    simpa [impl.unescape_string_inplace] using this

/-- C1: for every well-formed UTF-8 string `s` (no surrogate code points),
`escape_string` with the default flags succeeds, and `unescape_string_inplace` run on its
output from just after the opening quote succeeds, consumes the text through the closing
quote (leaving exactly what follows the literal) and yields the bytes of `s`. -/
theorem string_codec_inverse (s rest : List Nat) (hs : valid_utf8 s) :
    ∃ lit, escape_string s true false = .ok (0x22 :: lit) ∧
      impl.unescape_string_inplace (lit ++ rest) = .ok (s, rest) := by
  obtain ⟨body, hb, hr⟩ := escape_string_valid false s hs
  exact ⟨body ++ [0x22], hb, by simpa using hr rest⟩

/-- C1 at the text `a`, U+00E9, U+1F600. -/
theorem string_codec_inverse_witness :
    valid_utf8 [0x61, 0xc3, 0xa9, 0xf0, 0x9f, 0x98, 0x80] ∧
    ∃ lit, escape_string [0x61, 0xc3, 0xa9, 0xf0, 0x9f, 0x98, 0x80] true false = .ok (0x22 :: lit) ∧
      impl.unescape_string_inplace (lit ++ []) = .ok ([0x61, 0xc3, 0xa9, 0xf0, 0x9f, 0x98, 0x80], []) :=
  have hv : valid_utf8 [0x61, 0xc3, 0xa9, 0xf0, 0x9f, 0x98, 0x80] :=
    .one _ _ (by decide) (.two _ _ _ (by decide) (by decide) ⟨by decide, by decide⟩
      (.four _ _ _ _ _ (by decide) (by decide) ⟨by decide, by decide⟩ ⟨by decide, by decide⟩
        ⟨by decide, by decide⟩ (by decide) (by decide) .nil))
  ⟨hv, string_codec_inverse _ _ hv⟩

variable {F : Type} (ops : float_ops F)

/-! ## Whitespace -/

theorem skipws_cons_ws (c : Nat) (rest : List Nat) (h : is_ws c) :
    impl.skipws (c :: rest) = impl.skipws rest := by
  unfold is_ws at h
  simp [impl.skipws, h]

theorem skipws_cons_not_ws (c : Nat) (rest : List Nat) (h : ¬ is_ws c) :
    impl.skipws (c :: rest) = c :: rest := by
  unfold is_ws at h
  simp [impl.skipws, h]

theorem skipws_all_ws (w x : List Nat) (hw : ∀ c ∈ w, is_ws c) :
    impl.skipws (w ++ x) = impl.skipws x := by
  induction w with
  | nil => rfl
  | cons c w ih =>
    rw [List.cons_append, skipws_cons_ws _ _ (hw c (by simp))]
    exact ih (fun d hd => hw d (by simp [hd]))

theorem skipws_eq_nil (x : List Nat) : impl.skipws x = [] ↔ ∀ c ∈ x, is_ws c := by
  induction x with
  | nil => simp [impl.skipws]
  | cons c x ih =>
    by_cases h : is_ws c
    · rw [skipws_cons_ws _ _ h, ih]; simp [h]
    · rw [skipws_cons_not_ws _ _ h]; simp [h]

theorem skipws_append (x w : List Nat) (h : impl.skipws x ≠ []) :
    impl.skipws (x ++ w) = impl.skipws x ++ w := by
  induction x with
  | nil => simp [impl.skipws] at h
  | cons c x ih =>
    by_cases hc : is_ws c
    · rw [List.cons_append, skipws_cons_ws _ _ hc, skipws_cons_ws _ _ hc]
      rw [skipws_cons_ws _ _ hc] at h
      exact ih h
    · rw [List.cons_append, skipws_cons_not_ws _ _ hc, skipws_cons_not_ws _ _ hc]
      rfl

theorem skipws_head_not_ws (x : List Nat) (c : Nat) (rest : List Nat)
    (h : impl.skipws x = c :: rest) : ¬ is_ws c := by
  induction x with
  | nil => simp [impl.skipws] at h
  | cons d x ih =>
    by_cases hd : is_ws d
    · rw [skipws_cons_ws _ _ hd] at h; exact ih h
    · rw [skipws_cons_not_ws _ _ hd] at h
      simp only [List.cons.injEq] at h
      rw [← h.1]; exact hd

theorem skipws_length_le (x : List Nat) : (impl.skipws x).length ≤ x.length := by
  induction x with
  | nil => simp [impl.skipws]
  | cons d x ih =>
    by_cases hd : is_ws d
    · rw [skipws_cons_ws _ _ hd]; simp; omega
    · rw [skipws_cons_not_ws _ _ hd]

theorem skipws_idem (x : List Nat) : impl.skipws (impl.skipws x) = impl.skipws x := by
  induction x with
  | nil => rfl
  | cons d x ih =>
    by_cases hd : is_ws d
    · rw [skipws_cons_ws _ _ hd]; exact ih
    · rw [skipws_cons_not_ws _ _ hd, skipws_cons_not_ws _ _ hd]

/-! ## Keywords -/

theorem accept_eq_some (ks it it' : List Nat) :
    impl.accept ks it = some it' ↔ it = ks ++ it' := by
  induction ks generalizing it with
  | nil => simp [impl.accept, eq_comm]
  | cons k ks ih =>
    cases it with
    | nil => simp [impl.accept]
    | cons c rest =>
      by_cases h : c = k
      · subst h; simp [impl.accept, ih]
      · simp [impl.accept, h]

theorem accept_eq_none (ks it : List Nat) :
    impl.accept ks it = none ↔ it.take ks.length ≠ ks := by
  induction ks generalizing it with
  | nil => simp [impl.accept]
  | cons k ks ih =>
    cases it with
    | nil => simp [impl.accept]
    | cons c rest =>
      by_cases h : c = k
      · subst h; simp [impl.accept, ih]
      · simp [impl.accept, h]

theorem parse_fragment_cons (c : Nat) (it : List Nat) :
    impl.parse_fragment ops (c :: it) = impl.parse_fragment_aux ops (2 * it.length + 2 + 1) (c :: it) := by
  simp only [impl.parse_fragment, List.length_cons]
  congr 1

/-- C6: `parse` reads the three keywords, and an input that starts with `n`, `t` or `f`
and does not continue as the keyword (a misspelling, or a text that ends early) fails with
the parser error "invalid json data", returning no value. -/
theorem keywords :
    parse ops (ascii "null") = .ok .null ∧
    parse ops (ascii "true") = .ok (.bool true) ∧
    parse ops (ascii "false") = .ok (.bool false) ∧
    (∀ rest, (0x6e :: rest).take 4 ≠ ascii "null" →
      parse ops (0x6e :: rest) = .error (.parser .invalid_json_data)) ∧
    (∀ rest, (0x74 :: rest).take 4 ≠ ascii "true" →
      parse ops (0x74 :: rest) = .error (.parser .invalid_json_data)) ∧
    (∀ rest, (0x66 :: rest).take 5 ≠ ascii "false" →
      parse ops (0x66 :: rest) = .error (.parser .invalid_json_data)) := by
  refine ⟨rfl, rfl, rfl, fun rest h => ?_, fun rest h => ?_, fun rest h => ?_⟩
  · have hn : impl.accept (ascii "ull") rest = none := by
      rw [accept_eq_none]
      intro e
      apply h
      simp only [List.take_succ_cons]
      change rest.take 3 = ascii "ull" at e
      rw [e]; rfl
    rw [parse, skipws_cons_not_ws _ _ (by decide), impl.parse, parse_fragment_cons]
    simp [impl.parse_fragment_aux, hn]
  · have hn : impl.accept (ascii "rue") rest = none := by
      rw [accept_eq_none]
      intro e
      apply h
      simp only [List.take_succ_cons]
      change rest.take 3 = ascii "rue" at e
      rw [e]; rfl
    rw [parse, skipws_cons_not_ws _ _ (by decide), impl.parse, parse_fragment_cons]
    simp [impl.parse_fragment_aux, hn]
  · have hn : impl.accept (ascii "alse") rest = none := by
      rw [accept_eq_none]
      intro e
      apply h
      simp only [List.take_succ_cons]
      change rest.take 4 = ascii "alse" at e
      rw [e]; rfl
    rw [parse, skipws_cons_not_ws _ _ (by decide), impl.parse, parse_fragment_cons]
    simp [impl.parse_fragment_aux, hn]

/-- C6 at the truncated keyword `tru` and the misspelling `nul1`. -/
theorem keywords_witness :
    parse text_float (ascii "tru") = .error (.parser .invalid_json_data) ∧
    parse text_float (ascii "nul1") = .error (.parser .invalid_json_data) :=
  ⟨(keywords text_float).2.2.2.2.1 (ascii "ru") (by decide),
   (keywords text_float).2.2.2.1 (ascii "ul1") (by decide)⟩

/-! ## Digit runs -/

theorem skip_digits_cons_digit (c : Nat) (rest : List Nat) (h : is_digit c) :
    impl.skip_digits (c :: rest) = impl.skip_digits rest := by
  unfold is_digit at h
  simp [impl.skip_digits, h]

theorem skip_digits_cons_stop (c : Nat) (rest : List Nat) (h : ¬ is_digit c) :
    impl.skip_digits (c :: rest) = c :: rest := by
  unfold is_digit at h
  simp [impl.skip_digits, h]

theorem skip_digits_append (ds rest : List Nat) (h : ∀ d ∈ ds, is_digit d) :
    impl.skip_digits (ds ++ rest) = impl.skip_digits rest := by
  induction ds with
  | nil => rfl
  | cons d ds ih =>
    rw [List.cons_append, skip_digits_cons_digit _ _ (h d (by simp))]
    exact ih (fun x hx => h x (by simp [hx]))

theorem skip_digits_stop (rest : List Nat) (h : ∀ c, rest.head? = some c → ¬ is_digit c) :
    impl.skip_digits rest = rest := by
  cases rest with
  | nil => rfl
  | cons c r => exact skip_digits_cons_stop _ _ (h c rfl)

/-- The digit loop splits its input into the digits it passes and the text it stops at. -/
theorem skip_digits_split (x : List Nat) :
    ∃ ds, (∀ d ∈ ds, is_digit d) ∧ x = ds ++ impl.skip_digits x ∧
      ∀ c, (impl.skip_digits x).head? = some c → ¬ is_digit c := by
  induction x with
  | nil => exact ⟨[], by simp, rfl, by simp [impl.skip_digits]⟩
  | cons c x ih =>
    by_cases h : is_digit c
    · obtain ⟨ds, h1, h2, h3⟩ := ih
      refine ⟨c :: ds, ?_, ?_, ?_⟩
      · intro d hd
        rcases List.mem_cons.mp hd with rfl | hd
        · exact h
        · exact h1 d hd
      · rw [skip_digits_cons_digit _ _ h, List.cons_append, ← h2]
      · rw [skip_digits_cons_digit _ _ h]; exact h3
    · refine ⟨[], by simp, by rw [skip_digits_cons_stop _ _ h]; rfl, ?_⟩
      rw [skip_digits_cons_stop _ _ h]
      intro d hd
      simp only [List.head?_cons, Option.some.injEq] at hd
      rw [← hd]; exact h

theorem distance_append (ds rest : List Nat) : distance (ds ++ rest) rest = ds.length := by
  simp [distance]

theorem range_append (ds rest : List Nat) : range (ds ++ rest) rest = ds := by
  simp [range, distance]

theorem foldl_decimal (ds : List Nat) (acc : Nat) :
    ds.foldl (fun acc d => acc * 10 + (d - 0x30)) acc = acc * 10 ^ ds.length + decimal_value ds := by
  induction ds generalizing acc with
  | nil => simp [decimal_value]
  | cons d ds ih =>
    simp only [List.foldl_cons, ih, decimal_value, List.length_cons, pow_succ]
    ring

theorem stoll_digits (ds : List Nat) (hne : ds ≠ []) (hd : ∀ d ∈ ds, is_digit d) :
    stoll ds = if decimal_value ds ≤ 2 ^ 63 - 1 then .ok (Int.ofNat (decimal_value ds))
      else .error .conversion := by
  have h : ¬ (ds = [] ∨ ¬ ∀ d ∈ ds, 0x30 ≤ d ∧ d ≤ 0x39) := by
    intro h
    rcases h with h | h
    · exact hne h
    · exact h hd
  simp only [stoll, h, if_false, foldl_decimal, Nat.zero_mul, Nat.zero_add]

theorem parse_fragment_aux_number (n c : Nat) (it : List Nat)
    (h : is_digit c ∨ c = 0x2b ∨ c = 0x2d ∨ c = 0x2e) :
    impl.parse_fragment_aux ops (n + 1) (c :: it) = impl.parse_number ops (c :: it) := by
  unfold is_digit at h
  have h1 : c ≠ 0x6e := by omega
  have h2 : c ≠ 0x66 := by omega
  have h3 : c ≠ 0x74 := by omega
  have h4 : c ≠ 0x22 := by omega
  have h5 : c ≠ 0x5b := by omega
  have h6 : c ≠ 0x7b := by omega
  simp only [impl.parse_fragment_aux, h1, h2, h3, h4, h5, h6, if_false, h, if_true]

/-- The numeric case on a run of digits that the following text does not continue. -/
theorem parse_number_digits (ds rest : List Nat) (hne : ds ≠ []) (hd : ∀ d ∈ ds, is_digit d)
    (hs : stops_number rest) (n : Int) (hn : stoll ds = .ok n) (sign : Int) (input : List Nat)
    (hin : (input = ds ++ rest ∧ sign = 1) ∨ (input = 0x2b :: (ds ++ rest) ∧ sign = 1)
      ∨ (input = 0x2d :: (ds ++ rest) ∧ sign = -1)) :
    impl.parse_number ops input = .ok (.int (sign * n), rest) := by
  have hskip : impl.skip_digits (ds ++ rest) = rest := by
    rw [skip_digits_append _ _ hd]
    exact skip_digits_stop _ (fun c hc => (hs c hc).1)
  have hmark : ¬ (rest.head? = some 0x2e ∨ rest.head? = some 0x65 ∨ rest.head? = some 0x45) := by
    intro h
    rcases h with h | h | h
    · exact (hs _ h).2.1 rfl
    · exact (hs _ h).2.2.1 rfl
    · exact (hs _ h).2.2.2 rfl
  have hdist : distance (ds ++ rest) rest ≠ 0 := by
    rw [distance_append]
    exact fun h => hne (List.length_eq_zero.mp h)
  have e0 : ¬ ((0x2d : Nat) = 0x2b) := by decide
  obtain ⟨d, ds', rfl⟩ := List.exists_cons_of_ne_nil hne
  have hdd : is_digit d := hd d (by simp)
  unfold is_digit at hdd
  rcases hin with ⟨rfl, rfl⟩ | ⟨rfl, rfl⟩ | ⟨rfl, rfl⟩
  · have e1 : d ≠ 0x2b := by omega
    have e2 : d ≠ 0x2d := by omega
    simp only [impl.parse_number, List.cons_append, e1, e2, if_false]
    rw [← List.cons_append, hskip]
    simp only [hmark, if_false, hdist, range_append, hn]
  · simp only [impl.parse_number, if_true]
    rw [hskip]
    simp only [hmark, if_false, hdist, range_append, hn]
  · simp only [impl.parse_number, if_true, e0, if_false]
    rw [hskip]
    simp only [hmark, if_false, hdist, range_append, hn]

theorem stops_number_nil : stops_number [] := by
  intro c h; simp at h

/-- C7: an optional `+` or `-` followed by a non-empty run of decimal digits whose
magnitude `m` is at most `2^63 - 1` parses to the Int `m`, or to `-m` when the sign
is `-`. -/
theorem integer_literal (ds : List Nat) (hne : ds ≠ []) (hd : ∀ d ∈ ds, is_digit d)
    (hm : decimal_value ds ≤ 2 ^ 63 - 1) :
    parse ops ds = .ok (.int (decimal_value ds)) ∧
    parse ops (0x2b :: ds) = .ok (.int (decimal_value ds)) ∧
    parse ops (0x2d :: ds) = .ok (.int (-(decimal_value ds : Int))) := by
  have hn : stoll ds = .ok (Int.ofNat (decimal_value ds)) := by
    rw [stoll_digits ds hne hd, if_pos hm]
  have key := fun sign input hin =>
    parse_number_digits ops ds [] hne hd stops_number_nil _ hn sign input hin
  simp only [List.append_nil] at key
  obtain ⟨d, ds', rfl⟩ := List.exists_cons_of_ne_nil hne
  have hdd : is_digit d := hd d (by simp)
  have hws : ¬ is_ws d := by unfold is_digit at hdd; unfold is_ws; omega
  refine ⟨?_, ?_, ?_⟩
  · rw [parse, skipws_cons_not_ws _ _ hws, impl.parse, parse_fragment_cons,
      parse_fragment_aux_number ops _ _ _ (Or.inl hdd), key 1 _ (Or.inl ⟨rfl, rfl⟩)]
    simp [impl.skipws]
  · rw [parse, skipws_cons_not_ws _ _ (by decide), impl.parse, parse_fragment_cons,
      parse_fragment_aux_number ops _ _ _ (Or.inr (Or.inl rfl)),
      key 1 _ (Or.inr (Or.inl ⟨rfl, rfl⟩))]
    simp [impl.skipws]
  · rw [parse, skipws_cons_not_ws _ _ (by decide), impl.parse, parse_fragment_cons,
      parse_fragment_aux_number ops _ _ _ (Or.inr (Or.inr (Or.inl rfl))),
      key (-1) _ (Or.inr (Or.inr ⟨rfl, rfl⟩))]
    simp [impl.skipws]

/-- C7 at the digits `9223372036854775807`, the largest magnitude it covers. -/
theorem integer_literal_witness :
    parse text_float (ascii "9223372036854775807") = .ok (.int 9223372036854775807) ∧
    parse text_float (ascii "+9223372036854775807") = .ok (.int 9223372036854775807) ∧
    parse text_float (ascii "-9223372036854775807") = .ok (.int (-9223372036854775807)) :=
  integer_literal text_float (ascii "9223372036854775807") (by decide) (by decide) (by decide)

theorem skipws_split (s : List Nat) : ∃ w, (∀ c ∈ w, is_ws c) ∧ s = w ++ impl.skipws s := by
  induction s with
  | nil => exact ⟨[], by simp, rfl⟩
  | cons c s ih =>
    by_cases h : is_ws c
    · obtain ⟨w, h1, h2⟩ := ih
      refine ⟨c :: w, ?_, ?_⟩
      · intro d hd
        rcases List.mem_cons.mp hd with rfl | hd
        · exact h
        · exact h1 d hd
      · rw [skipws_cons_ws _ _ h, List.cons_append, ← h2]
    · exact ⟨[], by simp, by rw [skipws_cons_not_ws _ _ h]; rfl⟩

/-- The two ways the numeric case returns: a Float after a period or exponent marker,
an Int with the cursor where the digits stop. -/
theorem parse_number_ok (c : Nat) (rest : List Nat) (v : value F) (it' : List Nat)
    (h : impl.parse_number ops (c :: rest) = .ok (v, it')) :
    ∃ digits_begin, (digits_begin = rest ∧ (c = 0x2b ∨ c = 0x2d) ∨ digits_begin = c :: rest) ∧
      ((v.get_type = .FLOAT ∧ ∃ m, (impl.skip_digits digits_begin).head? = some m
            ∧ (m = 0x2e ∨ m = 0x65 ∨ m = 0x45))
        ∨ (v.get_type = .INT ∧ it' = impl.skip_digits digits_begin)) := by
  simp only [impl.parse_number] at h
  refine ⟨if c = 0x2b then rest else if c = 0x2d then rest else c :: rest, ?_, ?_⟩
  · by_cases h1 : c = 0x2b
    · simp [h1]
    · by_cases h2 : c = 0x2d
      · simp [h2]
      · simp [h1, h2]
  · generalize (if c = 0x2b then rest else if c = 0x2d then rest else c :: rest) = db at h
    split at h
    · rename_i hm
      left
      refine ⟨?_, ?_⟩
      · split at h
        · simp at h
        · split at h
          · simp at h
          · split at h
            · simp at h
            · simp only [Except.ok.injEq, Prod.mk.injEq] at h
              rw [← h.1]; rfl
      · rcases hm with hm | hm | hm
        · exact ⟨_, hm, Or.inl rfl⟩
        · exact ⟨_, hm, Or.inr (Or.inl rfl)⟩
        · exact ⟨_, hm, Or.inr (Or.inr rfl)⟩
    · right
      split at h
      · simp at h
      · split at h
        · simp at h
        · simp only [Except.ok.injEq, Prod.mk.injEq] at h
          exact ⟨by rw [← h.1]; rfl, h.2.symm⟩

/-- C8: when `parse` accepts a text whose first significant byte starts a number (a
digit, a sign or a period), the value is a Float exactly when the text holds a period
or an exponent marker `e` or `E`, and an Int otherwise. -/
theorem number_type (s : List Nat) (v : value F) (c : Nat) (rest : List Nat)
    (hstart : impl.skipws s = c :: rest)
    (hc : is_digit c ∨ c = 0x2b ∨ c = 0x2d ∨ c = 0x2e)
    (hv : parse ops s = .ok v) :
    (v.get_type = .FLOAT ↔ (0x2e ∈ s ∨ 0x65 ∈ s ∨ 0x45 ∈ s)) ∧
    (v.get_type ≠ .FLOAT → v.get_type = .INT) := by
  obtain ⟨w, hw, hsplit⟩ := skipws_split s
  rw [hstart] at hsplit
  rw [parse, hstart, impl.parse, parse_fragment_cons, parse_fragment_aux_number ops _ _ _ hc] at hv
  cases hp : impl.parse_number ops (c :: rest) with
  | error e => rw [hp] at hv; simp at hv
  | ok r =>
    obtain ⟨v', it'⟩ := r
    rw [hp] at hv
    simp only at hv
    split at hv
    · simp at hv
    · rename_i hnil
      simp only [ne_eq, Decidable.not_not] at hnil
      simp only [Except.ok.injEq] at hv
      subst hv
      obtain ⟨db, hdb, hcase⟩ := parse_number_ok ops c rest v' it' hp
      obtain ⟨ds, hds, hsp, _⟩ := skip_digits_split db
      have hdb_mem : ∀ x, x ∈ db → x ∈ s := by
        intro x hx
        rw [hsplit]
        rcases hdb with ⟨rfl, _⟩ | rfl
        · simp [hx]
        · exact List.mem_append_right _ hx
      rcases hcase with ⟨hf, m, hm, hmm⟩ | ⟨hi, hit⟩
      · have hmem : m ∈ s := by
          apply hdb_mem
          rw [hsp]
          apply List.mem_append_right
          exact List.mem_of_mem_head? hm
        have hany : 0x2e ∈ s ∨ 0x65 ∈ s ∨ 0x45 ∈ s := by
          rcases hmm with rfl | rfl | rfl
          · exact Or.inl hmem
          · exact Or.inr (Or.inl hmem)
          · exact Or.inr (Or.inr hmem)
        exact ⟨⟨fun _ => hany, fun _ => hf⟩, fun h => absurd hf h⟩
      · refine ⟨?_, fun _ => hi⟩
        rw [hi]
        have hall : ∀ x ∈ s, x ≠ 0x2e ∧ x ≠ 0x65 ∧ x ≠ 0x45 := by
          have hws : ∀ x, is_ws x → x ≠ 0x2e ∧ x ≠ 0x65 ∧ x ≠ 0x45 := by
            intro x hx; unfold is_ws at hx; omega
          have hdg : ∀ x, is_digit x → x ≠ 0x2e ∧ x ≠ 0x65 ∧ x ≠ 0x45 := by
            intro x hx; unfold is_digit at hx; omega
          have hrest : ∀ x ∈ it', is_ws x := (skipws_eq_nil it').mp hnil
          have hdbx : ∀ x ∈ db, x ≠ 0x2e ∧ x ≠ 0x65 ∧ x ≠ 0x45 := by
            intro x hx
            rw [hsp, ← hit] at hx
            rcases List.mem_append.mp hx with hx | hx
            · exact hdg x (hds x hx)
            · exact hws x (hrest x hx)
          intro x hx
          rw [hsplit] at hx
          rcases List.mem_append.mp hx with hx | hx
          · exact hws x (hw x hx)
          · rcases hdb with ⟨rfl, hsign⟩ | rfl
            · rcases List.mem_cons.mp hx with rfl | hx
              · omega
              · exact hdbx x hx
            · exact hdbx x hx
        constructor
        · intro h; cases h
        · intro h
          rcases h with h | h | h
          · exact absurd rfl (hall _ h).1
          · exact absurd rfl (hall _ h).2.1
          · exact absurd rfl (hall _ h).2.2

/-- C8 at the texts `1.5e3` (a Float) and ` -12 ` (an Int). -/
theorem number_type_witness :
    (((value.float (⟨1, ascii "1.5e3"⟩ : float_text)).get_type = .FLOAT
        ↔ (0x2e ∈ ascii "1.5e3" ∨ 0x65 ∈ ascii "1.5e3" ∨ 0x45 ∈ ascii "1.5e3")) ∧
      ((value.float (⟨1, ascii "1.5e3"⟩ : float_text)).get_type ≠ .FLOAT →
        (value.float (⟨1, ascii "1.5e3"⟩ : float_text)).get_type = .INT)) ∧
    (((value.int (-12) : value float_text).get_type = .FLOAT
        ↔ (0x2e ∈ ascii " -12 " ∨ 0x65 ∈ ascii " -12 " ∨ 0x45 ∈ ascii " -12 ")) ∧
      ((value.int (-12) : value float_text).get_type ≠ .FLOAT →
        (value.int (-12) : value float_text).get_type = .INT)) :=
  ⟨number_type text_float (ascii "1.5e3") _ 0x31 (ascii ".5e3") rfl (by decide) rfl,
   number_type text_float (ascii " -12 ") _ 0x2d (ascii "12 ") rfl (by decide) rfl⟩

theorem parse_number_point_after_digits :
    impl.parse_number ops (ascii "1.") =
      match ops.stod (ascii "1.") with
      | none => .error .conversion
      | some x => .ok (.float (ops.mul 1 x), []) := rfl

/-- Whatever `stod` does with the text `1.`, the parser itself raises no error for it. -/
theorem point_after_digits_any_stod :
    parse ops (ascii "1.") =
      match ops.stod (ascii "1.") with
      | none => .error .conversion
      | some x => .ok (.float (ops.mul 1 x)) := by
  have h : parse ops (ascii "1.") =
      match impl.parse_number ops (ascii "1.") with
      | .error e => .error e
      | .ok (result, it) =>
        if impl.skipws it ≠ [] then .error (.parser .additional_data) else .ok result := rfl
  rw [h, parse_number_point_after_digits]
  cases ops.stod (ascii "1.") <;> rfl

theorem parse_exponent_fails (m : Nat) (tail : List Nat) (hm : m = 0x65 ∨ m = 0x45)
    (ht : lacks_exponent_digits tail) :
    ∃ e, impl.parse_exponent (m :: tail) = .error (.parser e) := by
  simp only [impl.parse_exponent, hm, if_true]
  cases tail with
  | nil => exact ⟨_, rfl⟩
  | cons s it2 =>
    simp only [lacks_exponent_digits] at ht
    by_cases hs : s = 0x2b ∨ s = 0x2d
    · simp only [hs, if_true] at ht ⊢
      cases it2 with
      | nil => exact ⟨_, rfl⟩
      | cons d it3 =>
        have hd : ¬ is_digit d := ht d rfl
        unfold is_digit at hd
        have : d < 0x30 ∨ d > 0x39 := by omega
        simp only [this, if_true]
        exact ⟨_, rfl⟩
    · simp only [hs, if_false] at ht ⊢
      unfold is_digit at ht
      have : s < 0x30 ∨ s > 0x39 := by omega
      simp only [this, if_true]
      exact ⟨_, rfl⟩

theorem parse_error_of_fragment (t : List Nat) (e : exn)
    (h : impl.parse_fragment ops t = .error e) : impl.parse ops t = .error e := by
  simp only [impl.parse, h]

/-- A number whose exponent marker is followed by no digit is refused. -/
theorem parse_number_exponent_fails (sp ds frac tail : List Nat) (m : Nat)
    (hsp : sp = [] ∨ sp = [0x2b] ∨ sp = [0x2d]) (hds : ∀ d ∈ ds, is_digit d)
    (hfrac : frac = [] ∨ ∃ fs, frac = 0x2e :: fs ∧ ∀ d ∈ fs, is_digit d)
    (hm : m = 0x65 ∨ m = 0x45) (ht : lacks_exponent_digits tail)
    (c : Nat) (rest : List Nat) (hin : sp ++ (ds ++ (frac ++ m :: tail)) = c :: rest)
    (hc : is_digit c ∨ c = 0x2b ∨ c = 0x2d ∨ c = 0x2e) :
    ∃ e, impl.parse_number ops (c :: rest) = .error (.parser e) := by
  have hmd : ¬ is_digit m := by unfold is_digit; omega
  -- the cursor `digits_begin`
  have hdb : (if c = 0x2b then rest else if c = 0x2d then rest else c :: rest)
      = ds ++ (frac ++ m :: tail) := by
    rcases hsp with rfl | rfl | rfl
    · simp only [List.nil_append] at hin
      have h1 : c ≠ 0x2b := by
        intro h; subst h
        cases ds with
        | nil =>
          rcases hfrac with rfl | ⟨fs, rfl, _⟩
          · simp at hin; omega
          · simp at hin
        | cons d ds' =>
          simp at hin
          have := hds d (by simp)
          unfold is_digit at this; omega
      have h2 : c ≠ 0x2d := by
        intro h; subst h
        cases ds with
        | nil =>
          rcases hfrac with rfl | ⟨fs, rfl, _⟩
          · simp at hin; omega
          · simp at hin
        | cons d ds' =>
          simp at hin
          have := hds d (by simp)
          unfold is_digit at this; omega
      simp only [h1, h2, if_false, hin]
    · simp only [List.singleton_append, List.cons.injEq] at hin
      simp [← hin.1, hin.2]
    · simp only [List.singleton_append, List.cons.injEq] at hin
      simp [← hin.1, hin.2]
  have hskip : impl.skip_digits (ds ++ (frac ++ m :: tail)) = frac ++ m :: tail := by
    rw [skip_digits_append _ _ hds]
    apply skip_digits_stop
    intro x hx
    rcases hfrac with rfl | ⟨fs, rfl, _⟩
    · simp at hx; rw [← hx]; exact hmd
    · simp at hx; rw [← hx]; unfold is_digit; omega
  have hmark : (frac ++ m :: tail).head? = some 0x2e ∨ (frac ++ m :: tail).head? = some 0x65
      ∨ (frac ++ m :: tail).head? = some 0x45 := by
    rcases hfrac with rfl | ⟨fs, rfl, _⟩
    · rcases hm with rfl | rfl <;> simp
    · simp
  simp only [impl.parse_number, hdb, hskip, hmark, if_true]
  obtain ⟨e, he⟩ := parse_exponent_fails m tail hm ht
  rcases hfrac with rfl | ⟨fs, rfl, hfs⟩
  · have hne : m ≠ 0x2e := by omega
    simp only [List.nil_append, impl.parse_fraction, hne, if_false, he]
    exact ⟨_, rfl⟩
  · have hsk : impl.skip_digits (fs ++ m :: tail) = m :: tail := by
      rw [skip_digits_append _ _ hfs]
      exact skip_digits_cons_stop _ _ hmd
    simp only [List.cons_append, impl.parse_fraction, if_true, hsk]
    by_cases hdist : distance (ds ++ 0x2e :: (fs ++ m :: tail)) (m :: tail) = 1
    · simp only [hdist, if_true]
      exact ⟨_, rfl⟩
    · simp only [hdist, if_false, he]
      exact ⟨_, rfl⟩

/-- C9, as stated, fails at `1.`: a period after a digit needs no digit behind it. The
text goes to `stod`, and whatever `stod` does with it, no parser error is raised. -/
theorem point_after_digits_accepted :
    parse text_float (ascii "1.") = .ok (.float ⟨1, ascii "1."⟩) ∧
    ∀ (G : Type) (o : float_ops G) (e : parser_error),
      parse o (ascii "1.") ≠ .error (.parser e) := by
  refine ⟨rfl, fun G o e => ?_⟩
  rw [point_after_digits_any_stod]
  cases o.stod (ascii "1.") <;> simp [impl.skipws]

theorem parse_number_bare_point (rest : List Nat) (c : Nat) (it : List Nat)
    (hr : ∀ d, rest.head? = some d → ¬ is_digit d)
    (hin : (c :: it = 0x2e :: rest) ∨ (c :: it = 0x2b :: 0x2e :: rest)
      ∨ (c :: it = 0x2d :: 0x2e :: rest)) :
    impl.parse_number ops (c :: it) = .error (.parser .invalid_json_data) := by
  have hdb : (if c = 0x2b then it else if c = 0x2d then it else c :: it) = 0x2e :: rest := by
    rcases hin with h | h | h
    · simp only [List.cons.injEq] at h
      obtain ⟨rfl, rfl⟩ := h
      simp
    · simp only [List.cons.injEq] at h
      obtain ⟨rfl, rfl⟩ := h
      simp
    · simp only [List.cons.injEq] at h
      obtain ⟨rfl, rfl⟩ := h
      simp
  have hskip : impl.skip_digits (0x2e :: rest) = 0x2e :: rest :=
    skip_digits_cons_stop _ _ (by decide)
  have hskip2 : impl.skip_digits rest = rest := skip_digits_stop _ hr
  have hdist : distance (0x2e :: rest) rest = 1 := by simp [distance]
  simp only [impl.parse_number, hdb, hskip, List.head?_cons, true_or, if_true,
    impl.parse_fraction, hskip2, hdist]

/-- C9 (amended): a number whose period has no digit before it and none after it is
refused with "invalid json data"; and a number whose exponent marker is not followed,
after an optional sign, by a digit is refused with a parser error. (A period after
digits needs no digit behind it.) -/
theorem malformed_number_refused :
    (∀ sp rest, (sp = [] ∨ sp = [0x2b] ∨ sp = [0x2d]) →
        (∀ d, rest.head? = some d → ¬ is_digit d) →
        parse ops (sp ++ 0x2e :: rest) = .error (.parser .invalid_json_data)) ∧
    (∀ sp ds frac tail m, (sp = [] ∨ sp = [0x2b] ∨ sp = [0x2d]) →
        (∀ d ∈ ds, is_digit d) →
        (frac = [] ∨ ∃ fs, frac = 0x2e :: fs ∧ ∀ d ∈ fs, is_digit d) →
        (m = 0x65 ∨ m = 0x45) → lacks_exponent_digits tail →
        ∃ e, parse ops (sp ++ (ds ++ (frac ++ m :: tail))) = .error (.parser e)) := by
  constructor
  · intro sp rest hsp hr
    obtain ⟨c, it, hc, hin⟩ : ∃ c it, (c = 0x2e ∨ c = 0x2b ∨ c = 0x2d) ∧
        sp ++ 0x2e :: rest = c :: it := by
      rcases hsp with rfl | rfl | rfl
      · exact ⟨_, _, Or.inl rfl, rfl⟩
      · exact ⟨_, _, Or.inr (Or.inl rfl), rfl⟩
      · exact ⟨_, _, Or.inr (Or.inr rfl), rfl⟩
    have hws : ¬ is_ws c := by unfold is_ws; omega
    have hstart : is_digit c ∨ c = 0x2b ∨ c = 0x2d ∨ c = 0x2e := by omega
    rw [hin, parse, skipws_cons_not_ws _ _ hws]
    apply parse_error_of_fragment
    rw [parse_fragment_cons, parse_fragment_aux_number ops _ _ _ hstart]
    apply parse_number_bare_point ops rest c it hr
    rcases hsp with rfl | rfl | rfl
    · exact Or.inl hin.symm
    · exact Or.inr (Or.inl hin.symm)
    · exact Or.inr (Or.inr hin.symm)
  · intro sp ds frac tail m hsp hds hfrac hm ht
    cases hin : sp ++ (ds ++ (frac ++ m :: tail)) with
    | nil => simp at hin
    | cons c it =>
      by_cases hstart : is_digit c ∨ c = 0x2b ∨ c = 0x2d ∨ c = 0x2e
      · have hws : ¬ is_ws c := by unfold is_ws; unfold is_digit at hstart; omega
        obtain ⟨e, he⟩ := parse_number_exponent_fails ops sp ds frac tail m hsp hds hfrac hm ht
          c it hin hstart
        refine ⟨e, ?_⟩
        rw [parse, skipws_cons_not_ws _ _ hws]
        apply parse_error_of_fragment
        rw [parse_fragment_cons, parse_fragment_aux_number ops _ _ _ hstart, he]
      · have hcm : c = m := by
          rcases hsp with rfl | rfl | rfl
          · cases ds with
            | nil =>
              rcases hfrac with rfl | ⟨fs, rfl, _⟩
              · simp at hin; exact hin.1.symm
              · simp at hin; exact absurd (Or.inr (Or.inr (Or.inr hin.1.symm))) hstart
            | cons d ds' =>
              simp at hin
              exact absurd (Or.inl (hin.1 ▸ hds d (by simp))) hstart
          · simp at hin; exact absurd (Or.inr (Or.inl hin.1.symm)) hstart
          · simp at hin; exact absurd (Or.inr (Or.inr (Or.inl hin.1.symm))) hstart
        subst hcm
        have hws : ¬ is_ws c := by unfold is_ws; omega
        refine ⟨.invalid_json_data, ?_⟩
        rw [parse, skipws_cons_not_ws _ _ hws]
        apply parse_error_of_fragment
        rw [parse_fragment_cons]
        rcases hm with rfl | rfl <;> rfl

/-- C9 (amended) at the texts `-.` and `1.5e+`. -/
theorem malformed_number_refused_witness :
    parse text_float ([0x2d] ++ 0x2e :: []) = .error (.parser .invalid_json_data) ∧
    ∃ e, parse text_float ([] ++ (ascii "1" ++ (ascii ".5" ++ 0x65 :: ascii "+")))
      = .error (.parser e) :=
  ⟨(malformed_number_refused text_float).1 [0x2d] [] (by decide) (by decide),
   (malformed_number_refused text_float).2 [] (ascii "1") (ascii ".5") (ascii "+") 0x65
     (by decide) (by decide) (Or.inr ⟨ascii "5", rfl, by decide⟩) (by decide)
     (by simp [lacks_exponent_digits, ascii])⟩

theorem parse_number_exponent_only :
    impl.parse_number ops (ascii "-e5") =
      match ops.stod (ascii "e5") with
      | none => .error .conversion
      | some x => .ok (.float (ops.mul (-1) x), []) := rfl

/-- C10: on `-e5` and `+E1`, numbers with no digit before the exponent marker, the
parser raises no error of its own: the text after the sign goes to `stod`. With a
`stod` that refuses it, as `strtod` does, `parse` ends with the exception of
`stod`; and whatever `stod` does, the outcome is never a `parser_error`. -/
theorem exponent_without_mantissa :
    parse text_float (ascii "-e5") = .error .conversion ∧
    parse text_float (ascii "+E1") = .error .conversion ∧
    ∀ (G : Type) (o : float_ops G) (e : parser_error),
      parse o (ascii "-e5") ≠ .error (.parser e) := by
  refine ⟨rfl, rfl, fun G o e => ?_⟩
  have h : parse o (ascii "-e5") =
      match impl.parse_number o (ascii "-e5") with
      | .error e => .error e
      | .ok (result, it) =>
        if impl.skipws it ≠ [] then .error (.parser .additional_data) else .ok result := rfl
  rw [h, parse_number_exponent_only]
  cases o.stod (ascii "e5") <;> simp [impl.skipws]

/-! ## The trailing-data error is raised by `impl::parse` only -/

theorem read4hex_loop_not_trailing (i rv : Nat) (it : List Nat) :
    impl.read4hex_loop i rv it ≠ .error (.parser .additional_data) := by
  induction i generalizing rv it with
  | zero => simp [impl.read4hex_loop]
  | succ i ih =>
    intro h
    unfold impl.read4hex_loop at h
    repeat' (first | (simp only [] at h; done) | simp only [] at h | split_ifs at h | split at h)
    all_goals first
      | (simp at h; done)
      | exact ih _ _ h

theorem read4hex_not_trailing (it : List Nat) :
    impl.read4hex it ≠ .error (.parser .additional_data) :=
  read4hex_loop_not_trailing 4 0 it

theorem unescape_surrogate_not_trailing (cp : Nat) (it : List Nat) :
    impl.unescape_surrogate cp it ≠ .error (.parser .additional_data) := by
  intro h
  unfold impl.unescape_surrogate at h
  repeat' (first | (simp only [] at h; done) | simp only [] at h | split_ifs at h | split at h)
  all_goals first
    | (simp at h; done)
    | (cases h; exact read4hex_not_trailing _ (by assumption))

theorem unescape_unicode_not_trailing (it : List Nat) :
    impl.unescape_unicode it ≠ .error (.parser .additional_data) := by
  intro h
  unfold impl.unescape_unicode at h
  repeat' (first | (simp only [] at h; done) | simp only [] at h | split_ifs at h | split at h)
  all_goals first
    | (simp at h; done)
    | exact unescape_surrogate_not_trailing _ _ h
    | (cases h; exact read4hex_not_trailing _ (by assumption))

theorem unescape_turn_not_trailing (c : Nat) (it : List Nat) :
    impl.unescape_turn c it ≠ .error (.parser .additional_data) := by
  intro h
  unfold impl.unescape_turn at h
  repeat' (first | (simp only [] at h; done) | simp only [] at h | split_ifs at h | split at h)
  all_goals first
    | (simp at h; done)
    | exact unescape_unicode_not_trailing _ h

theorem unescape_loop_not_trailing (fuel : Nat) (out it : List Nat) :
    impl.unescape_loop fuel out it ≠ .error (.parser .additional_data) := by
  induction fuel generalizing out it with
  | zero => simp [impl.unescape_loop]
  | succ fuel ih =>
    intro h
    unfold impl.unescape_loop at h
    repeat' (first | (simp only [] at h; done) | simp only [] at h | split_ifs at h | split at h)
    all_goals first
      | (simp at h; done)
      | exact ih _ _ h
      | (cases h; exact unescape_turn_not_trailing _ _ (by assumption))

theorem parse_fraction_not_trailing (db it : List Nat) :
    impl.parse_fraction db it ≠ .error (.parser .additional_data) := by
  intro h
  unfold impl.parse_fraction at h
  repeat' (first | (simp only [] at h; done) | simp only [] at h | split_ifs at h | split at h)
  all_goals first
    | (simp at h; done)

theorem parse_exponent_not_trailing (it : List Nat) :
    impl.parse_exponent it ≠ .error (.parser .additional_data) := by
  intro h
  unfold impl.parse_exponent at h
  repeat' (first | (simp only [] at h; done) | simp only [] at h | split_ifs at h | split at h)
  all_goals first
    | (simp at h; done)

theorem stoll_not_trailing (t : List Nat) : stoll t ≠ .error (.parser .additional_data) := by
  intro h
  unfold stoll at h
  repeat' (first | (simp only [] at h; done) | simp only [] at h | split_ifs at h | split at h)
  all_goals first
    | (simp at h; done)

theorem parse_number_not_trailing (input : List Nat) :
    impl.parse_number ops input ≠ .error (.parser .additional_data) := by
  intro h
  unfold impl.parse_number at h
  repeat' (first | (simp only [] at h; done) | simp only [] at h | split_ifs at h | split at h)
  all_goals first
    | (simp at h; done)
    | (cases h; exact parse_fraction_not_trailing _ _ (by assumption))
    | (cases h; exact parse_exponent_not_trailing _ (by assumption))
    | (cases h; exact stoll_not_trailing _ (by assumption))

theorem unescape_string_inplace_not_trailing (it : List Nat) :
    impl.unescape_string_inplace it ≠ .error (.parser .additional_data) :=
  unescape_loop_not_trailing _ _ _

theorem parse_aux_not_trailing (n : Nat) :
    (∀ it, impl.parse_fragment_aux ops n it ≠ .error (.parser .additional_data)) ∧
    (∀ arr it, impl.parse_array_loop ops n arr it ≠ .error (.parser .additional_data)) ∧
    (∀ obj it, impl.parse_object_loop ops n obj it ≠ .error (.parser .additional_data)) := by
  induction n with
  | zero =>
    refine ⟨fun it => ?_, fun arr it => ?_, fun obj it => ?_⟩
    · simp [impl.parse_fragment_aux]
    · simp [impl.parse_array_loop]
    · simp [impl.parse_object_loop]
  | succ n ih =>
    obtain ⟨ih1, ih2, ih3⟩ := ih
    refine ⟨fun it h => ?_, fun arr it h => ?_, fun obj it h => ?_⟩
    · unfold impl.parse_fragment_aux at h
      repeat' (first | (simp only [] at h; done) | simp only [] at h | split_ifs at h | split at h)
      all_goals first
        | (simp at h; done)
        | exact ih2 _ _ h
        | exact ih3 _ _ h
        | exact parse_number_not_trailing ops _ h
        | (cases h; exact unescape_string_inplace_not_trailing _ (by assumption))
    · unfold impl.parse_array_loop at h
      repeat' (first | (simp only [] at h; done) | simp only [] at h | split_ifs at h | split at h)
      all_goals first
        | (simp at h; done)
        | exact ih2 _ _ h
        | (cases h; exact ih1 _ (by assumption))
    · unfold impl.parse_object_loop at h
      repeat' (first | (simp only [] at h; done) | simp only [] at h | split_ifs at h | split at h)
      all_goals first
        | (simp at h; done)
        | exact ih3 _ _ h
        | (cases h; exact ih1 _ (by assumption))
        | (cases h; exact unescape_string_inplace_not_trailing _ (by assumption))

theorem parse_fragment_not_trailing (it : List Nat) :
    impl.parse_fragment ops it ≠ .error (.parser .additional_data) :=
  (parse_aux_not_trailing ops _).1 it

/-- C5: `parse` fails with "additional data at the end of json data" exactly when one
top-level value was read and, after the whitespace that follows it, at least one byte
of the input remains. The outcome is then this error, so no value is returned. -/
theorem trailing_data (s : List Nat) :
    parse ops s = .error (.parser .additional_data) ↔
      ∃ v rest, impl.parse_fragment ops (impl.skipws s) = .ok (v, rest)
        ∧ impl.skipws rest ≠ [] := by
  unfold parse impl.parse
  constructor
  · intro h
    split at h
    · cases h
      exact absurd (by assumption) (parse_fragment_not_trailing ops _)
    · rename_i v rest heq
      split_ifs at h with hr
      exact ⟨v, rest, heq, hr⟩
  · rintro ⟨v, rest, heq, hr⟩
    rw [heq]
    simp [hr]

/-! ## More input after the text that was read changes nothing -/

theorem read4hex_loop_ext (i rv : Nat) (it : List Nat) (v : Nat) (it' w : List Nat)
    (h : impl.read4hex_loop i rv it = .ok (v, it')) :
    impl.read4hex_loop i rv (it ++ w) = .ok (v, it' ++ w) := by
  induction i generalizing rv it with
  | zero =>
    simp only [impl.read4hex_loop, Except.ok.injEq, Prod.mk.injEq] at h ⊢
    exact ⟨h.1, by rw [h.2]⟩
  | succ i ih =>
    cases it with
    | nil => simp [impl.read4hex_loop] at h
    | cons c rest =>
      simp only [impl.read4hex_loop, List.cons_append] at h ⊢
      split_ifs at h ⊢
      · exact ih _ _ h
      · exact ih _ _ h
      · exact ih _ _ h

theorem read4hex_ext (it : List Nat) (v : Nat) (it' w : List Nat)
    (h : impl.read4hex it = .ok (v, it')) : impl.read4hex (it ++ w) = .ok (v, it' ++ w) :=
  read4hex_loop_ext 4 0 it v it' w h

theorem unescape_surrogate_ext (cp : Nat) (it bs it' w : List Nat)
    (h : impl.unescape_surrogate cp it = .ok (bs, it')) :
    impl.unescape_surrogate cp (it ++ w) = .ok (bs, it' ++ w) := by
  unfold impl.unescape_surrogate at h ⊢
  cases it with
  | nil => simp at h
  | cons b it =>
    simp only [List.cons_append] at h ⊢
    split_ifs at h ⊢
    cases it with
    | nil => simp at h
    | cons u it =>
      simp only [List.cons_append] at h ⊢
      split_ifs at h ⊢
      cases hr : impl.read4hex it with
      | error e => rw [hr] at h; simp at h
      | ok r =>
        obtain ⟨cp2, it2⟩ := r
        rw [hr] at h
        rw [read4hex_ext it cp2 it2 w hr]
        simp only at h ⊢
        split_ifs at h ⊢
        simp only [Except.ok.injEq, Prod.mk.injEq] at h ⊢
        exact ⟨h.1, by rw [h.2]⟩

theorem unescape_unicode_ext (it bs it' w : List Nat)
    (h : impl.unescape_unicode it = .ok (bs, it')) :
    impl.unescape_unicode (it ++ w) = .ok (bs, it' ++ w) := by
  unfold impl.unescape_unicode at h ⊢
  cases hr : impl.read4hex it with
  | error e => rw [hr] at h; simp at h
  | ok r =>
    obtain ⟨cp, it2⟩ := r
    rw [hr] at h
    rw [read4hex_ext it cp it2 w hr]
    simp only at h ⊢
    split_ifs at h ⊢
    · simp only [Except.ok.injEq, Prod.mk.injEq] at h ⊢
      exact ⟨h.1, by rw [h.2]⟩
    · simp only [Except.ok.injEq, Prod.mk.injEq] at h ⊢
      exact ⟨h.1, by rw [h.2]⟩
    · simp only [Except.ok.injEq, Prod.mk.injEq] at h ⊢
      exact ⟨h.1, by rw [h.2]⟩
    · exact unescape_surrogate_ext _ _ _ _ _ h

theorem unescape_turn_ext (c : Nat) (it bs it' w : List Nat)
    (h : impl.unescape_turn c it = .ok (bs, it')) :
    impl.unescape_turn c (it ++ w) = .ok (bs, it' ++ w) := by
  unfold impl.unescape_turn at h ⊢
  split_ifs at h ⊢
  · cases it with
    | nil => simp at h
    | cons esc it =>
      simp only [List.cons_append] at h ⊢
      split_ifs at h ⊢
      all_goals first
        | exact unescape_unicode_ext _ _ _ _ h
        | (simp only [Except.ok.injEq, Prod.mk.injEq] at h ⊢
           exact ⟨h.1, by rw [h.2]⟩)
  · simp only [Except.ok.injEq, Prod.mk.injEq] at h ⊢
    exact ⟨h.1, by rw [h.2]⟩

/-- A string literal that was read is read the same with more fuel and more input
behind it. -/
theorem unescape_loop_ext (n : Nat) (out it bs it' : List Nat)
    (h : impl.unescape_loop n out it = .ok (bs, it')) (m : Nat) (hm : n ≤ m) (w : List Nat) :
    impl.unescape_loop m out (it ++ w) = .ok (bs, it' ++ w) := by
  induction n generalizing out it m with
  | zero => simp [impl.unescape_loop] at h
  | succ n ih =>
    obtain ⟨m', rfl⟩ : ∃ m', m = m' + 1 := ⟨m - 1, by omega⟩
    cases it with
    | nil => simp [impl.unescape_loop] at h
    | cons c it =>
      simp only [impl.unescape_loop, List.cons_append] at h ⊢
      split_ifs at h ⊢
      · simp only [Except.ok.injEq, Prod.mk.injEq] at h ⊢
        exact ⟨h.1, by rw [h.2]⟩
      · cases ht : impl.unescape_turn c it with
        | error e => rw [ht] at h; simp at h
        | ok r =>
          obtain ⟨bytes, it2⟩ := r
          rw [ht] at h
          rw [unescape_turn_ext c it bytes it2 w ht]
          exact ih _ _ h m' (by omega)

theorem unescape_string_inplace_ext (it bs it' w : List Nat)
    (h : impl.unescape_string_inplace it = .ok (bs, it')) :
    impl.unescape_string_inplace (it ++ w) = .ok (bs, it' ++ w) := by
  unfold impl.unescape_string_inplace at h ⊢
  exact unescape_loop_ext _ _ _ _ _ h _ (by simp) w

theorem accept_ext (ks it it' w : List Nat) (h : impl.accept ks it = some it') :
    impl.accept ks (it ++ w) = some (it' ++ w) := by
  rw [accept_eq_some] at h ⊢
  rw [h, List.append_assoc]

theorem skip_digits_ext (x w : List Nat)
    (h : impl.skip_digits x = [] → ∀ c, w.head? = some c → ¬ is_digit c) :
    impl.skip_digits (x ++ w) = impl.skip_digits x ++ w := by
  induction x with
  | nil =>
    simp only [List.nil_append, impl.skip_digits]
    exact skip_digits_stop w (h rfl)
  | cons c x ih =>
    by_cases hc : is_digit c
    · rw [List.cons_append, skip_digits_cons_digit _ _ hc, skip_digits_cons_digit _ _ hc]
      rw [skip_digits_cons_digit _ _ hc] at h
      exact ih h
    · rw [List.cons_append, skip_digits_cons_stop _ _ hc, skip_digits_cons_stop _ _ hc]
      rfl

theorem distance_ext (a b w : List Nat) : distance (a ++ w) (b ++ w) = distance a b := by
  simp only [distance, List.length_append]
  omega

theorem range_ext (a b w : List Nat) : range (a ++ w) (b ++ w) = range a b := by
  simp only [range, distance_ext]
  exact List.take_append_of_le_length (by simp [distance])

theorem stops_digit_of_stops_number (w : List Nat) (h : stops_number w) :
    ∀ c, w.head? = some c → ¬ is_digit c := fun c hc => (h c hc).1

theorem parse_fraction_ext (db it it2 w : List Nat) (hne : it ≠ [])
    (h : impl.parse_fraction db it = .ok it2)
    (hw : it2 = [] → ∀ c, w.head? = some c → ¬ is_digit c) :
    impl.parse_fraction (db ++ w) (it ++ w) = .ok (it2 ++ w) := by
  cases it with
  | nil => exact absurd rfl hne
  | cons m it1 =>
    simp only [impl.parse_fraction, List.cons_append] at h ⊢
    split_ifs at h with hm hd
    · simp only [Except.ok.injEq] at h
      subst h
      rw [if_pos hm, skip_digits_ext _ _ hw, distance_ext, if_neg hd]
    · simp only [Except.ok.injEq] at h
      subst h
      rw [if_neg hm]
      rfl

theorem parse_exponent_nil_of_nil (it3 : List Nat) (h : impl.parse_exponent [] = .ok it3) :
    it3 = [] := by
  simp only [impl.parse_exponent, Except.ok.injEq] at h
  exact h.symm

theorem parse_exponent_ext (it2 it3 w : List Nat)
    (h : impl.parse_exponent it2 = .ok it3) (hw : it3 = [] → stops_number w) :
    impl.parse_exponent (it2 ++ w) = .ok (it3 ++ w) := by
  cases it2 with
  | nil =>
    have h3 := parse_exponent_nil_of_nil it3 h
    subst h3
    simp only [List.nil_append]
    cases w with
    | nil => rfl
    | cons c w' =>
      have := hw rfl c rfl
      simp only [impl.parse_exponent]
      rw [if_neg (by omega)]
  | cons m it1 =>
    simp only [impl.parse_exponent, List.cons_append] at h ⊢
    split_ifs at h with hm
    · cases it1 with
      | nil => simp at h
      | cons s it2' =>
        simp only [List.cons_append] at h ⊢
        by_cases hs : s = 0x2b ∨ s = 0x2d
        · simp only [hs, if_true] at h ⊢
          cases it2' with
          | nil => simp at h
          | cons d it3' =>
            simp only [List.cons_append] at h ⊢
            split_ifs at h ⊢
            simp only [Except.ok.injEq] at h ⊢
            subst h
            exact skip_digits_ext _ _ (fun he => stops_digit_of_stops_number w (hw he))
        · simp only [hs, if_false] at h ⊢
          split_ifs at h ⊢
          simp only [Except.ok.injEq] at h ⊢
          subst h
          exact skip_digits_ext _ _ (fun he => stops_digit_of_stops_number w (hw he))
    · rw [if_neg hm]
      simp only [Except.ok.injEq] at h
      subst h
      rfl

theorem head?_append_of_ne_nil (x w : List Nat) (h : x ≠ []) : (x ++ w).head? = x.head? := by
  cases x with
  | nil => exact absurd rfl h
  | cons a x => rfl

/-- C4, for the numeric case: more input behind a number that was read changes nothing,
as long as the number ran to the end of the input only if the new input does not
continue it. -/
theorem parse_number_ext (input : List Nat) (v : value F) (it' w : List Nat)
    (h : impl.parse_number ops input = .ok (v, it')) (hw : it' = [] → stops_number w) :
    impl.parse_number ops (input ++ w) = .ok (v, it' ++ w) := by
  cases input with
  | nil => simp [impl.parse_number] at h
  | cons c rest =>
    simp only [impl.parse_number, List.cons_append] at h ⊢
    have hdb : (if c = 0x2b then rest ++ w else if c = 0x2d then rest ++ w else c :: (rest ++ w))
        = (if c = 0x2b then rest else if c = 0x2d then rest else c :: rest) ++ w := by
      split_ifs <;> rfl
    rw [hdb]
    generalize (if c = 0x2b then rest else if c = 0x2d then rest else c :: rest) = db at h ⊢
    generalize (if c = 0x2b then (1 : Int) else if c = 0x2d then -1 else 1) = sign at h ⊢
    by_cases hmark : (impl.skip_digits db).head? = some 0x2e ∨
        (impl.skip_digits db).head? = some 0x65 ∨ (impl.skip_digits db).head? = some 0x45
    · have hne : impl.skip_digits db ≠ [] := by
        intro he; rw [he] at hmark; simp at hmark
      have hsk : impl.skip_digits (db ++ w) = impl.skip_digits db ++ w :=
        skip_digits_ext _ _ (fun he => absurd he hne)
      rw [if_pos hmark] at h
      rw [hsk, head?_append_of_ne_nil _ _ hne, if_pos hmark]
      cases hf : impl.parse_fraction db (impl.skip_digits db) with
      | error e => rw [hf] at h; simp at h
      | ok it2 =>
        rw [hf] at h
        simp only at h
        cases he : impl.parse_exponent it2 with
        | error e => rw [he] at h; simp at h
        | ok it3 =>
          rw [he] at h
          simp only at h
          cases hs : ops.stod (range db it3) with
          | none => rw [hs] at h; simp at h
          | some x =>
            rw [hs] at h
            simp only [Except.ok.injEq, Prod.mk.injEq] at h
            obtain ⟨hv, hit⟩ := h
            subst hit
            have h2 : it2 = [] → it3 = [] := by
              intro e2; subst e2; exact parse_exponent_nil_of_nil it3 he
            rw [parse_fraction_ext db _ it2 w hne hf
              (fun e2 => stops_digit_of_stops_number w (hw (h2 e2)))]
            simp only
            rw [parse_exponent_ext it2 it3 w he hw]
            simp only
            rw [range_ext, hs]
            simp only [hv]
    · rw [if_neg hmark] at h
      split_ifs at h with hd
      cases hst : stoll (range db (impl.skip_digits db)) with
      | error e => rw [hst] at h; simp at h
      | ok n =>
        rw [hst] at h
        simp only [Except.ok.injEq, Prod.mk.injEq] at h
        obtain ⟨hv, hit⟩ := h
        subst hit
        have hsk : impl.skip_digits (db ++ w) = impl.skip_digits db ++ w :=
          skip_digits_ext _ _ (fun he => stops_digit_of_stops_number w (hw he))
        have hmark' : ¬ ((impl.skip_digits db ++ w).head? = some 0x2e ∨
            (impl.skip_digits db ++ w).head? = some 0x65 ∨
            (impl.skip_digits db ++ w).head? = some 0x45) := by
          by_cases he : impl.skip_digits db = []
          · rw [he, List.nil_append]
            intro hx
            have hs := hw he
            rcases hx with hx | hx | hx
            · exact (hs _ hx).2.1 rfl
            · exact (hs _ hx).2.2.1 rfl
            · exact (hs _ hx).2.2.2 rfl
          · rw [head?_append_of_ne_nil _ _ he]; exact hmark
        rw [hsk, if_neg hmark', distance_ext, if_neg hd, range_ext, hst]
        simp only [hv]

theorem skipws_cons_append (x w : List Nat) (d : Nat) (it2 : List Nat)
    (h : impl.skipws x = d :: it2) : impl.skipws (x ++ w) = d :: (it2 ++ w) := by
  rw [skipws_append x w (by rw [h]; simp), h]
  rfl

theorem parse_fragment_aux_nil (k : Nat) (r : value F × List Nat) :
    impl.parse_fragment_aux ops k [] ≠ .ok r := by
  cases k <;> simp [impl.parse_fragment_aux]

theorem parse_array_loop_nil (k : Nat) (arr : List (value F)) (r : value F × List Nat) :
    impl.parse_array_loop ops k arr [] ≠ .ok r := by
  cases k with
  | zero => simp [impl.parse_array_loop]
  | succ k =>
    intro h
    simp only [impl.parse_array_loop] at h
    cases hp : impl.parse_fragment_aux ops k [] with
    | error e => rw [hp] at h; simp at h
    | ok r' => exact parse_fragment_aux_nil ops k r' hp

/-- More fuel, and more input behind the text that was read, change nothing: for
`parse_fragment` as long as a value that ran to the end of the input is not continued by
the new input, for the array and object loops always. -/
theorem parse_aux_ext (n : Nat) :
    (∀ it v it', impl.parse_fragment_aux ops n it = .ok (v, it') →
      ∀ m, n ≤ m → ∀ w, (it' = [] → stops_number w) →
        impl.parse_fragment_aux ops m (it ++ w) = .ok (v, it' ++ w)) ∧
    (∀ arr it v it', impl.parse_array_loop ops n arr it = .ok (v, it') →
      ∀ m, n ≤ m → ∀ w, impl.parse_array_loop ops m arr (it ++ w) = .ok (v, it' ++ w)) ∧
    (∀ obj it v it', impl.parse_object_loop ops n obj it = .ok (v, it') →
      ∀ m, n ≤ m → ∀ w, impl.parse_object_loop ops m obj (it ++ w) = .ok (v, it' ++ w)) := by
  induction n with
  | zero =>
    refine ⟨fun it v it' h => ?_, fun arr it v it' h => ?_, fun obj it v it' h => ?_⟩
    · simp [impl.parse_fragment_aux] at h
    · simp [impl.parse_array_loop] at h
    · simp [impl.parse_object_loop] at h
  | succ n ih =>
    obtain ⟨ih1, ih2, ih3⟩ := ih
    refine ⟨fun it v it' h m hm w hw => ?_, fun arr it v it' h m hm w => ?_,
      fun obj it v it' h m hm w => ?_⟩
    · obtain ⟨m', rfl⟩ : ∃ m', m = m' + 1 := ⟨m - 1, by omega⟩
      have hm' : n ≤ m' := by omega
      cases it with
      | nil => simp [impl.parse_fragment_aux] at h
      | cons c it =>
        simp only [impl.parse_fragment_aux, List.cons_append] at h ⊢
        split_ifs at h ⊢
        · cases ha : impl.accept (ascii "ull") it with
          | none => rw [ha] at h; simp at h
          | some it2 =>
            rw [ha] at h
            simp only [Except.ok.injEq, Prod.mk.injEq] at h
            obtain ⟨rfl, rfl⟩ := h
            rw [accept_ext _ _ _ w ha]
        · cases ha : impl.accept (ascii "alse") it with
          | none => rw [ha] at h; simp at h
          | some it2 =>
            rw [ha] at h
            simp only [Except.ok.injEq, Prod.mk.injEq] at h
            obtain ⟨rfl, rfl⟩ := h
            rw [accept_ext _ _ _ w ha]
        · cases ha : impl.accept (ascii "rue") it with
          | none => rw [ha] at h; simp at h
          | some it2 =>
            rw [ha] at h
            simp only [Except.ok.injEq, Prod.mk.injEq] at h
            obtain ⟨rfl, rfl⟩ := h
            rw [accept_ext _ _ _ w ha]
        · cases hu : impl.unescape_string_inplace it with
          | error e => rw [hu] at h; simp at h
          | ok r =>
            obtain ⟨s, it2⟩ := r
            rw [hu] at h
            simp only [Except.ok.injEq, Prod.mk.injEq] at h
            obtain ⟨rfl, rfl⟩ := h
            rw [unescape_string_inplace_ext _ _ _ w hu]
        · cases hs : impl.skipws it with
          | nil => rw [hs] at h; simp at h
          | cons d it2 =>
            rw [hs] at h
            rw [skipws_cons_append _ w _ _ hs]
            simp only at h ⊢
            split_ifs at h ⊢
            · exact ih2 _ _ _ _ h m' hm' w
            · simp only [Except.ok.injEq, Prod.mk.injEq] at h ⊢
              exact ⟨h.1, by rw [h.2]⟩
        · cases hs : impl.skipws it with
          | nil => rw [hs] at h; simp at h
          | cons d it2 =>
            rw [hs] at h
            rw [skipws_cons_append _ w _ _ hs]
            simp only at h ⊢
            split_ifs at h ⊢
            · exact ih3 _ _ _ _ h m' hm' w
            · simp only [Except.ok.injEq, Prod.mk.injEq] at h ⊢
              exact ⟨h.1, by rw [h.2]⟩
        · exact parse_number_ext ops (c :: it) v it' w h hw
    · obtain ⟨m', rfl⟩ : ∃ m', m = m' + 1 := ⟨m - 1, by omega⟩
      have hm' : n ≤ m' := by omega
      simp only [impl.parse_array_loop] at h ⊢
      cases hp : impl.parse_fragment_aux ops n it with
      | error e => rw [hp] at h; simp at h
      | ok r =>
        obtain ⟨v1, it1⟩ := r
        rw [hp] at h
        simp only at h
        cases hs : impl.skipws it1 with
        | nil => rw [hs] at h; simp at h
        | cons d it2 =>
          rw [hs] at h
          have hne : it1 ≠ [] := by
            intro he; rw [he] at hs; simp [impl.skipws] at hs
          rw [ih1 _ _ _ hp m' hm' w (fun he => absurd he hne)]
          simp only
          rw [skipws_cons_append _ w _ _ hs]
          simp only at h ⊢
          split_ifs at h ⊢
          · simp only [Except.ok.injEq, Prod.mk.injEq] at h ⊢
            exact ⟨h.1, by rw [h.2]⟩
          · cases hs2 : impl.skipws it2 with
            | nil =>
              rw [hs2] at h
              exact absurd h (parse_array_loop_nil ops _ _ _)
            | cons d2 it3 =>
              rw [skipws_cons_append _ w _ _ hs2]
              rw [hs2] at h
              exact ih2 _ _ _ _ h m' hm' w
    · obtain ⟨m', rfl⟩ : ∃ m', m = m' + 1 := ⟨m - 1, by omega⟩
      have hm' : n ≤ m' := by omega
      cases it with
      | nil => simp [impl.parse_object_loop] at h
      | cons q it =>
        simp only [impl.parse_object_loop, List.cons_append] at h ⊢
        split_ifs at h ⊢
        cases hu : impl.unescape_string_inplace it with
        | error e => rw [hu] at h; simp at h
        | ok r =>
          obtain ⟨key, it1⟩ := r
          rw [hu] at h
          rw [unescape_string_inplace_ext _ _ _ w hu]
          simp only at h ⊢
          cases hs : impl.skipws it1 with
          | nil => rw [hs] at h; simp at h
          | cons c it2 =>
            rw [hs] at h
            rw [skipws_cons_append _ w _ _ hs]
            simp only at h ⊢
            split_ifs at h ⊢
            cases hs2 : impl.skipws it2 with
            | nil => rw [hs2] at h; simp at h
            | cons c1 it3 =>
              rw [hs2] at h
              rw [skipws_cons_append _ w _ _ hs2]
              simp only at h ⊢
              cases hp : impl.parse_fragment_aux ops n (c1 :: it3) with
              | error e => rw [hp] at h; simp at h
              | ok r =>
                obtain ⟨v1, it4⟩ := r
                rw [hp] at h
                simp only at h
                cases hs3 : impl.skipws it4 with
                | nil => rw [hs3] at h; simp at h
                | cons d it5 =>
                  rw [hs3] at h
                  have hne : it4 ≠ [] := by
                    intro he; rw [he] at hs3; simp [impl.skipws] at hs3
                  have := ih1 _ _ _ hp m' hm' w (fun he => absurd he hne)
                  rw [List.cons_append] at this
                  rw [this]
                  simp only
                  rw [skipws_cons_append _ w _ _ hs3]
                  simp only at h ⊢
                  split_ifs at h ⊢
                  · simp only [Except.ok.injEq, Prod.mk.injEq] at h ⊢
                    exact ⟨h.1, by rw [h.2]⟩
                  · cases hs4 : impl.skipws it5 with
                    | nil =>
                      rw [hs4] at h
                      cases n with
                      | zero => simp [impl.parse_object_loop] at h
                      | succ k => simp [impl.parse_object_loop] at h
                    | cons d2 it6 =>
                      rw [skipws_cons_append _ w _ _ hs4]
                      rw [hs4] at h
                      exact ih3 _ _ _ _ h m' hm' w

theorem stops_number_of_ws (w : List Nat) (h : ∀ c ∈ w, is_ws c) : stops_number w := by
  intro c hc
  have hws : is_ws c := h c (List.mem_of_mem_head? hc)
  unfold is_ws at hws
  unfold is_digit
  omega

/-- C4: when `parse` succeeds on a text with value `v`, it succeeds with the same value
on the text with whitespace (space, tab, LF, CR) put before and after it; and so does
`parse_destructive`. -/
theorem whitespace_around (s w1 w2 : List Nat) (v : value F)
    (h1 : ∀ c ∈ w1, is_ws c) (h2 : ∀ c ∈ w2, is_ws c) (h : parse ops s = .ok v) :
    parse ops (w1 ++ s ++ w2) = .ok v ∧
    parse_destructive ops s = .ok v ∧
    parse_destructive ops (w1 ++ s ++ w2) = .ok v := by
  have key : parse ops (w1 ++ s ++ w2) = .ok v := by
    unfold parse impl.parse at h ⊢
    cases hp : impl.parse_fragment ops (impl.skipws s) with
    | error e => rw [hp] at h; simp at h
    | ok r =>
      obtain ⟨v', r'⟩ := r
      rw [hp] at h
      simp only at h
      split_ifs at h with hr
      simp only [ne_eq, Decidable.not_not] at hr
      simp only [Except.ok.injEq] at h
      subst h
      have hne : impl.skipws s ≠ [] := by
        intro he
        rw [he] at hp
        exact parse_fragment_aux_nil ops _ _ hp
      have hsk : impl.skipws (w1 ++ s ++ w2) = impl.skipws s ++ w2 := by
        rw [List.append_assoc, skipws_all_ws _ _ h1, skipws_append _ _ hne]
      have hext : impl.parse_fragment ops (impl.skipws s ++ w2) = .ok (v', r' ++ w2) := by
        unfold impl.parse_fragment at hp ⊢
        exact (parse_aux_ext ops _).1 _ _ _ hp _ (by simp) w2
          (fun _ => stops_number_of_ws w2 h2)
      have hrest : impl.skipws (r' ++ w2) = [] := by
        rw [skipws_eq_nil] at hr ⊢
        intro c hc
        rcases List.mem_append.mp hc with hc | hc
        · exact hr c hc
        · exact h2 c hc
      rw [hsk, hext]
      simp [hrest]
  exact ⟨key, h, key⟩

/-- C4 at the text `[1, 2]` with a tab and a space before it and CR LF after it. -/
theorem whitespace_around_witness :
    parse text_float (ascii "\t " ++ ascii "[1, 2]" ++ ascii "\r\n")
      = .ok (.array [.int 1, .int 2]) ∧
    parse_destructive text_float (ascii "[1, 2]") = .ok (.array [.int 1, .int 2]) ∧
    parse_destructive text_float (ascii "\t " ++ ascii "[1, 2]" ++ ascii "\r\n")
      = .ok (.array [.int 1, .int 2]) :=
  whitespace_around text_float (ascii "[1, 2]") (ascii "\t ") (ascii "\r\n") _
    (by decide) (by decide) rfl

/-! ## Integers: what the writer prints, the parser reads -/

theorem decimal_value_snoc (ds : List Nat) (d : Nat) :
    decimal_value (ds ++ [d]) = decimal_value ds * 10 + (d - 0x30) := by
  induction ds with
  | nil => simp [decimal_value]
  | cons x ds ih =>
    rw [List.cons_append, decimal_value, decimal_value, ih, List.length_append,
      List.length_singleton, pow_succ]
    ring

theorem dec_digits_aux_spec (fuel n : Nat) (acc : List Nat) (h : n < fuel) :
    ∃ ds, dec_digits_aux fuel n acc = ds ++ acc ∧ ds ≠ [] ∧ (∀ d ∈ ds, is_digit d)
      ∧ decimal_value ds = n := by
  induction fuel generalizing n acc with
  | zero => omega
  | succ fuel ih =>
    simp only [dec_digits_aux]
    by_cases h10 : n < 10
    · refine ⟨[0x30 + n], by simp [h10], by simp, ?_, ?_⟩
      · intro d hd
        simp only [List.mem_singleton] at hd
        subst hd
        unfold is_digit
        omega
      · simp [decimal_value]
    · obtain ⟨ds, h1, h2, h3, h4⟩ := ih (n / 10) ((0x30 + n % 10) :: acc) (by omega)
      refine ⟨ds ++ [0x30 + n % 10], by simp [h10, h1], by simp, ?_, ?_⟩
      · intro d hd
        rcases List.mem_append.mp hd with hd | hd
        · exact h3 d hd
        · simp only [List.mem_singleton] at hd
          subst hd
          unfold is_digit
          omega
      · rw [decimal_value_snoc, h4]
        omega

theorem dec_digits_spec (n : Nat) :
    dec_digits n ≠ [] ∧ (∀ d ∈ dec_digits n, is_digit d) ∧ decimal_value (dec_digits n) = n := by
  obtain ⟨ds, h1, h2, h3, h4⟩ := dec_digits_aux_spec (n + 1) n [] (by omega)
  unfold dec_digits
  rw [h1, List.append_nil]
  exact ⟨h2, h3, h4⟩

theorem stoll_dec_digits (n : Nat) (h : n ≤ 2 ^ 63 - 1) :
    stoll (dec_digits n) = .ok (Int.ofNat n) := by
  obtain ⟨h1, h2, h3⟩ := dec_digits_spec n
  rw [stoll_digits _ h1 h2, h3, if_pos h]

/-- The decimal text of an integer other than `-2^63` is read back as that integer. -/
theorem parse_number_write_int (n : Int) (h1 : -(2 ^ 63) < n) (h2 : n < 2 ^ 63)
    (rest : List Nat) (hs : stops_number rest) :
    impl.parse_number ops (write_int n ++ rest) = .ok (.int n, rest) := by
  have hab : n.natAbs ≤ 2 ^ 63 - 1 := by omega
  obtain ⟨d1, d2, d3⟩ := dec_digits_spec n.natAbs
  have hst := stoll_dec_digits n.natAbs hab
  unfold write_int
  by_cases hn : n < 0
  · rw [if_pos hn]
    have := parse_number_digits ops _ rest d1 d2 hs _ hst (-1) (0x2d :: (dec_digits n.natAbs ++ rest))
      (Or.inr (Or.inr ⟨rfl, rfl⟩))
    rw [List.cons_append, this]
    simp only [Except.ok.injEq, Prod.mk.injEq, value.int.injEq, and_true, Int.ofNat_eq_coe]
    omega
  · rw [if_neg hn]
    have := parse_number_digits ops _ rest d1 d2 hs _ hst 1 (dec_digits n.natAbs ++ rest)
      (Or.inl ⟨rfl, rfl⟩)
    rw [this]
    simp only [Except.ok.injEq, Prod.mk.injEq, value.int.injEq, and_true, Int.ofNat_eq_coe]
    omega

theorem write_int_head (n : Int) :
    ∃ c t, write_int n = c :: t ∧ (is_digit c ∨ c = 0x2d) := by
  obtain ⟨d1, d2, _⟩ := dec_digits_spec n.natAbs
  unfold write_int
  by_cases hn : n < 0
  · rw [if_pos hn]; exact ⟨_, _, rfl, Or.inr rfl⟩
  · rw [if_neg hn]
    obtain ⟨c, t, hct⟩ := List.exists_cons_of_ne_nil d1
    rw [hct]
    exact ⟨c, t, rfl, Or.inl (d2 c (by rw [hct]; simp))⟩

/-! ## Keys in ascending order -/

theorem string_lt_asymm (a b : List Nat) (h : string_lt a b = true) : string_lt b a = false := by
  induction a generalizing b with
  | nil =>
    cases b with
    | nil => simp [string_lt] at h
    | cons y b => simp [string_lt]
  | cons x a ih =>
    cases b with
    | nil => simp [string_lt] at h
    | cons y b =>
      simp only [string_lt] at h ⊢
      by_cases h1 : x < y
      · have h2 : ¬ y < x := by omega
        simp [h1, h2]
      · by_cases h2 : y < x
        · simp [h1, h2] at h
        · simp only [h1, h2, if_false] at h ⊢
          exact ih b h

/-- Assigning a key above every key of the map appends the entry. -/
theorem object_assign_append (acc : List (List Nat × value F)) (k : List Nat) (v : value F)
    (h : ∀ kv ∈ acc, string_lt kv.1 k = true) : object_assign acc k v = acc ++ [(k, v)] := by
  induction acc with
  | nil => rfl
  | cons kw acc ih =>
    obtain ⟨k', w⟩ := kw
    have h1 : string_lt k' k = true := h (k', w) (by simp)
    have h2 : string_lt k k' = false := string_lt_asymm _ _ h1
    simp only [object_assign, h1, h2, if_true, Bool.false_eq_true, if_false, List.cons_append]
    rw [ih (fun kv hkv => h kv (by simp [hkv]))]

/-! ## Single values -/

theorem seq_out_ok (x y : List Nat) : seq_out (.ok x) (.ok y) = .ok (x ++ y) := rfl

theorem stops_number_cons (c : Nat) (rest : List Nat)
    (h : ¬ is_digit c ∧ c ≠ 0x2e ∧ c ≠ 0x65 ∧ c ≠ 0x45) : stops_number (c :: rest) := by
  intro d hd
  simp only [List.head?_cons, Option.some.injEq] at hd
  rw [← hd]; exact h

theorem reads_as_null : reads_as ops (.null : value F) (ascii "null") := by
  refine ⟨⟨0x6e, _, rfl, by decide, by decide, by decide⟩, fun rest _ n hn => ?_⟩
  obtain ⟨m, rfl⟩ : ∃ m, n = m + 1 := ⟨n - 1, by omega⟩
  have : impl.accept (ascii "ull") (ascii "ull" ++ rest) = some rest :=
    (accept_eq_some _ _ _).mpr rfl
  show impl.parse_fragment_aux ops (m + 1) (0x6e :: (ascii "ull" ++ rest)) = _
  simp only [impl.parse_fragment_aux, if_true, this]

theorem reads_as_true : reads_as ops (.bool true : value F) (ascii "true") := by
  refine ⟨⟨0x74, _, rfl, by decide, by decide, by decide⟩, fun rest _ n hn => ?_⟩
  obtain ⟨m, rfl⟩ : ∃ m, n = m + 1 := ⟨n - 1, by omega⟩
  have : impl.accept (ascii "rue") (ascii "rue" ++ rest) = some rest :=
    (accept_eq_some _ _ _).mpr rfl
  show impl.parse_fragment_aux ops (m + 1) (0x74 :: (ascii "rue" ++ rest)) = _
  simp [impl.parse_fragment_aux, this]

theorem reads_as_false : reads_as ops (.bool false : value F) (ascii "false") := by
  refine ⟨⟨0x66, _, rfl, by decide, by decide, by decide⟩, fun rest _ n hn => ?_⟩
  obtain ⟨m, rfl⟩ : ∃ m, n = m + 1 := ⟨n - 1, by omega⟩
  have : impl.accept (ascii "alse") (ascii "alse" ++ rest) = some rest :=
    (accept_eq_some _ _ _).mpr rfl
  show impl.parse_fragment_aux ops (m + 1) (0x66 :: (ascii "alse" ++ rest)) = _
  simp [impl.parse_fragment_aux, this]

theorem reads_as_int (n : Int) (h1 : -(2 ^ 63) < n) (h2 : n < 2 ^ 63) :
    reads_as ops (.int n : value F) (write_int n) := by
  obtain ⟨c, t, hct, hc⟩ := write_int_head n
  refine ⟨⟨c, t, hct, ?_, ?_, ?_⟩, fun rest hs k hk => ?_⟩
  · unfold is_ws; unfold is_digit at hc; omega
  · unfold is_digit at hc; omega
  · unfold is_digit at hc; omega
  · obtain ⟨m, rfl⟩ : ∃ m, k = m + 1 := ⟨k - 1, by omega⟩
    have hp := parse_number_write_int ops n h1 h2 rest hs
    rw [hct, List.cons_append] at hp ⊢
    rw [parse_fragment_aux_number ops m c _
      (hc.elim Or.inl (fun h => Or.inr (Or.inr (Or.inl h)))), hp]

theorem reads_as_string (s : List Nat) (hs : valid_utf8 s) :
    ∃ t, escape_string s true false = .ok t ∧ reads_as ops (.string s : value F) t := by
  obtain ⟨body, hb, hr⟩ := escape_string_valid false s hs
  refine ⟨_, hb, ⟨0x22, _, rfl, by decide, by decide, by decide⟩, fun rest _ n hn => ?_⟩
  obtain ⟨m, rfl⟩ : ∃ m, n = m + 1 := ⟨n - 1, by omega⟩
  have := hr rest
  simp only [List.cons_append, List.append_assoc, impl.parse_fragment_aux]
  simp [this]

/-! ## Arrays -/

theorem skipws_starts_value (t rest : List Nat) (h : starts_value t) :
    impl.skipws (t ++ rest) = t ++ rest := by
  obtain ⟨c, t', rfl, hc, _⟩ := h
  exact skipws_cons_not_ws _ _ hc

/-- The array loop reads the rendering of the elements of an array. -/
theorem array_rest_reads (vs : List (value F)) (h : ∀ v ∈ vs, round_trips ops v) :
    ∃ t, value.write_json.array_rest ops vs = .ok t ∧
      ∀ v tv, reads_as ops v tv → ∀ acc rest n, 2 * (tv.length + t.length) + 2 ≤ n →
        impl.parse_array_loop ops n acc (tv ++ (t ++ 0x5d :: rest))
          = .ok (.array (acc ++ v :: vs), rest) := by
  induction vs with
  | nil =>
    refine ⟨[], by simp [value.write_json.array_rest], fun v tv hr acc rest n hn => ?_⟩
    obtain ⟨m, rfl⟩ : ∃ m, n = m + 1 := ⟨n - 1, by omega⟩
    have hp := hr.2 (0x5d :: rest) (stops_number_cons _ _ (by decide)) m
      (by simp at hn; omega)
    simp only [List.nil_append, impl.parse_array_loop, hp,
      skipws_cons_not_ws 0x5d rest (by decide), if_true]
  | cons v2 vs ih =>
    obtain ⟨tv2, hw2, hr2⟩ := h v2 (by simp)
    obtain ⟨t, ht, hloop⟩ := ih (fun v hv => h v (by simp [hv]))
    refine ⟨0x2c :: (tv2 ++ t), by simp [value.write_json.array_rest, hw2, ht, seq_out],
      fun v tv hr acc rest n hn => ?_⟩
    obtain ⟨m, rfl⟩ : ∃ m, n = m + 1 := ⟨n - 1, by omega⟩
    simp only [List.length_cons, List.length_append] at hn
    have e : tv ++ (0x2c :: (tv2 ++ t) ++ 0x5d :: rest)
        = tv ++ (0x2c :: (tv2 ++ (t ++ 0x5d :: rest))) := by simp
    have hp := hr.2 (0x2c :: (tv2 ++ (t ++ 0x5d :: rest)))
      (stops_number_cons _ _ (by decide)) m (by omega)
    have hl := hloop v2 tv2 hr2 (acc ++ [v]) rest m (by omega)
    rw [e]
    simp only [impl.parse_array_loop, hp,
      skipws_cons_not_ws 0x2c _ (by decide : ¬ is_ws 0x2c)]
    simp only [show ¬ ((0x2c : Nat) = 0x5d) by decide, if_false, ne_eq, not_true_eq_false,
      skipws_starts_value tv2 _ hr2.1, hl]
    simp

/-! ## Objects -/

/-- The text `tk` is the literal of the key `k`, and is read back as `k`. -/
theorem key_reads (k : List Nat) (hk : valid_utf8 k) :
    ∃ body, escape_string k true false = .ok (0x22 :: (body ++ [0x22])) ∧
      ∀ rest, impl.unescape_string_inplace (body ++ 0x22 :: rest) = .ok (k, rest) :=
  escape_string_valid false k hk

theorem keys_ascending_below (acc : List (List Nat × value F)) (k : List Nat) (v : value F)
    (kvs : List (List Nat × value F)) (h : keys_ascending (acc ++ (k, v) :: kvs)) :
    ∀ kv ∈ acc, string_lt kv.1 k = true := by
  intro kv hkv
  unfold keys_ascending at h
  rw [List.pairwise_append] at h
  exact h.2.2 kv hkv (k, v) (by simp)

/-- The object loop reads the rendering of the entries of an object. -/
theorem object_rest_reads (kvs : List (List Nat × value F))
    (hk : ∀ kv ∈ kvs, valid_utf8 kv.1) (hv : ∀ kv ∈ kvs, round_trips ops kv.2) :
    ∃ t, value.write_json.object_rest ops kvs = .ok t ∧
      ∀ k v body tv, (∀ rest, impl.unescape_string_inplace (body ++ 0x22 :: rest) = .ok (k, rest)) →
        reads_as ops v tv → ∀ acc rest n, keys_ascending (acc ++ (k, v) :: kvs) →
        2 * (body.length + 3 + tv.length + t.length) + 2 ≤ n →
        impl.parse_object_loop ops n acc
            (0x22 :: (body ++ 0x22 :: 0x3a :: (tv ++ (t ++ 0x7d :: rest))))
          = .ok (.object (acc ++ (k, v) :: kvs), rest) := by
  induction kvs with
  | nil =>
    refine ⟨[], by simp [value.write_json.object_rest],
      fun k v body tv hb hr acc rest n hasc hn => ?_⟩
    obtain ⟨m, rfl⟩ : ∃ m, n = m + 1 := ⟨n - 1, by omega⟩
    obtain ⟨c1, tv', rfl, hc1, _⟩ := hr.1
    have hp := hr.2 (0x7d :: rest) (stops_number_cons _ _ (by decide)) m
      (by simp at hn ⊢; omega)
    rw [List.cons_append] at hp
    have ha := object_assign_append acc k v (keys_ascending_below acc k v [] hasc)
    simp only [List.nil_append, impl.parse_object_loop, ne_eq, not_true_eq_false, if_false, hb,
      skipws_cons_not_ws 0x3a _ (by decide : ¬ is_ws 0x3a), List.cons_append,
      skipws_cons_not_ws c1 _ hc1, hp, skipws_cons_not_ws 0x7d rest (by decide), if_true, ha]
  | cons kv2 kvs ih =>
    obtain ⟨k2, v2⟩ := kv2
    obtain ⟨tv2, hw2, hr2⟩ := hv (k2, v2) (by simp)
    obtain ⟨body2, he2, hb2⟩ := key_reads k2 (hk (k2, v2) (by simp))
    obtain ⟨t, ht, hloop⟩ := ih (fun kv h => hk kv (by simp [h])) (fun kv h => hv kv (by simp [h]))
    refine ⟨0x2c :: 0x22 :: (body2 ++ 0x22 :: 0x3a :: (tv2 ++ t)),
      by simp [value.write_json.object_rest, hw2, ht, he2, seq_out],
      fun k v body tv hb hr acc rest n hasc hn => ?_⟩
    obtain ⟨m, rfl⟩ : ∃ m, n = m + 1 := ⟨n - 1, by omega⟩
    simp only [List.length_cons, List.length_append] at hn
    obtain ⟨c1, tv', rfl, hc1, _⟩ := hr.1
    have e : (0x2c :: 0x22 :: (body2 ++ 0x22 :: 0x3a :: (tv2 ++ t)) ++ 0x7d :: rest)
        = 0x2c :: 0x22 :: (body2 ++ 0x22 :: 0x3a :: (tv2 ++ (t ++ 0x7d :: rest))) := by simp
    have hp := hr.2 (0x2c :: 0x22 :: (body2 ++ 0x22 :: 0x3a :: (tv2 ++ (t ++ 0x7d :: rest))))
      (stops_number_cons _ _ (by decide)) m (by simp at hn ⊢; omega)
    rw [List.cons_append] at hp
    have ha := object_assign_append acc k v (keys_ascending_below acc k v _ hasc)
    have hasc' : keys_ascending ((acc ++ [(k, v)]) ++ (k2, v2) :: kvs) := by
      rw [List.append_assoc]; exact hasc
    have hl := hloop k2 v2 body2 tv2 hb2 hr2 (acc ++ [(k, v)]) rest m hasc' (by omega)
    rw [e]
    simp only [impl.parse_object_loop, ne_eq, not_true_eq_false, if_false, hb,
      skipws_cons_not_ws 0x3a _ (by decide : ¬ is_ws 0x3a), List.cons_append,
      skipws_cons_not_ws c1 _ hc1, hp, skipws_cons_not_ws 0x2c _ (by decide : ¬ is_ws 0x2c),
      show ¬ ((0x2c : Nat) = 0x7d) by decide, ha,
      skipws_cons_not_ws 0x22 _ (by decide : ¬ is_ws 0x22), hl]
    simp

/-- The parser reads the rendering of a plain value as that value. -/
theorem plain_round_trips (v : value F) (h : plain v) : round_trips ops v := by
  induction h with
  | null => exact ⟨_, rfl, reads_as_null ops⟩
  | bool b =>
    cases b
    · exact ⟨_, rfl, reads_as_false ops⟩
    · exact ⟨_, rfl, reads_as_true ops⟩
  | int n h1 h2 => exact ⟨_, rfl, reads_as_int ops n h1 h2⟩
  | string s hs =>
    obtain ⟨t, ht, hr⟩ := reads_as_string ops s hs
    exact ⟨t, by simpa [value.write_json] using ht, hr⟩
  | array a _ ih =>
    cases a with
    | nil =>
      refine ⟨[0x5b, 0x5d], by simp [value.write_json],
        ⟨0x5b, _, rfl, by decide, by decide, by decide⟩, fun rest _ n hn => ?_⟩
      obtain ⟨m, rfl⟩ : ∃ m, n = m + 1 := ⟨n - 1, by omega⟩
      simp [impl.parse_fragment_aux, skipws_cons_not_ws 0x5d rest (by decide)]
    | cons v vs =>
      obtain ⟨tv, hw, hr⟩ := ih v (by simp)
      obtain ⟨t, ht, hloop⟩ := array_rest_reads ops vs (fun x hx => ih x (by simp [hx]))
      refine ⟨0x5b :: (tv ++ (t ++ [0x5d])), by simp [value.write_json, hw, ht, seq_out],
        ⟨0x5b, _, rfl, by decide, by decide, by decide⟩, fun rest _ n hn => ?_⟩
      obtain ⟨m, rfl⟩ : ∃ m, n = m + 1 := ⟨n - 1, by omega⟩
      simp only [List.length_cons, List.length_append, List.length_singleton,
        List.length_nil] at hn
      have hl := hloop v tv hr [] rest m (by omega)
      have e : 0x5b :: (tv ++ (t ++ [0x5d])) ++ rest = 0x5b :: (tv ++ (t ++ 0x5d :: rest)) := by
        simp
      obtain ⟨c1, tv', rfl, hc1, hc2, _⟩ := hr.1
      rw [e]
      rw [List.cons_append] at hl ⊢
      simp only [impl.parse_fragment_aux, skipws_cons_not_ws c1 _ hc1, hl]
      simp [hc2]
  | object o hk _ hasc ihv =>
    cases o with
    | nil =>
      refine ⟨[0x7b, 0x7d], by simp [value.write_json],
        ⟨0x7b, _, rfl, by decide, by decide, by decide⟩, fun rest _ n hn => ?_⟩
      obtain ⟨m, rfl⟩ : ∃ m, n = m + 1 := ⟨n - 1, by omega⟩
      simp [impl.parse_fragment_aux, skipws_cons_not_ws 0x7d rest (by decide)]
    | cons kv kvs =>
      obtain ⟨k, v⟩ := kv
      obtain ⟨tv, hw, hr⟩ := ihv (k, v) (by simp)
      obtain ⟨body, he, hb⟩ := key_reads k (hk (k, v) (by simp))
      obtain ⟨t, ht, hloop⟩ := object_rest_reads ops kvs (fun x hx => hk x (by simp [hx]))
        (fun x hx => ihv x (by simp [hx]))
      refine ⟨0x7b :: 0x22 :: (body ++ 0x22 :: 0x3a :: (tv ++ (t ++ [0x7d]))),
        by simp [value.write_json, hw, ht, he, seq_out],
        ⟨0x7b, _, rfl, by decide, by decide, by decide⟩, fun rest _ n hn => ?_⟩
      obtain ⟨m, rfl⟩ : ∃ m, n = m + 1 := ⟨n - 1, by omega⟩
      simp only [List.length_cons, List.length_append, List.length_singleton,
        List.length_nil] at hn
      have hl := hloop k v body tv hb hr [] rest m (by simpa using hasc) (by omega)
      have e : 0x7b :: 0x22 :: (body ++ 0x22 :: 0x3a :: (tv ++ (t ++ [0x7d]))) ++ rest
          = 0x7b :: 0x22 :: (body ++ 0x22 :: 0x3a :: (tv ++ (t ++ 0x7d :: rest))) := by
        simp
      rw [e]
      simp only [impl.parse_fragment_aux, skipws_cons_not_ws 0x22 _ (by decide : ¬ is_ws 0x22),
        hl]
      simp

/-- C3, as stated, fails at the Int `-2^63`: `stringify` writes its nineteen digits
after a minus sign, and `parse` hands the digits, which denote `2^63`, to `stoll`,
which throws. -/
theorem min_int_not_read_back :
    stringify text_float (.int (-9223372036854775808)) = .ok (ascii "-9223372036854775808") ∧
    parse text_float (ascii "-9223372036854775808") = .error .conversion :=
  ⟨rfl, rfl⟩

/-- C3 (amended): for every value built from Null, Bool, Int other than `-2^63`,
well-formed UTF-8 strings, arrays and objects, `stringify` succeeds and `parse` of its
output succeeds and returns a value equal to the one written. -/
theorem parse_stringify (v : value F) (h : plain v) :
    ∃ text, stringify ops v = .ok text ∧ parse ops text = .ok v := by
  obtain ⟨t, hw, hs, hr⟩ := plain_round_trips ops v h
  refine ⟨t, hw, ?_⟩
  have hsk : impl.skipws t = t := by simpa using skipws_starts_value t [] hs
  have hp := hr [] stops_number_nil (2 * t.length + 1) (Nat.le_refl _)
  rw [List.append_nil] at hp
  simp only [parse, impl.parse, impl.parse_fragment, hsk, hp]
  simp [impl.skipws]

/-- C2, as stated, fails at `-0` and at `[-0]`, JSON texts without whitespace: they are
read as the Int `0`, which is written `0`. It fails also at the string `"\u0041"`,
read as `A` and written `"A"`. -/
theorem canonical_text_only :
    (parse text_float (ascii "-0") = .ok (.int 0) ∧
      stringify text_float (.int 0) = .ok (ascii "0") ∧ ascii "0" ≠ ascii "-0") ∧
    (parse text_float (ascii "[-0]") = .ok (.array [.int 0]) ∧
      stringify text_float (.array [.int 0]) = .ok (ascii "[0]") ∧ ascii "[0]" ≠ ascii "[-0]") ∧
    (parse text_float (ascii "\"\\u0041\"") = .ok (.string (ascii "A")) ∧
      stringify text_float (.string (ascii "A")) = .ok (ascii "\"A\"") ∧
      ascii "\"A\"" ≠ ascii "\"\\u0041\"") :=
  ⟨⟨rfl, rfl, by decide⟩, ⟨rfl, rfl, by decide⟩, ⟨rfl, rfl, by decide⟩⟩

/-- C2 (amended): for every text `s` that `stringify` writes for a value built from
Null, Bool, Int other than `-2^63`, well-formed UTF-8 strings, arrays and objects,
`parse` succeeds on `s` and `stringify` of the value read is `s` again. -/
theorem stringify_parse (v : value F) (s : List Nat) (h : plain v)
    (hs : stringify ops v = .ok s) :
    ∃ w, parse ops s = .ok w ∧ stringify ops w = .ok s := by
  obtain ⟨t, hw, hst, hr⟩ := plain_round_trips ops v h
  have ht : t = s := by
    unfold stringify at hs
    rw [hw] at hs
    simpa using hs
  subst ht
  refine ⟨v, ?_, hs⟩
  have hsk : impl.skipws t = t := by simpa using skipws_starts_value t [] hst
  have hp := hr [] stops_number_nil (2 * t.length + 1) (Nat.le_refl _)
  rw [List.append_nil] at hp
  simp only [parse, impl.parse, impl.parse_fragment, hsk, hp]
  simp [impl.skipws]

theorem plain_sample :
    plain (.object [(ascii "a", .array [.int (-1), .null, .string [0xc3, 0xa9]]),
      (ascii "b", .bool true)] : value float_text) := by
  refine .object _ ?_ ?_ ?_
  · intro kv hkv
    simp only [List.mem_cons, List.mem_singleton, List.not_mem_nil, or_false] at hkv
    rcases hkv with rfl | rfl
    · exact .one _ _ (by decide) .nil
    · exact .one _ _ (by decide) .nil
  · intro kv hkv
    simp only [List.mem_cons, List.mem_singleton, List.not_mem_nil, or_false] at hkv
    rcases hkv with rfl | rfl
    · refine .array _ ?_
      intro v hv
      simp only [List.mem_cons, List.mem_singleton, List.not_mem_nil, or_false] at hv
      rcases hv with rfl | rfl | rfl
      · exact .int _ (by decide) (by decide)
      · exact .null
      · exact .string _ (.two _ _ _ (by decide) (by decide) ⟨by decide, by decide⟩ .nil)
    · exact .bool true
  · unfold keys_ascending
    simp [string_lt, ascii]

/-- C3 (amended) at the object with the key `a` for the array of `-1`, null and the
string U+00E9, and the key `b` for `true`. -/
theorem parse_stringify_witness :
    plain (.object [(ascii "a", .array [.int (-1), .null, .string [0xc3, 0xa9]]),
      (ascii "b", .bool true)] : value float_text) ∧
    ∃ text, stringify text_float (.object [(ascii "a",
        .array [.int (-1), .null, .string [0xc3, 0xa9]]), (ascii "b", .bool true)]) = .ok text ∧
      parse text_float text = .ok (.object [(ascii "a",
        .array [.int (-1), .null, .string [0xc3, 0xa9]]), (ascii "b", .bool true)]) :=
  ⟨plain_sample, parse_stringify text_float _ plain_sample⟩

/-- C2 (amended) at the text `\x7b"a":[-1,null,"\u00e9"],"b":true\x7d`. -/
theorem stringify_parse_witness :
    plain (.object [(ascii "a", .array [.int (-1), .null, .string [0xc3, 0xa9]]),
      (ascii "b", .bool true)] : value float_text) ∧
    stringify text_float (.object [(ascii "a",
        .array [.int (-1), .null, .string [0xc3, 0xa9]]), (ascii "b", .bool true)])
      = .ok (ascii "\x7b\"a\":[-1,null,\"\\u00e9\"],\"b\":true\x7d") ∧
    ∃ w, parse text_float (ascii "\x7b\"a\":[-1,null,\"\\u00e9\"],\"b\":true\x7d") = .ok w ∧
      stringify text_float w = .ok (ascii "\x7b\"a\":[-1,null,\"\\u00e9\"],\"b\":true\x7d") :=
  ⟨plain_sample, rfl, stringify_parse text_float _ _ plain_sample rfl⟩

/-! ## The fuel of the entry points never runs out -/

theorem read4hex_loop_length (i rv : Nat) (it : List Nat) (v : Nat) (it' : List Nat)
    (h : impl.read4hex_loop i rv it = .ok (v, it')) : it'.length ≤ it.length := by
  induction i generalizing rv it with
  | zero =>
    simp only [impl.read4hex_loop, Except.ok.injEq, Prod.mk.injEq] at h
    rw [h.2]
  | succ i ih =>
    cases it with
    | nil => simp [impl.read4hex_loop] at h
    | cons c rest =>
      simp only [impl.read4hex_loop] at h
      split_ifs at h
      all_goals
        have := ih _ _ h
        simp only [List.length_cons]
        omega

theorem read4hex_loop_no_fuel (i rv : Nat) (it : List Nat) :
    impl.read4hex_loop i rv it ≠ .error .fuel := by
  induction i generalizing rv it with
  | zero => simp [impl.read4hex_loop]
  | succ i ih =>
    cases it with
    | nil => simp [impl.read4hex_loop]
    | cons c rest =>
      simp only [impl.read4hex_loop]
      split_ifs
      · exact ih _ _
      · exact ih _ _
      · exact ih _ _
      · simp

theorem unescape_surrogate_length (cp : Nat) (it bs it' : List Nat)
    (h : impl.unescape_surrogate cp it = .ok (bs, it')) : it'.length ≤ it.length := by
  unfold impl.unescape_surrogate at h
  cases it with
  | nil => simp at h
  | cons b it =>
    simp only at h
    split_ifs at h
    cases it with
    | nil => simp at h
    | cons u it =>
      simp only at h
      split_ifs at h
      cases hr : impl.read4hex it with
      | error e => rw [hr] at h; simp at h
      | ok r =>
        obtain ⟨cp2, it2⟩ := r
        rw [hr] at h
        simp only at h
        split_ifs at h
        simp only [Except.ok.injEq, Prod.mk.injEq] at h
        have := read4hex_loop_length 4 0 it cp2 it2 hr
        rw [← h.2]
        simp only [List.length_cons]
        omega

theorem unescape_surrogate_no_fuel (cp : Nat) (it : List Nat) :
    impl.unescape_surrogate cp it ≠ .error .fuel := by
  intro h
  unfold impl.unescape_surrogate at h
  repeat' (first | simp only [] at h | split_ifs at h | split at h)
  all_goals first
    | (simp at h; done)
    | (cases h; exact read4hex_loop_no_fuel _ _ _ (by assumption))

theorem unescape_unicode_length (it bs it' : List Nat)
    (h : impl.unescape_unicode it = .ok (bs, it')) : it'.length ≤ it.length := by
  unfold impl.unescape_unicode at h
  cases hr : impl.read4hex it with
  | error e => rw [hr] at h; simp at h
  | ok r =>
    obtain ⟨cp, it2⟩ := r
    rw [hr] at h
    have hl := read4hex_loop_length 4 0 it cp it2 hr
    simp only at h
    split_ifs at h
    · simp only [Except.ok.injEq, Prod.mk.injEq] at h; rw [← h.2]; exact hl
    · simp only [Except.ok.injEq, Prod.mk.injEq] at h; rw [← h.2]; exact hl
    · simp only [Except.ok.injEq, Prod.mk.injEq] at h; rw [← h.2]; exact hl
    · have := unescape_surrogate_length _ _ _ _ h
      omega

theorem unescape_unicode_no_fuel (it : List Nat) :
    impl.unescape_unicode it ≠ .error .fuel := by
  intro h
  unfold impl.unescape_unicode at h
  repeat' (first | simp only [] at h | split_ifs at h | split at h)
  all_goals first
    | (simp at h; done)
    | exact unescape_surrogate_no_fuel _ _ h
    | (cases h; exact read4hex_loop_no_fuel _ _ _ (by assumption))

/-- A turn of the unescape loop leaves no more input than it found after its first
byte. -/
theorem unescape_turn_length (c : Nat) (it bs it' : List Nat)
    (h : impl.unescape_turn c it = .ok (bs, it')) : it'.length ≤ it.length := by
  unfold impl.unescape_turn at h
  split_ifs at h
  · cases it with
    | nil => simp at h
    | cons esc it =>
      simp only at h
      split_ifs at h
      all_goals first
        | (have hlen := unescape_unicode_length _ _ _ h
           simp only [List.length_cons]
           omega)
        | (simp only [Except.ok.injEq, Prod.mk.injEq] at h
           rw [← h.2]
           simp)
  · simp only [Except.ok.injEq, Prod.mk.injEq] at h
    rw [← h.2]

theorem unescape_turn_no_fuel (c : Nat) (it : List Nat) :
    impl.unescape_turn c it ≠ .error .fuel := by
  intro h
  unfold impl.unescape_turn at h
  repeat' (first | simp only [] at h | split_ifs at h | split at h)
  all_goals first
    | (simp at h; done)
    | exact unescape_unicode_no_fuel _ h

theorem unescape_loop_length (n : Nat) (out it bs it' : List Nat)
    (h : impl.unescape_loop n out it = .ok (bs, it')) : it'.length < it.length := by
  induction n generalizing out it with
  | zero => simp [impl.unescape_loop] at h
  | succ n ih =>
    cases it with
    | nil => simp [impl.unescape_loop] at h
    | cons c it =>
      simp only [impl.unescape_loop] at h
      split_ifs at h
      · simp only [Except.ok.injEq, Prod.mk.injEq] at h
        rw [← h.2]; simp
      · cases ht : impl.unescape_turn c it with
        | error e => rw [ht] at h; simp at h
        | ok r =>
          obtain ⟨bytes, it2⟩ := r
          rw [ht] at h
          have h1 := unescape_turn_length c it bytes it2 ht
          have h2 := ih _ _ h
          simp only [List.length_cons]
          omega

theorem unescape_loop_no_fuel (n : Nat) (out it : List Nat) (hn : it.length < n) :
    impl.unescape_loop n out it ≠ .error .fuel := by
  induction n generalizing out it with
  | zero => omega
  | succ n ih =>
    cases it with
    | nil => simp [impl.unescape_loop]
    | cons c it =>
      simp only [impl.unescape_loop]
      split_ifs
      · simp
      · cases ht : impl.unescape_turn c it with
        | error e =>
          intro h
          simp only [Except.error.injEq] at h
          subst h
          exact unescape_turn_no_fuel _ _ ht
        | ok r =>
          obtain ⟨bytes, it2⟩ := r
          have h1 := unescape_turn_length c it bytes it2 ht
          simp only [List.length_cons] at hn
          exact ih _ _ (by omega)

/-- The fuel `unescape_string_inplace` gives its loop is enough, and a literal that was
read took at least one byte. -/
theorem unescape_string_inplace_total (it : List Nat) :
    impl.unescape_string_inplace it ≠ .error .fuel ∧
    ∀ bs it', impl.unescape_string_inplace it = .ok (bs, it') → it'.length < it.length :=
  ⟨unescape_loop_no_fuel _ _ _ (by omega), fun _ _ h => unescape_loop_length _ _ _ _ _ h⟩

theorem escape_two_length (c : Nat) (it piece it' : List Nat)
    (h : escape_two c it = .ok (piece, it')) : it'.length ≤ it.length := by
  unfold escape_two at h
  repeat' (first | simp only [] at h | split_ifs at h | split at h)
  all_goals first
    | (simp at h; done)
    | (simp only [Except.ok.injEq, Prod.mk.injEq] at h
       rw [← h.2]
       simp only [List.length_cons]
       omega)

theorem escape_three_length (c : Nat) (it piece it' : List Nat)
    (h : escape_three c it = .ok (piece, it')) : it'.length ≤ it.length := by
  unfold escape_three at h
  repeat' (first | simp only [] at h | split_ifs at h | split at h)
  all_goals first
    | (simp at h; done)
    | (simp only [Except.ok.injEq, Prod.mk.injEq] at h
       rw [← h.2]
       simp only [List.length_cons]
       omega)

theorem escape_four_length (c : Nat) (it piece it' : List Nat)
    (h : escape_four c it = .ok (piece, it')) : it'.length ≤ it.length := by
  unfold escape_four at h
  repeat' (first | simp only [] at h | split_ifs at h | split at h)
  all_goals first
    | (simp at h; done)
    | (simp only [Except.ok.injEq, Prod.mk.injEq] at h
       rw [← h.2]
       simp only [List.length_cons]
       omega)

/-- A turn of the escape loop leaves no more input than it found after its first
byte. -/
theorem escape_step_length (eu es : Bool) (c : Nat) (it piece it' : List Nat)
    (h : escape_step eu es c it = .ok (piece, it')) : it'.length ≤ it.length := by
  unfold escape_step at h
  split_ifs at h
  all_goals first
    | exact escape_two_length _ _ _ _ h
    | exact escape_three_length _ _ _ _ h
    | exact escape_four_length _ _ _ _ h
    | (simp only [Except.ok.injEq, Prod.mk.injEq] at h
       rw [← h.2])

theorem escape_two_no_fuel (c : Nat) (it : List Nat) : escape_two c it ≠ .error .fuel := by
  intro h
  unfold escape_two at h
  repeat' (first | simp only [] at h | split_ifs at h | split at h)
  all_goals first
    | (simp at h; done)

theorem escape_three_no_fuel (c : Nat) (it : List Nat) :
    escape_three c it ≠ .error .fuel := by
  intro h
  unfold escape_three at h
  repeat' (first | simp only [] at h | split_ifs at h | split at h)
  all_goals first
    | (simp at h; done)

theorem escape_four_codepoint_no_fuel (cp : Nat) :
    escape_four_codepoint cp ≠ .error .fuel := by
  intro h
  unfold escape_four_codepoint at h
  repeat' (first | simp only [] at h | split_ifs at h | split at h)
  all_goals first
    | (simp at h; done)

theorem escape_four_no_fuel (c : Nat) (it : List Nat) : escape_four c it ≠ .error .fuel := by
  intro h
  unfold escape_four at h
  repeat' (first | simp only [] at h | split_ifs at h | split at h)
  all_goals first
    | (simp at h; done)
    | (cases h; exact escape_four_codepoint_no_fuel _ (by assumption))

theorem escape_step_no_fuel (eu es : Bool) (c : Nat) (it : List Nat) :
    escape_step eu es c it ≠ .error .fuel := by
  intro h
  unfold escape_step at h
  split_ifs at h
  all_goals first
    | exact escape_two_no_fuel _ _ h
    | exact escape_three_no_fuel _ _ h
    | exact escape_four_no_fuel _ _ h
    | (simp at h; done)

theorem seq_out_no_fuel (x : List Nat) (b : Except exn (List Nat)) (h : b ≠ .error .fuel) :
    seq_out (.ok x) b ≠ .error .fuel := by
  cases b with
  | error e =>
    simp only [seq_out, ne_eq, Except.error.injEq]
    intro he
    exact h (by rw [he])
  | ok y => simp [seq_out]

/-- The fuel `escape_string` gives its loop is enough. -/
theorem escape_string_loop_no_fuel (eu es : Bool) (n : Nat) (it : List Nat)
    (hn : it.length ≤ n) : escape_string_loop eu es n it ≠ .error .fuel := by
  induction n generalizing it with
  | zero =>
    cases it with
    | nil => simp [escape_string_loop]
    | cons c it => simp at hn
  | succ n ih =>
    cases it with
    | nil => simp [escape_string_loop]
    | cons c it =>
      simp only [escape_string_loop]
      cases hs : escape_step eu es c it with
      | error e =>
        intro h
        simp only [Except.error.injEq] at h
        subst h
        exact escape_step_no_fuel _ _ _ _ hs
      | ok r =>
        obtain ⟨piece, it2⟩ := r
        have h1 := escape_step_length eu es c it piece it2 hs
        simp only [List.length_cons] at hn
        exact seq_out_no_fuel _ _ (ih _ (by omega))

theorem escape_string_no_fuel (txt : List Nat) (eu es : Bool) :
    escape_string txt eu es ≠ .error .fuel := by
  unfold escape_string
  apply seq_out_no_fuel
  have := escape_string_loop_no_fuel eu es txt.length txt (Nat.le_refl _)
  cases h : escape_string_loop eu es txt.length txt with
  | error e =>
    simp only [seq_out, ne_eq, Except.error.injEq]
    intro he
    rw [h, he] at this
    exact this rfl
  | ok y => simp [seq_out]

/-! ### The parser -/

theorem skip_digits_length (x : List Nat) : (impl.skip_digits x).length ≤ x.length := by
  obtain ⟨ds, _, h, _⟩ := skip_digits_split x
  have := congrArg List.length h
  simp only [List.length_append] at this
  omega

theorem parse_fraction_length (db it it2 : List Nat)
    (h : impl.parse_fraction db it = .ok it2) : it2.length ≤ it.length := by
  unfold impl.parse_fraction at h
  cases it with
  | nil => simp only [Except.ok.injEq] at h; rw [← h]
  | cons m it1 =>
    simp only at h
    split_ifs at h
    · simp only [Except.ok.injEq] at h
      rw [← h]
      have := skip_digits_length it1
      simp only [List.length_cons]
      omega
    · simp only [Except.ok.injEq] at h; rw [← h]

theorem parse_exponent_length (it it3 : List Nat)
    (h : impl.parse_exponent it = .ok it3) : it3.length ≤ it.length := by
  unfold impl.parse_exponent at h
  cases it with
  | nil => simp only [Except.ok.injEq] at h; rw [← h]
  | cons m it1 =>
    simp only at h
    split_ifs at h
    · cases it1 with
      | nil => simp at h
      | cons s it2 =>
        simp only at h
        by_cases hs : s = 0x2b ∨ s = 0x2d
        · simp only [hs, if_true] at h
          cases it2 with
          | nil => simp at h
          | cons d it4 =>
            simp only at h
            split_ifs at h
            simp only [Except.ok.injEq] at h
            rw [← h]
            have := skip_digits_length it4
            simp only [List.length_cons]
            omega
        · simp only [hs, if_false] at h
          split_ifs at h
          simp only [Except.ok.injEq] at h
          rw [← h]
          have := skip_digits_length it2
          simp only [List.length_cons]
          omega
    · simp only [Except.ok.injEq] at h; rw [← h]

/-- A number that was read took at least one byte. -/
theorem parse_number_length (input : List Nat) (v : value F) (it' : List Nat)
    (h : impl.parse_number ops input = .ok (v, it')) : it'.length < input.length := by
  cases input with
  | nil => simp [impl.parse_number] at h
  | cons c rest =>
    simp only [impl.parse_number] at h
    have hdb : (if c = 0x2b then rest else if c = 0x2d then rest else c :: rest).length
        ≤ (c :: rest).length := by
      split_ifs <;> simp
    generalize (if c = 0x2b then rest else if c = 0x2d then rest else c :: rest) = db at h hdb
    generalize (if c = 0x2b then (1 : Int) else if c = 0x2d then -1 else 1) = sign at h
    have hsk := skip_digits_length db
    by_cases hmark : (impl.skip_digits db).head? = some 0x2e ∨
        (impl.skip_digits db).head? = some 0x65 ∨ (impl.skip_digits db).head? = some 0x45
    · rw [if_pos hmark] at h
      cases hf : impl.parse_fraction db (impl.skip_digits db) with
      | error e => rw [hf] at h; simp at h
      | ok it2 =>
        rw [hf] at h
        simp only at h
        cases he : impl.parse_exponent it2 with
        | error e => rw [he] at h; simp at h
        | ok it3 =>
          rw [he] at h
          simp only at h
          cases hs : ops.stod (range db it3) with
          | none => rw [hs] at h; simp at h
          | some x =>
            rw [hs] at h
            simp only [Except.ok.injEq, Prod.mk.injEq] at h
            obtain ⟨_, hit⟩ := h
            subst hit
            have h2 := parse_exponent_length it2 it3 he
            -- the fraction or the exponent takes a byte
            cases hsd : impl.skip_digits db with
            | nil => rw [hsd] at hmark; simp at hmark
            | cons m it1 =>
              rw [hsd] at hf hmark hsk
              simp only [List.head?_cons, Option.some.injEq] at hmark
              simp only [impl.parse_fraction] at hf
              by_cases hm : m = 0x2e
              · rw [if_pos hm] at hf
                split_ifs at hf
                simp only [Except.ok.injEq] at hf
                have := skip_digits_length it1
                rw [hf] at this
                simp only [List.length_cons] at hsk hdb ⊢
                omega
              · rw [if_neg hm] at hf
                simp only [Except.ok.injEq] at hf
                subst hf
                have hm2 : m = 0x65 ∨ m = 0x45 := by omega
                simp only [impl.parse_exponent, hm2, if_true] at he
                cases it1 with
                | nil => simp at he
                | cons s it4 =>
                  simp only at he
                  by_cases hs2 : s = 0x2b ∨ s = 0x2d
                  · simp only [hs2, if_true] at he
                    cases it4 with
                    | nil => simp at he
                    | cons d it5 =>
                      simp only at he
                      split_ifs at he
                      simp only [Except.ok.injEq] at he
                      have := skip_digits_length it5
                      rw [he] at this
                      simp only [List.length_cons] at hsk hdb ⊢
                      omega
                  · simp only [hs2, if_false] at he
                    split_ifs at he
                    simp only [Except.ok.injEq] at he
                    have := skip_digits_length it4
                    rw [he] at this
                    simp only [List.length_cons] at hsk hdb ⊢
                    omega
    · rw [if_neg hmark] at h
      split_ifs at h with hd
      cases hst : stoll (range db (impl.skip_digits db)) with
      | error e => rw [hst] at h; simp at h
      | ok n =>
        rw [hst] at h
        simp only [Except.ok.injEq, Prod.mk.injEq] at h
        obtain ⟨_, hit⟩ := h
        subst hit
        unfold distance at hd
        simp only [List.length_cons] at hdb ⊢
        omega

theorem parse_fraction_no_fuel (db it : List Nat) :
    impl.parse_fraction db it ≠ .error .fuel := by
  intro h
  unfold impl.parse_fraction at h
  repeat' (first | simp only [] at h | split_ifs at h | split at h)
  all_goals first
    | (simp at h; done)

theorem parse_exponent_no_fuel (it : List Nat) : impl.parse_exponent it ≠ .error .fuel := by
  intro h
  unfold impl.parse_exponent at h
  repeat' (first | simp only [] at h | split_ifs at h | split at h)
  all_goals first
    | (simp at h; done)

theorem stoll_no_fuel (t : List Nat) : stoll t ≠ .error .fuel := by
  intro h
  unfold stoll at h
  repeat' (first | simp only [] at h | split_ifs at h | split at h)
  all_goals first
    | (simp at h; done)

theorem parse_number_no_fuel (input : List Nat) :
    impl.parse_number ops input ≠ .error .fuel := by
  intro h
  unfold impl.parse_number at h
  repeat' (first | simp only [] at h | split_ifs at h | split at h)
  all_goals first
    | (simp at h; done)
    | (cases h; exact parse_fraction_no_fuel _ _ (by assumption))
    | (cases h; exact parse_exponent_no_fuel _ (by assumption))
    | (cases h; exact stoll_no_fuel _ (by assumption))

theorem accept_length (ks it it' : List Nat) (h : impl.accept ks it = some it') :
    it'.length ≤ it.length := by
  rw [accept_eq_some] at h
  rw [h]
  simp

/-- Every value, and every turn of the array and object loops, takes at least one byte
of the input. -/
theorem parse_aux_length (n : Nat) :
    (∀ it v it', impl.parse_fragment_aux ops n it = .ok (v, it') → it'.length < it.length) ∧
    (∀ arr it v it', impl.parse_array_loop ops n arr it = .ok (v, it') →
      it'.length < it.length) ∧
    (∀ obj it v it', impl.parse_object_loop ops n obj it = .ok (v, it') →
      it'.length < it.length) := by
  induction n with
  | zero =>
    refine ⟨fun it v it' h => ?_, fun arr it v it' h => ?_, fun obj it v it' h => ?_⟩
    · simp [impl.parse_fragment_aux] at h
    · simp [impl.parse_array_loop] at h
    · simp [impl.parse_object_loop] at h
  | succ n ih =>
    obtain ⟨ih1, ih2, ih3⟩ := ih
    refine ⟨fun it v it' h => ?_, fun arr it v it' h => ?_, fun obj it v it' h => ?_⟩
    · cases it with
      | nil => simp [impl.parse_fragment_aux] at h
      | cons c it =>
        simp only [impl.parse_fragment_aux] at h
        simp only [List.length_cons]
        split_ifs at h
        · cases ha : impl.accept (ascii "ull") it with
          | none => rw [ha] at h; simp at h
          | some it2 =>
            rw [ha] at h
            simp only [Except.ok.injEq, Prod.mk.injEq] at h
            have := accept_length _ _ _ ha
            rw [← h.2]; omega
        · cases ha : impl.accept (ascii "alse") it with
          | none => rw [ha] at h; simp at h
          | some it2 =>
            rw [ha] at h
            simp only [Except.ok.injEq, Prod.mk.injEq] at h
            have := accept_length _ _ _ ha
            rw [← h.2]; omega
        · cases ha : impl.accept (ascii "rue") it with
          | none => rw [ha] at h; simp at h
          | some it2 =>
            rw [ha] at h
            simp only [Except.ok.injEq, Prod.mk.injEq] at h
            have := accept_length _ _ _ ha
            rw [← h.2]; omega
        · cases hu : impl.unescape_string_inplace it with
          | error e => rw [hu] at h; simp at h
          | ok r =>
            obtain ⟨s, it2⟩ := r
            rw [hu] at h
            simp only [Except.ok.injEq, Prod.mk.injEq] at h
            have := (unescape_string_inplace_total it).2 _ _ hu
            rw [← h.2]; omega
        · cases hs : impl.skipws it with
          | nil => rw [hs] at h; simp at h
          | cons d it2 =>
            rw [hs] at h
            have hl := skipws_length_le it
            rw [hs] at hl
            simp only [List.length_cons] at hl
            simp only at h
            split_ifs at h
            · have := ih2 _ _ _ _ h
              simp only [List.length_cons] at this
              omega
            · simp only [Except.ok.injEq, Prod.mk.injEq] at h
              rw [← h.2]; omega
        · cases hs : impl.skipws it with
          | nil => rw [hs] at h; simp at h
          | cons d it2 =>
            rw [hs] at h
            have hl := skipws_length_le it
            rw [hs] at hl
            simp only [List.length_cons] at hl
            simp only at h
            split_ifs at h
            · have := ih3 _ _ _ _ h
              simp only [List.length_cons] at this
              omega
            · simp only [Except.ok.injEq, Prod.mk.injEq] at h
              rw [← h.2]; omega
        · have := parse_number_length ops _ _ _ h
          simp only [List.length_cons] at this
          omega
    · simp only [impl.parse_array_loop] at h
      cases hp : impl.parse_fragment_aux ops n it with
      | error e => rw [hp] at h; simp at h
      | ok r =>
        obtain ⟨v1, it1⟩ := r
        rw [hp] at h
        have h1 := ih1 _ _ _ hp
        simp only at h
        cases hs : impl.skipws it1 with
        | nil => rw [hs] at h; simp at h
        | cons d it2 =>
          rw [hs] at h
          have hl := skipws_length_le it1
          rw [hs] at hl
          simp only [List.length_cons] at hl
          simp only at h
          split_ifs at h
          · simp only [Except.ok.injEq, Prod.mk.injEq] at h
            rw [← h.2]; omega
          · have := ih2 _ _ _ _ h
            have := skipws_length_le it2
            omega
    · cases it with
      | nil => simp [impl.parse_object_loop] at h
      | cons q it =>
        simp only [impl.parse_object_loop] at h
        simp only [List.length_cons]
        split_ifs at h
        cases hu : impl.unescape_string_inplace it with
        | error e => rw [hu] at h; simp at h
        | ok r =>
          obtain ⟨key, it1⟩ := r
          rw [hu] at h
          have h1 := (unescape_string_inplace_total it).2 _ _ hu
          simp only at h
          cases hs : impl.skipws it1 with
          | nil => rw [hs] at h; simp at h
          | cons c it2 =>
            rw [hs] at h
            have hl := skipws_length_le it1
            rw [hs] at hl
            simp only [List.length_cons] at hl
            simp only at h
            split_ifs at h
            cases hs2 : impl.skipws it2 with
            | nil => rw [hs2] at h; simp at h
            | cons c1 it3 =>
              rw [hs2] at h
              have hl2 := skipws_length_le it2
              rw [hs2] at hl2
              simp only at h
              cases hp : impl.parse_fragment_aux ops n (c1 :: it3) with
              | error e => rw [hp] at h; simp at h
              | ok r =>
                obtain ⟨v1, it4⟩ := r
                rw [hp] at h
                have h4 := ih1 _ _ _ hp
                simp only at h
                cases hs3 : impl.skipws it4 with
                | nil => rw [hs3] at h; simp at h
                | cons d it5 =>
                  rw [hs3] at h
                  have hl3 := skipws_length_le it4
                  rw [hs3] at hl3
                  simp only [List.length_cons] at hl3
                  simp only at h
                  split_ifs at h
                  · simp only [Except.ok.injEq, Prod.mk.injEq] at h
                    rw [← h.2]; omega
                  · have := ih3 _ _ _ _ h
                    have := skipws_length_le it5
                    omega

/-- With a fuel of twice the length of the input and one more the parser never runs out
of fuel; the loops need one more than that. -/
theorem parse_aux_no_fuel (n : Nat) :
    (∀ it, 2 * it.length + 1 ≤ n → impl.parse_fragment_aux ops n it ≠ .error .fuel) ∧
    (∀ arr it, 2 * it.length + 2 ≤ n → impl.parse_array_loop ops n arr it ≠ .error .fuel) ∧
    (∀ obj it, 2 * it.length + 2 ≤ n →
      impl.parse_object_loop ops n obj it ≠ .error .fuel) := by
  induction n with
  | zero =>
    refine ⟨fun it hn => ?_, fun arr it hn => ?_, fun obj it hn => ?_⟩ <;> omega
  | succ n ih =>
    obtain ⟨ih1, ih2, ih3⟩ := ih
    refine ⟨fun it hn h => ?_, fun arr it hn h => ?_, fun obj it hn h => ?_⟩
    · cases it with
      | nil => simp [impl.parse_fragment_aux] at h
      | cons c it =>
        simp only [impl.parse_fragment_aux] at h
        simp only [List.length_cons] at hn
        split_ifs at h
        all_goals try (simp at h; done)
        · cases ha : impl.accept (ascii "ull") it <;> rw [ha] at h <;> simp at h
        · cases ha : impl.accept (ascii "alse") it <;> rw [ha] at h <;> simp at h
        · cases ha : impl.accept (ascii "rue") it <;> rw [ha] at h <;> simp at h
        · cases hu : impl.unescape_string_inplace it with
          | error e =>
            rw [hu] at h
            simp only [Except.error.injEq] at h
            rw [h] at hu
            exact (unescape_string_inplace_total it).1 hu
          | ok r =>
            rw [hu] at h; simp at h
        · cases hs : impl.skipws it with
          | nil => rw [hs] at h; simp at h
          | cons d it2 =>
            rw [hs] at h
            have hl := skipws_length_le it
            rw [hs] at hl
            simp only [List.length_cons] at hl
            simp only at h
            split_ifs at h
            exact ih2 _ _ (by simp only [List.length_cons]; omega) h
        · cases hs : impl.skipws it with
          | nil => rw [hs] at h; simp at h
          | cons d it2 =>
            rw [hs] at h
            have hl := skipws_length_le it
            rw [hs] at hl
            simp only [List.length_cons] at hl
            simp only at h
            split_ifs at h
            exact ih3 _ _ (by simp only [List.length_cons]; omega) h
        · exact parse_number_no_fuel ops _ h
    · simp only [impl.parse_array_loop] at h
      cases hp : impl.parse_fragment_aux ops n it with
      | error e =>
        rw [hp] at h
        simp only [Except.error.injEq] at h
        rw [h] at hp
        exact ih1 _ (by omega) hp
      | ok r =>
        obtain ⟨v1, it1⟩ := r
        rw [hp] at h
        have h1 := (parse_aux_length ops n).1 _ _ _ hp
        simp only at h
        cases hs : impl.skipws it1 with
        | nil => rw [hs] at h; simp at h
        | cons d it2 =>
          rw [hs] at h
          have hl := skipws_length_le it1
          rw [hs] at hl
          simp only [List.length_cons] at hl
          simp only at h
          split_ifs at h
          all_goals try (simp at h; done)
          have := skipws_length_le it2
          exact ih2 _ _ (by omega) h
    · cases it with
      | nil => simp [impl.parse_object_loop] at h
      | cons q it =>
        simp only [impl.parse_object_loop] at h
        simp only [List.length_cons] at hn
        split_ifs at h
        all_goals try (simp at h; done)
        cases hu : impl.unescape_string_inplace it with
        | error e =>
          rw [hu] at h
          simp only [Except.error.injEq] at h
          rw [h] at hu
          exact (unescape_string_inplace_total it).1 hu
        | ok r =>
          obtain ⟨key, it1⟩ := r
          rw [hu] at h
          have h1 := (unescape_string_inplace_total it).2 _ _ hu
          simp only at h
          cases hs : impl.skipws it1 with
          | nil => rw [hs] at h; simp at h
          | cons c it2 =>
            rw [hs] at h
            have hl := skipws_length_le it1
            rw [hs] at hl
            simp only [List.length_cons] at hl
            simp only at h
            split_ifs at h
            all_goals try (simp at h; done)
            cases hs2 : impl.skipws it2 with
            | nil => rw [hs2] at h; simp at h
            | cons c1 it3 =>
              rw [hs2] at h
              have hl2 := skipws_length_le it2
              rw [hs2] at hl2
              simp only at h
              cases hp : impl.parse_fragment_aux ops n (c1 :: it3) with
              | error e =>
                rw [hp] at h
                simp only [Except.error.injEq] at h
                rw [h] at hp
                exact ih1 _ (by omega) hp
              | ok r =>
                obtain ⟨v1, it4⟩ := r
                rw [hp] at h
                have h4 := (parse_aux_length ops n).1 _ _ _ hp
                simp only at h
                cases hs3 : impl.skipws it4 with
                | nil => rw [hs3] at h; simp at h
                | cons d it5 =>
                  rw [hs3] at h
                  have hl3 := skipws_length_le it4
                  rw [hs3] at hl3
                  simp only [List.length_cons] at hl3
                  simp only at h
                  split_ifs at h
                  all_goals try (simp at h; done)
                  have := skipws_length_le it5
                  exact ih3 _ _ (by omega) h

/-- The fuel `parse_fragment` starts with is enough: the error that marks an exhausted
fuel never comes out of it. -/
theorem parse_fragment_no_fuel (it : List Nat) :
    impl.parse_fragment ops it ≠ .error .fuel :=
  (parse_aux_no_fuel ops _).1 it (Nat.le_refl _)

/-- Neither `impl::parse` nor `parse` ends on an exhausted fuel. -/
theorem parse_no_fuel (str : List Nat) : parse ops str ≠ .error .fuel := by
  intro h
  unfold parse impl.parse at h
  cases hp : impl.parse_fragment ops (impl.skipws str) with
  | error e =>
    rw [hp] at h
    simp only [Except.error.injEq] at h
    rw [h] at hp
    exact parse_fragment_no_fuel ops _ hp
  | ok r =>
    obtain ⟨v, it⟩ := r
    rw [hp] at h
    simp only at h
    split_ifs at h
    simp at h

theorem seq_out_ne_fuel (a b : Except exn (List Nat)) (ha : a ≠ .error .fuel)
    (hb : b ≠ .error .fuel) : seq_out a b ≠ .error .fuel := by
  cases a with
  | error e =>
    simp only [seq_out, ne_eq, Except.error.injEq]
    intro he
    exact ha (by rw [he])
  | ok x => exact seq_out_no_fuel x b hb

theorem ok_ne_fuel (x : List Nat) : (Except.ok x : Except exn (List Nat)) ≠ .error .fuel := by
  simp

theorem array_rest_no_fuel (l : List (value F))
    (h : ∀ v ∈ l, v.write_json ops ≠ .error .fuel) :
    value.write_json.array_rest ops l ≠ .error .fuel := by
  induction l with
  | nil => simp [value.write_json.array_rest]
  | cons v rest ih =>
    rw [value.write_json.array_rest]
    exact seq_out_no_fuel _ _ (seq_out_ne_fuel _ _ (h v (List.mem_cons_self _ _))
      (ih (fun w hw => h w (List.mem_cons_of_mem _ hw))))

theorem object_rest_no_fuel (l : List (List Nat × value F))
    (h : ∀ p ∈ l, p.2.write_json ops ≠ .error .fuel) :
    value.write_json.object_rest ops l ≠ .error .fuel := by
  induction l with
  | nil => simp [value.write_json.object_rest]
  | cons p rest ih =>
    obtain ⟨k, v⟩ := p
    rw [value.write_json.object_rest]
    exact seq_out_no_fuel _ _ (seq_out_ne_fuel _ _ (escape_string_no_fuel _ _ _)
      (seq_out_no_fuel _ _ (seq_out_ne_fuel _ _ (h (k, v) (List.mem_cons_self _ _))
        (ih (fun w hw => h w (List.mem_cons_of_mem _ hw))))))

/-- Writing a value never ends on an exhausted fuel: the only loop with a fuel is the
one of `escape_string`, whose fuel is the length of the text. -/
theorem write_json_no_fuel (t : value F) : t.write_json ops ≠ .error .fuel := by
  refine @value.rec F
    (fun v => v.write_json ops ≠ .error .fuel)
    (fun l => ∀ v ∈ l, v.write_json ops ≠ .error .fuel)
    (fun l => ∀ p ∈ l, p.2.write_json ops ≠ .error .fuel)
    (fun p => p.2.write_json ops ≠ .error .fuel)
    ?_ ?_ ?_ ?_ ?_ ?_ ?_ ?_ ?_ ?_ ?_ ?_ t
  · simp [value.write_json]
  · intro b; simp [value.write_json]
  · intro n; simp [value.write_json]
  · intro x; simp [value.write_json]
  · intro s
    rw [value.write_json]
    exact escape_string_no_fuel _ _ _
  · intro a ih
    cases a with
    | nil => simp [value.write_json]
    | cons v rest =>
      rw [value.write_json]
      exact seq_out_no_fuel _ _ (seq_out_ne_fuel _ _ (ih v (List.mem_cons_self _ _))
        (seq_out_ne_fuel _ _
          (array_rest_no_fuel ops rest (fun w hw => ih w (List.mem_cons_of_mem _ hw)))
          (ok_ne_fuel _)))
  · intro o ih
    cases o with
    | nil => simp [value.write_json]
    | cons p rest =>
      obtain ⟨k, v⟩ := p
      rw [value.write_json]
      exact seq_out_no_fuel _ _ (seq_out_ne_fuel _ _ (escape_string_no_fuel _ _ _)
        (seq_out_no_fuel _ _ (seq_out_ne_fuel _ _ (ih (k, v) (List.mem_cons_self _ _))
          (seq_out_ne_fuel _ _
            (object_rest_no_fuel ops rest (fun w hw => ih w (List.mem_cons_of_mem _ hw)))
            (ok_ne_fuel _)))))
  · intro v hv
    simp at hv
  · intro v rest hv hr w hw
    rcases List.mem_cons.1 hw with h | h
    · rw [h]; exact hv
    · exact hr w h
  · intro v hv
    simp at hv
  · intro p rest hv hr w hw
    rcases List.mem_cons.1 hw with h | h
    · rw [h]; exact hv
    · exact hr w h
  · intro k v hv
    exact hv

/-- The `stringify` of a value never ends on an exhausted fuel. -/
theorem stringify_no_fuel (t : value F) : stringify ops t ≠ .error .fuel :=
  write_json_no_fuel ops t

/-! ## Unicode escapes read by the string decoder -/

theorem hex_digit_value_lt (c x : Nat) (h : hex_digit_value c = some x) : x < 16 := by
  unfold hex_digit_value at h
  split_ifs at h <;> simp at h <;> omega

theorem read4hex_loop_digit (i rv c x : Nat) (rest : List Nat)
    (h : hex_digit_value c = some x) :
    impl.read4hex_loop (i + 1) rv (c :: rest)
      = impl.read4hex_loop i (((rv <<< 4) % 65536) ||| x) rest := by
  unfold hex_digit_value at h
  simp only [impl.read4hex_loop]
  split_ifs at h with h1 h2 h3
  · simp only [Option.some.injEq] at h
    rw [if_pos h1, h]
  · simp only [Option.some.injEq] at h
    rw [if_neg h1, if_pos h2]
    congr 2
  · simp only [Option.some.injEq] at h
    rw [if_neg h1, if_neg h2, if_pos h3]
    congr 2

theorem hex4_value_cases (ds : List Nat) (v : Nat) (h : hex4_value ds = some v) :
    ∃ a b c d x y z w, ds = [a, b, c, d] ∧ hex_digit_value a = some x ∧
      hex_digit_value b = some y ∧ hex_digit_value c = some z ∧ hex_digit_value d = some w ∧
      v = x * 4096 + y * 256 + z * 16 + w := by
  unfold hex4_value at h
  split at h
  · rename_i a b c d
    split at h
    · rename_i x y z w hx hy hz hw
      simp only [Option.some.injEq] at h
      exact ⟨a, b, c, d, x, y, z, w, rfl, hx, hy, hz, hw, h.symm⟩
    · simp at h
  · simp at h

theorem hex4_value_lt (ds : List Nat) (v : Nat) (h : hex4_value ds = some v) : v < 65536 := by
  obtain ⟨a, b, c, d, x, y, z, w, -, hx, hy, hz, hw, hv⟩ := hex4_value_cases ds v h
  have := hex_digit_value_lt _ _ hx
  have := hex_digit_value_lt _ _ hy
  have := hex_digit_value_lt _ _ hz
  have := hex_digit_value_lt _ _ hw
  omega

/-- The function `read4hex` reads four hexadecimal digits of either case as the code
unit they denote, and leaves the cursor after them. -/
theorem read4hex_hex4 (ds : List Nat) (v : Nat) (rest : List Nat)
    (h : hex4_value ds = some v) : impl.read4hex (ds ++ rest) = .ok (v, rest) := by
  obtain ⟨a, b, c, d, x, y, z, w, hds, hx, hy, hz, hw, hv⟩ := hex4_value_cases ds v h
  have bx := hex_digit_value_lt _ _ hx
  have b_y := hex_digit_value_lt _ _ hy
  have bz := hex_digit_value_lt _ _ hz
  have bw := hex_digit_value_lt _ _ hw
  subst hds
  simp only [impl.read4hex, List.cons_append, List.nil_append]
  rw [read4hex_loop_digit _ _ _ _ _ hx, read4hex_loop_digit _ _ _ _ _ hy,
    read4hex_loop_digit _ _ _ _ _ hz, read4hex_loop_digit _ _ _ _ _ hw]
  rw [shl4_or _ _ bx, shl4_or _ _ b_y, shl4_or _ _ bz, shl4_or _ _ bw]
  simp only [impl.read4hex_loop]
  congr 2
  omega

theorem utf8_two_bytes (c : Nat) (h0 : 0x80 ≤ c) (h : c < 0x800) :
    [0xc0 ||| ((c >>> 6) &&& 0x1f), 0x80 ||| (c &&& 0x3f)] = utf8_encode c := by
  have e1 : 0xc0 ||| ((c >>> 6) &&& 0x1f) = 0xc0 + c / 64 := by
    rw [and_1f, Nat.shiftRight_eq_div_pow, or_add 5 _ _ (by decide) (by omega)]
    omega
  have e2 : 0x80 ||| (c &&& 0x3f) = 0x80 + c % 64 := by
    rw [and_3f, or_add 6 _ _ (by decide) (by omega)]
  rw [e1, e2, utf8_encode, if_neg (by omega), if_pos h]

theorem utf8_three_bytes (c : Nat) (h0 : 0x800 ≤ c) (h : c < 0x10000) :
    [0xe0 ||| ((c >>> 12) &&& 0x0f), 0x80 ||| ((c >>> 6) &&& 0x3f), 0x80 ||| (c &&& 0x3f)]
      = utf8_encode c := by
  have e1 : 0xe0 ||| ((c >>> 12) &&& 0x0f) = 0xe0 + c / 4096 := by
    rw [and_0f, Nat.shiftRight_eq_div_pow, or_add 4 _ _ (by decide) (by omega)]
    omega
  have e2 : 0x80 ||| ((c >>> 6) &&& 0x3f) = 0x80 + c / 64 % 64 := by
    rw [and_3f, Nat.shiftRight_eq_div_pow, or_add 6 _ _ (by decide) (by omega)]
  have e3 : 0x80 ||| (c &&& 0x3f) = 0x80 + c % 64 := by
    rw [and_3f, or_add 6 _ _ (by decide) (by omega)]
  rw [e1, e2, e3, utf8_encode, if_neg (by omega), if_neg (by omega), if_pos h]

theorem utf8_four_bytes (c : Nat) (h0 : 0x10000 ≤ c) (h : c < 0x200000) :
    [0xf0 ||| ((c >>> 18) &&& 0x07), 0x80 ||| ((c >>> 12) &&& 0x3f),
      0x80 ||| ((c >>> 6) &&& 0x3f), 0x80 ||| (c &&& 0x3f)] = utf8_encode c := by
  have e0 : 0xf0 ||| ((c >>> 18) &&& 0x07) = 0xf0 + c / 262144 := by
    rw [and_07, Nat.shiftRight_eq_div_pow, or_add 3 _ _ (by decide) (by omega)]
    omega
  have e1 : 0x80 ||| ((c >>> 12) &&& 0x3f) = 0x80 + c / 4096 % 64 := by
    rw [and_3f, Nat.shiftRight_eq_div_pow, or_add 6 _ _ (by decide) (by omega)]
  have e2 : 0x80 ||| ((c >>> 6) &&& 0x3f) = 0x80 + c / 64 % 64 := by
    rw [and_3f, Nat.shiftRight_eq_div_pow, or_add 6 _ _ (by decide) (by omega)]
  have e3 : 0x80 ||| (c &&& 0x3f) = 0x80 + c % 64 := by
    rw [and_3f, or_add 6 _ _ (by decide) (by omega)]
  rw [e0, e1, e2, e3, utf8_encode, if_neg (by omega), if_neg (by omega), if_neg (by omega)]

theorem surrogate_pair_value (h l : Nat) (h1 : 0xd800 ≤ h) (h2 : h ≤ 0xdbff)
    (l1 : 0xdc00 ≤ l) (l2 : l ≤ 0xdfff) :
    (((h &&& 0x3ff) <<< 10) ||| (l &&& 0x3ff)) + 0x10000
      = 0x10000 + (h - 0xd800) * 1024 + (l - 0xdc00) := by
  rw [and_3ff, and_3ff, shl_or 10 _ _ (by omega)]
  omega

/-- A `\u` escape of a code unit that is not a surrogate is stored as the UTF-8 encoding
of the code unit. -/
theorem unescape_unicode_unit (ds : List Nat) (c : Nat) (it : List Nat)
    (h : hex4_value ds = some c) (hs : ¬ is_surrogate c) :
    impl.unescape_unicode (ds ++ it) = .ok (utf8_encode c, it) := by
  have hlt := hex4_value_lt ds c h
  unfold impl.unescape_unicode
  rw [read4hex_hex4 ds c it h]
  simp only
  unfold is_surrogate at hs
  by_cases c1 : c < 0x80
  · rw [if_pos c1, utf8_encode, if_pos c1]
  · rw [if_neg c1]
    by_cases c2 : c < 0x800
    · rw [if_pos c2, utf8_two_bytes c (by omega) c2]
    · rw [if_neg c2, if_pos (by omega), utf8_three_bytes c (by omega) hlt]

/-- The escape of a high surrogate followed by the escape of a low surrogate is stored as
the four bytes of the code point of the pair. -/
theorem unescape_unicode_pair (hs ls : List Nat) (h l : Nat) (it : List Nat)
    (hh : hex4_value hs = some h) (hl : hex4_value ls = some l)
    (h1 : 0xd800 ≤ h) (h2 : h ≤ 0xdbff) (l1 : 0xdc00 ≤ l) (l2 : l ≤ 0xdfff) :
    impl.unescape_unicode (hs ++ 0x5c :: 0x75 :: (ls ++ it))
      = .ok (utf8_encode ((((h &&& 0x3ff) <<< 10) ||| (l &&& 0x3ff)) + 0x10000), it) := by
  unfold impl.unescape_unicode
  rw [read4hex_hex4 hs h _ hh]
  simp only
  rw [if_neg (by omega), if_neg (by omega), if_neg (by omega), if_pos (by omega)]
  unfold impl.unescape_surrogate
  simp only [ne_eq, not_true_eq_false, if_false]
  rw [read4hex_hex4 ls l it hl]
  simp only
  rw [if_neg (by omega)]
  have hv := surrogate_pair_value h l h1 h2 l1 l2
  rw [utf8_four_bytes _ (by omega) (by omega)]

/-- A literal that holds one piece read by a single turn of the loop. -/
theorem unescape_literal_of_turn (c : Nat) (t bs rest : List Nat) (hq : c ≠ 0x22)
    (h : ∀ it, impl.unescape_turn c (t ++ it) = .ok (bs, it)) :
    impl.unescape_string_inplace (c :: t ++ 0x22 :: rest) = .ok (bs, rest) := by
  unfold impl.unescape_string_inplace
  have hl : (c :: t ++ 0x22 :: rest).length + 1 = (t.length + rest.length + 1) + 1 + 1 := by
    simp only [List.cons_append, List.length_cons, List.length_append]
    omega
  rw [hl]
  simp only [List.cons_append, impl.unescape_loop, hq, if_false, h, if_true, List.nil_append]

theorem unescape_turn_unit (ds : List Nat) (c : Nat) (it : List Nat)
    (h : hex4_value ds = some c) (hs : ¬ is_surrogate c) :
    impl.unescape_turn 0x5c (0x75 :: ds ++ it) = .ok (utf8_encode c, it) := by
  have e0 : ¬ ((0x75 : Nat) = 0x62) := by decide
  have e1 : ¬ ((0x75 : Nat) = 0x66) := by decide
  have e2 : ¬ ((0x75 : Nat) = 0x6e) := by decide
  have e3 : ¬ ((0x75 : Nat) = 0x72) := by decide
  have e4 : ¬ ((0x75 : Nat) = 0x74) := by decide
  have e5 : ¬ ((0x75 : Nat) = 0x2f ∨ (0x75 : Nat) = 0x5c ∨ (0x75 : Nat) = 0x22) := by decide
  simp only [List.cons_append, impl.unescape_turn, if_true, e0, e1, e2, e3, e4, e5, if_false]
  exact unescape_unicode_unit ds c it h hs

theorem unescape_turn_pair (hs ls : List Nat) (h l : Nat) (it : List Nat)
    (hh : hex4_value hs = some h) (hl : hex4_value ls = some l)
    (h1 : 0xd800 ≤ h) (h2 : h ≤ 0xdbff) (l1 : 0xdc00 ≤ l) (l2 : l ≤ 0xdfff) :
    impl.unescape_turn 0x5c ((0x75 :: hs ++ 0x5c :: 0x75 :: ls) ++ it)
      = .ok (utf8_encode ((((h &&& 0x3ff) <<< 10) ||| (l &&& 0x3ff)) + 0x10000), it) := by
  have e0 : ¬ ((0x75 : Nat) = 0x62) := by decide
  have e1 : ¬ ((0x75 : Nat) = 0x66) := by decide
  have e2 : ¬ ((0x75 : Nat) = 0x6e) := by decide
  have e3 : ¬ ((0x75 : Nat) = 0x72) := by decide
  have e4 : ¬ ((0x75 : Nat) = 0x74) := by decide
  have e5 : ¬ ((0x75 : Nat) = 0x2f ∨ (0x75 : Nat) = 0x5c ∨ (0x75 : Nat) = 0x22) := by decide
  simp only [List.cons_append, List.append_assoc, impl.unescape_turn, if_true, e0, e1, e2, e3,
    e4, e5, if_false]
  exact unescape_unicode_pair hs ls h l it hh hl h1 h2 l1 l2

theorem utf8_encode_length (cp : Nat) :
    (utf8_encode cp).length
      = if cp < 0x80 then 1 else if cp < 0x800 then 2 else if cp < 0x10000 then 3 else 4 := by
  unfold utf8_encode
  split_ifs <;> rfl

/-- C14: a `\u` escape whose four hexadecimal digits denote a code unit `c` outside the
surrogate range is decoded to the UTF-8 encoding of `c` (one byte below `0x80`, two
below `0x800`, three otherwise), in any turn of the loop and as a literal of its own; and
the escape of a high surrogate `h` followed at once by the escape of a low surrogate `l`
is decoded to the four bytes that encode `(((h & 0x3FF) << 10) | (l & 0x3FF)) + 0x10000`. -/
theorem unicode_escape_decoded :
    (∀ ds c, hex4_value ds = some c → ¬ is_surrogate c →
      (∀ it, impl.unescape_turn 0x5c (0x75 :: ds ++ it) = .ok (utf8_encode c, it)) ∧
      (∀ rest, impl.unescape_string_inplace (0x5c :: 0x75 :: ds ++ 0x22 :: rest)
        = .ok (utf8_encode c, rest)) ∧
      (utf8_encode c).length = if c < 0x80 then 1 else if c < 0x800 then 2 else 3) ∧
    (∀ hs ls h l, hex4_value hs = some h → hex4_value ls = some l →
      0xd800 ≤ h → h ≤ 0xdbff → 0xdc00 ≤ l → l ≤ 0xdfff →
      (∀ it, impl.unescape_turn 0x5c ((0x75 :: hs ++ 0x5c :: 0x75 :: ls) ++ it)
        = .ok (utf8_encode ((((h &&& 0x3ff) <<< 10) ||| (l &&& 0x3ff)) + 0x10000), it)) ∧
      (∀ rest, impl.unescape_string_inplace
          (0x5c :: (0x75 :: hs ++ 0x5c :: 0x75 :: ls) ++ 0x22 :: rest)
        = .ok (utf8_encode ((((h &&& 0x3ff) <<< 10) ||| (l &&& 0x3ff)) + 0x10000), rest)) ∧
      (utf8_encode ((((h &&& 0x3ff) <<< 10) ||| (l &&& 0x3ff)) + 0x10000)).length = 4) := by
  refine ⟨fun ds c hc hs => ⟨fun it => unescape_turn_unit ds c it hc hs, fun rest => ?_, ?_⟩,
    fun hs ls h l hh hl h1 h2 l1 l2 =>
      ⟨fun it => unescape_turn_pair hs ls h l it hh hl h1 h2 l1 l2, fun rest => ?_, ?_⟩⟩
  · exact unescape_literal_of_turn 0x5c (0x75 :: ds) _ rest (by decide)
      (fun it => unescape_turn_unit ds c it hc hs)
  · have hlt := hex4_value_lt ds c hc
    rw [utf8_encode_length]
    split_ifs <;> rfl
  · exact unescape_literal_of_turn 0x5c (0x75 :: hs ++ 0x5c :: 0x75 :: ls) _ rest (by decide)
      (fun it => unescape_turn_pair hs ls h l it hh hl h1 h2 l1 l2)
  · rw [utf8_encode_length, surrogate_pair_value h l h1 h2 l1 l2]
    rw [if_neg (by omega), if_neg (by omega), if_neg (by omega)]

theorem unicode_escape_decoded_witness :
    (impl.unescape_turn 0x5c (0x75 :: ascii "00E9" ++ []) = .ok (utf8_encode 0xe9, [])) ∧
    (impl.unescape_string_inplace
        (0x5c :: (0x75 :: ascii "d83d" ++ 0x5c :: 0x75 :: ascii "DE00") ++ 0x22 :: [])
      = .ok (utf8_encode ((((0xd83d &&& 0x3ff) <<< 10) ||| (0xde00 &&& 0x3ff)) + 0x10000), [])) ∧
    utf8_encode 0xe9 = [0xc3, 0xa9] ∧
    utf8_encode ((((0xd83d &&& 0x3ff) <<< 10) ||| (0xde00 &&& 0x3ff)) + 0x10000)
      = [0xf0, 0x9f, 0x98, 0x80] :=
  ⟨(unicode_escape_decoded.1 (ascii "00E9") 0xe9 (by rfl) (by decide)).1 [],
   (unicode_escape_decoded.2 (ascii "d83d") (ascii "DE00") 0xd83d 0xde00 (by rfl) (by rfl)
      (by decide) (by decide) (by decide) (by decide)).2.1 [],
   by rfl, by rfl⟩

/-! ## Unpaired surrogates -/

theorem unescape_turn_byte (c : Nat) (it : List Nat) (h : c ≠ 0x5c) :
    impl.unescape_turn c it = .ok ([c], it) := by
  simp [impl.unescape_turn, h]

theorem unescape_turn_simple (e : Nat) (it : List Nat)
    (h : e ∈ [0x62, 0x66, 0x6e, 0x72, 0x74, 0x2f, 0x5c, 0x22]) :
    ∃ b, impl.unescape_turn 0x5c (e :: it) = .ok ([b], it) := by
  simp only [List.mem_cons, List.mem_singleton, List.not_mem_nil, or_false] at h
  rcases h with h | h | h | h | h | h | h | h <;> subst h <;>
    simp [impl.unescape_turn]

/-- An error that the loop raises at `it` whatever it has written is raised as well when
a well-formed start of a literal stands before `it`. -/
theorem unescape_loop_after_start (p : List Nat) (hp : literal_start p) (it : List Nat)
    (e : exn) (he : ∀ m out, impl.unescape_loop (m + 1) out it = .error e) :
    ∀ n out, p.length + 1 ≤ n → impl.unescape_loop n out (p ++ it) = .error e := by
  induction hp with
  | nil =>
    intro n out hn
    obtain ⟨m, rfl⟩ : ∃ m, n = m + 1 := ⟨n - 1, by simp at hn; omega⟩
    exact he m out
  | byte c p hq hb _ ih =>
    intro n out hn
    simp only [List.length_cons] at hn
    obtain ⟨m, rfl⟩ : ∃ m, n = m + 1 := ⟨n - 1, by omega⟩
    simp only [List.cons_append, impl.unescape_loop, hq, if_false, unescape_turn_byte c _ hb]
    exact ih m _ (by omega)
  | simple x p hx _ ih =>
    intro n out hn
    simp only [List.length_cons] at hn
    obtain ⟨m, rfl⟩ : ∃ m, n = m + 1 := ⟨n - 1, by omega⟩
    obtain ⟨b, hb⟩ := unescape_turn_simple x (p ++ it) hx
    have hq : ¬ ((0x5c : Nat) = 0x22) := by decide
    simp only [List.cons_append, impl.unescape_loop, hq, if_false, hb]
    exact ih m _ (by omega)
  | unit ds c p hc hs _ ih =>
    intro n out hn
    simp only [List.cons_append, List.length_cons, List.length_append] at hn
    obtain ⟨m, rfl⟩ : ∃ m, n = m + 1 := ⟨n - 1, by omega⟩
    have hq : ¬ ((0x5c : Nat) = 0x22) := by decide
    have ht := unescape_turn_unit ds c (p ++ it) hc hs
    simp only [List.cons_append] at ht
    simp only [List.cons_append, List.append_assoc, impl.unescape_loop, hq, if_false, ht]
    exact ih m _ (by omega)
  | pair hs ls h l p hh hl h1 h2 l1 l2 _ ih =>
    intro n out hn
    simp only [List.cons_append, List.length_cons, List.length_append] at hn
    obtain ⟨m, rfl⟩ : ∃ m, n = m + 1 := ⟨n - 1, by omega⟩
    have hq : ¬ ((0x5c : Nat) = 0x22) := by decide
    have ht := unescape_turn_pair hs ls h l (p ++ it) hh hl h1 h2 l1 l2
    simp only [List.cons_append, List.append_assoc] at ht
    simp only [List.cons_append, List.append_assoc, impl.unescape_loop, hq, if_false, ht]
    exact ih m _ (by omega)

theorem unescape_after_start (p : List Nat) (hp : literal_start p) (it : List Nat)
    (e : exn) (he : ∀ m out, impl.unescape_loop (m + 1) out it = .error e) :
    impl.unescape_string_inplace (p ++ it) = .error e := by
  unfold impl.unescape_string_inplace
  exact unescape_loop_after_start p hp it e he _ _ (by simp)

theorem unescape_loop_of_turn_error (c : Nat) (it : List Nat) (e : exn) (hq : c ≠ 0x22)
    (h : impl.unescape_turn c it = .error e) (m : Nat) (out : List Nat) :
    impl.unescape_loop (m + 1) out (c :: it) = .error e := by
  simp only [impl.unescape_loop, hq, if_false, h]

theorem unescape_turn_u (it : List Nat) :
    impl.unescape_turn 0x5c (0x75 :: it) = impl.unescape_unicode it := by
  have e0 : ¬ ((0x75 : Nat) = 0x62) := by decide
  have e1 : ¬ ((0x75 : Nat) = 0x66) := by decide
  have e2 : ¬ ((0x75 : Nat) = 0x6e) := by decide
  have e3 : ¬ ((0x75 : Nat) = 0x72) := by decide
  have e4 : ¬ ((0x75 : Nat) = 0x74) := by decide
  have e5 : ¬ ((0x75 : Nat) = 0x2f ∨ (0x75 : Nat) = 0x5c ∨ (0x75 : Nat) = 0x22) := by decide
  simp only [impl.unescape_turn, if_true, e0, e1, e2, e3, e4, e5, if_false]

/-- The escape of a low surrogate, met where an escape may start, is refused. -/
theorem unescape_unicode_low (ls : List Nat) (l : Nat) (rest : List Nat)
    (hl : hex4_value ls = some l) (l1 : 0xdc00 ≤ l) (l2 : l ≤ 0xdfff) :
    impl.unescape_unicode (ls ++ rest) = .error (.parser .surrogate_escape) := by
  unfold impl.unescape_unicode
  rw [read4hex_hex4 ls l rest hl]
  simp only
  rw [if_neg (by omega), if_neg (by omega), if_neg (by omega), if_neg (by omega)]

/-- The escape of a high surrogate is refused when no escape of a low surrogate follows
it. -/
theorem unescape_unicode_high (hs : List Nat) (h : Nat) (it : List Nat)
    (hh : hex4_value hs = some h) (h1 : 0xd800 ≤ h) (h2 : h ≤ 0xdbff)
    (hit : lacks_low_surrogate it) :
    impl.unescape_unicode (hs ++ it) = .error (.parser .surrogate_escape) := by
  unfold impl.unescape_unicode
  rw [read4hex_hex4 hs h it hh]
  simp only
  rw [if_neg (by omega), if_neg (by omega), if_neg (by omega), if_pos (by omega)]
  cases hit with
  | at_end => rfl
  | other b rest hb => simp [impl.unescape_surrogate, hb]
  | backslash_end => rfl
  | not_u u rest hu => simp [impl.unescape_surrogate, hu]
  | not_low ds x rest hx hlow =>
    simp only [List.cons_append, impl.unescape_surrogate, ne_eq, not_true_eq_false, if_false]
    rw [read4hex_hex4 ds x rest hx]
    simp only
    rw [if_pos (by omega)]

/-- An exception of the string decoder leaves `parse` as it is. -/
theorem parse_string_error (x : List Nat) (e : exn)
    (h : impl.unescape_string_inplace x = .error e) : parse ops (0x22 :: x) = .error e := by
  have hws : ¬ is_ws 0x22 := by decide
  rw [parse, skipws_cons_not_ws _ _ hws, impl.parse, parse_fragment_cons]
  simp [impl.parse_fragment_aux, h]

theorem no_escape_in_short_text (it : List Nat) (h : it.length < 6) :
    ¬ ∃ ls l rest, it = 0x5c :: 0x75 :: (ls ++ rest) ∧ hex4_value ls = some l ∧
      0xdc00 ≤ l ∧ l ≤ 0xdfff := by
  rintro ⟨ls, l, rest, hit, hl, -, -⟩
  obtain ⟨a, b, c, d, x, y, z, w, hds, -⟩ := hex4_value_cases ls l hl
  rw [hit, hds] at h
  simp at h
  omega

/-- C15, as the claim states it, fails: the escape of the high surrogate `d83d` is followed
by a `\u` that is not the escape of a low surrogate, because four hexadecimal digits do
not follow it, and `read4hex` refuses the text with its own messages, not with the
message for surrogates. And a literal with the escape of a lone low surrogate is refused
with another message when an earlier escape is malformed. -/
theorem surrogate_then_malformed_escape :
    hex4_value (ascii "d83d") = some 0xd83d ∧
    (¬ ∃ ls l rest, ascii "\\u12\"" = 0x5c :: 0x75 :: (ls ++ rest) ∧ hex4_value ls = some l ∧
      0xdc00 ≤ l ∧ l ≤ 0xdfff) ∧
    impl.unescape_string_inplace (0x5c :: 0x75 :: (ascii "d83d" ++ ascii "\\u12\""))
      = .error (.parser .unicode_escape) ∧
    parse text_float (0x22 :: 0x5c :: 0x75 :: (ascii "d83d" ++ ascii "\\u12\""))
      = .error (.parser .unicode_escape) ∧
    (¬ ∃ ls l rest, ascii "\\ude" = 0x5c :: 0x75 :: (ls ++ rest) ∧ hex4_value ls = some l ∧
      0xdc00 ≤ l ∧ l ≤ 0xdfff) ∧
    impl.unescape_string_inplace (0x5c :: 0x75 :: (ascii "d83d" ++ ascii "\\ude"))
      = .error (.parser .premature_end_json_string) ∧
    impl.unescape_string_inplace (ascii "\\q\\udc00\"")
      = .error (.parser .backslash_escape) ∧
    parser_error.unicode_escape ≠ parser_error.surrogate_escape ∧
    parser_error.premature_end_json_string ≠ parser_error.surrogate_escape ∧
    parser_error.backslash_escape ≠ parser_error.surrogate_escape :=
  ⟨by rfl, no_escape_in_short_text _ (by decide), by rfl, by rfl,
    no_escape_in_short_text _ (by decide), by rfl, by rfl, by decide, by decide, by decide⟩

/-- C15 (amended): after a well-formed start of a literal, the `\u` escape of a low
surrogate is refused with the message for surrogates, and so is the `\u` escape of a high
surrogate that is followed by the end of the input, by a byte other than a backslash, by
a backslash not followed by `u`, or by a `\u` escape of four hexadecimal digits that is
not a low surrogate. -/
theorem unpaired_surrogate_refused (p : List Nat) (hp : literal_start p) :
    (∀ ls l rest, hex4_value ls = some l → 0xdc00 ≤ l → l ≤ 0xdfff →
      impl.unescape_string_inplace (p ++ (0x5c :: 0x75 :: (ls ++ rest)))
        = .error (.parser .surrogate_escape)) ∧
    (∀ hs h it, hex4_value hs = some h → 0xd800 ≤ h → h ≤ 0xdbff → lacks_low_surrogate it →
      impl.unescape_string_inplace (p ++ (0x5c :: 0x75 :: (hs ++ it)))
        = .error (.parser .surrogate_escape)) := by
  have hq : (0x5c : Nat) ≠ 0x22 := by decide
  refine ⟨fun ls l rest hl l1 l2 => ?_, fun hs h it hh h1 h2 hit => ?_⟩
  · apply unescape_after_start p hp
    intro m out
    apply unescape_loop_of_turn_error _ _ _ hq
    rw [unescape_turn_u]
    exact unescape_unicode_low ls l rest hl l1 l2
  · apply unescape_after_start p hp
    intro m out
    apply unescape_loop_of_turn_error _ _ _ hq
    rw [unescape_turn_u]
    exact unescape_unicode_high hs h it hh h1 h2 hit

theorem unpaired_surrogate_refused_witness :
    literal_start (ascii "a\\n\\u00e9") ∧
    impl.unescape_string_inplace
        (ascii "a\\n\\u00e9" ++ (0x5c :: 0x75 :: (ascii "dc00" ++ ascii "\"")))
      = .error (.parser .surrogate_escape) ∧
    impl.unescape_string_inplace
        (ascii "a\\n\\u00e9" ++ (0x5c :: 0x75 :: (ascii "d83d" ++ ascii "\\u0041\"")))
      = .error (.parser .surrogate_escape) :=
  have hp : literal_start (ascii "a\\n\\u00e9") :=
    literal_start.byte 0x61 _ (by decide) (by decide)
      (literal_start.simple 0x6e _ (by decide)
        (literal_start.unit (ascii "00e9") 0xe9 [] (by rfl) (by decide) literal_start.nil))
  ⟨hp,
   (unpaired_surrogate_refused _ hp).1 (ascii "dc00") 0xdc00 (ascii "\"") (by rfl)
     (by decide) (by decide),
   (unpaired_surrogate_refused _ hp).2 (ascii "d83d") 0xd83d (ascii "\\u0041\"") (by rfl)
     (by decide) (by decide)
     (lacks_low_surrogate.not_low (ascii "0041") 0x41 (ascii "\"") (by rfl) (by decide))⟩

/-! ## The escapes of the bytes below 0x80 -/

theorem lower_hex_eq (d : Nat) (h : d < 16) : impl.hex_char d = lower_hex d := by
  rw [hex_char_eq d h, lower_hex]
  split_ifs <;> omega

theorem output_hex_two (c : Nat) :
    impl.output_hex c 2 = [lower_hex (c / 16 % 16), lower_hex (c % 16)] := by
  simp only [impl.output_hex, nibble]
  rw [lower_hex_eq _ (Nat.mod_lt _ (by decide)), lower_hex_eq _ (Nat.mod_lt _ (by decide))]
  norm_num

theorem output_hex_four (v : Nat) : impl.output_hex v 4 = hex4_text (v % 65536) := by
  simp only [impl.output_hex, nibble, hex4_text]
  rw [lower_hex_eq _ (Nat.mod_lt _ (by decide)), lower_hex_eq _ (Nat.mod_lt _ (by decide)),
    lower_hex_eq _ (Nat.mod_lt _ (by decide)), lower_hex_eq _ (Nat.mod_lt _ (by decide))]
  norm_num
  refine ⟨?_, ?_, ?_⟩ <;> congr 1 <;> omega

theorem escape_step_low (eu es : Bool) (c : Nat) (it : List Nat) (h : c < 0x80) :
    escape_step eu es c it = .ok (escape_byte_spec es c, it) := by
  unfold escape_step escape_byte_spec
  by_cases hc : c < 0x20
  · rw [if_pos hc]
    unfold escape_control
    have hd : c / 16 % 16 = c / 16 := by omega
    by_cases h8 : c = 0x08
    · simp [h8, ascii]
    by_cases h12 : c = 0x0c
    · simp [h12, ascii]
    by_cases h10 : c = 0x0a
    · simp [h10, ascii]
    by_cases h13 : c = 0x0d
    · simp [h13, ascii]
    by_cases h9 : c = 0x09
    · simp [h9, ascii]
    simp only [h8, h12, h10, h13, h9, hc, if_false, if_true, output_hex_two, hd]
    rfl
  · rw [if_neg hc, if_neg (by omega)]
    have h8 : ¬ c = 0x08 := by omega
    have h12 : ¬ c = 0x0c := by omega
    have h10 : ¬ c = 0x0a := by omega
    have h13 : ¬ c = 0x0d := by omega
    have h9 : ¬ c = 0x09 := by omega
    simp only [h8, h12, h10, h13, h9, hc, if_false]
    unfold escape_ascii
    by_cases hq : c = 0x22
    · simp [hq, ascii]
    by_cases hb : c = 0x5c
    · simp [hb, ascii]
    by_cases hs : c = 0x2f
    · cases es <;> simp [hs, ascii]
    simp only [hq, hb, hs, if_false]

theorem escape_string_loop_low (eu es : Bool) (txt : List Nat) (h : ∀ c ∈ txt, c < 0x80) :
    ∀ n, txt.length ≤ n → escape_string_loop eu es n txt = .ok (escape_text_spec es txt) := by
  induction txt with
  | nil =>
    intro n _
    cases n <;> rfl
  | cons c rest ih =>
    intro n hn
    simp only [List.length_cons] at hn
    obtain ⟨m, rfl⟩ : ∃ m, n = m + 1 := ⟨n - 1, by omega⟩
    simp only [escape_string_loop]
    rw [escape_step_low eu es c rest (h c (List.mem_cons_self _ _))]
    simp only
    rw [ih (fun d hd => h d (List.mem_cons_of_mem _ hd)) m (by omega)]
    rfl

/-- C16: for a text of bytes below `0x80`, and whatever the two flags are, `escape_string`
writes a quote, then for each byte what the specification says (`\b \f \n \r \t` for
those control bytes, `\u00XX` with two hexadecimal digits for another byte below `0x20`,
`\"` and `\\` for the quote and the backslash, `/` or `\/` for the slash as `escape_slash`
says, the byte itself otherwise), then a quote. -/
theorem ascii_escapes (txt : List Nat) (escape_utf8 escape_slash : Bool)
    (h : ∀ c ∈ txt, c < 0x80) :
    escape_string txt escape_utf8 escape_slash
      = .ok (0x22 :: (escape_text_spec escape_slash txt ++ [0x22])) := by
  unfold escape_string
  rw [escape_string_loop_low escape_utf8 escape_slash txt h _ (Nat.le_refl _)]
  rfl

theorem ascii_escapes_witness :
    (∀ c ∈ ascii "a\"\\/\n\x01z", c < 0x80) ∧
    escape_string (ascii "a\"\\/\n\x01z") true true
      = .ok (0x22 :: (escape_text_spec true (ascii "a\"\\/\n\x01z") ++ [0x22])) ∧
    0x22 :: (escape_text_spec true (ascii "a\"\\/\n\x01z") ++ [0x22])
      = ascii "\"a\\\"\\\\\\/\\n\\u0001z\"" ∧
    0x22 :: (escape_text_spec false (ascii "/\x1f") ++ [0x22]) = ascii "\"/\\u001f\"" :=
  ⟨by decide, ascii_escapes _ true true (by decide), by rfl, by rfl⟩

/-! ## The escapes of multi-byte sequences, by the value they carry -/

theorem u_escape_eq (v : Nat) (h : v < 65536) :
    ascii "\\u" ++ impl.output_hex v 4 = u_escape v := by
  rw [output_hex_four, Nat.mod_eq_of_lt h]
  rfl

/-- A lead byte `110xxxxx` and a continuation byte are written as the escape of the value
their payload bits spell. -/
theorem escape_step_two (es : Bool) (c c1 : Nat) (it : List Nat)
    (h1 : 0xc0 ≤ c) (h2 : c ≤ 0xdf) (k1 : is_cont c1) :
    escape_step true es c (c1 :: it)
      = .ok (u_escape ((c - 0xc0) * 64 + (c1 - 0x80)), it) := by
  have hc : ¬ c < 0x20 := by omega
  have h8 : c ≥ 0x80 := by omega
  have m0 : c &&& 0xe0 = 0xc0 := by rw [(byte_masks c (by omega)).1]; omega
  obtain ⟨m1, m2⟩ := cont_masks c1 k1
  obtain ⟨k1a, k1b⟩ := k1
  have hv : ((c &&& 0x1f) <<< 6) ||| (c1 &&& 0x3f) = (c - 0xc0) * 64 + (c1 - 0x80) := by
    rw [m2, and_1f, shl_or 6 _ _ (by omega)]
    omega
  simp only [escape_step, escape_two, hc, h8, m0, m1, hv, if_true, if_false, ne_eq,
    not_true_eq_false, ge_iff_le]
  rw [u_escape_eq _ (by omega)]

/-- A lead byte `1110xxxx` and two continuation bytes are written as the escape of the
value their payload bits spell, whatever that value is. -/
theorem escape_step_three (es : Bool) (c c1 c2 : Nat) (it : List Nat)
    (h1 : 0xe0 ≤ c) (h2 : c ≤ 0xef) (k1 : is_cont c1) (k2 : is_cont c2) :
    escape_step true es c (c1 :: c2 :: it)
      = .ok (u_escape ((c - 0xe0) * 4096 + (c1 - 0x80) * 64 + (c2 - 0x80)), it) := by
  have hc : ¬ c < 0x20 := by omega
  have h8 : c ≥ 0x80 := by omega
  have m0 : ¬ c &&& 0xe0 = 0xc0 := by rw [(byte_masks c (by omega)).1]; omega
  have m0' : c &&& 0xf0 = 0xe0 := by rw [(byte_masks c (by omega)).2.1]; omega
  obtain ⟨m1, m2⟩ := cont_masks c1 k1
  obtain ⟨n1, n2⟩ := cont_masks c2 k2
  obtain ⟨k1a, k1b⟩ := k1
  obtain ⟨k2a, k2b⟩ := k2
  have hv : (((c &&& 0x0f) <<< 12) ||| ((c1 &&& 0x3f) <<< 6)) ||| (c2 &&& 0x3f)
      = (c - 0xe0) * 4096 + (c1 - 0x80) * 64 + (c2 - 0x80) := by
    rw [m2, n2, and_0f, Nat.shiftLeft_eq (c1 - 0x80), shl_or 12 _ _ (by omega),
      or_add 6 _ _ (by omega) (by omega)]
    omega
  simp only [escape_step, escape_three, hc, h8, m0, m0', m1, n1, hv, if_true, if_false, ne_eq,
    not_true_eq_false, ge_iff_le]
  rw [u_escape_eq _ (by omega)]

/-- The escapes written for the value of a four byte sequence, in arithmetic. -/
theorem escape_four_codepoint_eq (v : Nat) :
    escape_four_codepoint v =
      if v < 0x10000 then
        if is_surrogate v then .error .utf8_sequence_error else .ok (u_escape v)
      else if v ≤ 0x10ffff then
        .ok (u_escape (0xd800 + (v - 0x10000) / 1024) ++ u_escape (0xdc00 + (v - 0x10000) % 1024))
      else .error .utf8_sequence_error := by
  unfold escape_four_codepoint is_surrogate
  by_cases r1 : v < 0x10000
  · rw [if_pos r1, if_pos r1]
    by_cases r2 : v ≥ 0xd800 ∧ v < 0xe000
    · rw [if_pos r2, if_pos (by omega)]
    · rw [if_neg r2, if_neg (by omega), u_escape_eq _ r1]
  · rw [if_neg r1, if_neg r1]
    by_cases r2 : v ≤ 0x10ffff
    · rw [if_pos r2, if_pos r2]
      have hhi : (((v - 0x10000) &&& 0xffc00) >>> 10) ||| 0xd800
          = 0xd800 + (v - 0x10000) / 1024 := by
        rw [and_ffc00 _ (by omega), Nat.or_comm, or_add 10 _ _ (by decide) (by omega)]
      have hlo : ((v - 0x10000) &&& 0x003ff) ||| 0xdc00 = 0xdc00 + (v - 0x10000) % 1024 := by
        rw [and_3ff, Nat.or_comm, or_add 10 _ _ (by decide) (by omega)]
      simp only [hhi, hlo, List.append_assoc]
      rw [u_escape_eq _ (by omega), ← List.append_assoc, u_escape_eq _ (by omega)]
    · rw [if_neg r2, if_neg r2]

/-- A lead byte `11110xxx` and three continuation bytes are written as the escapes for the
value their payload bits spell. -/
theorem escape_step_four (es : Bool) (c c1 c2 c3 : Nat) (it : List Nat)
    (h1 : 0xf0 ≤ c) (h2 : c ≤ 0xf7) (k1 : is_cont c1) (k2 : is_cont c2) (k3 : is_cont c3) :
    escape_step true es c (c1 :: c2 :: c3 :: it)
      = match escape_four_codepoint
          ((c - 0xf0) * 262144 + (c1 - 0x80) * 4096 + (c2 - 0x80) * 64 + (c3 - 0x80)) with
        | .error e => .error e
        | .ok piece => .ok (piece, it) := by
  have hc : ¬ c < 0x20 := by omega
  have h8 : c ≥ 0x80 := by omega
  have m0 : ¬ c &&& 0xe0 = 0xc0 := by rw [(byte_masks c (by omega)).1]; omega
  have m0' : ¬ c &&& 0xf0 = 0xe0 := by rw [(byte_masks c (by omega)).2.1]; omega
  have m0'' : c &&& 0xf8 = 0xf0 := by rw [(byte_masks c (by omega)).2.2.1]; omega
  obtain ⟨m1, m2⟩ := cont_masks c1 k1
  obtain ⟨n1, n2⟩ := cont_masks c2 k2
  obtain ⟨p1, p2⟩ := cont_masks c3 k3
  obtain ⟨k1a, k1b⟩ := k1
  obtain ⟨k2a, k2b⟩ := k2
  obtain ⟨k3a, k3b⟩ := k3
  generalize hV : (c - 0xf0) * 262144 + (c1 - 0x80) * 4096 + (c2 - 0x80) * 64 + (c3 - 0x80) = v
  have hv : ((((c &&& 0x07) <<< 18) ||| ((c1 &&& 0x3f) <<< 12)) ||| ((c2 &&& 0x3f) <<< 6))
      ||| (c3 &&& 0x3f) = v := by
    rw [m2, n2, p2, and_07, Nat.shiftLeft_eq (c1 - 0x80), Nat.shiftLeft_eq (c2 - 0x80),
      shl_or 18 _ _ (by omega),
      or_add 12 (c % 8 * 2 ^ 18 + (c1 - 0x80) * 2 ^ 12) ((c2 - 0x80) * 2 ^ 6) (by omega) (by omega),
      or_add 6 _ _ (by omega) (by omega)]
    omega
  simp only [escape_step, escape_four, hc, h8, m0, m0', m0'', m1, n1, p1, hv, if_true, if_false,
    ne_eq, not_true_eq_false, ge_iff_le]
  all_goals (cases escape_four_codepoint v <;> rfl)

theorem escape_string_loop_nil (eu es : Bool) (n : Nat) :
    escape_string_loop eu es n [] = .ok [] := by
  cases n <;> rfl

/-- A text that one turn of the loop reads whole. -/
theorem escape_string_single (eu es : Bool) (c : Nat) (t piece : List Nat)
    (h : escape_step eu es c t = .ok (piece, [])) :
    escape_string (c :: t) eu es = .ok (0x22 :: (piece ++ [0x22])) := by
  unfold escape_string
  simp only [List.length_cons, escape_string_loop, h, escape_string_loop_nil]
  simp [seq_out]

/-- The escapes the specification names for a code point from `0x80` on: one escape below
`0x10000`, the escapes of the UTF-16 surrogate pair above. The three byte case does not
look at the surrogate range. -/
theorem escape_step_codepoint (es : Bool) (cp : Nat) (h0 : 0x80 ≤ cp)
    (hmax : cp ≤ 0x10ffff) (c : Nat) (t : List Nat)
    (he : utf8_encode cp = c :: t) (rest : List Nat) :
    escape_step true es c (t ++ rest)
      = .ok (if cp < 0x10000 then u_escape cp
          else u_escape (0xd800 + (cp - 0x10000) / 1024)
            ++ u_escape (0xdc00 + (cp - 0x10000) % 1024), rest) := by
  unfold utf8_encode at he
  rw [if_neg (by omega)] at he
  by_cases c2 : cp < 0x800
  · rw [if_pos c2] at he
    simp only [List.cons.injEq] at he
    obtain ⟨rfl, rfl⟩ := he
    rw [if_pos (by omega)]
    simp only [List.cons_append, List.nil_append]
    rw [escape_step_two es _ _ rest (by omega) (by omega) ⟨by omega, by omega⟩]
    have hv : (0xc0 + cp / 64 - 0xc0) * 64 + (0x80 + cp % 64 - 0x80) = cp := by omega
    rw [hv]
  rw [if_neg c2] at he
  by_cases c3 : cp < 0x10000
  · rw [if_pos c3] at he
    simp only [List.cons.injEq] at he
    obtain ⟨rfl, rfl⟩ := he
    rw [if_pos c3]
    simp only [List.cons_append, List.nil_append]
    rw [escape_step_three es _ _ _ rest (by omega) (by omega) ⟨by omega, by omega⟩
      ⟨by omega, by omega⟩]
    have hv : (0xe0 + cp / 4096 - 0xe0) * 4096 + (0x80 + cp / 64 % 64 - 0x80) * 64
        + (0x80 + cp % 64 - 0x80) = cp := by omega
    rw [hv]
  · rw [if_neg c3] at he
    simp only [List.cons.injEq] at he
    obtain ⟨rfl, rfl⟩ := he
    rw [if_neg c3]
    simp only [List.cons_append, List.nil_append]
    rw [escape_step_four es _ _ _ _ rest (by omega) (by omega) ⟨by omega, by omega⟩
      ⟨by omega, by omega⟩ ⟨by omega, by omega⟩]
    have hv : (0xf0 + cp / 262144 - 0xf0) * 262144 + (0x80 + cp / 4096 % 64 - 0x80) * 4096
        + (0x80 + cp / 64 % 64 - 0x80) * 64 + (0x80 + cp % 64 - 0x80) = cp := by omega
    rw [hv, escape_four_codepoint_eq, if_neg c3, if_pos hmax]

/-- C17: for a code point `cp` from `0x80` on that is no surrogate and not above
`0x10FFFF`, `escape_string` with UTF-8 escaping enabled writes the UTF-8 encoding of `cp`
as one escape `\uXXXX` with the four lowercase hexadecimal digits of `cp` when
`cp < 0x10000`, and as the two escapes of its UTF-16 surrogate pair otherwise; as a text
of its own and wherever the encoding stands in a text. -/
theorem codepoint_escapes (cp : Nat) (escape_slash : Bool) (h0 : 0x80 ≤ cp)
    (_ : ¬ is_surrogate cp) (hmax : cp ≤ 0x10ffff) :
    escape_string (utf8_encode cp) true escape_slash
      = .ok (0x22 :: ((if cp < 0x10000 then u_escape cp
          else u_escape (0xd800 + (cp - 0x10000) / 1024)
            ++ u_escape (0xdc00 + (cp - 0x10000) % 1024)) ++ [0x22])) ∧
    ∀ c t, utf8_encode cp = c :: t → ∀ rest,
      escape_step true escape_slash c (t ++ rest)
        = .ok (if cp < 0x10000 then u_escape cp
            else u_escape (0xd800 + (cp - 0x10000) / 1024)
              ++ u_escape (0xdc00 + (cp - 0x10000) % 1024), rest) := by
  refine ⟨?_, fun c t he rest => escape_step_codepoint escape_slash cp h0 hmax c t he rest⟩
  cases he : utf8_encode cp with
  | nil =>
    unfold utf8_encode at he
    split_ifs at he
  | cons c t =>
    have := escape_step_codepoint escape_slash cp h0 hmax c t he []
    rw [List.append_nil] at this
    exact escape_string_single true escape_slash c t _ this

theorem codepoint_escapes_witness :
    (escape_string (utf8_encode 0xe9) true false = .ok (ascii "\"\\u00e9\"") ∧
      utf8_encode 0xe9 = [0xc3, 0xa9]) ∧
    (escape_string (utf8_encode 0x20ac) true false = .ok (ascii "\"\\u20ac\"") ∧
      utf8_encode 0x20ac = [0xe2, 0x82, 0xac]) ∧
    (escape_string (utf8_encode 0x1f600) true false = .ok (ascii "\"\\ud83d\\ude00\"") ∧
      utf8_encode 0x1f600 = [0xf0, 0x9f, 0x98, 0x80]) :=
  ⟨⟨(codepoint_escapes 0xe9 false (by decide) (by decide) (by decide)).1, by rfl⟩,
   ⟨(codepoint_escapes 0x20ac false (by decide) (by decide) (by decide)).1, by rfl⟩,
   ⟨(codepoint_escapes 0x1f600 false (by decide) (by decide) (by decide)).1, by rfl⟩⟩

/-! ## Sequences that `escape_string` refuses, and one it does not -/

/-- C18: the three byte sequence `ED A0 80` has the form `1110xxxx 10xxxxxx 10xxxxxx`
and carries the surrogate `D800`, and `escape_string` with UTF-8 escaping enabled does
not fail on it: it writes the escape of the surrogate, which the parser then refuses. The
four byte case does test the surrogate range: the same value in four bytes is refused. -/
theorem surrogate_in_three_bytes_escaped :
    continuation_count 0xed = some 2 ∧ is_cont 0xa0 ∧ is_cont 0x80 ∧
    (0xed - 0xe0) * 4096 + (0xa0 - 0x80) * 64 + (0x80 - 0x80) = 0xd800 ∧
    is_surrogate 0xd800 ∧
    escape_string [0xed, 0xa0, 0x80] true false = .ok (ascii "\"\\ud800\"") ∧
    escape_string [0xed, 0xbf, 0xbf] true false = .ok (ascii "\"\\udfff\"") ∧
    parse text_float (ascii "\"\\ud800\"") = .error (.parser .surrogate_escape) ∧
    escape_string [0xf0, 0x8d, 0xa0, 0x80] true false = .error .utf8_sequence_error :=
  ⟨by rfl, ⟨by decide, by decide⟩, ⟨by decide, by decide⟩, by decide, by decide, by rfl, by rfl,
    by rfl, by rfl⟩

/-- Every three byte sequence that carries a surrogate is written as the escape of the
surrogate. -/
theorem escape_three_surrogate (es : Bool) (c1 c2 : Nat) (it : List Nat)
    (h1 : 0xa0 ≤ c1) (h2 : c1 ≤ 0xbf) (k2 : is_cont c2) :
    escape_step true es 0xed (c1 :: c2 :: it)
      = .ok (u_escape (0xd000 + (c1 - 0x80) * 64 + (c2 - 0x80)), it) ∧
    is_surrogate (0xd000 + (c1 - 0x80) * 64 + (c2 - 0x80)) := by
  obtain ⟨k2a, k2b⟩ := k2
  refine ⟨?_, by unfold is_surrogate; omega⟩
  rw [escape_step_three es 0xed c1 c2 it (by decide) (by decide) ⟨by omega, by omega⟩
    ⟨k2a, k2b⟩]

/-- A four byte sequence whose value is a surrogate or is above `10FFFF` is refused. -/
theorem escape_four_out_of_range (es : Bool) (c c1 c2 c3 : Nat) (it : List Nat)
    (h1 : 0xf0 ≤ c) (h2 : c ≤ 0xf7) (k1 : is_cont c1) (k2 : is_cont c2) (k3 : is_cont c3)
    (hv : is_surrogate ((c - 0xf0) * 262144 + (c1 - 0x80) * 4096 + (c2 - 0x80) * 64
        + (c3 - 0x80))
      ∨ 0x10ffff < (c - 0xf0) * 262144 + (c1 - 0x80) * 4096 + (c2 - 0x80) * 64 + (c3 - 0x80)) :
    escape_step true es c (c1 :: c2 :: c3 :: it) = .error .utf8_sequence_error := by
  rw [escape_step_four es c c1 c2 c3 it h1 h2 k1 k2 k3, escape_four_codepoint_eq]
  unfold is_surrogate at hv
  rcases hv with hv | hv
  · rw [if_pos (by omega), if_pos (by unfold is_surrogate; omega)]
  · rw [if_neg (by omega), if_neg (by omega)]

/-! ## Malformed UTF-8 -/

theorem not_cont_mask (c : Nat) (hb : c < 256) (h : ¬ is_cont c) : c &&& 0xc0 ≠ 0x80 := by
  rw [(byte_masks c hb).2.2.2]
  unfold is_cont at h
  omega

theorem escape_two_short (c : Nat) (r : List Nat) (hb : ∀ b ∈ r, b < 256)
    (h : ¬ starts_with_continuations 1 r) : escape_two c r = .error .utf8_sequence_error := by
  cases r with
  | nil => rfl
  | cons c1 r =>
    simp only [starts_with_continuations, and_true] at h
    have m := not_cont_mask c1 (hb c1 (List.mem_cons_self _ _)) h
    simp only [escape_two, m, ne_eq, not_false_eq_true, if_true]

theorem escape_three_short (c : Nat) (r : List Nat) (hb : ∀ b ∈ r, b < 256)
    (h : ¬ starts_with_continuations 2 r) :
    escape_three c r = .error .utf8_sequence_error := by
  cases r with
  | nil => rfl
  | cons c1 r =>
    by_cases k1 : is_cont c1
    · have m1 := (cont_masks c1 k1).1
      simp only [starts_with_continuations, k1, true_and] at h
      cases r with
      | nil => simp only [escape_three, m1, ne_eq, not_true_eq_false, if_false]
      | cons c2 r =>
        simp only [starts_with_continuations, and_true] at h
        have m := not_cont_mask c2 (hb c2 (by simp)) h
        simp only [escape_three, m1, m, ne_eq, not_true_eq_false, if_false, not_false_eq_true,
          if_true]
    · have m := not_cont_mask c1 (hb c1 (List.mem_cons_self _ _)) k1
      simp only [escape_three, m, ne_eq, not_false_eq_true, if_true]

theorem escape_four_short (c : Nat) (r : List Nat) (hb : ∀ b ∈ r, b < 256)
    (h : ¬ starts_with_continuations 3 r) :
    escape_four c r = .error .utf8_sequence_error := by
  cases r with
  | nil => rfl
  | cons c1 r =>
    by_cases k1 : is_cont c1
    · have m1 := (cont_masks c1 k1).1
      simp only [starts_with_continuations, k1, true_and] at h
      cases r with
      | nil => simp only [escape_four, m1, ne_eq, not_true_eq_false, if_false]
      | cons c2 r =>
        by_cases k2 : is_cont c2
        · have m2 := (cont_masks c2 k2).1
          simp only [starts_with_continuations, k2, true_and] at h
          cases r with
          | nil => simp only [escape_four, m1, m2, ne_eq, not_true_eq_false, if_false]
          | cons c3 r =>
            simp only [starts_with_continuations, and_true] at h
            have m := not_cont_mask c3 (hb c3 (by simp)) h
            simp only [escape_four, m1, m2, m, ne_eq, not_true_eq_false, if_false,
              not_false_eq_true, if_true]
        · have m := not_cont_mask c2 (hb c2 (by simp)) k2
          simp only [escape_four, m1, m, ne_eq, not_true_eq_false, if_false, not_false_eq_true,
            if_true]
    · have m := not_cont_mask c1 (hb c1 (List.mem_cons_self _ _)) k1
      simp only [escape_four, m, ne_eq, not_false_eq_true, if_true]

/-- The turn of the loop that meets a byte which starts no form throws. -/
theorem escape_step_malformed (es : Bool) (c : Nat) (r : List Nat) (hc : c < 256)
    (hb : ∀ b ∈ r, b < 256) (h : malformed_at c r) :
    escape_step true es c r = .error .utf8_sequence_error := by
  obtain ⟨h80, hk⟩ := h
  have hc20 : ¬ c < 0x20 := by omega
  have m := byte_masks c hc
  unfold continuation_count at hk
  unfold escape_step
  rw [if_neg hc20, if_pos h80, if_pos rfl]
  by_cases c1 : 0xc0 ≤ c ∧ c ≤ 0xdf
  · rw [if_pos c1] at hk
    rw [if_pos (by rw [m.1]; omega)]
    exact escape_two_short c r hb hk
  rw [if_neg c1] at hk
  rw [if_neg (by rw [m.1]; omega)]
  by_cases c2 : 0xe0 ≤ c ∧ c ≤ 0xef
  · rw [if_pos c2] at hk
    rw [if_pos (by rw [m.2.1]; omega)]
    exact escape_three_short c r hb hk
  rw [if_neg c2] at hk
  rw [if_neg (by rw [m.2.1]; omega)]
  by_cases c3 : 0xf0 ≤ c ∧ c ≤ 0xf7
  · rw [if_pos c3] at hk
    rw [if_pos (by rw [m.2.2.1]; omega)]
    exact escape_four_short c r hb hk
  rw [if_neg (by rw [m.2.2.1]; omega)]

theorem continuation_count_cases (c k : Nat) (h : continuation_count c = some k) :
    (k = 1 ∧ 0xc0 ≤ c ∧ c ≤ 0xdf) ∨ (k = 2 ∧ 0xe0 ≤ c ∧ c ≤ 0xef)
      ∨ (k = 3 ∧ 0xf0 ≤ c ∧ c ≤ 0xf7) := by
  unfold continuation_count at h
  split_ifs at h <;> simp only [Option.some.injEq] at h <;> omega

/-- A whole form at the head of the text is either refused by the turn that reads it, or
read, with the rest of the text left for the next turn. -/
theorem escape_step_form (es : Bool) (c k : Nat) (t rest : List Nat)
    (hk : continuation_count c = some k) (hl : t.length = k) (ht : ∀ b ∈ t, is_cont b) :
    escape_step true es c (t ++ rest) = .error .utf8_sequence_error ∨
    ∃ piece, escape_step true es c (t ++ rest) = .ok (piece, rest) := by
  rcases continuation_count_cases c k hk with ⟨rfl, h1, h2⟩ | ⟨rfl, h1, h2⟩ | ⟨rfl, h1, h2⟩
  · match t, hl, ht with
    | [c1], _, ht =>
      exact Or.inr ⟨_, escape_step_two es c c1 rest h1 h2 (ht c1 (by simp))⟩
  · match t, hl, ht with
    | [c1, c2], _, ht =>
      exact Or.inr ⟨_, escape_step_three es c c1 c2 rest h1 h2 (ht c1 (by simp))
        (ht c2 (by simp))⟩
  · match t, hl, ht with
    | [c1, c2, c3], _, ht =>
      have e := escape_step_four es c c1 c2 c3 rest h1 h2 (ht c1 (by simp)) (ht c2 (by simp))
        (ht c3 (by simp))
      simp only [List.cons_append, List.nil_append]
      rw [e, escape_four_codepoint_eq]
      split_ifs
      · exact Or.inl rfl
      · exact Or.inr ⟨_, rfl⟩
      · exact Or.inr ⟨_, rfl⟩
      · exact Or.inl rfl

theorem escape_string_loop_ok (eu es : Bool) (n c : Nat) (it piece it' : List Nat)
    (h : escape_step eu es c it = .ok (piece, it')) :
    escape_string_loop eu es (n + 1) (c :: it)
      = seq_out (.ok piece) (escape_string_loop eu es n it') := by
  simp only [escape_string_loop, h]

theorem escape_string_loop_error (eu es : Bool) (n c : Nat) (it : List Nat) (e : exn)
    (h : escape_step eu es c it = .error e) :
    escape_string_loop eu es (n + 1) (c :: it) = .error e := by
  simp only [escape_string_loop, h]

/-- The loop throws when whole forms are followed by a byte that starts none. -/
theorem escape_string_loop_malformed (es : Bool) (p : List Nat) (hp : utf8_forms p)
    (c : Nat) (r : List Nat) (hc : c < 256) (hb : ∀ b ∈ r, b < 256) (h : malformed_at c r) :
    ∀ n, (p ++ c :: r).length ≤ n →
      escape_string_loop true es n (p ++ c :: r) = .error .utf8_sequence_error := by
  induction hp with
  | nil =>
    intro n hn
    simp only [List.nil_append, List.length_cons] at hn
    obtain ⟨m, rfl⟩ : ∃ m, n = m + 1 := ⟨n - 1, by omega⟩
    rw [List.nil_append, escape_string_loop_error _ _ _ _ _ _ (escape_step_malformed es c r hc hb h)]
  | one b p hb80 _ ih =>
    intro n hn
    simp only [List.cons_append, List.length_cons] at hn
    obtain ⟨m, rfl⟩ : ∃ m, n = m + 1 := ⟨n - 1, by omega⟩
    rw [List.cons_append, escape_string_loop_ok _ _ _ _ _ _ _ (escape_step_low true es b _ hb80),
      ih m (by omega)]
    rfl
  | multi b k t p hk hl ht _ ih =>
    intro n hn
    simp only [List.cons_append, List.append_assoc, List.length_cons, List.length_append] at hn
    obtain ⟨m, rfl⟩ : ∃ m, n = m + 1 := ⟨n - 1, by omega⟩
    simp only [List.cons_append, List.append_assoc]
    rcases escape_step_form es b k t (p ++ c :: r) hk hl ht with e | ⟨piece, e⟩
    · rw [escape_string_loop_error _ _ _ _ _ _ e]
    · rw [escape_string_loop_ok _ _ _ _ _ _ _ e,
        ih m (by simp only [List.length_append, List.length_cons]; omega)]
      rfl

/-- C19: with UTF-8 escaping enabled, `escape_string` throws `utf8_sequence_error` on
every text of bytes in which, after whole forms, comes a byte of `0x80` or more that is
not the lead byte of a two, three or four byte form, or a lead byte followed by fewer
continuation bytes `10xxxxxx` than its form requires, the end of the text included. -/
theorem malformed_utf8_refused (p : List Nat) (c : Nat) (r : List Nat) (escape_slash : Bool)
    (hp : utf8_forms p) (hbytes : ∀ b ∈ p ++ c :: r, b < 256) (h : malformed_at c r) :
    escape_string (p ++ c :: r) true escape_slash = .error .utf8_sequence_error := by
  unfold escape_string
  rw [escape_string_loop_malformed escape_slash p hp c r (hbytes c (by simp))
    (fun b hb => hbytes b (by simp [hb])) h _ (Nat.le_refl _)]
  rfl

theorem malformed_utf8_refused_witness :
    utf8_forms [0x61, 0xc3, 0xa9] ∧
    malformed_at 0x80 [0x62] ∧ malformed_at 0xff [] ∧ malformed_at 0xe2 [0x82] ∧
    malformed_at 0xf0 [0x9f, 0x98, 0x41] ∧
    escape_string ([0x61, 0xc3, 0xa9] ++ 0x80 :: [0x62]) true false
      = .error .utf8_sequence_error ∧
    escape_string ([0x61, 0xc3, 0xa9] ++ 0xff :: []) true false
      = .error .utf8_sequence_error ∧
    escape_string ([0x61, 0xc3, 0xa9] ++ 0xe2 :: [0x82]) true false
      = .error .utf8_sequence_error ∧
    escape_string ([0x61, 0xc3, 0xa9] ++ 0xf0 :: [0x9f, 0x98, 0x41]) true false
      = .error .utf8_sequence_error :=
  have hp : utf8_forms [0x61, 0xc3, 0xa9] :=
    utf8_forms.one 0x61 _ (by decide)
      (utf8_forms.multi 0xc3 1 [0xa9] [] (by rfl) (by rfl)
        (by intro b hb; simp only [List.mem_singleton] at hb; subst hb; exact ⟨by decide, by decide⟩)
        utf8_forms.nil)
  have m1 : malformed_at 0x80 [0x62] := ⟨by decide, trivial⟩
  have m2 : malformed_at 0xff [] := ⟨by decide, trivial⟩
  have m3 : malformed_at 0xe2 [0x82] :=
    ⟨by decide, by simp [continuation_count, starts_with_continuations]⟩
  have m4 : malformed_at 0xf0 [0x9f, 0x98, 0x41] :=
    ⟨by decide, by simp [continuation_count, starts_with_continuations, is_cont]⟩
  ⟨hp, m1, m2, m3, m4,
   malformed_utf8_refused _ _ _ false hp (by decide) m1,
   malformed_utf8_refused _ _ _ false hp (by decide) m2,
   malformed_utf8_refused _ _ _ false hp (by decide) m3,
   malformed_utf8_refused _ _ _ false hp (by decide) m4⟩

/-! ## Escaped literals are reproduced -/

theorem hex_digit_value_lower (d : Nat) (h : d < 16) : hex_digit_value (lower_hex d) = some d := by
  interval_cases d <;> rfl

theorem hex4_value_text (v : Nat) (h : v < 65536) : hex4_value (hex4_text v) = some v := by
  simp only [hex4_text, hex4_value,
    hex_digit_value_lower _ (Nat.mod_lt (v / 4096) (by decide : 16 > 0)),
    hex_digit_value_lower _ (Nat.mod_lt (v / 256) (by decide : 16 > 0)),
    hex_digit_value_lower _ (Nat.mod_lt (v / 16) (by decide : 16 > 0)),
    hex_digit_value_lower _ (Nat.mod_lt v (by decide : 16 > 0))]
  congr 1
  omega

theorem unescape_loop_turn (n c : Nat) (out it bs it' : List Nat) (hq : c ≠ 0x22)
    (h : impl.unescape_turn c it = .ok (bs, it')) :
    impl.unescape_loop (n + 1) out (c :: it) = impl.unescape_loop n (out ++ bs) it' := by
  simp only [impl.unescape_loop, hq, if_false, h]

theorem parse_string_ok (x s rest : List Nat)
    (h : impl.unescape_string_inplace x = .ok (s, rest)) (hr : impl.skipws rest = []) :
    parse ops (0x22 :: x) = .ok (.string s) := by
  have hws : ¬ is_ws 0x22 := by decide
  rw [parse, skipws_cons_not_ws _ _ hws, impl.parse, parse_fragment_cons]
  simp [impl.parse_fragment_aux, h, hr]

/-- A body of `\u` escapes is read as the UTF-8 encodings of its code points, and these
are written back as the same escapes. -/
theorem escaped_body_codec (body : List Nat) (h : escaped_body body) :
    ∃ s, (∀ n out rest, body.length < n →
        impl.unescape_loop n out (body ++ 0x22 :: rest) = .ok (out ++ s, rest)) ∧
      (∀ es n, s.length ≤ n → escape_string_loop true es n s = .ok body) := by
  have hq : (0x5c : Nat) ≠ 0x22 := by decide
  induction h with
  | nil =>
    refine ⟨[], fun n out rest hn => ?_, fun es n _ => escape_string_loop_nil true es n⟩
    obtain ⟨m, rfl⟩ : ∃ m, n = m + 1 := ⟨n - 1, by simp at hn; omega⟩
    simp [impl.unescape_loop]
  | unit c p h0 h1 hs _ ih =>
    obtain ⟨s, ihu, ihe⟩ := ih
    refine ⟨utf8_encode c ++ s, fun n out rest hn => ?_, fun es n hn => ?_⟩
    · simp only [u_escape, hex4_text, List.cons_append, List.nil_append, List.length_cons,
        List.length_append] at hn
      obtain ⟨m, rfl⟩ : ∃ m, n = m + 1 := ⟨n - 1, by omega⟩
      have ht := unescape_turn_unit (hex4_text c) c (p ++ 0x22 :: rest)
        (hex4_value_text c h1) hs
      simp only [u_escape, List.cons_append, List.append_assoc]
      simp only [List.cons_append] at ht
      rw [unescape_loop_turn _ _ _ _ _ _ hq ht, ihu m _ rest (by omega), List.append_assoc]
    · cases he : utf8_encode c with
      | nil =>
        unfold utf8_encode at he
        split_ifs at he
      | cons b t =>
        have hlen : (utf8_encode c ++ s).length = t.length + 1 + s.length := by
          rw [he]; simp only [List.length_append, List.length_cons]
        rw [hlen] at hn
        obtain ⟨m, rfl⟩ : ∃ m, n = m + 1 := ⟨n - 1, by omega⟩
        have hst := escape_step_codepoint es c h0 (by omega) b t he s
        rw [if_pos h1] at hst
        rw [List.cons_append, escape_string_loop_ok _ _ _ _ _ _ _ hst, ihe es m (by omega)]
        rfl
  | pair h l p h1 h2 l1 l2 _ ih =>
    obtain ⟨s, ihu, ihe⟩ := ih
    have hv := surrogate_pair_value h l h1 h2 l1 l2
    refine ⟨utf8_encode (0x10000 + (h - 0xd800) * 1024 + (l - 0xdc00)) ++ s,
      fun n out rest hn => ?_, fun es n hn => ?_⟩
    · simp only [u_escape, hex4_text, List.cons_append, List.nil_append, List.length_cons,
        List.length_append] at hn
      obtain ⟨m, rfl⟩ : ∃ m, n = m + 1 := ⟨n - 1, by omega⟩
      have ht := unescape_turn_pair (hex4_text h) (hex4_text l) h l (p ++ 0x22 :: rest)
        (hex4_value_text h (by omega)) (hex4_value_text l (by omega)) h1 h2 l1 l2
      rw [hv] at ht
      simp only [u_escape, List.cons_append, List.append_assoc]
      simp only [List.cons_append, List.append_assoc] at ht
      rw [unescape_loop_turn _ _ _ _ _ _ hq ht, ihu m _ rest (by omega), List.append_assoc]
    · generalize hcp : 0x10000 + (h - 0xd800) * 1024 + (l - 0xdc00) = cp at hn ⊢
      cases he : utf8_encode cp with
      | nil =>
        unfold utf8_encode at he
        split_ifs at he
      | cons b t =>
        have hlen : (utf8_encode cp ++ s).length = t.length + 1 + s.length := by
          rw [he]; simp only [List.length_append, List.length_cons]
        rw [hlen] at hn
        obtain ⟨m, rfl⟩ : ∃ m, n = m + 1 := ⟨n - 1, by omega⟩
        have hst := escape_step_codepoint es cp (by omega) (by omega) b t he s
        rw [if_neg (by omega)] at hst
        have e1 : 0xd800 + (cp - 0x10000) / 1024 = h := by omega
        have e2 : 0xdc00 + (cp - 0x10000) % 1024 = l := by omega
        rw [e1, e2] at hst
        rw [List.cons_append, escape_string_loop_ok _ _ _ _ _ _ _ hst, ihe es m (by omega)]
        rfl

/-- C20: a string literal whose body is made of lowercase `\u` escapes of code units from
`0x80` on that are not surrogates, and of pairs of a high and a low surrogate, is parsed
to a String value, and `stringify` of that value, which escapes UTF-8, writes the literal
back byte for byte; so does `escape_string` with UTF-8 escaping enabled, whatever
`escape_slash` is. -/
theorem escaped_literal_reproduced (body : List Nat) (h : escaped_body body) :
    ∃ s, parse ops (0x22 :: (body ++ [0x22])) = .ok (.string s) ∧
      stringify ops (.string s) = .ok (0x22 :: (body ++ [0x22])) ∧
      ∀ es, escape_string s true es = .ok (0x22 :: (body ++ [0x22])) := by
  obtain ⟨s, hu, he⟩ := escaped_body_codec body h
  have hesc : ∀ es, escape_string s true es = .ok (0x22 :: (body ++ [0x22])) := by
    intro es
    unfold escape_string
    rw [he es _ (Nat.le_refl _)]
    rfl
  refine ⟨s, ?_, ?_, hesc⟩
  · apply parse_string_ok ops _ s []
    · unfold impl.unescape_string_inplace
      have := hu ((body ++ [0x22]).length + 1) [] []
        (by simp only [List.length_append, List.length_singleton]; omega)
      simpa using this
    · rfl
  · unfold stringify
    rw [value.write_json]
    exact hesc false

theorem escaped_literal_reproduced_witness :
    escaped_body (ascii "\\u00e9\\ud83d\\ude00") ∧
    ∃ s, parse text_float (0x22 :: (ascii "\\u00e9\\ud83d\\ude00" ++ [0x22])) = .ok (.string s) ∧
      stringify text_float (.string s) = .ok (0x22 :: (ascii "\\u00e9\\ud83d\\ude00" ++ [0x22])) ∧
      ∀ es, escape_string s true es = .ok (0x22 :: (ascii "\\u00e9\\ud83d\\ude00" ++ [0x22])) :=
  have hb : escaped_body (ascii "\\u00e9\\ud83d\\ude00") :=
    escaped_body.unit 0xe9 _ (by decide) (by decide) (by decide)
      (escaped_body.pair 0xd83d 0xde00 [] (by decide) (by decide) (by decide) (by decide)
        escaped_body.nil)
  ⟨hb, escaped_literal_reproduced text_float _ hb⟩

/-! ## Texts on which `parse` succeeds, as parts of a larger text -/

/-- What `parse` reads from a text on which it succeeds, it reads as well when the text is
followed by a text that does not continue a number: the same value, with the cursor left
at whitespace before the text that follows. -/
theorem parse_ok_reads (e : List Nat) (v : value F) (h : parse ops e = .ok v) :
    impl.skipws e ≠ [] ∧ ∃ w, (∀ c ∈ w, is_ws c) ∧
      ∀ X m, stops_number X → 2 * (impl.skipws e).length + 1 ≤ m →
        impl.parse_fragment_aux ops m (impl.skipws e ++ X) = .ok (v, w ++ X) := by
  unfold parse impl.parse at h
  cases hp : impl.parse_fragment ops (impl.skipws e) with
  | error e => rw [hp] at h; simp at h
  | ok r =>
    obtain ⟨v', r'⟩ := r
    rw [hp] at h
    simp only at h
    split_ifs at h with hr
    simp only [ne_eq, Decidable.not_not] at hr
    simp only [Except.ok.injEq] at h
    subst h
    have hne : impl.skipws e ≠ [] := by
      intro he
      rw [he] at hp
      exact parse_fragment_aux_nil ops _ _ hp
    refine ⟨hne, r', (skipws_eq_nil r').1 hr, fun X m hX hm => ?_⟩
    unfold impl.parse_fragment at hp
    exact (parse_aux_ext ops _).1 _ _ _ hp m hm X (fun _ => hX)

theorem parse_fragment_aux_closing (m : Nat) (d : Nat) (it : List Nat)
    (hd : d = 0x5d ∨ d = 0x7d ∨ d = 0x2c ∨ d = 0x3a) (r : value F × List Nat) :
    impl.parse_fragment_aux ops m (d :: it) ≠ .ok r := by
  cases m with
  | zero => simp [impl.parse_fragment_aux]
  | succ m =>
    rcases hd with rfl | rfl | rfl | rfl <;>
      simp [impl.parse_fragment_aux, is_digit]

theorem parse_fragment_aux_closing_error (m : Nat) (d : Nat) (it : List Nat)
    (hd : d = 0x5d ∨ d = 0x7d ∨ d = 0x2c ∨ d = 0x3a) :
    impl.parse_fragment_aux ops (m + 1) (d :: it) = .error (.parser .invalid_json_data) := by
  rcases hd with rfl | rfl | rfl | rfl <;>
    simp [impl.parse_fragment_aux, is_digit]

/-- The text on which `parse` succeeds starts, after its whitespace, with a byte that is
no whitespace, bracket, brace, comma or colon. -/
theorem parse_ok_head (e : List Nat) (v : value F) (h : parse ops e = .ok v) :
    ∃ d t, impl.skipws e = d :: t ∧ ¬ is_ws d ∧ d ≠ 0x5d ∧ d ≠ 0x7d ∧ d ≠ 0x2c ∧ d ≠ 0x3a := by
  obtain ⟨hne, w, hw, hread⟩ := parse_ok_reads ops e v h
  cases hs : impl.skipws e with
  | nil => exact absurd hs hne
  | cons d t =>
    have hp := hread [] _ stops_number_nil (Nat.le_refl _)
    rw [List.append_nil, hs] at hp
    refine ⟨d, t, rfl, skipws_head_not_ws e d t hs, ?_, ?_, ?_, ?_⟩ <;>
    · intro hd
      exact parse_fragment_aux_closing ops _ d t (by simp [hd]) _ hp

theorem skipws_ws_append (w X : List Nat) (hw : ∀ c ∈ w, is_ws c) (d : Nat) (it : List Nat)
    (hX : X = d :: it) (hd : ¬ is_ws d) : impl.skipws (w ++ X) = d :: it := by
  rw [skipws_all_ws w X hw, hX, skipws_cons_not_ws d it hd]

/-! ## Arrays of texts that `parse` reads -/

/-- One turn of the array loop at an element text that `parse` reads, followed by `X`. -/
theorem parse_array_loop_turn (e : List Nat) (v : value F) (h : parse ops e = .ok v)
    (acc : List (value F)) (d : Nat) (it : List Nat) (hd : ¬ is_ws d)
    (hs : stops_number (d :: it)) (m : Nat) (hm : 2 * (impl.skipws e).length + 1 ≤ m) :
    impl.parse_array_loop ops (m + 1) acc (impl.skipws e ++ d :: it)
      = if d = 0x5d then .ok (.array (acc ++ [v]), it)
        else if d ≠ 0x2c then .error (.parser .error_parsing_array)
        else impl.parse_array_loop ops m (acc ++ [v]) (impl.skipws it) := by
  obtain ⟨_, w, hw, hread⟩ := parse_ok_reads ops e v h
  have hp := hread (d :: it) m hs hm
  simp only [impl.parse_array_loop, hp, skipws_ws_append w (d :: it) hw d it rfl hd]

theorem comma_tail_length_pos (e : List Nat) (es : List (List Nat)) :
    (comma_tail (e :: es)).length = 1 + e.length + (comma_tail es).length := by
  simp only [comma_tail, List.length_cons, List.length_append]
  omega

/-- The array loop reads element texts with commas between them up to the closing
bracket, and returns their values in the order of the text. -/
theorem parse_array_loop_reads (es : List (List Nat)) (vs : List (value F))
    (h : List.Forall₂ (fun e v => parse ops e = .ok v) es vs) :
    ∀ e v, parse ops e = .ok v → ∀ acc tail n,
      2 * ((impl.skipws e).length + (comma_tail es).length + 1) + 2 ≤ n →
      impl.parse_array_loop ops n acc (impl.skipws e ++ (comma_tail es ++ 0x5d :: tail))
        = .ok (.array (acc ++ v :: vs), tail) := by
  induction h with
  | nil =>
    intro e v he acc tail n hn
    obtain ⟨m, rfl⟩ : ∃ m, n = m + 1 := ⟨n - 1, by omega⟩
    simp only [comma_tail, List.nil_append, List.length_nil] at hn ⊢
    rw [parse_array_loop_turn ops e v he acc 0x5d tail (by decide)
      (stops_number_cons _ _ (by decide)) m (by omega)]
    simp
  | @cons e2 v2 es vs he2 _ ih =>
    intro e v he acc tail n hn
    obtain ⟨m, rfl⟩ : ∃ m, n = m + 1 := ⟨n - 1, by omega⟩
    rw [comma_tail_length_pos] at hn
    obtain ⟨hne2, _⟩ := parse_ok_reads ops e2 v2 he2
    have hl2 := skipws_length_le e2
    simp only [comma_tail, List.cons_append, List.append_assoc]
    rw [parse_array_loop_turn ops e v he acc 0x2c _ (by decide)
      (stops_number_cons _ _ (by decide)) m (by omega)]
    rw [if_neg (by decide), if_neg (by decide), skipws_append e2 _ hne2]
    rw [ih e2 v2 he2 (acc ++ [v]) tail m (by omega)]
    simp

/-- The array loop refuses a closing bracket that follows a comma. -/
theorem parse_array_loop_trailing_comma (es : List (List Nat)) (vs : List (value F))
    (h : List.Forall₂ (fun e v => parse ops e = .ok v) es vs) :
    ∀ e v, parse ops e = .ok v → ∀ acc w tail n, (∀ c ∈ w, is_ws c) →
      2 * ((impl.skipws e).length + (comma_tail es).length + 1) + 2 ≤ n →
      impl.parse_array_loop ops n acc
          (impl.skipws e ++ (comma_tail es ++ 0x2c :: (w ++ 0x5d :: tail)))
        = .error (.parser .invalid_json_data) := by
  induction h with
  | nil =>
    intro e v he acc w tail n hw hn
    obtain ⟨m, rfl⟩ : ∃ m, n = m + 1 := ⟨n - 1, by omega⟩
    simp only [comma_tail, List.nil_append, List.length_nil] at hn ⊢
    rw [parse_array_loop_turn ops e v he acc 0x2c _ (by decide)
      (stops_number_cons _ _ (by decide)) m (by omega)]
    rw [if_neg (by decide), if_neg (by decide),
      skipws_ws_append w (0x5d :: tail) hw 0x5d tail rfl (by decide)]
    obtain ⟨k, rfl⟩ : ∃ k, m = k + 1 := ⟨m - 1, by omega⟩
    obtain ⟨j, rfl⟩ : ∃ j, k = j + 1 := ⟨k - 1, by omega⟩
    simp only [impl.parse_array_loop, parse_fragment_aux_closing_error ops j 0x5d tail (by simp)]
  | @cons e2 v2 es vs he2 _ ih =>
    intro e v he acc w tail n hw hn
    obtain ⟨m, rfl⟩ : ∃ m, n = m + 1 := ⟨n - 1, by omega⟩
    rw [comma_tail_length_pos] at hn
    obtain ⟨hne2, _⟩ := parse_ok_reads ops e2 v2 he2
    have hl2 := skipws_length_le e2
    simp only [comma_tail, List.cons_append, List.append_assoc]
    rw [parse_array_loop_turn ops e v he acc 0x2c _ (by decide)
      (stops_number_cons _ _ (by decide)) m (by omega)]
    rw [if_neg (by decide), if_neg (by decide), skipws_append e2 _ hne2]
    exact ih e2 v2 he2 (acc ++ [v]) w tail m hw (by omega)

theorem parse_fragment_aux_array (n : Nat) (it : List Nat) (d : Nat) (t : List Nat)
    (hs : impl.skipws it = d :: t) (hd : d ≠ 0x5d) :
    impl.parse_fragment_aux ops (n + 1) (0x5b :: it) = impl.parse_array_loop ops n [] (d :: t) := by
  simp [impl.parse_fragment_aux, hs, hd]

/-- The result of `parse` on a text that starts with a byte that is no whitespace, from
the result of `parse_fragment_aux` with the fuel of `parse_fragment`. -/
theorem parse_of_fragment_ok (c : Nat) (it : List Nat) (hc : ¬ is_ws c) (v : value F)
    (rest : List Nat)
    (h : impl.parse_fragment_aux ops (2 * it.length + 2 + 1) (c :: it) = .ok (v, rest))
    (hr : impl.skipws rest = []) : parse ops (c :: it) = .ok v := by
  rw [parse, skipws_cons_not_ws _ _ hc, impl.parse, parse_fragment_cons, h]
  simp [hr]

theorem parse_of_fragment_error (c : Nat) (it : List Nat) (hc : ¬ is_ws c) (e : exn)
    (h : impl.parse_fragment_aux ops (2 * it.length + 2 + 1) (c :: it) = .error e) :
    parse ops (c :: it) = .error e := by
  rw [parse, skipws_cons_not_ws _ _ hc, impl.parse, parse_fragment_cons, h]

/-- C12: when `parse` reads the texts `e1 .. en` (`n ≥ 0`) as the values `v1 .. vn`, it
reads the text `[` e1 `,` ... `,` en `]` as the Array of `v1 .. vn` in that order; and the
text with a comma, and whitespace or none, between the last element and `]` (as `[1,]`)
is refused with the parser error `invalid json data`. -/
theorem array_elements (es : List (List Nat)) (vs : List (value F))
    (h : List.Forall₂ (fun e v => parse ops e = .ok v) es vs) :
    parse ops (array_text es) = .ok (.array vs) ∧
    ∀ w, (∀ c ∈ w, is_ws c) →
      parse ops (0x5b :: (join_with_commas es ++ 0x2c :: (w ++ [0x5d])))
        = .error (.parser .invalid_json_data) := by
  have hb : ¬ is_ws 0x5b := by decide
  cases h with
  | nil =>
    refine ⟨by rfl, fun w hw => ?_⟩
    apply parse_of_fragment_error ops 0x5b _ hb
    simp only [join_with_commas, List.nil_append]
    rw [parse_fragment_aux_array ops _ _ 0x2c (w ++ [0x5d])
      (skipws_cons_not_ws _ _ (by decide)) (by decide)]
    simp [impl.parse_array_loop, impl.parse_fragment_aux, is_digit]
  | @cons e v es vs he hrest =>
    obtain ⟨d, t, hs, hd, hd1, -⟩ := parse_ok_head ops e v he
    obtain ⟨hne, -⟩ := parse_ok_reads ops e v he
    have hl := skipws_length_le e
    refine ⟨?_, fun w hw => ?_⟩
    · unfold array_text
      apply parse_of_fragment_ok ops 0x5b _ hb _ [] _ rfl
      simp only [join_with_commas, List.append_assoc]
      have hsk : impl.skipws (e ++ (comma_tail es ++ [0x5d]))
          = d :: (t ++ (comma_tail es ++ [0x5d])) := by
        rw [skipws_append e _ hne, hs, List.cons_append]
      rw [parse_fragment_aux_array ops _ _ d _ hsk hd1,
        show d :: (t ++ (comma_tail es ++ [0x5d])) = impl.skipws e ++ (comma_tail es ++ [0x5d])
          from by rw [hs, List.cons_append]]
      rw [parse_array_loop_reads ops es vs hrest e v he [] [] _
        (by simp only [List.length_append, List.length_singleton]; omega)]
      simp
    · apply parse_of_fragment_error ops 0x5b _ hb
      simp only [join_with_commas, List.append_assoc]
      have hsk : impl.skipws (e ++ (comma_tail es ++ 0x2c :: (w ++ [0x5d])))
          = d :: (t ++ (comma_tail es ++ 0x2c :: (w ++ [0x5d]))) := by
        rw [skipws_append e _ hne, hs, List.cons_append]
      rw [parse_fragment_aux_array ops _ _ d _ hsk hd1,
        show d :: (t ++ (comma_tail es ++ 0x2c :: (w ++ [0x5d])))
            = impl.skipws e ++ (comma_tail es ++ 0x2c :: (w ++ [0x5d]))
          from by rw [hs, List.cons_append]]
      rw [parse_array_loop_trailing_comma ops es vs hrest e v he [] w [] _ hw
        (by simp only [List.length_append, List.length_cons, List.length_singleton]; omega)]

theorem array_elements_witness :
    List.Forall₂ (fun e v => parse text_float e = .ok v)
      [ascii " 1", ascii "\"a\" ", ascii "[true,null]", ascii "2.5"]
      [.int 1, .string (ascii "a"), .array [.bool true, .null], .float ⟨1, ascii "2.5"⟩] ∧
    parse text_float (ascii "[ 1,\"a\" ,[true,null],2.5]")
      = .ok (.array [.int 1, .string (ascii "a"), .array [.bool true, .null],
          .float ⟨1, ascii "2.5"⟩]) ∧
    parse text_float (ascii "[ 1,\"a\" ,[true,null],2.5, ]")
      = .error (.parser .invalid_json_data) ∧
    parse text_float (ascii "[1,]") = .error (.parser .invalid_json_data) :=
  have h : List.Forall₂ (fun e v => parse text_float e = .ok v)
      [ascii " 1", ascii "\"a\" ", ascii "[true,null]", ascii "2.5"]
      [.int 1, .string (ascii "a"), .array [.bool true, .null], .float ⟨1, ascii "2.5"⟩] :=
    .cons (by rfl) (.cons (by rfl) (.cons (by rfl) (.cons (by rfl) .nil)))
  have h1 : List.Forall₂ (fun e v => parse text_float e = .ok v) [ascii "1"] [.int 1] :=
    .cons (by rfl) .nil
  ⟨h, (array_elements text_float _ _ h).1,
    (array_elements text_float _ _ h).2 (ascii " ") (by decide),
    (array_elements text_float _ _ h1).2 [] (by simp)⟩

/-! ## The order of keys and assignment to a `std::map` -/

theorem string_lt_irrefl (a : List Nat) : string_lt a a = false := by
  induction a with
  | nil => rfl
  | cons x xs ih => simp [string_lt, ih]

theorem string_lt_trichotomy (a b : List Nat) (h1 : string_lt a b = false)
    (h2 : string_lt b a = false) : a = b := by
  induction a generalizing b with
  | nil =>
    cases b with
    | nil => rfl
    | cons y ys => simp [string_lt] at h1
  | cons x xs ih =>
    cases b with
    | nil => simp [string_lt] at h2
    | cons y ys =>
      simp only [string_lt] at h1 h2
      by_cases hxy : x < y
      · simp [hxy] at h1
      · by_cases hyx : y < x
        · simp [hyx] at h2
        · simp only [hxy, hyx, if_false] at h1 h2
          have : x = y := by omega
          rw [this, ih ys h1 h2]

theorem string_lt_trans (a b c : List Nat) (h1 : string_lt a b = true)
    (h2 : string_lt b c = true) : string_lt a c = true := by
  induction a generalizing b c with
  | nil =>
    cases c with
    | nil =>
      cases b <;> simp [string_lt] at h2
    | cons z zs => rfl
  | cons x xs ih =>
    cases b with
    | nil => simp [string_lt] at h1
    | cons y ys =>
      cases c with
      | nil => simp [string_lt] at h2
      | cons z zs =>
        simp only [string_lt] at h1 h2 ⊢
        by_cases hxy : x < y
        · by_cases hyz : y < z
          · rw [if_pos (by omega)]
          · by_cases hzy : z < y
            · simp [hyz, hzy] at h2
            · rw [if_pos (by omega)]
        · by_cases hyx : y < x
          · simp [hxy, hyx] at h1
          · simp only [hxy, hyx, if_false] at h1
            by_cases hyz : y < z
            · rw [if_pos (by omega)]
            · by_cases hzy : z < y
              · simp [hyz, hzy] at h2
              · simp only [hyz, hzy, if_false] at h2
                rw [if_neg (by omega), if_neg (by omega)]
                exact ih ys zs h1 h2

/-- Two keys are equivalent for the order exactly when they are equal. -/
theorem string_equiv_iff (a b : List Nat) :
    (string_lt a b = false ∧ string_lt b a = false) ↔ a = b := by
  constructor
  · rintro ⟨h1, h2⟩
    exact string_lt_trichotomy a b h1 h2
  · rintro rfl
    exact ⟨string_lt_irrefl a, string_lt_irrefl a⟩

/-- A lookup after `object[key] = v`. -/
theorem object_get_assign (o : List (List Nat × value F)) (k : List Nat) (v : value F)
    (key : List Nat) :
    object_get (object_assign o k v) key = if k = key then some v else object_get o key := by
  induction o with
  | nil =>
    simp only [object_assign, object_get, string_equiv_iff]
  | cons kv rest ih =>
    obtain ⟨k0, w⟩ := kv
    simp only [object_assign]
    by_cases h1 : string_lt k k0 = true
    · rw [if_pos h1]
      simp only [object_get, string_equiv_iff]
    · rw [if_neg h1]
      by_cases h2 : string_lt k0 k = true
      · rw [if_pos h2]
        simp only [object_get, string_equiv_iff, ih]
        by_cases hk : k = key
        · subst hk
          have : ¬ k0 = k := by
            intro he
            rw [he, string_lt_irrefl] at h2
            exact Bool.noConfusion h2
          rw [if_neg this, if_pos rfl, if_pos rfl]
        · rw [if_neg hk, if_neg hk]
      · rw [if_neg h2]
        have hk0 : k = k0 := string_lt_trichotomy k k0 (by simpa using h1) (by simpa using h2)
        subst hk0
        simp only [object_get, string_equiv_iff]
        by_cases hk : k = key
        · rw [if_pos hk, if_pos hk]
        · rw [if_neg hk, if_neg hk, if_neg hk]

/-- The keys after `object[key] = v`: the key assigned and the keys there were. -/
theorem object_assign_keys (o : List (List Nat × value F)) (k : List Nat) (v : value F)
    (key : List Nat) :
    key ∈ (object_assign o k v).map Prod.fst ↔ key = k ∨ key ∈ o.map Prod.fst := by
  induction o with
  | nil => simp [object_assign]
  | cons kv rest ih =>
    obtain ⟨k0, w⟩ := kv
    simp only [object_assign]
    by_cases h1 : string_lt k k0 = true
    · rw [if_pos h1]
      simp
    · rw [if_neg h1]
      by_cases h2 : string_lt k0 k = true
      · rw [if_pos h2]
        simp only [List.map_cons, List.mem_cons, ih]
        tauto
      · rw [if_neg h2]
        have hk0 : k = k0 := string_lt_trichotomy k k0 (by simpa using h1) (by simpa using h2)
        subst hk0
        simp

/-- The statement `object[key] = v` keeps the keys ascending. -/
theorem object_assign_ascending (o : List (List Nat × value F)) (k : List Nat) (v : value F)
    (h : keys_ascending o) : keys_ascending (object_assign o k v) := by
  induction o with
  | nil => simp [object_assign, keys_ascending]
  | cons kv rest ih =>
    obtain ⟨k0, w⟩ := kv
    unfold keys_ascending at h ih ⊢
    rw [List.pairwise_cons] at h
    simp only [object_assign]
    by_cases h1 : string_lt k k0 = true
    · rw [if_pos h1, List.pairwise_cons, List.pairwise_cons]
      refine ⟨fun b hb => ?_, h⟩
      rcases List.mem_cons.1 hb with rfl | hb
      · exact h1
      · exact string_lt_trans _ _ _ h1 (h.1 b hb)
    · rw [if_neg h1]
      by_cases h2 : string_lt k0 k = true
      · rw [if_pos h2, List.pairwise_cons]
        refine ⟨fun b hb => ?_, ih h.2⟩
        have hb' : b.1 ∈ (object_assign rest k v).map Prod.fst := List.mem_map_of_mem _ hb
        rw [object_assign_keys] at hb'
        rcases hb' with hb' | hb'
        · rw [hb']; exact h2
        · obtain ⟨b', hb'm, hb'e⟩ := List.mem_map.1 hb'
          rw [← hb'e]
          exact h.1 b' hb'm
      · rw [if_neg h2, List.pairwise_cons]
        exact ⟨h.1, h.2⟩

/-! ## Members assigned in the order of the text -/

theorem fold_assign_get (kvs : List (List Nat × value F)) :
    ∀ (acc : List (List Nat × value F)) (key : List Nat),
      (∀ w, last_value kvs key = some w →
        object_get (kvs.foldl (fun o kv => object_assign o kv.1 kv.2) acc) key = some w) ∧
      (last_value kvs key = none →
        object_get (kvs.foldl (fun o kv => object_assign o kv.1 kv.2) acc) key
          = object_get acc key) := by
  induction kvs with
  | nil =>
    intro acc key
    simp [last_value]
  | cons kv rest ih =>
    obtain ⟨k, v⟩ := kv
    intro acc key
    obtain ⟨iha, ihb⟩ := ih (object_assign acc k v) key
    simp only [List.foldl_cons]
    cases hl : last_value rest key with
    | some w' =>
      simp only [last_value, hl]
      refine ⟨fun w hw => ?_, fun hn => by simp at hn⟩
      simp only [Option.some.injEq] at hw
      subst hw
      exact iha w' hl
    | none =>
      simp only [last_value, hl]
      by_cases hk : k = key
      · rw [if_pos hk]
        refine ⟨fun w hw => ?_, fun hn => by simp at hn⟩
        simp only [Option.some.injEq] at hw
        subst hw
        rw [ihb hl, object_get_assign, if_pos hk]
      · rw [if_neg hk]
        refine ⟨fun w hw => by simp at hw, fun _ => ?_⟩
        rw [ihb hl, object_get_assign, if_neg hk]

theorem fold_assign_keys (kvs : List (List Nat × value F)) :
    ∀ (acc : List (List Nat × value F)) (key : List Nat),
      key ∈ (kvs.foldl (fun o kv => object_assign o kv.1 kv.2) acc).map Prod.fst
        ↔ key ∈ acc.map Prod.fst ∨ key ∈ kvs.map Prod.fst := by
  induction kvs with
  | nil =>
    intro acc key
    simp
  | cons kv rest ih =>
    obtain ⟨k, v⟩ := kv
    intro acc key
    simp only [List.foldl_cons, ih, object_assign_keys, List.map_cons, List.mem_cons]
    tauto

theorem fold_assign_ascending (kvs : List (List Nat × value F)) :
    ∀ (acc : List (List Nat × value F)), keys_ascending acc →
      keys_ascending (kvs.foldl (fun o kv => object_assign o kv.1 kv.2) acc) := by
  induction kvs with
  | nil =>
    intro acc h
    exact h
  | cons kv rest ih =>
    intro acc h
    exact ih _ (object_assign_ascending acc kv.1 kv.2 h)

/-! ## What the loops return -/

theorem parse_loops_type (n : Nat) :
    (∀ arr it v r, impl.parse_array_loop ops n arr it = .ok (v, r) → v.get_type = .ARRAY) ∧
    (∀ obj it v r, impl.parse_object_loop ops n obj it = .ok (v, r) → v.get_type = .OBJECT) := by
  induction n with
  | zero =>
    refine ⟨fun arr it v r h => ?_, fun obj it v r h => ?_⟩
    · simp [impl.parse_array_loop] at h
    · simp [impl.parse_object_loop] at h
  | succ n ih =>
    obtain ⟨ih1, ih2⟩ := ih
    refine ⟨fun arr it v r h => ?_, fun obj it v r h => ?_⟩
    · unfold impl.parse_array_loop at h
      repeat' (first | simp only [] at h | split_ifs at h | split at h)
      all_goals first
        | (simp at h; done)
        | exact ih1 _ _ _ _ h
        | (simp only [Except.ok.injEq, Prod.mk.injEq] at h
           rw [← h.1]
           rfl)
    · unfold impl.parse_object_loop at h
      repeat' (first | simp only [] at h | split_ifs at h | split at h)
      all_goals first
        | (simp at h; done)
        | exact ih2 _ _ _ _ h
        | (simp only [Except.ok.injEq, Prod.mk.injEq] at h
           rw [← h.1]
           rfl)

/-- A String value comes from the string case of `parse_fragment` only. -/
theorem parse_fragment_aux_string (m c : Nat) (it s r : List Nat)
    (h : impl.parse_fragment_aux ops (m + 1) (c :: it) = .ok (.string s, r)) :
    c = 0x22 ∧ impl.unescape_string_inplace it = .ok (s, r) := by
  simp only [impl.parse_fragment_aux] at h
  by_cases h1 : c = 0x6e
  · rw [if_pos h1] at h
    cases ha : impl.accept (ascii "ull") it <;> rw [ha] at h <;> simp at h
  rw [if_neg h1] at h
  by_cases h2 : c = 0x66
  · rw [if_pos h2] at h
    cases ha : impl.accept (ascii "alse") it <;> rw [ha] at h <;> simp at h
  rw [if_neg h2] at h
  by_cases h3 : c = 0x74
  · rw [if_pos h3] at h
    cases ha : impl.accept (ascii "rue") it <;> rw [ha] at h <;> simp at h
  rw [if_neg h3] at h
  by_cases h4 : c = 0x22
  · rw [if_pos h4] at h
    refine ⟨h4, ?_⟩
    cases hu : impl.unescape_string_inplace it with
    | error e => rw [hu] at h; simp at h
    | ok p =>
      obtain ⟨s', r'⟩ := p
      rw [hu] at h
      simp only [Except.ok.injEq, Prod.mk.injEq, value.string.injEq] at h
      rw [h.1, h.2]
  rw [if_neg h4] at h
  by_cases h5 : c = 0x5b
  · rw [if_pos h5] at h
    cases hs : impl.skipws it with
    | nil => rw [hs] at h; simp at h
    | cons d t =>
      rw [hs] at h
      simp only at h
      split_ifs at h
      · have := (parse_loops_type ops m).1 _ _ _ _ h
        simp [value.get_type] at this
      · simp at h
  rw [if_neg h5] at h
  by_cases h6 : c = 0x7b
  · rw [if_pos h6] at h
    cases hs : impl.skipws it with
    | nil => rw [hs] at h; simp at h
    | cons d t =>
      rw [hs] at h
      simp only at h
      split_ifs at h
      · have := (parse_loops_type ops m).2 _ _ _ _ h
        simp [value.get_type] at this
      · simp at h
  rw [if_neg h6] at h
  split_ifs at h
  · obtain ⟨db, -, hty⟩ := parse_number_ok ops c it _ r h
    rcases hty with ⟨hty, -⟩ | ⟨hty, -⟩ <;> simp [value.get_type] at hty

/-- The text of a key: after its whitespace, a quote and a literal that the string
decoder reads up to whitespace, whatever follows. -/
theorem parse_ok_string (kt k : List Nat) (h : parse ops kt = .ok (.string k)) :
    ∃ x w, impl.skipws kt = 0x22 :: x ∧ (∀ c ∈ w, is_ws c) ∧
      ∀ Y, impl.unescape_string_inplace (x ++ Y) = .ok (k, w ++ Y) := by
  obtain ⟨hne, w, hw, hread⟩ := parse_ok_reads ops kt _ h
  cases hs : impl.skipws kt with
  | nil => exact absurd hs hne
  | cons c x =>
    have hp := hread [] _ stops_number_nil (Nat.le_refl _)
    rw [List.append_nil, List.append_nil, hs] at hp
    obtain ⟨hc, hu⟩ := parse_fragment_aux_string ops _ c x k w hp
    subst hc
    exact ⟨x, w, rfl, hw, fun Y => unescape_string_inplace_ext x k w Y hu⟩

/-! ## Objects of texts that `parse` reads -/

/-- One turn of the object loop at a member whose key text and value text `parse` reads,
followed by `d :: it`. -/
theorem parse_object_loop_turn (kt e k : List Nat) (v : value F)
    (hk : parse ops kt = .ok (.string k)) (he : parse ops e = .ok v)
    (acc : List (List Nat × value F)) (d : Nat) (it : List Nat) (hd : ¬ is_ws d)
    (hs : stops_number (d :: it)) (m : Nat) (hm : 2 * (impl.skipws e).length + 1 ≤ m) :
    impl.parse_object_loop ops (m + 1) acc (impl.skipws kt ++ 0x3a :: (e ++ d :: it))
      = if d = 0x7d then .ok (.object (object_assign acc k v), it)
        else if d ≠ 0x2c then .error (.parser .premature_end_object)
        else impl.parse_object_loop ops m (object_assign acc k v) (impl.skipws it) := by
  obtain ⟨x, w, hkt, hw, hu⟩ := parse_ok_string ops kt k hk
  obtain ⟨hne, w', hw', hread⟩ := parse_ok_reads ops e v he
  obtain ⟨c1, t1, hse, -⟩ := parse_ok_head ops e v he
  have hp := hread (d :: it) m hs hm
  rw [hse, List.cons_append] at hp
  have hsk : impl.skipws (e ++ d :: it) = c1 :: (t1 ++ d :: it) := by
    rw [skipws_append e _ hne, hse, List.cons_append]
  rw [hkt, List.cons_append]
  simp only [impl.parse_object_loop, ne_eq, not_true_eq_false, if_false, hu,
    skipws_ws_append w (0x3a :: (e ++ d :: it)) hw 0x3a _ rfl (by decide), hsk, hp,
    skipws_ws_append w' (d :: it) hw' d it rfl hd]

theorem comma_tail_members_length (m : List Nat × List Nat) (ms : List (List Nat × List Nat)) :
    (comma_tail ((m :: ms).map member_text)).length
      = 2 + m.1.length + m.2.length + (comma_tail (ms.map member_text)).length := by
  simp only [List.map_cons, comma_tail, member_text, List.length_cons, List.length_append]
  omega

/-- The object loop reads members with commas between them up to the closing brace, and
assigns them in the order of the text. -/
theorem parse_object_loop_reads (ms : List (List Nat × List Nat))
    (kvs : List (List Nat × value F))
    (h : List.Forall₂
      (fun m kv => parse ops m.1 = .ok (.string kv.1) ∧ parse ops m.2 = .ok kv.2) ms kvs) :
    ∀ kt e k v, parse ops kt = .ok (.string k) → parse ops e = .ok v → ∀ acc tail n,
      2 * ((impl.skipws kt).length + 1 + e.length
        + (comma_tail (ms.map member_text)).length + 1) + 2 ≤ n →
      impl.parse_object_loop ops n acc
          (impl.skipws kt ++ 0x3a :: (e ++ (comma_tail (ms.map member_text) ++ 0x7d :: tail)))
        = .ok (.object (kvs.foldl (fun o kv => object_assign o kv.1 kv.2)
            (object_assign acc k v)), tail) := by
  induction h with
  | nil =>
    intro kt e k v hk he acc tail n hn
    obtain ⟨m, rfl⟩ : ∃ m, n = m + 1 := ⟨n - 1, by omega⟩
    have hl := skipws_length_le e
    simp only [List.map_nil, comma_tail, List.nil_append, List.length_nil] at hn ⊢
    rw [parse_object_loop_turn ops kt e k v hk he acc 0x7d tail (by decide)
      (stops_number_cons _ _ (by decide)) m (by omega)]
    simp
  | @cons m2 kv2 ms kvs h2 _ ih =>
    intro kt e k v hk he acc tail n hn
    obtain ⟨m, rfl⟩ : ∃ m, n = m + 1 := ⟨n - 1, by omega⟩
    obtain ⟨kt2, e2⟩ := m2
    obtain ⟨k2, v2⟩ := kv2
    obtain ⟨hk2, he2⟩ := h2
    rw [comma_tail_members_length] at hn
    obtain ⟨hne2, _⟩ := parse_ok_reads ops kt2 _ hk2
    have hl := skipws_length_le e
    have hl2 := skipws_length_le kt2
    simp only [List.map_cons, comma_tail, member_text, List.cons_append, List.append_assoc]
    rw [parse_object_loop_turn ops kt e k v hk he acc 0x2c _ (by decide)
      (stops_number_cons _ _ (by decide)) m (by omega)]
    rw [if_neg (by decide), if_neg (by decide), skipws_append kt2 _ hne2]
    simp only [List.foldl_cons]
    exact ih kt2 e2 k2 v2 hk2 he2 (object_assign acc k v) tail m (by simp only at hn ⊢; omega)

theorem parse_fragment_aux_object (n : Nat) (it : List Nat) (d : Nat) (t : List Nat)
    (hs : impl.skipws it = d :: t) (hd : d ≠ 0x7d) :
    impl.parse_fragment_aux ops (n + 1) (0x7b :: it)
      = impl.parse_object_loop ops n [] (d :: t) := by
  simp [impl.parse_fragment_aux, hs, hd]

/-- C13: when `parse` reads the key texts of the members as the Strings `k1 .. kn` and
the value texts as `v1 .. vn`, it reads the object text as an Object whose keys are
exactly the decoded keys, each once and in ascending order, and in which the lookup of a
key gives the value of the last member with that key in the text. -/
theorem object_members (ms : List (List Nat × List Nat)) (kvs : List (List Nat × value F))
    (h : List.Forall₂
      (fun m kv => parse ops m.1 = .ok (.string kv.1) ∧ parse ops m.2 = .ok kv.2) ms kvs) :
    ∃ o, parse ops (object_text ms) = .ok (.object o) ∧
      (∀ key, key ∈ o.map Prod.fst ↔ key ∈ kvs.map Prod.fst) ∧
      keys_ascending o ∧
      ∀ key, object_get o key = last_value kvs key := by
  refine ⟨kvs.foldl (fun o kv => object_assign o kv.1 kv.2) [], ?_, fun key => ?_, ?_,
    fun key => ?_⟩
  · have hb : ¬ is_ws 0x7b := by decide
    cases h with
    | nil => rfl
    | @cons m kv ms kvs hm hrest =>
      obtain ⟨kt, e⟩ := m
      obtain ⟨k, v⟩ := kv
      obtain ⟨hk, he⟩ := hm
      obtain ⟨d, t, hs, hd, -, hd1, -⟩ := parse_ok_head ops kt _ hk
      obtain ⟨hne, -⟩ := parse_ok_reads ops kt _ hk
      have hl := skipws_length_le kt
      unfold object_text
      apply parse_of_fragment_ok ops 0x7b _ hb _ [] _ rfl
      simp only [List.map_cons, join_with_commas, member_text, List.append_assoc,
        List.cons_append]
      have hsk : impl.skipws (kt ++ 0x3a :: (e ++ (comma_tail (ms.map member_text) ++ [0x7d])))
          = d :: (t ++ 0x3a :: (e ++ (comma_tail (ms.map member_text) ++ [0x7d]))) := by
        rw [skipws_append kt _ hne, hs, List.cons_append]
      rw [parse_fragment_aux_object ops _ _ d _ hsk hd1,
        show d :: (t ++ 0x3a :: (e ++ (comma_tail (ms.map member_text) ++ [0x7d])))
            = impl.skipws kt ++ 0x3a :: (e ++ (comma_tail (ms.map member_text) ++ [0x7d]))
          from by rw [hs, List.cons_append]]
      rw [parse_object_loop_reads ops ms kvs hrest kt e k v hk he [] [] _
        (by simp only [List.length_append, List.length_cons, List.length_singleton]; omega)]
      simp [object_assign]
  · rw [fold_assign_keys]
    simp
  · exact fold_assign_ascending kvs [] (by simp [keys_ascending])
  · obtain ⟨ha, hb⟩ := fold_assign_get kvs [] key
    cases hl : last_value kvs key with
    | some w => exact ha w hl
    | none => rw [hb hl]; rfl

theorem object_members_witness :
    List.Forall₂
      (fun m kv => parse text_float m.1 = .ok (.string kv.1) ∧ parse text_float m.2 = .ok kv.2)
      [(ascii "\"b\"", ascii "1"), (ascii " \"a\" ", ascii "[2]"), (ascii "\"b\"", ascii "3")]
      [(ascii "b", .int 1), (ascii "a", .array [.int 2]), (ascii "b", .int 3)] ∧
    (∃ o, parse text_float (ascii "\x7b\"b\":1, \"a\" :[2],\"b\":3\x7d") = .ok (.object o) ∧
      (∀ key, key ∈ o.map Prod.fst ↔ key ∈ [ascii "b", ascii "a", ascii "b"]) ∧
      keys_ascending o ∧
      ∀ key, object_get o key
        = last_value [(ascii "b", .int 1), (ascii "a", .array [.int 2]), (ascii "b", .int 3)]
            key) ∧
    parse text_float (ascii "\x7b\"b\":1, \"a\" :[2],\"b\":3\x7d")
      = .ok (.object [(ascii "a", .array [.int 2]), (ascii "b", .int 3)]) :=
  have h : List.Forall₂
      (fun m kv => parse text_float m.1 = .ok (.string kv.1) ∧ parse text_float m.2 = .ok kv.2)
      [(ascii "\"b\"", ascii "1"), (ascii " \"a\" ", ascii "[2]"), (ascii "\"b\"", ascii "3")]
      [(ascii "b", .int 1), (ascii "a", .array [.int 2]), (ascii "b", .int 3)] :=
    .cons ⟨by rfl, by rfl⟩ (.cons ⟨by rfl, by rfl⟩ (.cons ⟨by rfl, by rfl⟩ .nil))
  ⟨h, object_members text_float _ _ h, by rfl⟩

/-! ## Input that ends inside an array or an object -/

/-- The object loop entered at the end of the input reads `*it` there. -/
theorem parse_object_loop_at_end (n : Nat) (obj : List (List Nat × value F)) :
    impl.parse_object_loop ops (n + 1) obj [] = .error .past_the_end := by
  simp [impl.parse_object_loop]

/-- C11: for input that ends right after `[`, after an element, after a comma of an
array, right after the opening brace, after a key, after `:` and after a member value,
`parse` throws a premature-end `parser_error`; for input that ends after the comma of an
object, the loop is entered again and reads `*it` at the end of the input (parse.hpp:173)
before any test for the end. -/
theorem unclosed_containers :
    parse ops (ascii "[") = .error (.parser .premature_end_array) ∧
    parse ops (ascii "[1") = .error (.parser .premature_end_array) ∧
    parse ops (ascii "[1,") = .error (.parser .premature_end) ∧
    parse ops (ascii "\x7b") = .error (.parser .premature_end_object) ∧
    parse ops (ascii "\x7b\"a\"") = .error (.parser .premature_end_object) ∧
    parse ops (ascii "\x7b\"a\":") = .error (.parser .premature_end_object) ∧
    parse ops (ascii "\x7b\"a\":1") = .error (.parser .premature_end_object) ∧
    parse ops (ascii "\x7b\"a\":1,") = .error .past_the_end ∧
    parse ops (ascii "\x7b\"a\":1, ") = .error .past_the_end ∧
    parse_destructive ops (ascii "\x7b\"a\":1,") = .error .past_the_end :=
  ⟨by rfl, by rfl, by rfl, by rfl, by rfl, by rfl, by rfl, by rfl, by rfl, by rfl⟩

/-! ## The coercing getters -/

/-- C21: `get_bool` never fails: it returns false for Null, the stored boolean for Bool,
`n != 0` for Int `n`, and whether the payload is non-empty for String, Array and
Object. -/
theorem get_bool_total (fc : float_casts F) :
    (value.null : value F).get_bool fc = .ok false ∧
    (∀ b, (value.bool b : value F).get_bool fc = .ok b) ∧
    (∀ n : Int, (value.int n : value F).get_bool fc = .ok (decide (n ≠ 0))) ∧
    (∀ s, (value.string s : value F).get_bool fc = .ok (decide (0 < s.length))) ∧
    (∀ a, (value.array a : value F).get_bool fc = .ok (decide (0 < a.length))) ∧
    (∀ o, (value.object o : value F).get_bool fc = .ok (decide (0 < o.length))) ∧
    ∀ v : value F, ∃ b, v.get_bool fc = .ok b := by
  refine ⟨rfl, fun _ => rfl, fun _ => rfl, fun s => ?_, fun a => ?_, fun o => ?_, fun v => ?_⟩
  · cases s <;> simp [value.get_bool]
  · cases a <;> simp [value.get_bool]
  · cases o <;> simp [value.get_bool]
  · cases v <;> exact ⟨_, rfl⟩

/-- C22: `get_int` returns 0 or 1 for a Bool and `n` for Int `n`; `get_int` and
`get_float` throw exactly on Null, String, Array and Object, and what they throw is a
type error. -/
theorem get_int_get_float (fc : float_casts F) (v : value F) :
    (value.bool false : value F).get_int fc = .ok 0 ∧
    (value.bool true : value F).get_int fc = .ok 1 ∧
    (∀ n, (value.int n : value F).get_int fc = .ok n) ∧
    ((∃ e, v.get_int fc = .error e) ↔
      (v.get_type = .JSONNULL ∨ v.get_type = .STRING ∨ v.get_type = .ARRAY
        ∨ v.get_type = .OBJECT)) ∧
    (∀ e, v.get_int fc = .error e → ∃ what, e = .type_error what) ∧
    ((∃ e, v.get_float fc = .error e) ↔
      (v.get_type = .JSONNULL ∨ v.get_type = .STRING ∨ v.get_type = .ARRAY
        ∨ v.get_type = .OBJECT)) ∧
    (∀ e, v.get_float fc = .error e → ∃ what, e = .type_error what) := by
  refine ⟨rfl, rfl, fun _ => rfl, ?_, ?_, ?_, ?_⟩
  · cases v <;> simp [value.get_int, value.get_type]
  · intro e h
    cases v <;> simp only [value.get_int] at h <;> first
      | (cases h; exact ⟨_, rfl⟩)
      | (simp at h; done)
  · cases v <;> simp [value.get_float, value.get_type]
  · intro e h
    cases v <;> simp only [value.get_float] at h <;> first
      | (cases h; exact ⟨_, rfl⟩)
      | (simp at h; done)

/-! ## The strict accessors -/

theorem strict_of_cases {R : Type} (acc : value F → Except value_error R) (T : jsontype)
    (hok : ∀ v : value F, v.get_type = T → ∃ r, acc v = .ok r)
    (herr : ∀ v : value F, v.get_type ≠ T →
      acc v = .error (.type_error (type_error_message v.get_type T))) :
    strict_accessor acc T := by
  intro v
  refine ⟨⟨fun ⟨r, hr⟩ => ?_, hok v⟩, herr v⟩
  by_contra hne
  rw [herr v hne] at hr
  cases hr

/-- C23: each strict accessor succeeds exactly when the tag of the value is the requested
variant, and otherwise throws the type error with the message `Cannot convert`, the
`jsontype_name` of the tag, `to`, the name of the requested type. -/
theorem strict_accessors :
    strict_accessor (value.get_bool_ref : value F → _) .BOOL ∧
    strict_accessor (value.get_int_ref : value F → _) .INT ∧
    strict_accessor (value.get_float_ref : value F → _) .FLOAT ∧
    strict_accessor (value.get_string : value F → _) .STRING ∧
    strict_accessor (value.get_string_ref : value F → _) .STRING ∧
    strict_accessor (value.get_array : value F → _) .ARRAY ∧
    strict_accessor (value.get_array_ref : value F → _) .ARRAY ∧
    strict_accessor (value.get_object : value F → _) .OBJECT ∧
    strict_accessor (value.get_object_ref : value F → _) .OBJECT := by
  refine ⟨?_, ?_, ?_, ?_, ?_, ?_, ?_, ?_, ?_⟩ <;>
  · apply strict_of_cases
    · intro v hv
      cases v <;> first
        | exact ⟨_, rfl⟩
        | (simp [value.get_type] at hv; done)
    · intro v hv
      cases v <;> first
        | rfl
        | exact absurd rfl hv

/-! ## Lookup in a `std::map` and its entries -/

theorem object_get_cons (k : List Nat) (w : value F) (rest : List (List Nat × value F))
    (key : List Nat) :
    object_get ((k, w) :: rest) key = if k = key then some w else object_get rest key := by
  simp only [object_get, string_equiv_iff]

/-- A key that the map does not hold is not found. -/
theorem object_get_absent (o : List (List Nat × value F)) (key : List Nat)
    (h : key ∉ o.map Prod.fst) : object_get o key = none := by
  induction o with
  | nil => rfl
  | cons kv rest ih =>
    obtain ⟨k, w⟩ := kv
    simp only [List.map_cons, List.mem_cons, not_or] at h
    rw [object_get_cons, if_neg (fun he => h.1 he.symm), ih h.2]

/-- What is found under a key is an entry of the map with that key. -/
theorem object_get_mem (o : List (List Nat × value F)) (key : List Nat) (e : value F)
    (h : object_get o key = some e) : (key, e) ∈ o := by
  induction o with
  | nil => simp [object_get] at h
  | cons kv rest ih =>
    obtain ⟨k, w⟩ := kv
    rw [object_get_cons] at h
    by_cases hk : k = key
    · rw [if_pos hk] at h
      simp only [Option.some.injEq] at h
      rw [hk, h]
      exact List.mem_cons_self _ _
    · rw [if_neg hk] at h
      exact List.mem_cons_of_mem _ (ih h)

/-- In a map, whose keys ascend, an entry is found under its key. -/
theorem object_get_of_mem (o : List (List Nat × value F)) (key : List Nat) (e : value F)
    (hasc : keys_ascending o) (h : (key, e) ∈ o) : object_get o key = some e := by
  induction o with
  | nil => simp at h
  | cons kv rest ih =>
    obtain ⟨k, w⟩ := kv
    unfold keys_ascending at hasc ih
    rw [List.pairwise_cons] at hasc
    rw [object_get_cons]
    rcases List.mem_cons.1 h with h | h
    · simp only [Prod.mk.injEq] at h
      rw [if_pos h.1.symm, h.2]
    · have hlt : string_lt k key = true := hasc.1 (key, e) h
      have hne : ¬ k = key := by
        intro he
        rw [he, string_lt_irrefl] at hlt
        exact Bool.noConfusion hlt
      rw [if_neg hne]
      exact ih hasc.2 h

theorem object_get_none_absent (o : List (List Nat × value F)) (key : List Nat)
    (h : object_get o key = none) : key ∉ o.map Prod.fst := by
  induction o with
  | nil => simp
  | cons kv rest ih =>
    obtain ⟨k, w⟩ := kv
    rw [object_get_cons] at h
    by_cases hk : k = key
    · rw [if_pos hk] at h
      simp at h
    · rw [if_neg hk] at h
      simp only [List.map_cons, List.mem_cons, not_or]
      exact ⟨fun he => hk he.symm, ih h⟩

/-- The entries after `object[key] = v` for a key the map did not hold: the new entry and
the entries there were. -/
theorem object_assign_mem_absent (o : List (List Nat × value F)) (k : List Nat) (v : value F)
    (h : k ∉ o.map Prod.fst) (kv : List Nat × value F) :
    kv ∈ object_assign o k v ↔ kv = (k, v) ∨ kv ∈ o := by
  induction o with
  | nil => simp [object_assign]
  | cons kw rest ih =>
    obtain ⟨k0, w⟩ := kw
    simp only [List.map_cons, List.mem_cons, not_or] at h
    simp only [object_assign]
    by_cases h1 : string_lt k k0 = true
    · rw [if_pos h1]
      simp
    · rw [if_neg h1]
      by_cases h2 : string_lt k0 k = true
      · rw [if_pos h2]
        simp only [List.mem_cons, ih h.2]
        tauto
      · exfalso
        exact h.1 (string_lt_trichotomy k k0 (by simpa using h1) (by simpa using h2))

/-! ## Indexing -/

/-- C24: on an Array with `n` elements, `value[i]` returns element `i` when `i < n` and
throws a range error when `i >= n`, in the mutable and in the const form; on a value that
is no Array both throw the type error of `get_array`. -/
theorem array_index (a : List (value F)) (i : Nat) :
    (∀ e, a[i]? = some e →
      (value.array a).at_index i = .ok e ∧ (value.array a).at_index_const i = .ok e) ∧
    (a.length ≤ i →
      (value.array a).at_index i = .error (.range_error (ascii "array index out of range")) ∧
      (value.array a).at_index_const i
        = .error (.range_error (ascii "array index out of range"))) ∧
    (∀ v : value F, v.get_type ≠ .ARRAY →
      v.at_index i = .error (.type_error (type_error_message v.get_type .ARRAY)) ∧
      v.at_index_const i = .error (.type_error (type_error_message v.get_type .ARRAY))) := by
  refine ⟨fun e he => ?_, fun hle => ?_, fun v hv => ?_⟩
  · obtain ⟨hlt, hget⟩ := List.getElem?_eq_some.1 he
    simp only [value.at_index, value.at_index_const, value.get_array_ref, value.get_array, hlt,
      dite_true, List.get_eq_getElem, hget, and_self]
  · have hnlt : ¬ i < a.length := by omega
    simp only [value.at_index, value.at_index_const, value.get_array_ref, value.get_array, hnlt,
      dite_false, and_self]
  · cases v <;> first
      | exact absurd rfl hv
      | exact ⟨rfl, rfl⟩

theorem array_index_witness :
    (value.array [.int 7, .null, .bool true] : value float_text).at_index 2 = .ok (.bool true) ∧
    (value.array [.int 7, .null, .bool true] : value float_text).at_index_const 0
      = .ok (.int 7) ∧
    (value.array [.int 7, .null, .bool true] : value float_text).at_index 3
      = .error (.range_error (ascii "array index out of range")) ∧
    (value.string (ascii "x") : value float_text).at_index_const 0
      = .error (.type_error (ascii "Cannot convert string to array")) :=
  ⟨((array_index [.int 7, .null, .bool true] 2).1 (.bool true) (by rfl)).1,
   ((array_index [.int 7, .null, .bool true] 0).1 (.int 7) (by rfl)).2,
   ((array_index [.int 7, .null, .bool true] 3).2.1 (by decide)).1,
   ((array_index ([] : List (value float_text)) 0).2.2 (.string (ascii "x"))
      (by simp [value.get_type])).2⟩

/-! ## Members of an object by key -/

/-- C25: on an Object (a map, whose keys ascend) the mutable `value[k]` returns the entry
of `k` and leaves the object as it is when `k` is present; when `k` is absent it inserts
`k` with Null, keeps every other entry, and returns the new entry. -/
theorem object_subscript (o : List (List Nat × value F)) (k : List Nat)
    (hasc : keys_ascending o) :
    (∀ e, (k, e) ∈ o → (value.object o).at_key k = .ok (.object o, e)) ∧
    (k ∉ o.map Prod.fst →
      ∃ o', (value.object o).at_key k = .ok (.object o', .null) ∧
        (∀ kv, kv ∈ o' ↔ kv = (k, .null) ∨ kv ∈ o) ∧
        keys_ascending o' ∧
        object_get o' k = some .null ∧
        ∀ key, key ≠ k → object_get o' key = object_get o key) := by
  refine ⟨fun e he => ?_, fun habs => ?_⟩
  · have hg := object_get_of_mem o k e hasc he
    simp only [value.at_key, value.get_object_ref, map_subscript, hg]
  · have hg := object_get_absent o k habs
    refine ⟨object_assign o k .null, ?_, fun kv => object_assign_mem_absent o k .null habs kv,
      object_assign_ascending o k .null hasc, ?_, fun key hkey => ?_⟩
    · simp only [value.at_key, value.get_object_ref, map_subscript, hg]
    · rw [object_get_assign, if_pos rfl]
    · rw [object_get_assign, if_neg (fun he => hkey he.symm)]

theorem object_subscript_witness :
    keys_ascending ([(ascii "a", .int 1), (ascii "c", .int 3)] :
      List (List Nat × value float_text)) ∧
    (value.object [(ascii "a", .int 1), (ascii "c", .int 3)] : value float_text).at_key
        (ascii "c")
      = .ok (.object [(ascii "a", .int 1), (ascii "c", .int 3)], .int 3) ∧
    (value.object [(ascii "a", .int 1), (ascii "c", .int 3)] : value float_text).at_key
        (ascii "b")
      = .ok (.object [(ascii "a", .int 1), (ascii "b", .null), (ascii "c", .int 3)], .null) :=
  have hasc : keys_ascending ([(ascii "a", .int 1), (ascii "c", .int 3)] :
      List (List Nat × value float_text)) := by
    simp [keys_ascending, string_lt, ascii]
  ⟨hasc, (object_subscript _ (ascii "c") hasc).1 (.int 3) (by simp), by rfl⟩

/-- C26: on an Object (a map, whose keys ascend) the const `value[k]` returns the entry
stored under `k` when there is one, and throws a range error when `k` is absent. The
member function is const and its embedding returns no object: there is none it could
have changed. -/
theorem object_subscript_const (o : List (List Nat × value F)) (k : List Nat)
    (hasc : keys_ascending o) :
    (∀ e, (k, e) ∈ o → (value.object o).at_key_const k = .ok e) ∧
    (k ∉ o.map Prod.fst →
      (value.object o).at_key_const k
        = .error (.range_error (ascii "object has no field " ++ k))) ∧
    (∀ r, (value.object o).at_key_const k = .ok r → (k, r) ∈ o) := by
  refine ⟨fun e he => ?_, fun habs => ?_, fun r hr => ?_⟩
  · have hg := object_get_of_mem o k e hasc he
    simp only [value.at_key_const, value.get_object, hg]
  · have hg := object_get_absent o k habs
    simp only [value.at_key_const, value.get_object, hg]
  · simp only [value.at_key_const, value.get_object] at hr
    cases hg : object_get o k with
    | none => rw [hg] at hr; simp at hr
    | some e =>
      rw [hg] at hr
      simp only [Except.ok.injEq] at hr
      rw [← hr]
      exact object_get_mem o k e hg

theorem object_subscript_const_witness :
    keys_ascending ([(ascii "a", .int 1), (ascii "c", .int 3)] :
      List (List Nat × value float_text)) ∧
    (value.object [(ascii "a", .int 1), (ascii "c", .int 3)] : value float_text).at_key_const
        (ascii "c") = .ok (.int 3) ∧
    (value.object [(ascii "a", .int 1), (ascii "c", .int 3)] : value float_text).at_key_const
        (ascii "b") = .error (.range_error (ascii "object has no field b")) :=
  have hasc : keys_ascending ([(ascii "a", .int 1), (ascii "c", .int 3)] :
      List (List Nat × value float_text)) := by
    simp [keys_ascending, string_lt, ascii]
  ⟨hasc, (object_subscript_const _ (ascii "c") hasc).1 (.int 3) (by simp),
    (object_subscript_const _ (ascii "b") hasc).2.1 (by decide)⟩

/-! ## The convenience getters -/

theorem object_get_typed (o : List (List Nat × value F)) (key : List Nat) (returnvalue : value F) :
    (∀ e, object_get o key = some e → value.object_get o key returnvalue = (true, e)) ∧
    (object_get o key = none → value.object_get o key returnvalue = (false, returnvalue)) := by
  refine ⟨fun e he => ?_, fun hn => ?_⟩
  · simp only [value.object_get, he]
  · simp only [value.object_get, hn]

theorem object_get_bool_typed (fc : float_casts F) (o : List (List Nat × value F))
    (key : List Nat) (returnvalue : Bool) :
    (∀ e, object_get o key = some e →
      ∃ b, e.get_bool fc = .ok b ∧ value.object_get_bool fc o key returnvalue = .ok (true, b)) ∧
    (object_get o key = none →
      value.object_get_bool fc o key returnvalue = .ok (false, returnvalue)) := by
  refine ⟨fun e he => ?_, fun hn => ?_⟩
  · cases e <;> exact ⟨_, rfl, by simp only [value.object_get_bool, he, value.get_bool]⟩
  · simp only [value.object_get_bool, hn]

theorem object_get_number_typed {T : Type} (nc : number_casts F T)
    (o : List (List Nat × value F)) (key : List Nat) (returnvalue : T) :
    (∀ b, object_get o key = some (.bool b) →
      value.object_get_number nc o key returnvalue = (true, nc.of_bool b)) ∧
    (∀ n, object_get o key = some (.int n) →
      value.object_get_number nc o key returnvalue = (true, nc.of_int n)) ∧
    (∀ x, object_get o key = some (.float x) →
      value.object_get_number nc o key returnvalue = (true, nc.of_float x)) ∧
    (∀ e, object_get o key = some e →
      e.get_type ≠ .BOOL → e.get_type ≠ .INT → e.get_type ≠ .FLOAT →
      value.object_get_number nc o key returnvalue = (false, returnvalue)) ∧
    (object_get o key = none →
      value.object_get_number nc o key returnvalue = (false, returnvalue)) := by
  refine ⟨fun b h => ?_, fun n h => ?_, fun x h => ?_, fun e h h1 h2 h3 => ?_, fun h => ?_⟩
  · simp only [value.object_get_number, h]
  · simp only [value.object_get_number, h]
  · simp only [value.object_get_number, h]
  · cases e <;> first
      | exact absurd rfl h1
      | exact absurd rfl h2
      | exact absurd rfl h3
      | simp only [value.object_get_number, h]
  · simp only [value.object_get_number, h]

theorem object_get_string_typed (o : List (List Nat × value F)) (key : List Nat)
    (returnvalue : List Nat) :
    (∀ s, object_get o key = some (.string s) →
      value.object_get_string o key returnvalue = (true, s)) ∧
    (∀ e, object_get o key = some e → e.get_type ≠ .STRING →
      value.object_get_string o key returnvalue = (false, returnvalue)) ∧
    (object_get o key = none →
      value.object_get_string o key returnvalue = (false, returnvalue)) := by
  refine ⟨fun s h => ?_, fun e h h1 => ?_, fun h => ?_⟩
  · simp only [value.object_get_string, h]
  · cases e <;> first
      | exact absurd rfl h1
      | simp only [value.object_get_string, h]
  · simp only [value.object_get_string, h]

/-- C28: on a map (its keys ascend), each of `object_get`, `object_get_bool`,
`object_get_number` and `object_get_string` returns true only when the key is present
(and the entry is a Bool, Int or Float for the number form, a String for the string
form), and then the output holds the value of the entry (its `get_bool` for the bool
form); whenever it returns false the output is what it was; and none of them throws,
whether the key is present or not. -/
theorem convenience_getters {T : Type} (fc : float_casts F) (nc : number_casts F T)
    (o : List (List Nat × value F)) (key : List Nat) (hasc : keys_ascending o)
    (r_value : value F) (r_bool : Bool) (r_number : T) (r_string : List Nat) :
    ((∀ e, (key, e) ∈ o → value.object_get o key r_value = (true, e)) ∧
      ((value.object_get o key r_value).1 = true →
        (key, (value.object_get o key r_value).2) ∈ o) ∧
      ((value.object_get o key r_value).1 = false →
        (value.object_get o key r_value).2 = r_value)) ∧
    (∃ res, value.object_get_bool fc o key r_bool = .ok res ∧
      (∀ e, (key, e) ∈ o → res.1 = true ∧ e.get_bool fc = .ok res.2) ∧
      (res.1 = true → ∃ e, (key, e) ∈ o ∧ e.get_bool fc = .ok res.2) ∧
      (res.1 = false → res.2 = r_bool)) ∧
    ((∀ b, (key, .bool b) ∈ o →
        value.object_get_number nc o key r_number = (true, nc.of_bool b)) ∧
      (∀ n, (key, .int n) ∈ o →
        value.object_get_number nc o key r_number = (true, nc.of_int n)) ∧
      (∀ x, (key, .float x) ∈ o →
        value.object_get_number nc o key r_number = (true, nc.of_float x)) ∧
      ((value.object_get_number nc o key r_number).1 = true →
        ∃ e, (key, e) ∈ o ∧ (e.get_type = .BOOL ∨ e.get_type = .INT ∨ e.get_type = .FLOAT)) ∧
      ((value.object_get_number nc o key r_number).1 = false →
        (value.object_get_number nc o key r_number).2 = r_number)) ∧
    ((∀ s, (key, .string s) ∈ o → value.object_get_string o key r_string = (true, s)) ∧
      ((value.object_get_string o key r_string).1 = true →
        (key, .string (value.object_get_string o key r_string).2) ∈ o) ∧
      ((value.object_get_string o key r_string).1 = false →
        (value.object_get_string o key r_string).2 = r_string)) := by
  have hfind : ∀ e, (key, e) ∈ o → object_get o key = some e :=
    fun e he => object_get_of_mem o key e hasc he
  have hmem : ∀ e, object_get o key = some e → (key, e) ∈ o :=
    fun e he => object_get_mem o key e he
  refine ⟨⟨fun e he => (object_get_typed o key r_value).1 e (hfind e he), ?_, ?_⟩, ?_,
    ⟨fun b hb => (object_get_number_typed nc o key r_number).1 b (hfind _ hb),
      fun n hn => (object_get_number_typed nc o key r_number).2.1 n (hfind _ hn),
      fun x hx => (object_get_number_typed nc o key r_number).2.2.1 x (hfind _ hx), ?_, ?_⟩,
    ⟨fun s hs => (object_get_string_typed o key r_string).1 s (hfind _ hs), ?_, ?_⟩⟩
  · cases hg : object_get o key with
    | none => rw [(object_get_typed o key r_value).2 hg]; simp
    | some e =>
      rw [(object_get_typed o key r_value).1 e hg]
      exact fun _ => hmem e hg
  · cases hg : object_get o key with
    | none => rw [(object_get_typed o key r_value).2 hg]; simp
    | some e => rw [(object_get_typed o key r_value).1 e hg]; simp
  · cases hg : object_get o key with
    | none =>
      refine ⟨_, (object_get_bool_typed fc o key r_bool).2 hg, fun e he => ?_, ?_, ?_⟩
      · rw [hfind e he] at hg
        cases hg
      · simp
      · simp
    | some e =>
      obtain ⟨b, hb, hres⟩ := (object_get_bool_typed fc o key r_bool).1 e hg
      refine ⟨_, hres, fun e' he' => ?_, fun _ => ⟨e, hmem e hg, hb⟩, ?_⟩
      · have := hfind e' he'
        rw [hg] at this
        simp only [Option.some.injEq] at this
        rw [← this]
        exact ⟨rfl, hb⟩
      · simp
  · cases hg : object_get o key with
    | none => rw [(object_get_number_typed nc o key r_number).2.2.2.2 hg]; simp
    | some e =>
      intro ht
      refine ⟨e, hmem e hg, ?_⟩
      by_contra hno
      simp only [not_or] at hno
      rw [(object_get_number_typed nc o key r_number).2.2.2.1 e hg hno.1 hno.2.1 hno.2.2] at ht
      simp at ht
  · cases hg : object_get o key with
    | none => rw [(object_get_number_typed nc o key r_number).2.2.2.2 hg]; simp
    | some e =>
      cases e with
      | bool b => rw [(object_get_number_typed nc o key r_number).1 b hg]; simp
      | int n => rw [(object_get_number_typed nc o key r_number).2.1 n hg]; simp
      | float x => rw [(object_get_number_typed nc o key r_number).2.2.1 x hg]; simp
      | null =>
        rw [(object_get_number_typed nc o key r_number).2.2.2.1 _ hg (by simp [value.get_type])
          (by simp [value.get_type]) (by simp [value.get_type])]
        simp
      | string s =>
        rw [(object_get_number_typed nc o key r_number).2.2.2.1 _ hg (by simp [value.get_type])
          (by simp [value.get_type]) (by simp [value.get_type])]
        simp
      | array a =>
        rw [(object_get_number_typed nc o key r_number).2.2.2.1 _ hg (by simp [value.get_type])
          (by simp [value.get_type]) (by simp [value.get_type])]
        simp
      | object ob =>
        rw [(object_get_number_typed nc o key r_number).2.2.2.1 _ hg (by simp [value.get_type])
          (by simp [value.get_type]) (by simp [value.get_type])]
        simp
  · cases hg : object_get o key with
    | none => rw [(object_get_string_typed o key r_string).2.2 hg]; simp
    | some e =>
      cases e with
      | string s =>
        rw [(object_get_string_typed o key r_string).1 s hg]
        exact fun _ => hmem _ hg
      | null => rw [(object_get_string_typed o key r_string).2.1 _ hg (by simp [value.get_type])]; simp
      | bool b => rw [(object_get_string_typed o key r_string).2.1 _ hg (by simp [value.get_type])]; simp
      | int n => rw [(object_get_string_typed o key r_string).2.1 _ hg (by simp [value.get_type])]; simp
      | float x => rw [(object_get_string_typed o key r_string).2.1 _ hg (by simp [value.get_type])]; simp
      | array a => rw [(object_get_string_typed o key r_string).2.1 _ hg (by simp [value.get_type])]; simp
      | object ob => rw [(object_get_string_typed o key r_string).2.1 _ hg (by simp [value.get_type])]; simp
  · cases hg : object_get o key with
    | none => rw [(object_get_string_typed o key r_string).2.2 hg]; simp
    | some e =>
      cases e with
      | string s => rw [(object_get_string_typed o key r_string).1 s hg]; simp
      | null => rw [(object_get_string_typed o key r_string).2.1 _ hg (by simp [value.get_type])]; simp
      | bool b => rw [(object_get_string_typed o key r_string).2.1 _ hg (by simp [value.get_type])]; simp
      | int n => rw [(object_get_string_typed o key r_string).2.1 _ hg (by simp [value.get_type])]; simp
      | float x => rw [(object_get_string_typed o key r_string).2.1 _ hg (by simp [value.get_type])]; simp
      | array a => rw [(object_get_string_typed o key r_string).2.1 _ hg (by simp [value.get_type])]; simp
      | object ob => rw [(object_get_string_typed o key r_string).2.1 _ hg (by simp [value.get_type])]; simp

theorem convenience_getters_witness :
    keys_ascending ([(ascii "a", .int 1), (ascii "c", .string (ascii "x"))] :
      List (List Nat × value float_text)) ∧
    value.object_get [(ascii "a", .int 1), (ascii "c", .string (ascii "x"))] (ascii "a")
        (.null : value float_text) = (true, .int 1) ∧
    value.object_get_number text_number_casts
        [(ascii "a", .int 1), (ascii "c", .string (ascii "x"))] (ascii "a") 7 = (true, 1) ∧
    value.object_get_string
        ([(ascii "a", .int 1), (ascii "c", .string (ascii "x"))] :
          List (List Nat × value float_text)) (ascii "c") [] = (true, ascii "x") ∧
    value.object_get_number text_number_casts
        [(ascii "a", .int 1), (ascii "c", .string (ascii "x"))] (ascii "c") 7 = (false, 7) ∧
    value.object_get_bool text_casts
        [(ascii "a", .int 1), (ascii "c", .string (ascii "x"))] (ascii "b") true
      = .ok (false, true) :=
  have hasc : keys_ascending ([(ascii "a", .int 1), (ascii "c", .string (ascii "x"))] :
      List (List Nat × value float_text)) := by
    simp [keys_ascending, string_lt, ascii]
  have h := convenience_getters text_casts text_number_casts
    [(ascii "a", .int 1), (ascii "c", .string (ascii "x"))] (ascii "a") hasc .null true 7 []
  have hc := convenience_getters text_casts text_number_casts
    [(ascii "a", .int 1), (ascii "c", .string (ascii "x"))] (ascii "c") hasc .null true 7 []
  ⟨hasc, h.1.1 (.int 1) (by simp), h.2.2.1.2.1 1 (by simp),
    hc.2.2.2.1 (ascii "x") (by simp), by rfl, by rfl⟩

/-- A value that an object holds in one store it holds in every store that has the same
payloads at the addresses of `S`. -/
theorem holds_agree (S T : Nat → Prop) (h h2 : heap F)
    (hS : ∀ p x, S p → h[p]? = some x → T p ∧ h2[p]? = some x) (v : value F) :
    ∀ c, holds S h c v → holds T h2 c v := by
  refine @value.rec F
    (fun v => ∀ c, holds S h c v → holds T h2 c v)
    (fun vs => ∀ cells, holds.elements S h cells vs → holds.elements T h2 cells vs)
    (fun kvs => ∀ entries, holds.members S h entries kvs → holds.members T h2 entries kvs)
    (fun kv => ∀ c, holds S h c kv.2 → holds T h2 c kv.2)
    ?_ ?_ ?_ ?_ ?_ ?_ ?_ ?_ ?_ ?_ ?_ ?_ v
  · intro c hc
    rw [holds] at hc ⊢
    exact hc
  · intro b c hc
    rw [holds] at hc ⊢
    exact hc
  · intro n c hc
    rw [holds] at hc ⊢
    exact hc
  · intro x c hc
    rw [holds] at hc ⊢
    exact hc
  · intro s c hc
    rw [holds] at hc ⊢
    obtain ⟨ht, p, hp, hsp, hh⟩ := hc
    exact ⟨ht, p, hp, (hS p _ hsp hh).1, (hS p _ hsp hh).2⟩
  · intro a ih c hc
    rw [holds] at hc ⊢
    obtain ⟨ht, p, cells, hp, hsp, hh, hel⟩ := hc
    exact ⟨ht, p, cells, hp, (hS p _ hsp hh).1, (hS p _ hsp hh).2, ih cells hel⟩
  · intro o ih c hc
    rw [holds] at hc ⊢
    obtain ⟨ht, p, entries, hp, hsp, hh, hel⟩ := hc
    exact ⟨ht, p, entries, hp, (hS p _ hsp hh).1, (hS p _ hsp hh).2, ih entries hel⟩
  · intro cells hc
    cases cells with
    | nil => rw [holds.elements]; trivial
    | cons c cs => rw [holds.elements] at hc; exact hc.elim
  · intro v vs ihv ihvs cells hc
    cases cells with
    | nil => rw [holds.elements] at hc; exact hc.elim
    | cons c cs =>
      rw [holds.elements] at hc ⊢
      exact ⟨ihv c hc.1, ihvs cs hc.2⟩
  · intro entries hc
    cases entries with
    | nil => rw [holds.members]; trivial
    | cons c cs => rw [holds.members] at hc; exact hc.elim
  · intro kv kvs ihv ihvs entries hc
    obtain ⟨key, v⟩ := kv
    cases entries with
    | nil => rw [holds.members] at hc; exact hc.elim
    | cons e es =>
      obtain ⟨k, c⟩ := e
      rw [holds.members] at hc ⊢
      exact ⟨hc.1, ihv c hc.2.1, ihvs es hc.2.2⟩
  · intro k v hv
    exact hv

/-- An object holds at most one value. -/
theorem holds_unique (S T : Nat → Prop) (h : heap F) (v : value F) :
    ∀ c w, holds S h c v → holds T h c w → v = w := by
  refine @value.rec F
    (fun v => ∀ c w, holds S h c v → holds T h c w → v = w)
    (fun vs => ∀ cells ws, holds.elements S h cells vs → holds.elements T h cells ws → vs = ws)
    (fun kvs => ∀ entries ws, holds.members S h entries kvs → holds.members T h entries ws →
      kvs = ws)
    (fun kv => ∀ c w, holds S h c kv.2 → holds T h c w → kv.2 = w)
    ?_ ?_ ?_ ?_ ?_ ?_ ?_ ?_ ?_ ?_ ?_ ?_ v
  · intro c w hc hw
    rw [holds] at hc
    cases w <;> rw [holds] at hw <;> first | rfl | (rw [hc] at hw; cases hw.1)
  · intro b c w hc hw
    rw [holds] at hc
    cases w <;> rw [holds] at hw <;>
      first
      | (rw [hc.1] at hw; cases hw.1; done)
      | (rw [hc.1] at hw; cases hw; done)
      | (rw [hc.2] at hw; cases hw.2; rfl)
  · intro b c w hc hw
    rw [holds] at hc
    cases w <;> rw [holds] at hw <;>
      first
      | (rw [hc.1] at hw; cases hw.1; done)
      | (rw [hc.1] at hw; cases hw; done)
      | (rw [hc.2] at hw; cases hw.2; rfl)
  · intro b c w hc hw
    rw [holds] at hc
    cases w <;> rw [holds] at hw <;>
      first
      | (rw [hc.1] at hw; cases hw.1; done)
      | (rw [hc.1] at hw; cases hw; done)
      | (rw [hc.2] at hw; cases hw.2; rfl)
  · intro s c w hc hw
    rw [holds] at hc
    obtain ⟨ht, p, hp, -, hh⟩ := hc
    cases w <;> rw [holds] at hw <;>
      first
      | (rw [ht] at hw; cases hw.1; done)
      | (rw [ht] at hw; cases hw; done)
      | skip
    obtain ⟨-, q, hq, -, hh2⟩ := hw
    rw [hp] at hq
    cases hq
    rw [hh] at hh2
    cases hh2
    rfl
  · intro a ih c w hc hw
    rw [holds] at hc
    obtain ⟨ht, p, cells, hp, -, hh, hel⟩ := hc
    cases w <;> rw [holds] at hw <;>
      first
      | (rw [ht] at hw; cases hw.1; done)
      | (rw [ht] at hw; cases hw; done)
      | skip
    obtain ⟨-, q, cells2, hq, -, hh2, hel2⟩ := hw
    rw [hp] at hq
    cases hq
    rw [hh] at hh2
    cases hh2
    rw [ih cells _ hel hel2]
  · intro a ih c w hc hw
    rw [holds] at hc
    obtain ⟨ht, p, cells, hp, -, hh, hel⟩ := hc
    cases w <;> rw [holds] at hw <;>
      first
      | (rw [ht] at hw; cases hw.1; done)
      | (rw [ht] at hw; cases hw; done)
      | skip
    obtain ⟨-, q, cells2, hq, -, hh2, hel2⟩ := hw
    rw [hp] at hq
    cases hq
    rw [hh] at hh2
    cases hh2
    rw [ih cells _ hel hel2]
  · intro cells ws hc hw
    cases cells with
    | nil =>
      cases ws with
      | nil => rfl
      | cons w ws => rw [holds.elements] at hw; exact hw.elim
    | cons c cs => rw [holds.elements] at hc; exact hc.elim
  · intro v vs ihv ihvs cells ws hc hw
    cases cells with
    | nil => rw [holds.elements] at hc; exact hc.elim
    | cons c cs =>
      cases ws with
      | nil => rw [holds.elements] at hw; exact hw.elim
      | cons w ws =>
        rw [holds.elements] at hc hw
        rw [ihv c w hc.1 hw.1, ihvs cs ws hc.2 hw.2]
  · intro entries ws hc hw
    cases entries with
    | nil =>
      cases ws with
      | nil => rfl
      | cons w ws => rw [holds.members] at hw; exact hw.elim
    | cons c cs => rw [holds.members] at hc; exact hc.elim
  · intro kv kvs ihv ihvs entries ws hc hw
    obtain ⟨key, v⟩ := kv
    cases entries with
    | nil => rw [holds.members] at hc; exact hc.elim
    | cons e es =>
      obtain ⟨k, c⟩ := e
      cases ws with
      | nil => rw [holds.members] at hw; exact hw.elim
      | cons w ws =>
        obtain ⟨key2, w⟩ := w
        rw [holds.members] at hc hw
        have h1 : v = w := ihv c w hc.2.1 hw.2.1
        rw [← hc.1, ← hw.1, h1, ihvs es ws hc.2.2 hw.2.2]
  · intro k v hv
    exact hv

theorem heap_append_some (h ext : heap F) (p : Nat) (x : payload F) (hx : h[p]? = some x) :
    (h ++ ext)[p]? = some x := by
  obtain ⟨hp, -⟩ := List.getElem?_eq_some.1 hx
  rw [List.getElem?_append_left hp]
  exact hx

theorem heap_some_lt (h : heap F) (p : Nat) (x : payload F) (hx : h[p]? = some x) :
    p < h.length := by
  obtain ⟨hp, -⟩ := List.getElem?_eq_some.1 hx
  exact hp

theorem heap_new (h : heap F) (x : payload F) : (h ++ [x])[h.length]? = some x := by
  simp

/-- The payloads of a value are payloads of the store. -/
theorem holds_old (S : Nat → Prop) (h : heap F) (c : cell F) (v : value F)
    (hc : holds S h c v) : holds (fun p => p < h.length) h c v :=
  holds_agree S _ h h (fun p x _ hx => ⟨heap_some_lt h p x hx, hx⟩) v c hc

/-- A value stays what it is when payloads are added to the store. -/
theorem holds_append (S : Nat → Prop) (h ext : heap F) (c : cell F) (v : value F)
    (hc : holds S h c v) : holds S (h ++ ext) c v :=
  holds_agree S S h (h ++ ext) (fun p x hp hx => ⟨hp, heap_append_some h ext p x hx⟩) v c hc

theorem elements_agree (S T : Nat → Prop) (h h2 : heap F)
    (hS : ∀ p x, S p → h[p]? = some x → T p ∧ h2[p]? = some x) (vs : List (value F)) :
    ∀ cells, holds.elements S h cells vs → holds.elements T h2 cells vs := by
  induction vs with
  | nil =>
    intro cells hc
    cases cells with
    | nil => rw [holds.elements]; trivial
    | cons c cs => rw [holds.elements] at hc; exact hc.elim
  | cons v vs ih =>
    intro cells hc
    cases cells with
    | nil => rw [holds.elements] at hc; exact hc.elim
    | cons c cs =>
      rw [holds.elements] at hc ⊢
      exact ⟨holds_agree S T h h2 hS v c hc.1, ih cs hc.2⟩

theorem members_agree (S T : Nat → Prop) (h h2 : heap F)
    (hS : ∀ p x, S p → h[p]? = some x → T p ∧ h2[p]? = some x)
    (kvs : List (List Nat × value F)) :
    ∀ entries, holds.members S h entries kvs → holds.members T h2 entries kvs := by
  induction kvs with
  | nil =>
    intro entries hc
    cases entries with
    | nil => rw [holds.members]; trivial
    | cons c cs => rw [holds.members] at hc; exact hc.elim
  | cons kv kvs ih =>
    intro entries hc
    obtain ⟨key, v⟩ := kv
    cases entries with
    | nil => rw [holds.members] at hc; exact hc.elim
    | cons e es =>
      obtain ⟨k, c⟩ := e
      rw [holds.members] at hc ⊢
      exact ⟨hc.1, holds_agree S T h h2 hS v c hc.2.1, ih es hc.2.2⟩

theorem string_ref_of (h : heap F) (c : cell F) (p : Nat) (s : List Nat)
    (hp : c.m_ptr = some p) (hh : h[p]? = some (.string s)) :
    c.string_ref_dangerous h = .ok s := by
  unfold cell.string_ref_dangerous
  simp only [hp, hh]

theorem array_ref_of (h : heap F) (c : cell F) (p : Nat) (a : List (cell F))
    (hp : c.m_ptr = some p) (hh : h[p]? = some (.array a)) :
    c.array_ref_dangerous h = .ok a := by
  unfold cell.array_ref_dangerous
  simp only [hp, hh]

theorem object_ref_of (h : heap F) (c : cell F) (p : Nat) (o : List (List Nat × cell F))
    (hp : c.m_ptr = some p) (hh : h[p]? = some (.object o)) :
    c.object_ref_dangerous h = .ok o := by
  unfold cell.object_ref_dangerous
  simp only [hp, hh]

theorem deepcopy_JSONNULL (fuel : Nat) (h : heap F) (this other : cell F)
    (ht : other.m_type = .JSONNULL) :
    cell.deepcopy (fuel + 1) h this other
      = .ok (h, { this with m_type := .JSONNULL, m_ptr := none }) := by
  rw [cell.deepcopy]
  simp only [ht]

theorem deepcopy_BOOL (fuel : Nat) (h : heap F) (this other : cell F)
    (ht : other.m_type = .BOOL) :
    cell.deepcopy (fuel + 1) h this other
      = .ok (h, { this with m_type := .BOOL, m_data := other.m_data.copy_boolean }) := by
  rw [cell.deepcopy]
  simp only [ht]

theorem deepcopy_INT (fuel : Nat) (h : heap F) (this other : cell F)
    (ht : other.m_type = .INT) :
    cell.deepcopy (fuel + 1) h this other
      = .ok (h, { this with m_type := .INT, m_data := other.m_data.copy_integer }) := by
  rw [cell.deepcopy]
  simp only [ht]

theorem deepcopy_FLOAT (fuel : Nat) (h : heap F) (this other : cell F)
    (ht : other.m_type = .FLOAT) :
    cell.deepcopy (fuel + 1) h this other
      = .ok (h, { this with m_type := .FLOAT, m_data := other.m_data.copy_floatingpoint }) := by
  rw [cell.deepcopy]
  simp only [ht]

theorem deepcopy_STRING (fuel : Nat) (h : heap F) (this other : cell F) (s : List Nat)
    (ht : other.m_type = .STRING) (hr : other.string_ref_dangerous h = .ok s) :
    cell.deepcopy (fuel + 1) h this other = .ok (copy_string h s) := by
  rw [cell.deepcopy]
  simp only [ht, hr]

theorem deepcopy_ARRAY (fuel : Nat) (h : heap F) (this other : cell F) (a : List (cell F))
    (ht : other.m_type = .ARRAY) (hr : other.array_ref_dangerous h = .ok a) :
    cell.deepcopy (fuel + 1) h this other = deepcopy_array fuel h a := by
  rw [cell.deepcopy]
  simp only [ht, hr]

theorem deepcopy_OBJECT (fuel : Nat) (h : heap F) (this other : cell F)
    (o : List (List Nat × cell F))
    (ht : other.m_type = .OBJECT) (hr : other.object_ref_dangerous h = .ok o) :
    cell.deepcopy (fuel + 1) h this other = deepcopy_object fuel h o := by
  rw [cell.deepcopy]
  simp only [ht, hr]

theorem deepcopy_self_simple (fuel : Nat) (h : heap F) (this : cell F)
    (ht : this.m_type = .JSONNULL ∨ this.m_type = .BOOL ∨ this.m_type = .INT
      ∨ this.m_type = .FLOAT) :
    cell.deepcopy_self (fuel + 1) h this = .ok (h, this) := by
  rw [cell.deepcopy_self]
  rcases ht with ht | ht | ht | ht <;> simp only [ht]

theorem deepcopy_self_STRING (fuel : Nat) (h : heap F) (this : cell F) (s : List Nat)
    (ht : this.m_type = .STRING) (hr : this.string_ref_dangerous h = .ok s) :
    cell.deepcopy_self (fuel + 1) h this = .ok (copy_string h s) := by
  rw [cell.deepcopy_self]
  simp only [ht, hr]

theorem deepcopy_self_ARRAY (fuel : Nat) (h : heap F) (this : cell F) (a : List (cell F))
    (ht : this.m_type = .ARRAY) (hr : this.array_ref_dangerous h = .ok a) :
    cell.deepcopy_self (fuel + 1) h this = deepcopy_array fuel h a := by
  rw [cell.deepcopy_self]
  simp only [ht, hr]

theorem deepcopy_self_OBJECT (fuel : Nat) (h : heap F) (this : cell F)
    (o : List (List Nat × cell F))
    (ht : this.m_type = .OBJECT) (hr : this.object_ref_dangerous h = .ok o) :
    cell.deepcopy_self (fuel + 1) h this = deepcopy_object fuel h o := by
  rw [cell.deepcopy_self]
  simp only [ht, hr]

theorem deepcopy_array_of_loop (fuel : Nat) (h h2 : heap F) (source destination : List (cell F))
    (hl : deepcopy_array_loop fuel h source = .ok (h2, destination)) :
    deepcopy_array (fuel + 1) h source
      = .ok (h2 ++ [.array destination], ⟨some h2.length, .indeterminate, .ARRAY⟩) := by
  rw [deepcopy_array]
  simp only [hl]

theorem deepcopy_object_of_loop (fuel : Nat) (h h2 : heap F)
    (source destination : List (List Nat × cell F))
    (hl : deepcopy_object_loop fuel h source = .ok (h2, destination)) :
    deepcopy_object (fuel + 1) h source
      = .ok (h2 ++ [.object destination], ⟨some h2.length, .indeterminate, .OBJECT⟩) := by
  rw [deepcopy_object]
  simp only [hl]

theorem deepcopy_array_loop_nil (fuel : Nat) (h : heap F) :
    deepcopy_array_loop (fuel + 1) h ([] : List (cell F)) = .ok (h, []) := by
  rw [deepcopy_array_loop]

theorem deepcopy_array_loop_cons (fuel : Nat) (h h1 h2 : heap F) (sit dit : cell F)
    (source destination : List (cell F))
    (hd : cell.deepcopy fuel h cell.default sit = .ok (h1, dit))
    (hl : deepcopy_array_loop fuel h1 source = .ok (h2, destination)) :
    deepcopy_array_loop (fuel + 1) h (sit :: source) = .ok (h2, dit :: destination) := by
  rw [deepcopy_array_loop]
  simp only [hd, hl]

theorem deepcopy_object_loop_nil (fuel : Nat) (h : heap F) :
    deepcopy_object_loop (fuel + 1) h ([] : List (List Nat × cell F)) = .ok (h, []) := by
  rw [deepcopy_object_loop]

theorem deepcopy_object_loop_cons (fuel : Nat) (h h1 h2 : heap F) (key : List Nat)
    (second copy : cell F) (it destination : List (List Nat × cell F))
    (hd : cell.deepcopy_self fuel h second = .ok (h1, copy))
    (hl : deepcopy_object_loop fuel h1 it = .ok (h2, destination)) :
    deepcopy_object_loop (fuel + 1) h ((key, second) :: it)
      = .ok (h2, (key, copy) :: destination) := by
  rw [deepcopy_object_loop]
  simp only [hd, hl]

theorem copy_string_fresh (h : heap F) (s : List Nat) :
    fresh_copy h (copy_string h s).1 (copy_string h s).2 (.string s) := by
  refine ⟨⟨[.string s], rfl⟩, ?_⟩
  rw [holds]
  exact ⟨rfl, h.length, rfl, Nat.le_refl _, heap_new h _⟩

theorem copies_simple (v : value F)
    (hv : ∀ (S : Nat → Prop) (h : heap F) (other : cell F), holds S h other v →
      (other.m_type = .JSONNULL ∨ other.m_type = .BOOL ∨ other.m_type = .INT
        ∨ other.m_type = .FLOAT) ∧
      (∀ T h2, holds T h2 other v) ∧
      ∀ fuel this, ∃ c, cell.deepcopy (fuel + 1) h this other = .ok (h, c) ∧
        ∀ T h2, holds T h2 c v) :
    copies v 1 := by
  intro fuel hfuel S h other hc
  obtain ⟨f, rfl⟩ : ∃ f, fuel = f + 1 := ⟨fuel - 1, by omega⟩
  obtain ⟨ht, hself, hcopy⟩ := hv S h other hc
  refine ⟨?_, ?_⟩
  · intro this
    obtain ⟨c, hd, hh⟩ := hcopy f this
    exact ⟨h, c, hd, ⟨[], by simp⟩, hh _ _⟩
  · exact ⟨h, other, deepcopy_self_simple f h other ht, ⟨[], by simp⟩, hself _ _⟩

theorem copies_null : copies (value.null : value F) 1 := by
  apply copies_simple
  intro S h other hc
  rw [holds] at hc
  refine ⟨Or.inl hc, ?_, ?_⟩
  · intro T h2
    rw [holds]
    exact hc
  · intro fuel this
    refine ⟨_, deepcopy_JSONNULL fuel h this other hc, ?_⟩
    intro T h2
    rw [holds]

theorem copies_bool (b : Bool) : copies (value.bool b : value F) 1 := by
  apply copies_simple
  intro S h other hc
  rw [holds] at hc
  refine ⟨Or.inr (Or.inl hc.1), ?_, ?_⟩
  · intro T h2
    rw [holds]
    exact hc
  · intro fuel this
    refine ⟨_, deepcopy_BOOL fuel h this other hc.1, ?_⟩
    intro T h2
    rw [holds, hc.2]
    exact ⟨rfl, rfl⟩

theorem copies_int (n : Int) : copies (value.int n : value F) 1 := by
  apply copies_simple
  intro S h other hc
  rw [holds] at hc
  refine ⟨Or.inr (Or.inr (Or.inl hc.1)), ?_, ?_⟩
  · intro T h2
    rw [holds]
    exact hc
  · intro fuel this
    refine ⟨_, deepcopy_INT fuel h this other hc.1, ?_⟩
    intro T h2
    rw [holds, hc.2]
    exact ⟨rfl, rfl⟩

theorem copies_float (x : F) : copies (value.float x : value F) 1 := by
  apply copies_simple
  intro S h other hc
  rw [holds] at hc
  refine ⟨Or.inr (Or.inr (Or.inr hc.1)), ?_, ?_⟩
  · intro T h2
    rw [holds]
    exact hc
  · intro fuel this
    refine ⟨_, deepcopy_FLOAT fuel h this other hc.1, ?_⟩
    intro T h2
    rw [holds, hc.2]
    exact ⟨rfl, rfl⟩

theorem copies_string (s : List Nat) : copies (value.string s : value F) 1 := by
  intro fuel hfuel S h other hc
  obtain ⟨f, rfl⟩ : ∃ f, fuel = f + 1 := ⟨fuel - 1, by omega⟩
  rw [holds] at hc
  obtain ⟨ht, p, hp, -, hh⟩ := hc
  have hr := string_ref_of h other p s hp hh
  refine ⟨?_, ?_⟩
  · intro this
    exact ⟨_, _, deepcopy_STRING f h this other s ht hr, copy_string_fresh h s⟩
  · exact ⟨_, _, deepcopy_self_STRING f h other s ht hr, copy_string_fresh h s⟩

theorem deepcopy_array_fresh (vs : List (value F)) (n : Nat) (hl : copies_elements vs n)
    (fuel : Nat) (hfuel : n + 1 ≤ fuel) (S : Nat → Prop) (h : heap F) (cells : List (cell F))
    (hc : holds.elements S h cells vs) :
    ∃ h2 c, deepcopy_array fuel h cells = .ok (h2, c) ∧ fresh_copy h h2 c (.array vs) := by
  obtain ⟨f, rfl⟩ : ∃ f, fuel = f + 1 := ⟨fuel - 1, by omega⟩
  obtain ⟨h2, ds, hloop, ⟨ext, hext⟩, hds⟩ := hl f (by omega) S h cells hc
  refine ⟨_, _, deepcopy_array_of_loop f h h2 cells ds hloop, ⟨ext ++ [.array ds], ?_⟩, ?_⟩
  · rw [hext, List.append_assoc]
  · rw [holds]
    refine ⟨rfl, h2.length, ds, rfl, ?_, heap_new h2 _, ?_⟩
    · rw [hext, List.length_append]
      omega
    · exact elements_agree _ _ h2 _
        (fun p x hp hx => ⟨hp, heap_append_some h2 _ p x hx⟩) vs ds hds

theorem deepcopy_object_fresh (kvs : List (List Nat × value F)) (n : Nat)
    (hl : copies_members kvs n)
    (fuel : Nat) (hfuel : n + 1 ≤ fuel) (S : Nat → Prop) (h : heap F)
    (entries : List (List Nat × cell F)) (hc : holds.members S h entries kvs) :
    ∃ h2 c, deepcopy_object fuel h entries = .ok (h2, c) ∧ fresh_copy h h2 c (.object kvs) := by
  obtain ⟨f, rfl⟩ : ∃ f, fuel = f + 1 := ⟨fuel - 1, by omega⟩
  obtain ⟨h2, ds, hloop, ⟨ext, hext⟩, hds⟩ := hl f (by omega) S h entries hc
  refine ⟨_, _, deepcopy_object_of_loop f h h2 entries ds hloop, ⟨ext ++ [.object ds], ?_⟩, ?_⟩
  · rw [hext, List.append_assoc]
  · rw [holds]
    refine ⟨rfl, h2.length, ds, rfl, ?_, heap_new h2 _, ?_⟩
    · rw [hext, List.length_append]
      omega
    · exact members_agree _ _ h2 _
        (fun p x hp hx => ⟨hp, heap_append_some h2 _ p x hx⟩) kvs ds hds

theorem copies_array (vs : List (value F)) (n : Nat) (hl : copies_elements vs n) :
    copies (value.array vs) (n + 2) := by
  intro fuel hfuel S h other hc
  obtain ⟨f, rfl⟩ : ∃ f, fuel = f + 1 := ⟨fuel - 1, by omega⟩
  rw [holds] at hc
  obtain ⟨ht, p, cells, hp, -, hh, hel⟩ := hc
  have hr := array_ref_of h other p cells hp hh
  refine ⟨?_, ?_⟩
  · intro this
    rw [deepcopy_ARRAY f h this other cells ht hr]
    exact deepcopy_array_fresh vs n hl f (by omega) S h cells hel
  · rw [deepcopy_self_ARRAY f h other cells ht hr]
    exact deepcopy_array_fresh vs n hl f (by omega) S h cells hel

theorem copies_object (kvs : List (List Nat × value F)) (n : Nat) (hl : copies_members kvs n) :
    copies (value.object kvs) (n + 2) := by
  intro fuel hfuel S h other hc
  obtain ⟨f, rfl⟩ : ∃ f, fuel = f + 1 := ⟨fuel - 1, by omega⟩
  rw [holds] at hc
  obtain ⟨ht, p, entries, hp, -, hh, hel⟩ := hc
  have hr := object_ref_of h other p entries hp hh
  refine ⟨?_, ?_⟩
  · intro this
    rw [deepcopy_OBJECT f h this other entries ht hr]
    exact deepcopy_object_fresh kvs n hl f (by omega) S h entries hel
  · rw [deepcopy_self_OBJECT f h other entries ht hr]
    exact deepcopy_object_fresh kvs n hl f (by omega) S h entries hel

theorem copies_elements_nil : copies_elements ([] : List (value F)) 1 := by
  intro fuel hfuel S h cells hc
  obtain ⟨f, rfl⟩ : ∃ f, fuel = f + 1 := ⟨fuel - 1, by omega⟩
  cases cells with
  | nil => exact ⟨h, [], deepcopy_array_loop_nil f h, ⟨[], by simp⟩, by rw [holds.elements]; trivial⟩
  | cons c cs => rw [holds.elements] at hc; exact hc.elim

theorem copies_elements_cons (v : value F) (vs : List (value F)) (n m : Nat)
    (hv : copies v n) (hvs : copies_elements vs m) :
    copies_elements (v :: vs) (max n m + 1) := by
  intro fuel hfuel S h cells hc
  obtain ⟨f, rfl⟩ : ∃ f, fuel = f + 1 := ⟨fuel - 1, by omega⟩
  have hn : n ≤ f := by have := Nat.le_max_left n m; omega
  have hm : m ≤ f := by have := Nat.le_max_right n m; omega
  cases cells with
  | nil => rw [holds.elements] at hc; exact hc.elim
  | cons c cs =>
    rw [holds.elements] at hc
    obtain ⟨h1, d, hd, ⟨ext1, hext1⟩, hdv⟩ := (hv f hn S h c hc.1).1 cell.default
    have hcs : holds.elements S h1 cs vs := by
      rw [hext1]
      exact elements_agree S S h _
        (fun p x hp hx => ⟨hp, heap_append_some h _ p x hx⟩) vs cs hc.2
    obtain ⟨h2, ds, hloop, ⟨ext2, hext2⟩, hds⟩ := hvs f hm S h1 cs hcs
    refine ⟨h2, d :: ds, deepcopy_array_loop_cons f h h1 h2 c d cs ds hd hloop,
      ⟨ext1 ++ ext2, ?_⟩, ?_⟩
    · rw [hext2, hext1, List.append_assoc]
    · rw [holds.elements]
      refine ⟨?_, ?_⟩
      · rw [hext2]
        exact holds_append _ h1 ext2 d v hdv
      · refine elements_agree _ _ h2 h2 (fun p x hp hx => ⟨?_, hx⟩) vs ds hds
        have hlen : h.length ≤ h1.length := by rw [hext1, List.length_append]; omega
        exact Nat.le_trans hlen hp

theorem copies_members_nil : copies_members ([] : List (List Nat × value F)) 1 := by
  intro fuel hfuel S h entries hc
  obtain ⟨f, rfl⟩ : ∃ f, fuel = f + 1 := ⟨fuel - 1, by omega⟩
  cases entries with
  | nil => exact ⟨h, [], deepcopy_object_loop_nil f h, ⟨[], by simp⟩, by rw [holds.members]; trivial⟩
  | cons c cs => rw [holds.members] at hc; exact hc.elim

theorem copies_members_cons (key : List Nat) (v : value F) (kvs : List (List Nat × value F))
    (n m : Nat) (hv : copies v n) (hvs : copies_members kvs m) :
    copies_members ((key, v) :: kvs) (max n m + 1) := by
  intro fuel hfuel S h entries hc
  obtain ⟨f, rfl⟩ : ∃ f, fuel = f + 1 := ⟨fuel - 1, by omega⟩
  have hn : n ≤ f := by have := Nat.le_max_left n m; omega
  have hm : m ≤ f := by have := Nat.le_max_right n m; omega
  cases entries with
  | nil => rw [holds.members] at hc; exact hc.elim
  | cons e es =>
    obtain ⟨k, c⟩ := e
    rw [holds.members] at hc
    obtain ⟨hk, hcv, hes⟩ := hc
    obtain ⟨h1, d, hd, ⟨ext1, hext1⟩, hdv⟩ := (hv f hn S h c hcv).2
    have hcs : holds.members S h1 es kvs := by
      rw [hext1]
      exact members_agree S S h _
        (fun p x hp hx => ⟨hp, heap_append_some h _ p x hx⟩) kvs es hes
    obtain ⟨h2, ds, hloop, ⟨ext2, hext2⟩, hds⟩ := hvs f hm S h1 es hcs
    refine ⟨h2, (k, d) :: ds, deepcopy_object_loop_cons f h h1 h2 k c d es ds hd hloop,
      ⟨ext1 ++ ext2, ?_⟩, ?_⟩
    · rw [hext2, hext1, List.append_assoc]
    · rw [holds.members]
      refine ⟨hk, ?_, ?_⟩
      · rw [hext2]
        exact holds_append _ h1 ext2 d v hdv
      · refine members_agree _ _ h2 h2 (fun p x hp hx => ⟨?_, hx⟩) kvs ds hds
        have hlen : h.length ≤ h1.length := by rw [hext1, List.length_append]; omega
        exact Nat.le_trans hlen hp

/-- For every value there is a fuel from which on `deepcopy` and `deepcopy_self` of an
object that holds it return with a fresh copy. -/
theorem deepcopy_fresh (v : value F) : ∃ n, copies v n := by
  refine @value.rec F
    (fun v => ∃ n, copies v n)
    (fun vs => ∃ n, copies_elements vs n)
    (fun kvs => ∃ n, copies_members kvs n)
    (fun kv => ∃ n, copies kv.2 n)
    ?_ ?_ ?_ ?_ ?_ ?_ ?_ ?_ ?_ ?_ ?_ ?_ v
  · exact ⟨1, copies_null⟩
  · intro b; exact ⟨1, copies_bool b⟩
  · intro n; exact ⟨1, copies_int n⟩
  · intro x; exact ⟨1, copies_float x⟩
  · intro s; exact ⟨1, copies_string s⟩
  · intro a ih
    obtain ⟨n, hn⟩ := ih
    exact ⟨n + 2, copies_array a n hn⟩
  · intro o ih
    obtain ⟨n, hn⟩ := ih
    exact ⟨n + 2, copies_object o n hn⟩
  · exact ⟨1, copies_elements_nil⟩
  · intro v vs ihv ihvs
    obtain ⟨n, hn⟩ := ihv
    obtain ⟨m, hm⟩ := ihvs
    exact ⟨max n m + 1, copies_elements_cons v vs n m hn hm⟩
  · exact ⟨1, copies_members_nil⟩
  · intro kv kvs ihv ihvs
    obtain ⟨key, v⟩ := kv
    obtain ⟨n, hn⟩ := ihv
    obtain ⟨m, hm⟩ := ihvs
    exact ⟨max n m + 1, copies_members_cons key v kvs n m hn hm⟩
  · intro k v hv
    exact hv

/-- The tag of an object is the tag of the value it holds. -/
theorem holds_type (S : Nat → Prop) (h : heap F) (c : cell F) (v : value F)
    (hc : holds S h c v) : c.m_type = v.get_type := by
  cases v <;> rw [holds] at hc <;> first | exact hc | exact hc.1

/-- After a deep copy of a BOOL, an INT or a FLOAT the pointer of `*this` is the one it
was: these three cases of `deepcopy` have no `m_ptr.reset()`, the case JSONNULL has. -/
theorem deepcopy_simple_keeps_pointer (fuel : Nat) (h : heap F) (this other : cell F)
    (ht : other.m_type = .BOOL ∨ other.m_type = .INT ∨ other.m_type = .FLOAT) :
    ∃ c, cell.deepcopy (fuel + 1) h this other = .ok (h, c) ∧ c.m_ptr = this.m_ptr := by
  rcases ht with ht | ht | ht
  · exact ⟨_, deepcopy_BOOL fuel h this other ht, rfl⟩
  · exact ⟨_, deepcopy_INT fuel h this other ht, rfl⟩
  · exact ⟨_, deepcopy_FLOAT fuel h this other ht, rfl⟩

/-- After a deep copy of a null the pointer of `*this` is empty. -/
theorem deepcopy_null_resets_pointer (fuel : Nat) (h : heap F) (this other : cell F)
    (ht : other.m_type = .JSONNULL) :
    ∃ c, cell.deepcopy (fuel + 1) h this other = .ok (h, c) ∧ c.m_ptr = none :=
  ⟨_, deepcopy_JSONNULL fuel h this other ht, rfl⟩

/-- An array of a string and an integer that takes a deep copy of itself: two payloads are
added to the store, and the value has the new vector, whose string is the new string. -/
theorem deepcopy_of_itself :
    cell.deepcopy 5
        [.string [0x78], .array [⟨some 0, .indeterminate, .STRING⟩, ⟨none, .integer 1, .INT⟩]]
        ⟨some 1, .indeterminate, .ARRAY⟩ ⟨some 1, .indeterminate, .ARRAY⟩
      = (.ok ([.string [0x78],
               .array [⟨some 0, .indeterminate, .STRING⟩, ⟨none, .integer 1, .INT⟩],
               .string [0x78],
               .array [⟨some 2, .indeterminate, .STRING⟩, ⟨none, .integer 1, .INT⟩]],
              ⟨some 3, .indeterminate, .ARRAY⟩)
          : Except value_error (heap float_text × cell float_text)) := rfl

/-- An object whose member shares the payload of another value: the copy has a map of its
own, whose member has a string of its own. -/
theorem deepcopy_of_object :
    cell.deepcopy 4
        [.string [0x78], .object [([0x6b], ⟨some 0, .indeterminate, .STRING⟩)]]
        cell.default ⟨some 1, .indeterminate, .OBJECT⟩
      = (.ok ([.string [0x78],
               .object [([0x6b], ⟨some 0, .indeterminate, .STRING⟩)],
               .string [0x78],
               .object [([0x6b], ⟨some 2, .indeterminate, .STRING⟩)]],
              ⟨some 3, .indeterminate, .OBJECT⟩)
          : Except value_error (heap float_text × cell float_text)) := rfl

/-- A store in which an array shares its vector with other values; the vector has a string
and an integer. -/
theorem example_store_holds :
    holds (fun _ => True)
      ([.string [0x78], .array [⟨some 0, .indeterminate, .STRING⟩, ⟨none, .integer 1, .INT⟩]]
        : heap float_text)
      ⟨some 1, .indeterminate, .ARRAY⟩ (.array [.string [0x78], .int 1]) := by
  rw [holds]
  refine ⟨rfl, 1, _, rfl, trivial, rfl, ?_⟩
  rw [holds.elements, holds.elements, holds.elements, holds, holds]
  exact ⟨⟨rfl, 0, rfl, trivial, rfl⟩, ⟨rfl, rfl⟩, trivial⟩

/-- C29: when `b` holds the value `v`, there is a fuel from which on `a.deepcopy(b)`
returns for every `a`, also for `a` the object `b` itself; afterwards `a` has the tag of
`b` and holds `v`, every value that `a` holds is `v` and has the `stringify` of `v`, and
`b` holds `v` as before. -/
theorem deepcopy_equal (S : Nat → Prop) (h : heap F) (b : cell F) (v : value F)
    (hb : holds S h b v) :
    ∃ n, ∀ fuel, n ≤ fuel →
      (∀ a : cell F, ∃ h2 a2, cell.deepcopy fuel h a b = .ok (h2, a2) ∧
        a2.m_type = b.m_type ∧ holds (fun _ => True) h2 a2 v ∧
        (∀ T w, holds T h2 a2 w → w = v ∧ stringify ops w = stringify ops v) ∧
        holds S h2 b v) ∧
      (∃ h2 a2, cell.deepcopy fuel h b b = .ok (h2, a2) ∧
        a2.m_type = b.m_type ∧ holds (fun _ => True) h2 a2 v ∧
        (∀ T w, holds T h2 a2 w → w = v ∧ stringify ops w = stringify ops v)) := by
  obtain ⟨n, hn⟩ := deepcopy_fresh v
  refine ⟨n, fun fuel hfuel => ?_⟩
  have key : ∀ a : cell F, ∃ h2 a2, cell.deepcopy fuel h a b = .ok (h2, a2) ∧
      a2.m_type = b.m_type ∧ holds (fun _ => True) h2 a2 v ∧
      (∀ T w, holds T h2 a2 w → w = v ∧ stringify ops w = stringify ops v) ∧
      holds S h2 b v := by
    intro a
    obtain ⟨h2, a2, hd, ⟨ext, hext⟩, ha2⟩ := (hn fuel hfuel S h b hb).1 a
    have hall : holds (fun _ => True) h2 a2 v :=
      holds_agree _ _ h2 h2 (fun p x _ hx => ⟨trivial, hx⟩) v a2 ha2
    refine ⟨h2, a2, hd, ?_, hall, ?_, ?_⟩
    · rw [holds_type _ h2 a2 v ha2, holds_type S h b v hb]
    · intro T w hw
      have hwv : v = w := holds_unique _ T h2 v a2 w ha2 hw
      rw [← hwv]
      exact ⟨rfl, rfl⟩
    · rw [hext]
      exact holds_append S h ext b v hb
  refine ⟨key, ?_⟩
  obtain ⟨h2, a2, hd, ht, hv, hw, -⟩ := key b
  exact ⟨h2, a2, hd, ht, hv, hw⟩

/-- C29 at an array of the string `x` and the integer 1, whose string is in a payload of
its own. -/
theorem deepcopy_equal_witness :
    holds (fun _ => True)
      ([.string [0x78], .array [⟨some 0, .indeterminate, .STRING⟩, ⟨none, .integer 1, .INT⟩]]
        : heap float_text)
      ⟨some 1, .indeterminate, .ARRAY⟩ (.array [.string [0x78], .int 1]) ∧
    ∃ n, ∀ fuel, n ≤ fuel →
      (∀ a : cell float_text, ∃ h2 a2,
        cell.deepcopy fuel
          [.string [0x78], .array [⟨some 0, .indeterminate, .STRING⟩, ⟨none, .integer 1, .INT⟩]]
          a ⟨some 1, .indeterminate, .ARRAY⟩ = .ok (h2, a2) ∧
        a2.m_type = .ARRAY ∧ holds (fun _ => True) h2 a2 (.array [.string [0x78], .int 1]) ∧
        (∀ T w, holds T h2 a2 w → w = .array [.string [0x78], .int 1] ∧
          stringify text_float w = stringify text_float (.array [.string [0x78], .int 1])) ∧
        holds (fun _ => True) h2 ⟨some 1, .indeterminate, .ARRAY⟩
          (.array [.string [0x78], .int 1])) ∧
      (∃ h2 a2,
        cell.deepcopy fuel
          [.string [0x78], .array [⟨some 0, .indeterminate, .STRING⟩, ⟨none, .integer 1, .INT⟩]]
          ⟨some 1, .indeterminate, .ARRAY⟩ ⟨some 1, .indeterminate, .ARRAY⟩ = .ok (h2, a2) ∧
        a2.m_type = .ARRAY ∧ holds (fun _ => True) h2 a2 (.array [.string [0x78], .int 1]) ∧
        (∀ T w, holds T h2 a2 w → w = .array [.string [0x78], .int 1] ∧
          stringify text_float w
            = stringify text_float (.array [.string [0x78], .int 1]))) :=
  ⟨example_store_holds,
    deepcopy_equal text_float (fun _ => True) _ ⟨some 1, .indeterminate, .ARRAY⟩ _
      example_store_holds⟩

/-- C30: when `b` holds the value `v`, there is a fuel from which on `a.deepcopy(b)`
returns for every `a`, also for `a` the object `b` itself. The store afterwards is the
store before with payloads added; `a` holds `v` with added payloads only, and every value
of the store before, `b` among them, holds what it held with payloads of the store before
only. So a change of added payloads changes no value of the store before, and a change of
payloads of the store before does not change `a`. -/
theorem deepcopy_unshared (S : Nat → Prop) (h : heap F) (b : cell F) (v : value F)
    (hb : holds S h b v) :
    ∃ n, ∀ fuel, n ≤ fuel → ∀ a : cell F, ∃ h2 a2,
      cell.deepcopy fuel h a b = .ok (h2, a2) ∧
      (∃ ext, h2 = h ++ ext) ∧
      holds (fun p => h.length ≤ p) h2 a2 v ∧
      (∀ T c w, holds T h c w → holds (fun p => p < h.length) h2 c w) ∧
      (∀ h3 : heap F, (∀ p, p < h.length → h3[p]? = h2[p]?) →
        ∀ T c w, holds T h c w → holds (fun p => p < h.length) h3 c w) ∧
      (∀ h3 : heap F, (∀ p, h.length ≤ p → h3[p]? = h2[p]?) →
        holds (fun p => h.length ≤ p) h3 a2 v) := by
  obtain ⟨n, hn⟩ := deepcopy_fresh v
  refine ⟨n, fun fuel hfuel a => ?_⟩
  obtain ⟨h2, a2, hd, ⟨ext, hext⟩, ha2⟩ := (hn fuel hfuel S h b hb).1 a
  have hold : ∀ h3 : heap F, (∀ p, p < h.length → h3[p]? = h2[p]?) →
      ∀ T c w, holds T h c w → holds (fun p => p < h.length) h3 c w := by
    intro h3 h3eq T c w hc
    refine holds_agree T _ h h3 (fun p x _ hx => ?_) w c hc
    have hp := heap_some_lt h p x hx
    refine ⟨hp, ?_⟩
    rw [h3eq p hp, hext]
    exact heap_append_some h ext p x hx
  refine ⟨h2, a2, hd, ⟨ext, hext⟩, ha2, hold h2 (fun _ _ => rfl), hold, ?_⟩
  intro h3 h3eq
  refine holds_agree _ _ h2 h3 (fun p x hp hx => ⟨hp, ?_⟩) v a2 ha2
  rw [h3eq p hp]
  exact hx

/-- C30 at an object with the member `k` for the string `x`. -/
theorem deepcopy_unshared_witness :
    holds (fun _ => True)
      ([.string [0x78], .object [([0x6b], ⟨some 0, .indeterminate, .STRING⟩)]]
        : heap float_text)
      ⟨some 1, .indeterminate, .OBJECT⟩ (.object [([0x6b], .string [0x78])]) ∧
    ∃ n, ∀ fuel, n ≤ fuel → ∀ a : cell float_text, ∃ h2 a2,
      cell.deepcopy fuel
        [.string [0x78], .object [([0x6b], ⟨some 0, .indeterminate, .STRING⟩)]]
        a ⟨some 1, .indeterminate, .OBJECT⟩ = .ok (h2, a2) ∧
      (∃ ext, h2
        = [.string [0x78], .object [([0x6b], ⟨some 0, .indeterminate, .STRING⟩)]] ++ ext) ∧
      holds (fun p => 2 ≤ p) h2 a2 (.object [([0x6b], .string [0x78])]) ∧
      (∀ T c w,
        holds T [.string [0x78], .object [([0x6b], ⟨some 0, .indeterminate, .STRING⟩)]] c w →
        holds (fun p => p < 2) h2 c w) ∧
      (∀ h3 : heap float_text, (∀ p, p < 2 → h3[p]? = h2[p]?) →
        ∀ T c w,
          holds T [.string [0x78], .object [([0x6b], ⟨some 0, .indeterminate, .STRING⟩)]] c w →
          holds (fun p => p < 2) h3 c w) ∧
      (∀ h3 : heap float_text, (∀ p, 2 ≤ p → h3[p]? = h2[p]?) →
        holds (fun p => 2 ≤ p) h3 a2 (.object [([0x6b], .string [0x78])])) :=
  ⟨by
      rw [holds]
      refine ⟨rfl, 1, _, rfl, trivial, rfl, ?_⟩
      rw [holds.members, holds.members, holds]
      exact ⟨rfl, ⟨rfl, 0, rfl, trivial, rfl⟩, trivial⟩,
    deepcopy_unshared (fun _ => True)
      [.string [0x78], .object [([0x6b], ⟨some 0, .indeterminate, .STRING⟩)]]
      ⟨some 1, .indeterminate, .OBJECT⟩ _
      (by
        rw [holds]
        refine ⟨rfl, 1, _, rfl, trivial, rfl, ?_⟩
        rw [holds.members, holds.members, holds]
        exact ⟨rfl, ⟨rfl, 0, rfl, trivial, rfl⟩, trivial⟩)⟩

/-! ## The byte after a member of an object -/

/-- C36: after a member of an object, a byte that is neither `,` nor the closing brace
makes `parse` throw "premature end of json data while parsing object" (parse.hpp:213),
with that byte and what follows it still unread; at the same place in an array the byte
makes it throw "error parsing json array" (parse.hpp:146). -/
theorem object_separator_reported_as_end :
    parse ops (ascii "\x7b\"a\":1;\"b\":2\x7d") = .error (.parser .premature_end_object) ∧
    parse ops (ascii "\x7b\"a\":1 x\x7d") = .error (.parser .premature_end_object) ∧
    parse ops (ascii "\x7b\"a\":[] \"b\":2\x7d") = .error (.parser .premature_end_object) ∧
    parser_error.what .premature_end_object
      = "premature end of json data while parsing object" ∧
    parse ops (ascii "[1;2]") = .error (.parser .error_parsing_array) ∧
    parse ops (ascii "[1 x]") = .error (.parser .error_parsing_array) :=
  ⟨by rfl, by rfl, by rfl, by rfl, by rfl, by rfl⟩

/-! ## `escape_string` without the escaping of UTF-8 -/

/-- A byte from `0x80` on has itself for its piece. -/
theorem escape_byte_spec_high (es : Bool) (c : Nat) (h : 0x80 ≤ c) :
    escape_byte_spec es c = [c] := by
  unfold escape_byte_spec
  split_ifs <;> first | omega | rfl

/-- One turn of the loop with `escape_utf8 = false`, at any byte. -/
theorem escape_step_raw (es : Bool) (c : Nat) (it : List Nat) :
    escape_step false es c it = .ok (escape_byte_spec es c, it) := by
  by_cases h : c < 0x80
  · exact escape_step_low false es c it h
  · rw [escape_byte_spec_high es c (by omega)]
    unfold escape_step
    rw [if_neg (by omega), if_pos (by omega)]
    rfl

theorem escape_string_loop_raw (es : Bool) (txt : List Nat) :
    ∀ n, txt.length ≤ n → escape_string_loop false es n txt = .ok (escape_text_spec es txt) := by
  induction txt with
  | nil =>
    intro n _
    cases n <;> rfl
  | cons c rest ih =>
    intro n hn
    simp only [List.length_cons] at hn
    obtain ⟨m, rfl⟩ : ∃ m, n = m + 1 := ⟨n - 1, by omega⟩
    rw [escape_string_loop_ok false es m c rest _ rest (escape_step_raw es c rest),
      ih m (by omega)]
    rfl

/-- C34: with `escape_utf8 = false`, `escape_string` returns for every text, whatever its
bytes are: it writes a quote, the piece of each byte, and a quote; the piece of a byte from
`0x80` on is the byte itself, and the piece of a byte below is the one of C16. -/
theorem high_bytes_pass (txt : List Nat) (escape_slash : Bool) :
    escape_string txt false escape_slash
      = .ok (0x22 :: (escape_text_spec escape_slash txt ++ [0x22])) ∧
    (∀ c, 0x80 ≤ c → escape_byte_spec escape_slash c = [c]) ∧
    (∀ pre c post, 0x80 ≤ c →
      escape_text_spec escape_slash (pre ++ c :: post)
        = escape_text_spec escape_slash pre ++ c :: escape_text_spec escape_slash post) := by
  refine ⟨?_, fun c hc => escape_byte_spec_high escape_slash c hc, ?_⟩
  · unfold escape_string
    rw [escape_string_loop_raw escape_slash txt _ (Nat.le_refl _)]
    rfl
  · intro pre c post hc
    induction pre with
    | nil =>
      show escape_byte_spec escape_slash c ++ _ = _
      rw [escape_byte_spec_high escape_slash c hc]
      rfl
    | cons d pre ih =>
      show escape_byte_spec escape_slash d ++ escape_text_spec escape_slash (pre ++ c :: post)
        = (escape_byte_spec escape_slash d ++ escape_text_spec escape_slash pre) ++ _
      rw [ih, List.append_assoc]

/-- The text `a`, the lone continuation byte `0x80`, the truncated lead byte `0xc3`, the
byte `0xff` that no UTF-8 text has, and a quote. -/
theorem high_bytes_pass_sample :
    escape_string [0x61, 0x80, 0xc3, 0xff, 0x22] false false
      = .ok [0x22, 0x61, 0x80, 0xc3, 0xff, 0x5c, 0x22, 0x22] ∧
    escape_string [0x61, 0x80, 0xc3, 0xff, 0x22] true false = .error .utf8_sequence_error :=
  ⟨by rfl, by rfl⟩

/-! ## What `stringify` writes -/

theorem dec_digits_aux_text (fuel : Nat) :
    ∀ n acc, n < fuel → dec_digits_aux fuel n acc = decimal_text n ++ acc := by
  induction fuel with
  | zero => intro n acc h; omega
  | succ fuel ih =>
    intro n acc h
    rw [dec_digits_aux]
    by_cases hn : n < 10
    · rw [if_pos hn]
      unfold decimal_text
      by_cases h0 : n = 0
      · rw [if_pos h0, h0]
        rfl
      · rw [if_neg h0, Nat.digits_of_lt 10 n h0 hn]
        rfl
    · rw [if_neg hn, ih (n / 10) _ (by omega)]
      have h0 : n ≠ 0 := by omega
      have hq : n / 10 ≠ 0 := by omega
      have hd : Nat.digits 10 n = n % 10 :: Nat.digits 10 (n / 10) :=
        Nat.digits_def' (by decide) (by omega)
      unfold decimal_text
      rw [if_neg h0, if_neg hq, hd]
      simp

theorem dec_digits_text (n : Nat) : dec_digits n = decimal_text n := by
  unfold dec_digits
  rw [dec_digits_aux_text (n + 1) n [] (by omega), List.append_nil]

theorem write_int_text (n : Int) : write_int n = int_text n := by
  unfold write_int int_text
  rw [dec_digits_text]

theorem array_rest_text (vs : List (value F)) :
    ∀ ts, List.Forall₂ (fun v t => stringify ops v = .ok t) vs ts →
      value.write_json.array_rest ops vs = .ok (comma_tail ts) := by
  induction vs with
  | nil =>
    intro ts h
    cases h
    rfl
  | cons v vs ih =>
    intro ts h
    cases h with
    | cons hv hvs =>
      rw [value.write_json.array_rest, ih _ hvs]
      unfold stringify at hv
      rw [hv]
      rfl

theorem object_rest_text (o : List (List Nat × value F)) :
    ∀ ms, List.Forall₂ (fun (kv : List Nat × value F) (m : List Nat × List Nat) =>
        escape_string kv.1 true false = .ok m.1 ∧ stringify ops kv.2 = .ok m.2) o ms →
      value.write_json.object_rest ops o = .ok (comma_tail (ms.map member_text)) := by
  induction o with
  | nil =>
    intro ms h
    cases h
    rfl
  | cons kv o ih =>
    intro ms h
    obtain ⟨k, v⟩ := kv
    cases h with
    | cons hv hvs =>
      rw [value.write_json.object_rest, ih _ hvs]
      unfold stringify at hv
      rw [hv.1, hv.2]
      simp [seq_out, comma_tail, member_text]

/-- C32: `stringify` writes `null` for Null, `true` and `false` for a Bool, the decimal
text of `n` for Int `n`, the literal `escape_string` writes for a String, for an Array
the texts of its elements in their order between `[` and `]` with a comma between each
two, and for an Object, whose entries the map holds in the ascending order of their
keys, the texts `"key":value` of the entries in that order between the braces with a
comma between each two; and nothing else. -/
theorem stringify_renders :
    stringify ops (.null : value F) = .ok (ascii "null") ∧
    stringify ops (.bool true : value F) = .ok (ascii "true") ∧
    stringify ops (.bool false : value F) = .ok (ascii "false") ∧
    (∀ n : Int, stringify ops (.int n : value F) = .ok (int_text n)) ∧
    (∀ s, stringify ops (.string s : value F) = escape_string s true false) ∧
    (∀ (vs : List (value F)) ts, List.Forall₂ (fun v t => stringify ops v = .ok t) vs ts →
      stringify ops (.array vs) = .ok (array_text ts)) ∧
    (∀ (o : List (List Nat × value F)) ms, keys_ascending o →
      List.Forall₂ (fun (kv : List Nat × value F) (m : List Nat × List Nat) =>
        escape_string kv.1 true false = .ok m.1 ∧ stringify ops kv.2 = .ok m.2) o ms →
      stringify ops (.object o) = .ok (object_text ms)) := by
  refine ⟨rfl, rfl, rfl, ?_, fun s => rfl, ?_, ?_⟩
  · intro n
    show Except.ok (write_int n) = _
    rw [write_int_text]
  · intro vs ts h
    cases h with
    | nil => rfl
    | cons hv hvs =>
      show value.write_json ops _ = _
      rw [value.write_json, array_rest_text ops _ _ hvs]
      unfold stringify at hv
      rw [hv]
      simp [seq_out, array_text, join_with_commas]
  · intro o ms _ h
    cases h with
    | nil => rfl
    | cons hv hvs =>
      rename_i kv m o ms
      obtain ⟨k, v⟩ := kv
      show value.write_json ops _ = _
      rw [value.write_json, object_rest_text ops _ _ hvs]
      unfold stringify at hv
      rw [hv.1, hv.2]
      simp [seq_out, object_text, join_with_commas, member_text]

/-- C32 at the object with the key `a` for the Int `-12` and the key `b` for the array of
null, true and the String `x`. -/
theorem stringify_renders_witness :
    keys_ascending ([(ascii "a", .int (-12)),
      (ascii "b", .array [.null, .bool true, .string (ascii "x")])] :
        List (List Nat × value float_text)) ∧
    stringify text_float (.array [.null, .bool true, .string (ascii "x")])
      = .ok (array_text [ascii "null", ascii "true", ascii "\"x\""]) ∧
    stringify text_float (.object [(ascii "a", .int (-12)),
        (ascii "b", .array [.null, .bool true, .string (ascii "x")])])
      = .ok (object_text [(ascii "\"a\"", ascii "-12"),
          (ascii "\"b\"", array_text [ascii "null", ascii "true", ascii "\"x\""])]) ∧
    object_text [(ascii "\"a\"", ascii "-12"),
        (ascii "\"b\"", array_text [ascii "null", ascii "true", ascii "\"x\""])]
      = ascii "\x7b\"a\":-12,\"b\":[null,true,\"x\"]\x7d" :=
  have hasc : keys_ascending ([(ascii "a", .int (-12)),
      (ascii "b", .array [.null, .bool true, .string (ascii "x")])] :
        List (List Nat × value float_text)) := by
    simp [keys_ascending, string_lt, ascii]
  have harr : stringify text_float (.array [.null, .bool true, .string (ascii "x")])
      = .ok (array_text [ascii "null", ascii "true", ascii "\"x\""]) :=
    (stringify_renders text_float).2.2.2.2.2.1 _ _
      (List.Forall₂.cons rfl (List.Forall₂.cons rfl (List.Forall₂.cons rfl List.Forall₂.nil)))
  ⟨hasc, harr,
    (stringify_renders text_float).2.2.2.2.2.2 _ _ hasc
      (List.Forall₂.cons ⟨rfl, rfl⟩ (List.Forall₂.cons ⟨rfl, harr⟩ List.Forall₂.nil)),
    by decide⟩

/-! ## `parse_fragment` returns -/

/-- A result that the loop of `unescape_string_inplace` reaches with some fuel it reaches
with any greater fuel. -/
theorem unescape_loop_fuel_mono (n : Nat) :
    ∀ out it, impl.unescape_loop n out it ≠ .error .fuel →
      ∀ m, n ≤ m → impl.unescape_loop m out it = impl.unescape_loop n out it := by
  induction n with
  | zero =>
    intro out it h
    exact absurd (by rw [impl.unescape_loop]) h
  | succ n ih =>
    intro out it h m hm
    obtain ⟨k, rfl⟩ : ∃ k, m = k + 1 := ⟨m - 1, by omega⟩
    cases it with
    | nil => simp only [impl.unescape_loop]
    | cons c it =>
      simp only [impl.unescape_loop] at h ⊢
      split_ifs at h ⊢
      · with_reducible rfl
      · cases ht : impl.unescape_turn c it with
        | error e => with_reducible rfl
        | ok r =>
          obtain ⟨bytes, it1⟩ := r
          rw [ht] at h
          simp only at h ⊢
          exact ih _ _ h k (by omega)

set_option maxHeartbeats 2000000 in
/-- A result that `parse_fragment` and its loops reach with some fuel they reach with
any greater fuel: the fuel only bounds the depth of the calls. -/
theorem parse_aux_fuel_mono (n : Nat) :
    (∀ it, impl.parse_fragment_aux ops n it ≠ .error .fuel →
      ∀ m, n ≤ m → impl.parse_fragment_aux ops m it = impl.parse_fragment_aux ops n it) ∧
    (∀ arr it, impl.parse_array_loop ops n arr it ≠ .error .fuel →
      ∀ m, n ≤ m → impl.parse_array_loop ops m arr it = impl.parse_array_loop ops n arr it) ∧
    (∀ obj it, impl.parse_object_loop ops n obj it ≠ .error .fuel →
      ∀ m, n ≤ m →
        impl.parse_object_loop ops m obj it = impl.parse_object_loop ops n obj it) := by
  induction n with
  | zero =>
    refine ⟨fun it h => ?_, fun arr it h => ?_, fun obj it h => ?_⟩
    · exact absurd (by rw [impl.parse_fragment_aux]) h
    · exact absurd (by rw [impl.parse_array_loop]) h
    · exact absurd (by rw [impl.parse_object_loop]) h
  | succ n ih =>
    obtain ⟨ih1, ih2, ih3⟩ := ih
    refine ⟨fun it h m hm => ?_, fun arr it h m hm => ?_, fun obj it h m hm => ?_⟩
    · obtain ⟨k, rfl⟩ : ∃ k, m = k + 1 := ⟨m - 1, by omega⟩
      cases it with
      | nil => simp only [impl.parse_fragment_aux]
      | cons c it =>
        simp only [impl.parse_fragment_aux] at h ⊢
        split_ifs at h ⊢
        all_goals try (with_reducible rfl)
        · cases hs : impl.skipws it with
          | nil => with_reducible rfl
          | cons d it2 =>
            rw [hs] at h
            simp only at h ⊢
            split_ifs at h ⊢
            · exact ih2 _ _ h k (by omega)
            · with_reducible rfl
        · cases hs : impl.skipws it with
          | nil => with_reducible rfl
          | cons d it2 =>
            rw [hs] at h
            simp only at h ⊢
            split_ifs at h ⊢
            · exact ih3 _ _ h k (by omega)
            · with_reducible rfl
    · obtain ⟨k, rfl⟩ : ∃ k, m = k + 1 := ⟨m - 1, by omega⟩
      simp only [impl.parse_array_loop] at h ⊢
      have hp : impl.parse_fragment_aux ops n it ≠ .error .fuel := by
        intro hp
        rw [hp] at h
        exact h rfl
      rw [ih1 it hp k (by omega)]
      cases hr : impl.parse_fragment_aux ops n it with
      | error e => with_reducible rfl
      | ok r =>
        obtain ⟨v1, it1⟩ := r
        rw [hr] at h
        simp only at h ⊢
        cases hs : impl.skipws it1 with
        | nil => with_reducible rfl
        | cons d it2 =>
          rw [hs] at h
          simp only at h ⊢
          split_ifs at h ⊢
          · with_reducible rfl
          · with_reducible rfl
          · exact ih2 _ _ h k (by omega)
    · obtain ⟨k, rfl⟩ : ∃ k, m = k + 1 := ⟨m - 1, by omega⟩
      cases it with
      | nil => simp only [impl.parse_object_loop]
      | cons q it =>
        simp only [impl.parse_object_loop] at h ⊢
        split_ifs at h ⊢
        · with_reducible rfl
        · cases hu : impl.unescape_string_inplace it with
          | error e => with_reducible rfl
          | ok r =>
            obtain ⟨key, it1⟩ := r
            rw [hu] at h
            simp only at h ⊢
            cases hs : impl.skipws it1 with
            | nil => with_reducible rfl
            | cons c it2 =>
              rw [hs] at h
              simp only at h ⊢
              split_ifs at h ⊢
              · with_reducible rfl
              · cases hs2 : impl.skipws it2 with
                | nil => with_reducible rfl
                | cons c1 it3 =>
                  rw [hs2] at h
                  simp only at h ⊢
                  have hp : impl.parse_fragment_aux ops n (c1 :: it3) ≠ .error .fuel := by
                    intro hp
                    rw [hp] at h
                    exact h rfl
                  rw [ih1 _ hp k (by omega)]
                  cases hr : impl.parse_fragment_aux ops n (c1 :: it3) with
                  | error e => with_reducible rfl
                  | ok r =>
                    obtain ⟨v1, it4⟩ := r
                    rw [hr] at h
                    simp only at h ⊢
                    cases hs3 : impl.skipws it4 with
                    | nil => with_reducible rfl
                    | cons d it5 =>
                      rw [hs3] at h
                      simp only at h ⊢
                      split_ifs at h ⊢
                      · with_reducible rfl
                      · with_reducible rfl
                      · exact ih3 _ _ h k (by omega)

/-- C37: on every input `parse_fragment` returns a value, with the cursor moved forward
by one byte at least, or throws; it never runs out of the fuel of the embedding, which is
twice the length of the input and one: every call of `parse_fragment` and every turn of
its loops is on an input shorter than the one before. A greater fuel changes nothing, and
the loop of `unescape_string_inplace` returns or throws likewise. -/
theorem parse_fragment_terminates (it : List Nat) :
    ((∃ v rest, impl.parse_fragment ops it = .ok (v, rest) ∧ rest.length < it.length) ∨
      (∃ e, impl.parse_fragment ops it = .error e ∧ e ≠ .fuel)) ∧
    (∀ fuel, 2 * it.length + 1 ≤ fuel →
      impl.parse_fragment_aux ops fuel it = impl.parse_fragment ops it) ∧
    (∀ fuel arr, 2 * it.length + 2 ≤ fuel →
      impl.parse_array_loop ops fuel arr it ≠ .error .fuel ∧
      ∀ v rest, impl.parse_array_loop ops fuel arr it = .ok (v, rest) →
        rest.length < it.length) ∧
    (∀ fuel obj, 2 * it.length + 2 ≤ fuel →
      impl.parse_object_loop ops fuel obj it ≠ .error .fuel ∧
      ∀ v rest, impl.parse_object_loop ops fuel obj it = .ok (v, rest) →
        rest.length < it.length) ∧
    impl.unescape_string_inplace it ≠ .error .fuel ∧
    (∀ fuel out, it.length < fuel →
      impl.unescape_loop fuel out it = impl.unescape_loop (it.length + 1) out it) ∧
    (∀ bs rest, impl.unescape_string_inplace it = .ok (bs, rest) →
      rest.length < it.length) := by
  have hnf := parse_fragment_no_fuel ops it
  refine ⟨?_, ?_, ?_, ?_, (unescape_string_inplace_total it).1, ?_,
    (unescape_string_inplace_total it).2⟩
  · cases hr : impl.parse_fragment ops it with
    | error e =>
      refine Or.inr ⟨e, rfl, fun he => hnf ?_⟩
      rw [hr, he]
    | ok r =>
      obtain ⟨v, rest⟩ := r
      exact Or.inl ⟨v, rest, rfl, (parse_aux_length ops _).1 _ _ _ hr⟩
  · intro fuel hfuel
    exact (parse_aux_fuel_mono ops _).1 it hnf fuel hfuel
  · intro fuel arr hfuel
    exact ⟨(parse_aux_no_fuel ops fuel).2.1 arr it hfuel,
      fun v rest h => (parse_aux_length ops fuel).2.1 arr it v rest h⟩
  · intro fuel obj hfuel
    exact ⟨(parse_aux_no_fuel ops fuel).2.2 obj it hfuel,
      fun v rest h => (parse_aux_length ops fuel).2.2 obj it v rest h⟩
  · intro fuel out hfuel
    exact unescape_loop_fuel_mono (it.length + 1) out it
      (unescape_loop_no_fuel _ out it (by omega)) fuel (by omega)

/-- C37 at the text `[1,\x7b"a":[true]\x7d] x`: the array is read and the cursor is left
before the blank. -/
theorem parse_fragment_terminates_witness :
    impl.parse_fragment text_float (ascii "[1,\x7b\"a\":[true]\x7d] x")
      = .ok (.array [.int 1, .object [(ascii "a", .array [.bool true])]], ascii " x") ∧
    impl.parse_fragment_aux text_float 1000 (ascii "[1,\x7b\"a\":[true]\x7d] x")
      = impl.parse_fragment text_float (ascii "[1,\x7b\"a\":[true]\x7d] x") :=
  ⟨by rfl,
    (parse_fragment_terminates text_float (ascii "[1,\x7b\"a\":[true]\x7d] x")).2.1 1000
      (by decide)⟩

/-! ## Texts that `escape_string` accepts and that are not read back -/

/-- C38, as stated, fails at the bytes `C0 80`, a two byte sequence that is not in the
shortest form: `escape_string` accepts it and writes `"\u0000"`, the literal it writes
for the byte `00`, and the literal is unescaped to the byte `00`. It fails at `ED A0 80`
too, whose literal `"\ud800"` is not unescaped at all. -/
theorem overlong_form_not_read_back :
    escape_string [0xc0, 0x80] true false = .ok (ascii "\"\\u0000\"") ∧
    escape_string [0x00] true false = .ok (ascii "\"\\u0000\"") ∧
    impl.unescape_string_inplace (ascii "\\u0000\"") = .ok ([0x00], []) ∧
    ([0xc0, 0x80] : List Nat) ≠ [0x00] ∧
    escape_string [0xed, 0xa0, 0x80] true false = .ok (ascii "\"\\ud800\"") ∧
    impl.unescape_string_inplace (ascii "\\ud800\"")
      = .error (.parser .surrogate_escape) :=
  ⟨by rfl, by rfl, by rfl, by decide, by rfl, by rfl⟩

/-! ## The shape of the literal `escape_string` writes -/

theorem escaped_tokens_append (a b : List Nat) (ha : escaped_tokens a)
    (hb : escaped_tokens b) : escaped_tokens (a ++ b) := by
  induction ha with
  | nil => exact hb
  | plain c rest hc _ ih => exact .plain c _ hc ih
  | pair e rest h1 h2 _ ih => exact .pair e _ h1 h2 ih

theorem escaped_tokens_plain (l : List Nat) (h : ∀ b ∈ l, plain_byte b) :
    escaped_tokens l := by
  induction l with
  | nil => exact .nil
  | cons c rest ih =>
    exact .plain c rest (h c (List.mem_cons_self _ _))
      (ih (fun b hb => h b (List.mem_cons_of_mem _ hb)))

theorem hex_char_plain (i : Nat) (h : i < 16) : plain_byte (impl.hex_char i) := by
  interval_cases i <;> decide

theorem output_hex_plain (v n : Nat) : ∀ b ∈ impl.output_hex v n, plain_byte b := by
  induction n with
  | zero =>
    intro b hb
    simp [impl.output_hex] at hb
  | succ n ih =>
    intro b hb
    rw [impl.output_hex] at hb
    rcases List.mem_cons.1 hb with h | h
    · rw [h]
      refine hex_char_plain _ ?_
      have := @Nat.and_le_right (v >>> (n * 4)) 0xf
      omega
    · exact ih b h

/-- The escape `\u` with four hexadecimal digits is a pair and four plain bytes. -/
theorem escaped_tokens_u (v : Nat) : escaped_tokens (ascii "\\u" ++ impl.output_hex v 4) :=
  .pair 0x75 _ (by decide) (by decide) (escaped_tokens_plain _ (output_hex_plain v 4))

theorem escape_control_tokens (c : Nat) : escaped_tokens (escape_control c) := by
  unfold escape_control
  split_ifs
  · exact .pair 0x62 _ (by decide) (by decide) .nil
  · exact .pair 0x66 _ (by decide) (by decide) .nil
  · exact .pair 0x6e _ (by decide) (by decide) .nil
  · exact .pair 0x72 _ (by decide) (by decide) .nil
  · exact .pair 0x74 _ (by decide) (by decide) .nil
  · exact .pair 0x75 _ (by decide) (by decide)
      (.plain 0x30 _ (by decide) (.plain 0x30 _ (by decide)
        (escaped_tokens_plain _ (output_hex_plain c 2))))

theorem escape_ascii_tokens (es : Bool) (c : Nat) (h1 : 0x20 ≤ c) (h2 : c < 0x80) :
    escaped_tokens (escape_ascii es c) := by
  unfold escape_ascii
  split_ifs with hq hb hs he
  · exact .pair 0x22 _ (by decide) (by decide) .nil
  · exact .pair 0x5c _ (by decide) (by decide) .nil
  · exact .pair 0x2f _ (by decide) (by decide) .nil
  · exact .plain 0x2f _ (by decide) .nil
  · exact .plain c _ ⟨h1, by omega, hq, hb⟩ .nil

theorem escape_two_tokens (c : Nat) (it piece it' : List Nat)
    (h : escape_two c it = .ok (piece, it')) : escaped_tokens piece := by
  unfold escape_two at h
  repeat' (first | simp only [] at h | split_ifs at h | split at h)
  all_goals first
    | (simp at h; done)
    | (simp only [Except.ok.injEq, Prod.mk.injEq] at h
       rw [← h.1]
       exact escaped_tokens_u _)

theorem escape_three_tokens (c : Nat) (it piece it' : List Nat)
    (h : escape_three c it = .ok (piece, it')) : escaped_tokens piece := by
  unfold escape_three at h
  repeat' (first | simp only [] at h | split_ifs at h | split at h)
  all_goals first
    | (simp at h; done)
    | (simp only [Except.ok.injEq, Prod.mk.injEq] at h
       rw [← h.1]
       exact escaped_tokens_u _)

theorem escape_four_codepoint_tokens (cp : Nat) (piece : List Nat)
    (h : escape_four_codepoint cp = .ok piece) : escaped_tokens piece := by
  unfold escape_four_codepoint at h
  split_ifs at h
  · simp only [Except.ok.injEq] at h
    rw [← h]
    exact escaped_tokens_u _
  · simp only [Except.ok.injEq] at h
    rw [← h, List.append_assoc]
    exact escaped_tokens_append _ _ (escaped_tokens_u _) (escaped_tokens_u _)

theorem escape_four_tokens (c : Nat) (it piece it' : List Nat)
    (h : escape_four c it = .ok (piece, it')) : escaped_tokens piece := by
  unfold escape_four at h
  repeat' (first | simp only [] at h | split_ifs at h | split at h)
  all_goals first
    | (simp at h; done)
    | (simp only [Except.ok.injEq, Prod.mk.injEq] at h
       rw [← h.1]
       exact escape_four_codepoint_tokens _ _ (by assumption))

/-- What one turn of the loop writes, with the escaping of UTF-8, is made of plain bytes
and of pairs. -/
theorem escape_step_tokens (es : Bool) (c : Nat) (it piece it' : List Nat)
    (h : escape_step true es c it = .ok (piece, it')) : escaped_tokens piece := by
  unfold escape_step at h
  simp only [↓reduceIte] at h
  split_ifs at h
  · simp only [Except.ok.injEq, Prod.mk.injEq] at h
    rw [← h.1]
    exact escape_control_tokens c
  · exact escape_two_tokens c it piece it' h
  · exact escape_three_tokens c it piece it' h
  · exact escape_four_tokens c it piece it' h
  · simp only [Except.ok.injEq, Prod.mk.injEq] at h
    rw [← h.1]
    exact escape_ascii_tokens es c (by omega) (by omega)

theorem escape_string_loop_tokens (es : Bool) (n : Nat) :
    ∀ txt body, escape_string_loop true es n txt = .ok body → escaped_tokens body := by
  induction n with
  | zero =>
    intro txt body h
    cases txt with
    | nil =>
      simp only [escape_string_loop, Except.ok.injEq] at h
      rw [← h]
      exact .nil
    | cons c it => simp [escape_string_loop] at h
  | succ n ih =>
    intro txt body h
    cases txt with
    | nil =>
      simp only [escape_string_loop, Except.ok.injEq] at h
      rw [← h]
      exact .nil
    | cons c it =>
      cases hs : escape_step true es c it with
      | error e =>
        rw [escape_string_loop_error true es n c it e hs] at h
        simp at h
      | ok r =>
        obtain ⟨piece, it'⟩ := r
        rw [escape_string_loop_ok true es n c it piece it' hs] at h
        cases hl : escape_string_loop true es n it' with
        | error e =>
          rw [hl] at h
          simp [seq_out] at h
        | ok rest =>
          rw [hl] at h
          simp only [seq_out, Except.ok.injEq] at h
          rw [← h]
          exact escaped_tokens_append _ _ (escape_step_tokens es c it piece it' hs)
            (ih it' rest hl)

theorem escaped_tokens_range (body : List Nat) (h : escaped_tokens body) :
    ∀ b ∈ body, 0x20 ≤ b ∧ b ≤ 0x7f := by
  induction h with
  | nil => intro b hb; simp at hb
  | plain c rest hc _ ih =>
    intro b hb
    rcases List.mem_cons.1 hb with h | h
    · rw [h]; exact ⟨hc.1, hc.2.1⟩
    · exact ih b h
  | pair e rest h1 h2 _ ih =>
    intro b hb
    rcases List.mem_cons.1 hb with h | h
    · rw [h]; decide
    · rcases List.mem_cons.1 h with h | h
      · rw [h]; exact ⟨h1, h2⟩
      · exact ih b h

/-- The run of backslashes at the end of a text of backslashes is the whole text. -/
theorem backslash_run_all (l : List Nat) (h : ∀ b ∈ l, b = 0x5c) :
    backslash_run l = l.length := by
  unfold backslash_run
  rw [List.takeWhile_eq_self_iff.2 (fun b hb => by
    rw [h b (List.mem_reverse.1 hb)]; rfl), List.length_reverse]

/-- A byte before a text that is not made of backslashes only does not change the run at
its end. -/
theorem backslash_run_cons_of_not_all (c : Nat) (l : List Nat) (h : ¬ ∀ b ∈ l, b = 0x5c) :
    backslash_run (c :: l) = backslash_run l := by
  unfold backslash_run
  rw [List.reverse_cons, List.takeWhile_append]
  rw [if_neg]
  intro hlen
  apply h
  intro b hb
  have hall := List.takeWhile_eq_self_iff.1
    (List.IsPrefix.eq_of_length (List.takeWhile_prefix _) hlen)
  have := hall b (List.mem_reverse.2 hb)
  simpa using this

theorem backslash_run_cons_of_all (c : Nat) (l : List Nat) (h : ∀ b ∈ l, b = 0x5c) :
    backslash_run (c :: l) = if c = 0x5c then l.length + 1 else l.length := by
  by_cases hc : c = 0x5c
  · rw [if_pos hc]
    rw [backslash_run_all (c :: l) (fun b hb => by
      rcases List.mem_cons.1 hb with h1 | h1
      · rw [h1, hc]
      · exact h b h1)]
    rfl
  · rw [if_neg hc]
    unfold backslash_run
    rw [List.reverse_cons, List.takeWhile_append]
    have hall : List.takeWhile (fun b => decide (b = 0x5c)) l.reverse = l.reverse :=
      List.takeWhile_eq_self_iff.2 (fun b hb => by
        rw [h b (List.mem_reverse.1 hb)]; rfl)
    rw [hall, if_pos rfl]
    simp [hc]

/-- A byte that is no backslash before a text leaves the parity of the run at its end,
when that run is odd. -/
theorem backslash_run_cons_plain (c : Nat) (l : List Nat) (hc : c ≠ 0x5c)
    (h : backslash_run l % 2 = 1) : backslash_run (c :: l) % 2 = 1 := by
  by_cases hall : ∀ b ∈ l, b = 0x5c
  · rw [backslash_run_cons_of_all c l hall, if_neg hc, ← backslash_run_all l hall]
    exact h
  · rw [backslash_run_cons_of_not_all c l hall]
    exact h

/-- In a text of plain bytes and pairs, a quote has an odd number of backslashes right
before it. -/
theorem escaped_tokens_quote (body : List Nat) (h : escaped_tokens body) :
    ∀ pre post, body = pre ++ 0x22 :: post → backslash_run pre % 2 = 1 := by
  induction h with
  | nil =>
    intro pre post he
    cases pre <;> simp at he
  | plain c rest hc _ ih =>
    intro pre post he
    cases pre with
    | nil =>
      simp only [List.nil_append, List.cons.injEq] at he
      exact absurd he.1 hc.2.2.1
    | cons d pre =>
      simp only [List.cons_append, List.cons.injEq] at he
      rw [← he.1]
      exact backslash_run_cons_plain c pre hc.2.2.2 (ih pre post he.2)
  | pair e rest h1 h2 _ ih =>
    intro pre post he
    cases pre with
    | nil =>
      simp only [List.nil_append, List.cons.injEq] at he
      exact absurd he.1 (by decide)
    | cons d pre =>
      simp only [List.cons_append, List.cons.injEq] at he
      obtain ⟨hd, he⟩ := he
      rw [← hd]
      cases pre with
      | nil =>
        rw [backslash_run_all [0x5c] (by simp)]
        rfl
      | cons d2 pre =>
        simp only [List.cons_append, List.cons.injEq] at he
        obtain ⟨hd2, he⟩ := he
        rw [← hd2]
        have hodd := ih pre post he
        by_cases hall : ∀ b ∈ pre, b = 0x5c
        · by_cases hb : e = 0x5c
          · rw [backslash_run_all (0x5c :: e :: pre) (fun b hb2 => by
              rcases List.mem_cons.1 hb2 with h3 | h3
              · exact h3
              · rcases List.mem_cons.1 h3 with h4 | h4
                · rw [h4, hb]
                · exact hall b h4)]
            rw [backslash_run_all pre hall] at hodd
            simp only [List.length_cons]
            omega
          · rw [backslash_run_cons_of_not_all 0x5c (e :: pre) (fun hh =>
              hb (hh e (List.mem_cons_self _ _)))]
            exact backslash_run_cons_plain e pre hb hodd
        · rw [backslash_run_cons_of_not_all 0x5c (e :: pre) (fun hh =>
            hall (fun b hb => hh b (List.mem_cons_of_mem _ hb))),
            backslash_run_cons_of_not_all e pre hall]
          exact hodd

theorem first_unescaped_quote_at (rest : List Nat) :
    first_unescaped_quote (0x22 :: rest) = some 0 := by
  cases rest <;> rw [first_unescaped_quote] <;> rfl

theorem first_unescaped_quote_plain (c d : Nat) (rest : List Nat) (hq : c ≠ 0x22)
    (hb : c ≠ 0x5c) :
    first_unescaped_quote (c :: d :: rest)
      = (first_unescaped_quote (d :: rest)).map (fun i => i + 1) := by
  rw [first_unescaped_quote, if_neg hq, if_neg hb]

theorem first_unescaped_quote_pair (e : Nat) (rest : List Nat) :
    first_unescaped_quote (0x5c :: e :: rest)
      = (first_unescaped_quote rest).map (fun i => i + 2) := by
  rw [first_unescaped_quote, if_neg (by decide), if_pos rfl]

/-- The scan over a text of plain bytes and pairs stops at the quote after it. -/
theorem escaped_tokens_scan (body : List Nat) (h : escaped_tokens body) (rest : List Nat) :
    first_unescaped_quote (body ++ 0x22 :: rest) = some body.length := by
  induction h with
  | nil => exact first_unescaped_quote_at rest
  | plain c tail hc _ ih =>
    have hne : ∃ d t, tail ++ 0x22 :: rest = d :: t := by
      cases tail with
      | nil => exact ⟨_, _, rfl⟩
      | cons d t => exact ⟨_, _, rfl⟩
    obtain ⟨d, t, hdt⟩ := hne
    rw [List.cons_append, hdt, first_unescaped_quote_plain c d t hc.2.2.1 hc.2.2.2, ← hdt, ih]
    rfl
  | pair e tail h1 h2 _ ih =>
    rw [List.cons_append, List.cons_append, first_unescaped_quote_pair, ih]
    rfl

theorem backslash_run_cons_ne (c : Nat) (l : List Nat) (hc : c ≠ 0x5c) :
    backslash_run (c :: l) = backslash_run l := by
  by_cases hall : ∀ b ∈ l, b = 0x5c
  · rw [backslash_run_cons_of_all c l hall, if_neg hc, backslash_run_all l hall]
  · exact backslash_run_cons_of_not_all c l hall

/-- A literal that `escape_string` returns is a quote, what the loop wrote, and a quote. -/
theorem escape_string_ok (txt : List Nat) (eu es : Bool) (out : List Nat)
    (h : escape_string txt eu es = .ok out) :
    ∃ body, escape_string_loop eu es txt.length txt = .ok body ∧
      out = 0x22 :: (body ++ [0x22]) := by
  unfold escape_string at h
  cases hl : escape_string_loop eu es txt.length txt with
  | error e =>
    rw [hl] at h
    simp [seq_out] at h
  | ok body =>
    rw [hl] at h
    simp only [seq_out, Except.ok.injEq] at h
    exact ⟨body, rfl, by rw [← h]; rfl⟩

/-- C39: a literal that `escape_string` with the escaping of UTF-8 returns begins and ends
with a quote; every byte of it is from `0x20` to `0x7f`; a quote that is neither its first
nor its last byte has an odd number of backslashes right before it; and the scan from the
byte after the opening quote for the first quote that no backslash escapes stops at the
last byte. -/
theorem literal_shape (txt : List Nat) (escape_slash : Bool) (out : List Nat)
    (h : escape_string txt true escape_slash = .ok out) :
    (∃ body, out = 0x22 :: (body ++ [0x22]) ∧
      first_unescaped_quote (body ++ [0x22]) = some body.length) ∧
    (∀ b ∈ out, 0x20 ≤ b ∧ b ≤ 0x7f) ∧
    (∀ pre post, out = pre ++ 0x22 :: post → pre ≠ [] → post ≠ [] →
      backslash_run pre % 2 = 1) := by
  obtain ⟨body, hloop, hout⟩ := escape_string_ok txt true escape_slash out h
  have htok := escape_string_loop_tokens escape_slash _ txt body hloop
  refine ⟨⟨body, hout, escaped_tokens_scan body htok []⟩, ?_, ?_⟩
  · intro b hb
    rw [hout] at hb
    rcases List.mem_cons.1 hb with h1 | h1
    · rw [h1]; decide
    · rcases List.mem_append.1 h1 with h2 | h2
      · exact escaped_tokens_range body htok b h2
      · rw [List.mem_singleton.1 h2]; decide
  · intro pre post he hpre hpost
    rw [hout] at he
    cases pre with
    | nil => exact absurd rfl hpre
    | cons q pre =>
      simp only [List.cons_append, List.cons.injEq] at he
      obtain ⟨hq, he⟩ := he
      rw [← hq, backslash_run_cons_ne 0x22 pre (by decide)]
      have hrev := congrArg List.reverse he
      simp only [List.reverse_append, List.reverse_cons, List.reverse_nil, List.nil_append,
        List.singleton_append, List.append_assoc] at hrev
      cases hpr : post.reverse with
      | nil => exact absurd (List.reverse_eq_nil_iff.1 hpr) hpost
      | cons x r =>
        rw [hpr] at hrev
        simp only [List.cons_append, List.cons.injEq] at hrev
        have hbody : body = pre ++ 0x22 :: r.reverse := by
          have h2 := congrArg List.reverse hrev.2
          simpa using h2
        exact escaped_tokens_quote body htok pre r.reverse hbody

/-- C39 at the text of a backslash, a quote, U+00E9, the byte `7f` and a line feed. -/
theorem literal_shape_witness :
    escape_string [0x5c, 0x22, 0xc3, 0xa9, 0x7f, 0x0a] true false
      = .ok (ascii "\"\\\\\\\"\\u00e9\x7f\\n\"") ∧
    first_unescaped_quote (ascii "\\\\\\\"\\u00e9\x7f\\n\"") = some 13 ∧
    (∀ b ∈ ascii "\"\\\\\\\"\\u00e9\x7f\\n\"", 0x20 ≤ b ∧ b ≤ 0x7f) ∧
    backslash_run (ascii "\"\\\\\\") % 2 = 1 :=
  have h : escape_string [0x5c, 0x22, 0xc3, 0xa9, 0x7f, 0x0a] true false
      = .ok (ascii "\"\\\\\\\"\\u00e9\x7f\\n\"") := by rfl
  have hs := literal_shape _ false _ h
  ⟨h, by decide, hs.2.1, hs.2.2 (ascii "\"\\\\\\") (ascii "\\u00e9\x7f\\n\"") (by decide)
    (by decide) (by decide)⟩

/-! ## Unescaping in place -/

/-- The buffer after the stores: the bytes before `outit`, the bytes stored, and the bytes
behind them. -/
theorem store_bytes_eq (bytes : List Nat) :
    ∀ buf outit, outit + bytes.length ≤ buf.length →
      impl.store_bytes buf outit bytes
        = buf.take outit ++ bytes ++ buf.drop (outit + bytes.length) := by
  induction bytes with
  | nil =>
    intro buf outit _
    simp [impl.store_bytes]
  | cons b bytes ih =>
    intro buf outit h
    simp only [List.length_cons] at h
    rw [impl.store_bytes, ih _ _ (by rw [List.length_set]; omega)]
    rw [List.drop_set_of_lt b buf (by omega)]
    rw [List.set_eq_take_cons_drop b (by omega : outit < buf.length)]
    rw [List.take_append_eq_append_take, List.length_take, Nat.min_eq_left (by omega)]
    simp only [List.length_cons]
    have h1 : List.take (outit + 1) (List.take outit buf) = List.take outit buf := by
      rw [List.take_take, Nat.min_eq_right (by omega)]
    have h2 : outit + 1 - outit = 1 := by omega
    rw [h1, h2]
    simp only [List.take_succ_cons, List.take_zero, List.append_assoc, List.singleton_append,
      List.cons_append, List.nil_append]
    have h3 : outit + 1 + bytes.length = outit + (bytes.length + 1) := by omega
    rw [h3]

theorem store_bytes_length (bytes buf : List Nat) (outit : Nat)
    (h : outit + bytes.length ≤ buf.length) :
    (impl.store_bytes buf outit bytes).length = buf.length := by
  rw [store_bytes_eq bytes buf outit h]
  simp only [List.length_append, List.length_take, List.length_drop]
  omega

/-- The stores change no byte from `k` on, when they end before `k`. -/
theorem store_bytes_drop (bytes buf : List Nat) (outit k : Nat)
    (h : outit + bytes.length ≤ k) (hk : k ≤ buf.length) :
    (impl.store_bytes buf outit bytes).drop k = buf.drop k := by
  rw [store_bytes_eq bytes buf outit (by omega)]
  have hl : (buf.take outit ++ bytes).length = outit + bytes.length := by
    simp only [List.length_append, List.length_take]
    omega
  rw [List.drop_append_eq_append_drop, hl, List.drop_drop]
  rw [List.drop_of_length_le (by omega)]
  simp only [List.nil_append]
  congr 1
  omega

/-- The stores change no byte before `outit`. -/
theorem store_bytes_take (bytes buf : List Nat) (outit k : Nat)
    (h : outit + bytes.length ≤ buf.length) (hk : k ≤ outit) :
    (impl.store_bytes buf outit bytes).take k = buf.take k := by
  rw [store_bytes_eq bytes buf outit h, List.append_assoc,
    List.take_append_of_le_length (by rw [List.length_take]; omega), List.take_take,
    Nat.min_eq_left hk]

/-- Stores that follow stores are the stores of the bytes of both. -/
theorem store_bytes_append (a b buf : List Nat) (outit : Nat)
    (h : outit + a.length + b.length ≤ buf.length) :
    impl.store_bytes (impl.store_bytes buf outit a) (outit + a.length) b
      = impl.store_bytes buf outit (a ++ b) := by
  induction a generalizing buf outit with
  | nil => simp [impl.store_bytes]
  | cons x a ih =>
    simp only [List.length_cons] at h
    rw [List.cons_append, impl.store_bytes, impl.store_bytes]
    have := ih (buf.set outit x) (outit + 1) (by rw [List.length_set]; omega)
    rw [← this]
    congr 1
    simp only [List.length_cons]
    omega

/-- The bytes stored are read back from `outit` on. -/
theorem store_bytes_read (bytes buf : List Nat) (outit : Nat)
    (h : outit + bytes.length ≤ buf.length) :
    ((impl.store_bytes buf outit bytes).drop outit).take bytes.length = bytes := by
  rw [store_bytes_eq bytes buf outit h, List.append_assoc]
  rw [List.drop_append_eq_append_drop, List.length_take, Nat.min_eq_left (by omega)]
  rw [List.drop_of_length_le (by rw [List.length_take]; omega)]
  simp

/-- The loop of `read4hex` reads one byte in each turn. -/
theorem read4hex_loop_consumed (i : Nat) :
    ∀ rv it v it', impl.read4hex_loop i rv it = .ok (v, it') →
      ∃ p, it = p ++ it' ∧ p.length = i := by
  induction i with
  | zero =>
    intro rv it v it' h
    simp only [impl.read4hex_loop, Except.ok.injEq, Prod.mk.injEq] at h
    exact ⟨[], by rw [h.2]; rfl, rfl⟩
  | succ i ih =>
    intro rv it v it' h
    cases it with
    | nil => simp [impl.read4hex_loop] at h
    | cons c rest =>
      simp only [impl.read4hex_loop] at h
      split_ifs at h
      all_goals
        obtain ⟨p, hp, hl⟩ := ih _ _ _ _ h
        exact ⟨c :: p, by rw [hp]; rfl, by rw [List.length_cons, hl]⟩

/-- The escape of a low surrogate, read after the one of a high surrogate, takes six bytes
of the input and gives four bytes. -/
theorem unescape_surrogate_consumed (cp : Nat) (it bytes it' : List Nat)
    (h : impl.unescape_surrogate cp it = .ok (bytes, it')) :
    ∃ p, it = p ++ it' ∧ p.length = 6 ∧ bytes.length = 4 := by
  unfold impl.unescape_surrogate at h
  cases it with
  | nil => simp at h
  | cons b it =>
    simp only at h
    split_ifs at h
    cases it with
    | nil => simp at h
    | cons u it =>
      simp only at h
      split_ifs at h
      cases hr : impl.read4hex it with
      | error e => rw [hr] at h; simp at h
      | ok r =>
        obtain ⟨cp2, it2⟩ := r
        rw [hr] at h
        simp only at h
        split_ifs at h
        simp only [Except.ok.injEq, Prod.mk.injEq] at h
        obtain ⟨p, hp, hl⟩ := read4hex_loop_consumed 4 _ _ _ _ hr
        refine ⟨b :: u :: p, ?_, ?_, ?_⟩
        · rw [hp, ← h.2]; rfl
        · simp only [List.length_cons, hl]
        · rw [← h.1]; rfl

/-- The escape `\u` takes four bytes of the input at least after the `u`, and gives no
more bytes than it takes. -/
theorem unescape_unicode_consumed (it bytes it' : List Nat)
    (h : impl.unescape_unicode it = .ok (bytes, it')) :
    ∃ p, it = p ++ it' ∧ 4 ≤ p.length ∧ bytes.length ≤ p.length := by
  unfold impl.unescape_unicode at h
  cases hr : impl.read4hex it with
  | error e => rw [hr] at h; simp at h
  | ok r =>
    obtain ⟨cp, it1⟩ := r
    rw [hr] at h
    simp only at h
    obtain ⟨p, hp, hl⟩ := read4hex_loop_consumed 4 _ _ _ _ hr
    split_ifs at h
    · simp only [Except.ok.injEq, Prod.mk.injEq] at h
      exact ⟨p, by rw [hp, h.2], by omega, by rw [← h.1, hl]; simp⟩
    · simp only [Except.ok.injEq, Prod.mk.injEq] at h
      exact ⟨p, by rw [hp, h.2], by omega, by rw [← h.1, hl]; simp⟩
    · simp only [Except.ok.injEq, Prod.mk.injEq] at h
      exact ⟨p, by rw [hp, h.2], by omega, by rw [← h.1, hl]; simp⟩
    · obtain ⟨q, hq, hql, hb⟩ := unescape_surrogate_consumed _ _ _ _ h
      exact ⟨p ++ q, by rw [hp, hq, List.append_assoc],
        by rw [List.length_append]; omega, by rw [List.length_append]; omega⟩

/-- A turn of the loop stores no more bytes than it reads: it reads its first byte and
the bytes `p`. -/
theorem unescape_turn_consumed (c : Nat) (it bytes it' : List Nat)
    (h : impl.unescape_turn c it = .ok (bytes, it')) :
    ∃ p, it = p ++ it' ∧ bytes.length ≤ p.length + 1 := by
  unfold impl.unescape_turn at h
  split_ifs at h
  · cases it with
    | nil => simp at h
    | cons esc it =>
      simp only at h
      split_ifs at h
      all_goals first
        | (obtain ⟨p, hp, -, hb⟩ := unescape_unicode_consumed _ _ _ h
           exact ⟨esc :: p, by rw [hp]; rfl, by rw [List.length_cons]; omega⟩)
        | (simp only [Except.ok.injEq, Prod.mk.injEq] at h
           exact ⟨[esc], by rw [← h.2]; rfl, by rw [← h.1]; simp⟩)
  · simp only [Except.ok.injEq, Prod.mk.injEq] at h
    exact ⟨[], by rw [← h.2]; rfl, by rw [← h.1]; simp⟩

/-- A turn on the buffer, entered with `outit` not after `it`: the cursor `it` moves
forward, `outit` stays not after it, and the bytes not yet read are the ones that
`unescape_turn` leaves. -/
theorem unescape_turn_inplace_ok (buf : List Nat) (it outit c : Nat) (rest bytes rest' : List Nat)
    (hinv : outit ≤ it) (hd : buf.drop it = c :: rest)
    (ht : impl.unescape_turn c rest = .ok (bytes, rest')) :
    impl.unescape_turn_inplace buf it outit
      = .ok (impl.store_bytes buf outit bytes, buf.length - rest'.length,
          outit + bytes.length) ∧
    it < buf.length - rest'.length ∧ buf.length - rest'.length ≤ buf.length ∧
    outit + bytes.length ≤ buf.length - rest'.length ∧
    buf.drop (buf.length - rest'.length) = rest' := by
  obtain ⟨p, hp, hb⟩ := unescape_turn_consumed c rest bytes rest' ht
  have hlen : buf.length - it = rest.length + 1 := by
    have := congrArg List.length hd
    simpa using this
  have hrl : rest.length = p.length + rest'.length := by
    rw [hp, List.length_append]
  have hit' : buf.length - rest'.length = it + (1 + p.length) := by omega
  refine ⟨?_, by omega, by omega, by omega, ?_⟩
  · unfold impl.unescape_turn_inplace
    rw [hd]
    simp only [ht]
  · rw [hit', ← List.drop_drop, hd, hp]
    rw [show 1 + p.length = (c :: p).length from by rw [List.length_cons]; omega]
    rw [← List.cons_append, List.drop_left]

theorem unescape_turn_inplace_error (buf : List Nat) (it outit c : Nat) (rest : List Nat)
    (e : exn) (hd : buf.drop it = c :: rest) (ht : impl.unescape_turn c rest = .error e) :
    impl.unescape_turn_inplace buf it outit = .error e := by
  unfold impl.unescape_turn_inplace
  rw [hd]
  simp only [ht]

/-- The loop on the buffer does what the loop that keeps the bytes written apart does:
it fails where that one fails, and where that one returns the bytes `out ++ w` and the
rest of the input, it returns the buffer with `w` stored from `outit` on, the index of that
rest, and `outit` moved by the length of `w`, which is before that index. -/
theorem unescape_loop_inplace_refines (n : Nat) :
    ∀ buf it outit out, outit ≤ it → it ≤ buf.length →
      (∀ e, impl.unescape_loop n out (buf.drop it) = .error e →
        impl.unescape_loop_inplace n buf it outit = .error e) ∧
      (∀ r rest, impl.unescape_loop n out (buf.drop it) = .ok (r, rest) →
        ∃ w, r = out ++ w ∧ outit + w.length < buf.length - rest.length ∧
          buf.length - rest.length ≤ buf.length ∧
          buf.drop (buf.length - rest.length) = rest ∧
          impl.unescape_loop_inplace n buf it outit
            = .ok (impl.store_bytes buf outit w, buf.length - rest.length,
                outit + w.length)) := by
  induction n with
  | zero =>
    intro buf it outit out _ _
    refine ⟨fun e h => ?_, fun r rest h => ?_⟩
    · simp only [impl.unescape_loop, Except.error.injEq] at h
      rw [← h]
      rfl
    · simp [impl.unescape_loop] at h
  | succ n ih =>
    intro buf it outit out hinv hit
    cases hd : buf.drop it with
    | nil =>
      refine ⟨fun e h => ?_, fun r rest h => ?_⟩
      · simp only [impl.unescape_loop, Except.error.injEq] at h
        rw [← h]
        simp only [impl.unescape_loop_inplace, hd, List.head?_nil, impl.unescape_turn_inplace]
        rfl
      · simp [impl.unescape_loop] at h
    | cons c rest0 =>
      have hlen : buf.length - it = rest0.length + 1 := by
        have := congrArg List.length hd
        simpa using this
      by_cases hq : c = 0x22
      · refine ⟨fun e h => ?_, fun r rest h => ?_⟩
        · simp [impl.unescape_loop, hq] at h
        · simp only [impl.unescape_loop, hq, if_true, Except.ok.injEq, Prod.mk.injEq] at h
          obtain ⟨h1, h2⟩ := h
          refine ⟨[], by rw [← h1, List.append_nil], ?_, by omega, ?_, ?_⟩
          · rw [← h2, List.length_nil]; omega
          · rw [← h2]
            have h3 : buf.length - rest0.length = it + 1 := by omega
            rw [h3, ← List.drop_drop, hd]
            rfl
          · simp only [impl.unescape_loop_inplace, hd, hq, List.head?_cons, if_true,
              impl.store_bytes, List.length_nil, Nat.add_zero]
            rw [← h2]
            have h3 : buf.length - rest0.length = it + 1 := by omega
            rw [h3]
      · have hhead : ¬ (buf.drop it).head? = some 0x22 := by
          rw [hd]
          simp only [List.head?_cons, Option.some.injEq]
          exact hq
        cases ht : impl.unescape_turn c rest0 with
        | error e0 =>
          refine ⟨fun e h => ?_, fun r rest h => ?_⟩
          · simp only [impl.unescape_loop, hq, if_false, ht, Except.error.injEq] at h
            rw [← h]
            simp only [impl.unescape_loop_inplace, hhead, if_false,
              unescape_turn_inplace_error buf it outit c rest0 e0 hd ht]
          · simp [impl.unescape_loop, hq, ht] at h
        | ok tr =>
          obtain ⟨bytes, rest1⟩ := tr
          obtain ⟨hturn, h1, h2, h3, h4⟩ :=
            unescape_turn_inplace_ok buf it outit c rest0 bytes rest1 hinv hd ht
          have hsl : (impl.store_bytes buf outit bytes).length = buf.length :=
            store_bytes_length bytes buf outit (by omega)
          have hsd : (impl.store_bytes buf outit bytes).drop (buf.length - rest1.length)
              = rest1 := by
            rw [store_bytes_drop bytes buf outit _ h3 h2]
            exact h4
          obtain ⟨ihe, iho⟩ := ih (impl.store_bytes buf outit bytes)
            (buf.length - rest1.length) (outit + bytes.length) (out ++ bytes) h3
            (by rw [hsl]; exact h2)
          rw [hsd] at ihe iho
          have hstep : impl.unescape_loop_inplace (n + 1) buf it outit
              = impl.unescape_loop_inplace n (impl.store_bytes buf outit bytes)
                  (buf.length - rest1.length) (outit + bytes.length) := by
            simp only [impl.unescape_loop_inplace, hhead, if_false, hturn]
          have hpure : impl.unescape_loop (n + 1) out (c :: rest0)
              = impl.unescape_loop n (out ++ bytes) rest1 := by
            simp only [impl.unescape_loop, hq, if_false, ht]
          rw [hstep, hpure]
          refine ⟨ihe, fun r rest h => ?_⟩
          obtain ⟨w, hw, hlt, hle, hdrop, hres⟩ := iho r rest h
          rw [hsl] at hlt hle hdrop hres
          refine ⟨bytes ++ w, by rw [hw, List.append_assoc], ?_, hle, ?_, ?_⟩
          · rw [List.length_append]; omega
          · exact (store_bytes_drop bytes buf outit _ (by omega) hle).symm.trans hdrop
          · rw [hres, store_bytes_append bytes w buf outit (by omega), List.length_append,
              Nat.add_assoc]

/-- What holds of the state before a turn holds of the state after it: `outit` is not
after `it`, the bytes from `it` on are the ones the buffer `buf` had there, and so are the
bytes before `a`. -/
theorem inplace_turn_keeps (buf : List Nat) (a : Nat) (s t : List Nat × Nat × Nat)
    (hst : inplace_turn s t)
    (hs : s.2.2 ≤ s.2.1 ∧ s.2.1 ≤ s.1.length ∧ s.1.length = buf.length ∧ a ≤ s.2.2 ∧
      s.1.drop s.2.1 = buf.drop s.2.1 ∧ s.1.take a = buf.take a) :
    t.2.2 ≤ t.2.1 ∧ t.2.1 ≤ t.1.length ∧ t.1.length = buf.length ∧ a ≤ t.2.2 ∧
      t.1.drop t.2.1 = buf.drop t.2.1 ∧ t.1.take a = buf.take a ∧ s.2.1 < t.2.1 := by
  obtain ⟨sb, sit, sout⟩ := s
  obtain ⟨h1, h2, h3, h4, h5, h6⟩ := hs
  simp only at h1 h2 h3 h4 h5 h6
  obtain ⟨-, hturn⟩ := hst
  simp only at hturn
  cases hd : sb.drop sit with
  | nil =>
    unfold impl.unescape_turn_inplace at hturn
    rw [hd] at hturn
    simp at hturn
  | cons c rest =>
    cases ht : impl.unescape_turn c rest with
    | error e =>
      rw [unescape_turn_inplace_error sb sit sout c rest e hd ht] at hturn
      simp at hturn
    | ok r =>
      obtain ⟨bytes, rest1⟩ := r
      obtain ⟨hok, k1, k2, k3, k4⟩ :=
        unescape_turn_inplace_ok sb sit sout c rest bytes rest1 h1 hd ht
      rw [hok] at hturn
      simp only [Except.ok.injEq] at hturn
      rw [← hturn]
      simp only
      have hsl := store_bytes_length bytes sb sout (by omega)
      have hdrop : buf.drop (sb.length - rest1.length) = sb.drop (sb.length - rest1.length) := by
        have h7 : sb.length - rest1.length = sit + (sb.length - rest1.length - sit) := by omega
        rw [h7, ← List.drop_drop, ← List.drop_drop, h5]
      refine ⟨k3, by rw [hsl]; exact k2, by rw [hsl]; exact h3, by omega, ?_, ?_, k1⟩
      · rw [store_bytes_drop bytes sb sout _ k3 k2, hdrop]
      · rw [store_bytes_take bytes sb sout a (by omega) h4]
        exact h6

/-- Every state that turns of the loop lead to from the start has `outit` not after `it`,
and from `it` on the bytes the buffer had at the start. -/
theorem inplace_reached (buf : List Nat) (a : Nat) (ha : a ≤ buf.length)
    (s : List Nat × Nat × Nat) (h : Relation.ReflTransGen inplace_turn (buf, a, a) s) :
    s.2.2 ≤ s.2.1 ∧ s.2.1 ≤ s.1.length ∧ s.1.length = buf.length ∧ a ≤ s.2.2 ∧
      s.1.drop s.2.1 = buf.drop s.2.1 ∧ s.1.take a = buf.take a := by
  induction h with
  | refl => exact ⟨Nat.le_refl _, ha, rfl, Nat.le_refl _, rfl, rfl⟩
  | tail _ hst ih =>
    obtain ⟨h1, h2, h3, h4, h5, h6, -⟩ := inplace_turn_keeps buf a _ _ hst ih
    exact ⟨h1, h2, h3, h4, h5, h6⟩

/-- What the loop on the buffer returns is a state that its turns lead to, at a quote,
with `it` moved over the quote. -/
theorem unescape_loop_inplace_reaches (n : Nat) :
    ∀ buf it outit r, impl.unescape_loop_inplace n buf it outit = .ok r →
      ∃ s, Relation.ReflTransGen inplace_turn (buf, it, outit) s ∧
        (s.1.drop s.2.1).head? = some 0x22 ∧ r = (s.1, s.2.1 + 1, s.2.2) := by
  induction n with
  | zero =>
    intro buf it outit r h
    simp [impl.unescape_loop_inplace] at h
  | succ n ih =>
    intro buf it outit r h
    rw [impl.unescape_loop_inplace] at h
    by_cases hq : (buf.drop it).head? = some 0x22
    · rw [if_pos hq] at h
      simp only [Except.ok.injEq] at h
      exact ⟨(buf, it, outit), Relation.ReflTransGen.refl, hq, h.symm⟩
    · rw [if_neg hq] at h
      cases ht : impl.unescape_turn_inplace buf it outit with
      | error e => rw [ht] at h; simp at h
      | ok t =>
        obtain ⟨tb, tit, tout⟩ := t
        rw [ht] at h
        simp only at h
        obtain ⟨s, hs, hsq, hr⟩ := ih tb tit tout r h
        exact ⟨s, Relation.ReflTransGen.head ⟨hq, ht⟩ hs, hsq, hr⟩

/-- C35: with `it` the index of the byte after the opening quote, every state that the
turns of the loop of `unescape_string_inplace` lead to has `outit` not after `it`, and
from `it` on the bytes that the buffer had at the start: no byte is stored over before it
is read. When the call returns, it has reached its last state by such turns; the span
from `a`, the index it was called with, to `b` ends before the closing quote, so it is
shorter than the text read; the bytes before `a` and after the closing quote are the ones
of the start; and the span holds the bytes that the loop gives which keeps them apart
from the input. That loop fails exactly when the one on the buffer does. -/
theorem unescape_in_place (buf : List Nat) (it : Nat) (hit : it ≤ buf.length) :
    (∀ s, Relation.ReflTransGen inplace_turn (buf, it, it) s →
      s.2.2 ≤ s.2.1 ∧ s.1.drop s.2.1 = buf.drop s.2.1) ∧
    (∀ buf2 it2 b, impl.unescape_string_inplace_buffer buf it = .ok (buf2, it2, b) →
      Relation.ReflTransGen inplace_turn (buf, it, it) (buf2, it2 - 1, b) ∧
      it ≤ b ∧ b < it2 ∧ it2 ≤ buf.length ∧
      buf2.take it = buf.take it ∧ buf2.drop it2 = buf.drop it2 ∧
      impl.unescape_string_inplace (buf.drop it)
        = .ok ((buf2.drop it).take (b - it), buf.drop it2)) ∧
    (∀ e, impl.unescape_string_inplace (buf.drop it) = .error e ↔
      impl.unescape_string_inplace_buffer buf it = .error e) := by
  have hfuel : (buf.drop it).length + 1 = buf.length - it + 1 := by
    rw [List.length_drop]
  obtain ⟨href_e, href_o⟩ :=
    unescape_loop_inplace_refines (buf.length - it + 1) buf it it [] (Nat.le_refl _) hit
  have hpure : impl.unescape_string_inplace (buf.drop it)
      = impl.unescape_loop (buf.length - it + 1) [] (buf.drop it) := by
    unfold impl.unescape_string_inplace
    rw [hfuel]
  refine ⟨fun s hs => ?_, ?_, ?_⟩
  · obtain ⟨h1, -, -, -, h5, -⟩ := inplace_reached buf it hit s hs
    exact ⟨h1, h5⟩
  · intro buf2 it2 b h
    unfold impl.unescape_string_inplace_buffer at h
    obtain ⟨s, hs, hsq, hr⟩ := unescape_loop_inplace_reaches _ buf it it _ h
    simp only [Prod.mk.injEq] at hr
    obtain ⟨hr1, hr2, hr3⟩ := hr
    have hreach : Relation.ReflTransGen inplace_turn (buf, it, it) (buf2, it2 - 1, b) := by
      rw [hr1, hr2, hr3]
      exact hs
    obtain ⟨k1, k2, k3, k4, k5, k6⟩ := inplace_reached buf it hit _ hreach
    simp only at k1 k2 k3 k4 k5 k6
    cases hp : impl.unescape_loop (buf.length - it + 1) [] (buf.drop it) with
    | error e =>
      rw [href_e e hp] at h
      simp at h
    | ok pr =>
      obtain ⟨r, rest⟩ := pr
      obtain ⟨w, hw, hlt, hle, hdrop, hres⟩ := href_o r rest hp
      rw [hres] at h
      simp only [Except.ok.injEq, Prod.mk.injEq] at h
      obtain ⟨e1, e2, e3⟩ := h
      have hwl : it + w.length ≤ buf.length := by omega
      refine ⟨hreach, k4, by omega, by omega, k6, ?_, ?_⟩
      · rw [← e1, ← e2]
        exact store_bytes_drop w buf it _ (by omega) hle
      · rw [hpure, hp, ← e1, ← e3, ← e2, hdrop]
        have hb : it + w.length - it = w.length := by omega
        rw [hb, store_bytes_read w buf it hwl, hw, List.nil_append]
  · intro e
    rw [hpure]
    constructor
    · intro h
      exact href_e e h
    · intro h
      unfold impl.unescape_string_inplace_buffer at h
      cases hp : impl.unescape_loop (buf.length - it + 1) [] (buf.drop it) with
      | error e2 =>
        rw [href_e e2 hp] at h
        simp only [Except.error.injEq] at h
        rw [h]
      | ok pr =>
        obtain ⟨r, rest⟩ := pr
        obtain ⟨w, -, -, -, -, hres⟩ := href_o r rest hp
        rw [hres] at h
        simp at h

/-- C35 at the buffer `"a\né" x`, called after the opening quote: the span from 1 to
5 holds `a`, a line feed and the two bytes of U+00E9, the cursor is left at the blank, and
the bytes from the span on to the cursor are ones of the input. -/
theorem unescape_in_place_witness :
    impl.unescape_string_inplace_buffer (ascii "\"a\\n\\u00e9\" x") 1
      = .ok ([0x22, 0x61, 0x0a, 0xc3, 0xa9] ++ ascii "u00e9\" x", 11, 5) ∧
    impl.unescape_string_inplace (ascii "a\\n\\u00e9\" x")
      = .ok ([0x61, 0x0a, 0xc3, 0xa9], ascii " x") ∧
    Relation.ReflTransGen inplace_turn (ascii "\"a\\n\\u00e9\" x", 1, 1)
      ([0x22, 0x61, 0x0a, 0xc3, 0xa9] ++ ascii "u00e9\" x", 10, 5) :=
  ⟨by rfl, by rfl,
    ((unescape_in_place (ascii "\"a\\n\\u00e9\" x") 1 (by decide)).2.1 _ 11 5 (by rfl)).1⟩

/-! ## Values that share a payload after an assignment -/

theorem store_payload_read (h : heap F) (p : Nat) (x : payload F) (hp : p < h.length) :
    (store_payload h p x)[p]? = some x := by
  unfold store_payload
  rw [List.getElem?_set_self hp]

/-- C31: after `a = b`, for `b` a String, an Array or an Object whose payload is at the
address `p`, the store is the one before, so no payload was made, and `a` has the tag and
the pointer of `b`. The mutable accessor of `a` and the one of `b` return a reference to
the payload at `p`; so whatever a change through either reference makes of that payload,
the const accessor of `a` and the one of `b` return it, and `a` and `b` hold the same
value in every later store. Appending to `get_array_ref()` of the one is read by
`get_array()` of the other. -/
theorem assignment_shares (h : heap F) (a b : cell F) (p : Nat) (hp : b.m_ptr = some p)
    (hlt : p < h.length) :
    (cell.assign h a b).1 = h ∧
    (cell.assign h a b).2.m_type = b.m_type ∧ (cell.assign h a b).2.m_ptr = some p ∧
    (∀ (S : Nat → Prop) (h2 : heap F) v,
      holds S h2 (cell.assign h a b).2 v ↔ holds S h2 b v) ∧
    (b.m_type = .STRING →
      (cell.assign h a b).2.get_string_ref = .ok p ∧ b.get_string_ref = .ok p ∧
      ∀ s, b.get_string (store_payload h p (.string s)) = .ok s ∧
        (cell.assign h a b).2.get_string (store_payload h p (.string s)) = .ok s) ∧
    (b.m_type = .ARRAY →
      (cell.assign h a b).2.get_array_ref = .ok p ∧ b.get_array_ref = .ok p ∧
      (∀ v, b.get_array (store_payload h p (.array v)) = .ok v ∧
        (cell.assign h a b).2.get_array (store_payload h p (.array v)) = .ok v) ∧
      ∀ v e, h[p]? = some (.array v) →
        (∃ h2, (cell.assign h a b).2.push_back_ref h e = .ok h2 ∧
          b.get_array h2 = .ok (v ++ [e])) ∧
        (∃ h2, b.push_back_ref h e = .ok h2 ∧
          (cell.assign h a b).2.get_array h2 = .ok (v ++ [e]))) ∧
    (b.m_type = .OBJECT →
      (cell.assign h a b).2.get_object_ref = .ok p ∧ b.get_object_ref = .ok p ∧
      ∀ o, b.get_object (store_payload h p (.object o)) = .ok o ∧
        (cell.assign h a b).2.get_object (store_payload h p (.object o)) = .ok o) := by
  have hab : (cell.assign h a b).2 = b := rfl
  rw [hab]
  refine ⟨rfl, rfl, hp, fun S h2 v => Iff.rfl, ?_, ?_, ?_⟩
  · intro ht
    have hr : b.get_string_ref = .ok p := by
      unfold cell.get_string_ref cell.address_dangerous
      rw [if_pos ht, hp]
    refine ⟨hr, hr, fun s => ?_⟩
    have hg : b.get_string (store_payload h p (.string s)) = .ok s := by
      unfold cell.get_string
      rw [if_pos ht]
      exact string_ref_of _ b p s hp (store_payload_read h p _ hlt)
    exact ⟨hg, hg⟩
  · intro ht
    have hr : b.get_array_ref = .ok p := by
      unfold cell.get_array_ref cell.address_dangerous
      rw [if_pos ht, hp]
    have hg : ∀ v, b.get_array (store_payload h p (.array v)) = .ok v := by
      intro v
      unfold cell.get_array
      rw [if_pos ht]
      exact array_ref_of _ b p v hp (store_payload_read h p _ hlt)
    refine ⟨hr, hr, fun v => ⟨hg v, hg v⟩, fun v e hv => ?_⟩
    have hpush : b.push_back_ref h e = .ok (store_payload h p (.array (v ++ [e]))) := by
      unfold cell.push_back_ref
      rw [hr]
      simp only [hv]
    exact ⟨⟨_, hpush, hg _⟩, ⟨_, hpush, hg _⟩⟩
  · intro ht
    have hr : b.get_object_ref = .ok p := by
      unfold cell.get_object_ref cell.address_dangerous
      rw [if_pos ht, hp]
    refine ⟨hr, hr, fun o => ?_⟩
    have hg : b.get_object (store_payload h p (.object o)) = .ok o := by
      unfold cell.get_object
      rw [if_pos ht]
      exact object_ref_of _ b p o hp (store_payload_read h p _ hlt)
    exact ⟨hg, hg⟩

/-- C31 at an array of one element that is assigned to a null: appending through the one
is read through the other, and the store has the one vector it had. -/
theorem assignment_shares_witness :
    (cell.assign [.array [cell.of_bool true]] cell.default
        (⟨some 0, .indeterminate, .ARRAY⟩ : cell float_text))
      = ([.array [cell.of_bool true]], ⟨some 0, .indeterminate, .ARRAY⟩) ∧
    (∃ h2, cell.push_back_ref [.array [cell.of_bool true]]
        (cell.assign [.array [cell.of_bool true]] cell.default
          (⟨some 0, .indeterminate, .ARRAY⟩ : cell float_text)).2 cell.default = .ok h2 ∧
      cell.get_array h2 (⟨some 0, .indeterminate, .ARRAY⟩ : cell float_text)
        = .ok ([cell.of_bool true] ++ [cell.default])) :=
  ⟨rfl,
    ((assignment_shares [.array [cell.of_bool true]] cell.default
      (⟨some 0, .indeterminate, .ARRAY⟩ : cell float_text) 0 rfl (by decide)).2.2.2.2.2.1
        rfl).2.2.2 _ cell.default rfl |>.1⟩

/-! ## The fuel of `deepcopy` -/

set_option maxHeartbeats 1000000 in
/-- What `deepcopy` and its loops reach with some fuel they reach with any greater fuel. -/
theorem deepcopy_fuel_mono (n : Nat) :
    (∀ (h : heap F) this other, cell.deepcopy n h this other ≠ .error .fuel →
      ∀ m, n ≤ m → cell.deepcopy m h this other = cell.deepcopy n h this other) ∧
    (∀ (h : heap F) source, deepcopy_array n h source ≠ .error .fuel →
      ∀ m, n ≤ m → deepcopy_array m h source = deepcopy_array n h source) ∧
    (∀ (h : heap F) source, deepcopy_array_loop n h source ≠ .error .fuel →
      ∀ m, n ≤ m → deepcopy_array_loop m h source = deepcopy_array_loop n h source) ∧
    (∀ (h : heap F) source, deepcopy_object n h source ≠ .error .fuel →
      ∀ m, n ≤ m → deepcopy_object m h source = deepcopy_object n h source) ∧
    (∀ (h : heap F) source, deepcopy_object_loop n h source ≠ .error .fuel →
      ∀ m, n ≤ m → deepcopy_object_loop m h source = deepcopy_object_loop n h source) ∧
    (∀ (h : heap F) this, cell.deepcopy_self n h this ≠ .error .fuel →
      ∀ m, n ≤ m → cell.deepcopy_self m h this = cell.deepcopy_self n h this) := by
  induction n with
  | zero =>
    refine ⟨fun h a b hne => ?_, fun h s hne => ?_, fun h s hne => ?_, fun h s hne => ?_,
      fun h s hne => ?_, fun h a hne => ?_⟩
    · exact absurd (by rw [cell.deepcopy]) hne
    · exact absurd (by rw [deepcopy_array]) hne
    · exact absurd (by rw [deepcopy_array_loop]) hne
    · exact absurd (by rw [deepcopy_object]) hne
    · exact absurd (by rw [deepcopy_object_loop]) hne
    · exact absurd (by rw [cell.deepcopy_self]) hne
  | succ n ih =>
    obtain ⟨ih1, ih2, ih3, ih4, ih5, ih6⟩ := ih
    refine ⟨fun h a b hne m hm => ?_, fun h s hne m hm => ?_, fun h s hne m hm => ?_,
      fun h s hne m hm => ?_, fun h s hne m hm => ?_, fun h a hne m hm => ?_⟩
    · obtain ⟨k, rfl⟩ : ∃ k, m = k + 1 := ⟨m - 1, by omega⟩
      rw [cell.deepcopy] at hne ⊢
      rw [cell.deepcopy]
      cases ht : b.m_type <;> simp only [ht] at hne ⊢
      · cases hr : b.array_ref_dangerous h with
        | error e => simp only
        | ok source =>
          rw [hr] at hne
          simp only at hne ⊢
          exact ih2 h source hne k (by omega)
      · cases hr : b.object_ref_dangerous h with
        | error e => simp only
        | ok source =>
          rw [hr] at hne
          simp only at hne ⊢
          exact ih4 h source hne k (by omega)
    · obtain ⟨k, rfl⟩ : ∃ k, m = k + 1 := ⟨m - 1, by omega⟩
      rw [deepcopy_array] at hne ⊢
      rw [deepcopy_array]
      have hl : deepcopy_array_loop n h s ≠ .error .fuel := by
        intro hl
        rw [hl] at hne
        exact hne rfl
      rw [ih3 h s hl k (by omega)]
    · obtain ⟨k, rfl⟩ : ∃ k, m = k + 1 := ⟨m - 1, by omega⟩
      cases s with
      | nil => rw [deepcopy_array_loop, deepcopy_array_loop]
      | cons sit source =>
        rw [deepcopy_array_loop] at hne ⊢
        rw [deepcopy_array_loop]
        have hd : cell.deepcopy n h cell.default sit ≠ .error .fuel := by
          intro hd
          rw [hd] at hne
          exact hne rfl
        rw [ih1 h cell.default sit hd k (by omega)]
        cases hr : cell.deepcopy n h cell.default sit with
        | error e => simp only
        | ok r =>
          obtain ⟨h1, dit⟩ := r
          rw [hr] at hne
          simp only at hne ⊢
          have hl : deepcopy_array_loop n h1 source ≠ .error .fuel := by
            intro hl
            rw [hl] at hne
            exact hne rfl
          rw [ih3 h1 source hl k (by omega)]
    · obtain ⟨k, rfl⟩ : ∃ k, m = k + 1 := ⟨m - 1, by omega⟩
      rw [deepcopy_object] at hne ⊢
      rw [deepcopy_object]
      have hl : deepcopy_object_loop n h s ≠ .error .fuel := by
        intro hl
        rw [hl] at hne
        exact hne rfl
      rw [ih5 h s hl k (by omega)]
    · obtain ⟨k, rfl⟩ : ∃ k, m = k + 1 := ⟨m - 1, by omega⟩
      cases s with
      | nil => rw [deepcopy_object_loop, deepcopy_object_loop]
      | cons e it =>
        obtain ⟨key, second⟩ := e
        rw [deepcopy_object_loop] at hne ⊢
        rw [deepcopy_object_loop]
        have hd : cell.deepcopy_self n h second ≠ .error .fuel := by
          intro hd
          rw [hd] at hne
          exact hne rfl
        rw [ih6 h second hd k (by omega)]
        cases hr : cell.deepcopy_self n h second with
        | error e => simp only
        | ok r =>
          obtain ⟨h1, dit⟩ := r
          rw [hr] at hne
          simp only at hne ⊢
          have hl : deepcopy_object_loop n h1 it ≠ .error .fuel := by
            intro hl
            rw [hl] at hne
            exact hne rfl
          rw [ih5 h1 it hl k (by omega)]
    · obtain ⟨k, rfl⟩ : ∃ k, m = k + 1 := ⟨m - 1, by omega⟩
      rw [cell.deepcopy_self] at hne ⊢
      rw [cell.deepcopy_self]
      cases ht : a.m_type <;> simp only [ht] at hne ⊢
      · cases hr : a.array_ref_dangerous h with
        | error e => simp only
        | ok source =>
          rw [hr] at hne
          simp only at hne ⊢
          exact ih2 h source hne k (by omega)
      · cases hr : a.object_ref_dangerous h with
        | error e => simp only
        | ok source =>
          rw [hr] at hne
          simp only at hne ⊢
          exact ih4 h source hne k (by omega)

/-! ## The pointer of a value -/

/-- What a `deepcopy` returns with some fuel is a fresh copy of the value copied. -/
theorem deepcopy_returns_fresh (S : Nat → Prop) (fuel : Nat) (h h2 : heap F)
    (a b c : cell F) (v : value F) (hb : holds S h b v)
    (hd : cell.deepcopy fuel h a b = .ok (h2, c)) : fresh_copy h h2 c v := by
  obtain ⟨n, hn⟩ := deepcopy_fresh v
  obtain ⟨h3, c3, hd3, hfresh⟩ := (hn (max n fuel) (Nat.le_max_left _ _) S h b hb).1 a
  have hne : cell.deepcopy fuel h a b ≠ .error .fuel := by
    rw [hd]
    exact fun hh => by cases hh
  have hmono := (deepcopy_fuel_mono fuel).1 h a b hne (max n fuel) (Nat.le_max_right _ _)
  rw [hd, hd3] at hmono
  simp only [Except.ok.injEq, Prod.mk.injEq] at hmono
  rw [← hmono.1, ← hmono.2]
  exact hfresh

theorem deepcopy_self_returns_fresh (S : Nat → Prop) (fuel : Nat) (h h2 : heap F)
    (b c : cell F) (v : value F) (hb : holds S h b v)
    (hd : cell.deepcopy_self fuel h b = .ok (h2, c)) : fresh_copy h h2 c v := by
  obtain ⟨n, hn⟩ := deepcopy_fresh v
  obtain ⟨h3, c3, hd3, hfresh⟩ := (hn (max n fuel) (Nat.le_max_left _ _) S h b hb).2
  have hne : cell.deepcopy_self fuel h b ≠ .error .fuel := by
    rw [hd]
    exact fun hh => by cases hh
  have hmono := (deepcopy_fuel_mono fuel).2.2.2.2.2 h b hne (max n fuel)
    (Nat.le_max_right _ _)
  rw [hd, hd3] at hmono
  simp only [Except.ok.injEq, Prod.mk.injEq] at hmono
  rw [← hmono.1, ← hmono.2]
  exact hfresh

/-- A value with the tag STRING holds a String, whose bytes are at its pointer. -/
theorem holds_STRING (S : Nat → Prop) (h : heap F) (c : cell F) (v : value F)
    (hc : holds S h c v) (ht : c.m_type = .STRING) :
    ∃ p s, c.m_ptr = some p ∧ S p ∧ h[p]? = some (.string s) ∧ v = .string s := by
  have hty := holds_type S h c v hc
  rw [ht] at hty
  cases v <;> first | (simp [value.get_type] at hty; done) | skip
  rw [holds] at hc
  obtain ⟨_, p, hp, hs, hh⟩ := hc
  exact ⟨p, _, hp, hs, hh, rfl⟩

/-- A value with the tag ARRAY holds an Array, whose elements are at its pointer. -/
theorem holds_ARRAY (S : Nat → Prop) (h : heap F) (c : cell F) (v : value F)
    (hc : holds S h c v) (ht : c.m_type = .ARRAY) :
    ∃ p cells vs, c.m_ptr = some p ∧ S p ∧ h[p]? = some (.array cells) ∧
      holds.elements S h cells vs ∧ v = .array vs := by
  have hty := holds_type S h c v hc
  rw [ht] at hty
  cases v <;> first | (simp [value.get_type] at hty; done) | skip
  rw [holds] at hc
  obtain ⟨_, p, cells, hp, hs, hh, hel⟩ := hc
  exact ⟨p, cells, _, hp, hs, hh, hel, rfl⟩

/-- A value with the tag OBJECT holds an Object, whose entries are at its pointer. -/
theorem holds_OBJECT (S : Nat → Prop) (h : heap F) (c : cell F) (v : value F)
    (hc : holds S h c v) (ht : c.m_type = .OBJECT) :
    ∃ p entries kvs, c.m_ptr = some p ∧ S p ∧ h[p]? = some (.object entries) ∧
      holds.members S h entries kvs ∧ v = .object kvs := by
  have hty := holds_type S h c v hc
  rw [ht] at hty
  cases v <;> first | (simp [value.get_type] at hty; done) | skip
  rw [holds] at hc
  obtain ⟨_, p, entries, hp, hs, hh, hel⟩ := hc
  exact ⟨p, entries, _, hp, hs, hh, hel, rfl⟩

/-- Objects that each hold a value hold the values of a list. -/
theorem elements_of_each (S : Nat → Prop) (h : heap F) (cells : List (cell F))
    (hc : ∀ e, e ∈ cells → ∃ v, holds S h e v) : ∃ vs, holds.elements S h cells vs := by
  induction cells with
  | nil => exact ⟨[], by rw [holds.elements]; trivial⟩
  | cons c cs ih =>
    obtain ⟨v, hv⟩ := hc c (List.mem_cons_self _ _)
    obtain ⟨vs, hvs⟩ := ih (fun e he => hc e (List.mem_cons_of_mem _ he))
    exact ⟨v :: vs, by rw [holds.elements]; exact ⟨hv, hvs⟩⟩

theorem members_of_each (S : Nat → Prop) (h : heap F) (entries : List (List Nat × cell F))
    (hc : ∀ e, e ∈ entries → ∃ v, holds S h e.2 v) : ∃ kvs, holds.members S h entries kvs := by
  induction entries with
  | nil => exact ⟨[], by rw [holds.members]; trivial⟩
  | cons c cs ih =>
    obtain ⟨k, c⟩ := c
    obtain ⟨v, hv⟩ := hc (k, c) (List.mem_cons_self _ _)
    obtain ⟨vs, hvs⟩ := ih (fun e he => hc e (List.mem_cons_of_mem _ he))
    exact ⟨(k, v) :: vs, by rw [holds.members]; exact ⟨rfl, hv, hvs⟩⟩

/-- The elements of a vector that holds values each hold a value. -/
theorem each_of_elements (S : Nat → Prop) (h : heap F) (vs : List (value F)) :
    ∀ cells, holds.elements S h cells vs → ∀ e, e ∈ cells → ∃ v, holds S h e v := by
  induction vs with
  | nil =>
    intro cells hc e he
    cases cells with
    | nil => simp at he
    | cons c cs => rw [holds.elements] at hc; exact hc.elim
  | cons v vs ih =>
    intro cells hc e he
    cases cells with
    | nil => simp at he
    | cons c cs =>
      rw [holds.elements] at hc
      rcases List.mem_cons.1 he with h1 | h1
      · rw [h1]; exact ⟨v, hc.1⟩
      · exact ih cs hc.2 e h1

theorem each_of_members (S : Nat → Prop) (h : heap F) (kvs : List (List Nat × value F)) :
    ∀ entries, holds.members S h entries kvs →
      ∀ e, e ∈ entries → ∃ v, holds S h e.2 v := by
  induction kvs with
  | nil =>
    intro entries hc e he
    cases entries with
    | nil => simp at he
    | cons c cs => rw [holds.members] at hc; exact hc.elim
  | cons kv kvs ih =>
    intro entries hc e he
    obtain ⟨key, v⟩ := kv
    cases entries with
    | nil => simp at he
    | cons c cs =>
      obtain ⟨k, c⟩ := c
      rw [holds.members] at hc
      rcases List.mem_cons.1 he with h1 | h1
      · rw [h1]; exact ⟨v, hc.2.1⟩
      · exact ih cs hc.2.2 e h1

/-- Every value that a program has made with the constructors, the assignment, `swap` and
`deepcopy` holds a value. -/
theorem built_holds (h : heap F) (c : cell F) (hb : built h c) :
    ∃ v, holds (fun _ => True) h c v := by
  induction hb with
  | later h ext c _ ih =>
    obtain ⟨v, hv⟩ := ih
    exact ⟨v, holds_append _ h ext c v hv⟩
  | default h => exact ⟨.null, by rw [holds]; rfl⟩
  | of_bool h v => exact ⟨.bool v, by rw [holds]; exact ⟨rfl, rfl⟩⟩
  | of_integer h v => exact ⟨.int (to_int64 v), by rw [holds]; exact ⟨rfl, rfl⟩⟩
  | of_float h v => exact ⟨.float v, by rw [holds]; exact ⟨rfl, rfl⟩⟩
  | of_string h v =>
    exact ⟨.string v, by rw [holds]; exact ⟨rfl, h.length, rfl, trivial, heap_new h _⟩⟩
  | of_string_pointer h c v _ hv ih =>
    obtain ⟨w, hw⟩ := ih
    unfold cell.get_string_pointer at hv
    split_ifs at hv with ht
    simp only [Except.ok.injEq] at hv
    obtain ⟨p, s, hp, -, hh, -⟩ := holds_STRING _ h c w hw ht
    rw [← hv, hp]
    exact ⟨.string s, by rw [holds]; exact ⟨rfl, p, rfl, trivial, hh⟩⟩
  | of_empty_string_pointer h =>
    exact ⟨.string [], by rw [holds]; exact ⟨rfl, h.length, rfl, trivial, heap_new h _⟩⟩
  | of_array h v _ ih =>
    obtain ⟨vs, hvs⟩ := elements_of_each _ h v ih
    refine ⟨.array vs, ?_⟩
    rw [holds]
    exact ⟨rfl, h.length, v, rfl, trivial, heap_new h _,
      elements_agree _ _ h _ (fun p x hp hx => ⟨hp, heap_append_some h _ p x hx⟩) vs v hvs⟩
  | of_array_pointer h c v _ hv ih =>
    obtain ⟨w, hw⟩ := ih
    unfold cell.get_array_pointer at hv
    split_ifs at hv with ht
    simp only [Except.ok.injEq] at hv
    obtain ⟨p, cells, vs, hp, -, hh, hel, -⟩ := holds_ARRAY _ h c w hw ht
    rw [← hv, hp]
    exact ⟨.array vs, by rw [holds]; exact ⟨rfl, p, cells, rfl, trivial, hh, hel⟩⟩
  | of_empty_array_pointer h =>
    refine ⟨.array [], ?_⟩
    rw [holds]
    exact ⟨rfl, h.length, [], rfl, trivial, heap_new h _, by rw [holds.elements]; trivial⟩
  | of_object h v _ ih =>
    obtain ⟨kvs, hkvs⟩ := members_of_each _ h v ih
    refine ⟨.object kvs, ?_⟩
    rw [holds]
    exact ⟨rfl, h.length, v, rfl, trivial, heap_new h _,
      members_agree _ _ h _ (fun p x hp hx => ⟨hp, heap_append_some h _ p x hx⟩) kvs v hkvs⟩
  | of_object_pointer h c v _ hv ih =>
    obtain ⟨w, hw⟩ := ih
    unfold cell.get_object_pointer at hv
    split_ifs at hv with ht
    simp only [Except.ok.injEq] at hv
    obtain ⟨p, entries, kvs, hp, -, hh, hel, -⟩ := holds_OBJECT _ h c w hw ht
    rw [← hv, hp]
    exact ⟨.object kvs, by rw [holds]; exact ⟨rfl, p, entries, rfl, trivial, hh, hel⟩⟩
  | of_empty_object_pointer h =>
    refine ⟨.object [], ?_⟩
    rw [holds]
    exact ⟨rfl, h.length, [], rfl, trivial, heap_new h _, by rw [holds.members]; trivial⟩
  | assign h a b _ _ _ ihb => exact ihb
  | swap_this h a b _ _ _ ihb => exact ihb
  | swap_other h a b _ _ iha _ => exact iha
  | deepcopy fuel h h2 a b c _ _ hd _ ihb =>
    obtain ⟨v, hv⟩ := ihb
    exact ⟨v, holds_agree _ _ h2 h2 (fun p x _ hx => ⟨trivial, hx⟩) v c
      (deepcopy_returns_fresh _ fuel h h2 a b c v hv hd).2⟩
  | deepcopy_self fuel h h2 a c _ hd iha =>
    obtain ⟨v, hv⟩ := iha
    exact ⟨v, holds_agree _ _ h2 h2 (fun p x _ hx => ⟨trivial, hx⟩) v c
      (deepcopy_self_returns_fresh _ fuel h h2 a c v hv hd).2⟩

/-- C40: for every value that a program has made with the constructors, the copy
assignment, `swap`, `deepcopy` and `deepcopy_self`, in the store of that program: with the
tag STRING its pointer is the address of a string, with the tag ARRAY of a vector, with
the tag OBJECT of a map, and `string_ref_dangerous`, `array_ref_dangerous` and
`object_ref_dangerous` return that payload; the elements of the vector and the values of
the map hold values in their turn, so the same is so of them; `deepcopy` from the value
and `deepcopy_self` of it never meet a pointer that is empty or of another kind, and
return from some fuel on. A constructor that is given an empty `shared_ptr` makes a new
empty payload. -/
theorem built_pointer (h : heap F) (c : cell F) (hb : built h c) :
    (c.m_type = .STRING → ∃ p s, c.m_ptr = some p ∧ h[p]? = some (.string s) ∧
      c.string_ref_dangerous h = .ok s) ∧
    (c.m_type = .ARRAY → ∃ p a, c.m_ptr = some p ∧ h[p]? = some (.array a) ∧
      c.array_ref_dangerous h = .ok a ∧ ∀ e, e ∈ a → ∃ w, holds (fun _ => True) h e w) ∧
    (c.m_type = .OBJECT → ∃ p o, c.m_ptr = some p ∧ h[p]? = some (.object o) ∧
      c.object_ref_dangerous h = .ok o ∧ ∀ e, e ∈ o → ∃ w, holds (fun _ => True) h e.2 w) ∧
    (∃ v, holds (fun _ => True) h c v) ∧
    (∀ fuel this, cell.deepcopy fuel h this c ≠ .error .dangerous) ∧
    (∀ fuel, cell.deepcopy_self fuel h c ≠ .error .dangerous) ∧
    (∃ n, ∀ fuel, n ≤ fuel → (∀ this, ∃ r, cell.deepcopy fuel h this c = .ok r) ∧
      ∃ r, cell.deepcopy_self fuel h c = .ok r) ∧
    (∀ h0 : heap F,
      cell.of_string_pointer h0 none
        = (h0 ++ [.string []], ⟨some h0.length, .indeterminate, .STRING⟩) ∧
      cell.of_array_pointer h0 none
        = (h0 ++ [.array []], ⟨some h0.length, .indeterminate, .ARRAY⟩) ∧
      cell.of_object_pointer h0 none
        = (h0 ++ [.object []], ⟨some h0.length, .indeterminate, .OBJECT⟩)) := by
  obtain ⟨v, hv⟩ := built_holds h c hb
  obtain ⟨n, hn⟩ := deepcopy_fresh v
  refine ⟨?_, ?_, ?_, ⟨v, hv⟩, ?_, ?_, ⟨n, fun fuel hfuel => ⟨fun this => ?_, ?_⟩⟩,
    fun h0 => ⟨rfl, rfl, rfl⟩⟩
  · intro ht
    obtain ⟨p, s, hp, -, hh, -⟩ := holds_STRING _ h c v hv ht
    exact ⟨p, s, hp, hh, string_ref_of h c p s hp hh⟩
  · intro ht
    obtain ⟨p, cells, vs, hp, -, hh, hel, -⟩ := holds_ARRAY _ h c v hv ht
    exact ⟨p, cells, hp, hh, array_ref_of h c p cells hp hh,
      each_of_elements _ h vs cells hel⟩
  · intro ht
    obtain ⟨p, entries, kvs, hp, -, hh, hel, -⟩ := holds_OBJECT _ h c v hv ht
    exact ⟨p, entries, hp, hh, object_ref_of h c p entries hp hh,
      each_of_members _ h kvs entries hel⟩
  · intro fuel this hd
    obtain ⟨h3, c3, hd3, -⟩ := (hn (max n fuel) (Nat.le_max_left _ _) _ h c hv).1 this
    have hne : cell.deepcopy fuel h this c ≠ .error .fuel := by
      rw [hd]
      exact fun hh => by cases hh
    have hmono := (deepcopy_fuel_mono fuel).1 h this c hne (max n fuel)
      (Nat.le_max_right _ _)
    rw [hd, hd3] at hmono
    cases hmono
  · intro fuel hd
    obtain ⟨h3, c3, hd3, -⟩ := (hn (max n fuel) (Nat.le_max_left _ _) _ h c hv).2
    have hne : cell.deepcopy_self fuel h c ≠ .error .fuel := by
      rw [hd]
      exact fun hh => by cases hh
    have hmono := (deepcopy_fuel_mono fuel).2.2.2.2.2 h c hne (max n fuel)
      (Nat.le_max_right _ _)
    rw [hd, hd3] at hmono
    cases hmono
  · obtain ⟨h3, c3, hd3, -⟩ := (hn fuel hfuel _ h c hv).1 this
    exact ⟨_, hd3⟩
  · obtain ⟨h3, c3, hd3, -⟩ := (hn fuel hfuel _ h c hv).2
    exact ⟨_, hd3⟩

/-- C40 at the array that is constructed from a vector of the String `x` and of a value
made from an empty pointer to an array. -/
theorem built_pointer_witness :
    built ([.string [0x78], .array [], .array [⟨some 0, .indeterminate, .STRING⟩,
        ⟨some 1, .indeterminate, .ARRAY⟩]] : heap float_text)
      ⟨some 2, .indeterminate, .ARRAY⟩ ∧
    cell.array_ref_dangerous ([.string [0x78], .array [],
        .array [⟨some 0, .indeterminate, .STRING⟩, ⟨some 1, .indeterminate, .ARRAY⟩]]
          : heap float_text) ⟨some 2, .indeterminate, .ARRAY⟩
      = .ok [⟨some 0, .indeterminate, .STRING⟩, ⟨some 1, .indeterminate, .ARRAY⟩] ∧
    ∀ fuel this, cell.deepcopy fuel ([.string [0x78], .array [],
        .array [⟨some 0, .indeterminate, .STRING⟩, ⟨some 1, .indeterminate, .ARRAY⟩]]
          : heap float_text) this ⟨some 2, .indeterminate, .ARRAY⟩ ≠ .error .dangerous :=
  have h1 : built ([.string [0x78]] : heap float_text) ⟨some 0, .indeterminate, .STRING⟩ :=
    built.of_string [] [0x78]
  have h2 : built ([.string [0x78], .array []] : heap float_text)
      ⟨some 1, .indeterminate, .ARRAY⟩ :=
    built.of_empty_array_pointer [.string [0x78]]
  have h3 : built ([.string [0x78], .array [], .array [⟨some 0, .indeterminate, .STRING⟩,
        ⟨some 1, .indeterminate, .ARRAY⟩]] : heap float_text)
      ⟨some 2, .indeterminate, .ARRAY⟩ :=
    built.of_array [.string [0x78], .array []]
      [⟨some 0, .indeterminate, .STRING⟩, ⟨some 1, .indeterminate, .ARRAY⟩]
      (fun e he => by
        rcases List.mem_cons.1 he with h4 | h4
        · rw [h4]; exact built.later [.string [0x78]] [.array []] _ h1
        · rw [List.mem_singleton.1 h4]; exact h2)
  ⟨h3, rfl, (built_pointer _ _ h3).2.2.2.2.1⟩

/-! ## `stringify` of native data -/

/-- An integer that an `int64_t` holds is stored as it is. -/
theorem to_int64_of_range (v : Int) (h1 : -2 ^ 63 ≤ v) (h2 : v < 2 ^ 63) : to_int64 v = v := by
  unfold to_int64
  rw [Int.emod_eq_of_lt (by omega) (by omega)]
  omega

theorem native_array_rest (l : List native)
    (h : ∀ x ∈ l, x.write_json = (x.to_value : value F).write_json ops) :
    native.write_json.array_rest l
      = value.write_json.array_rest ops (native.to_value.elements l) := by
  induction l with
  | nil => rfl
  | cons x rest ih =>
    rw [native.write_json.array_rest, native.to_value.elements, value.write_json.array_rest,
      h x (List.mem_cons_self _ _), ih (fun y hy => h y (List.mem_cons_of_mem _ hy))]

theorem native_object_rest (l : List (List Nat × native))
    (h : ∀ p ∈ l, p.2.write_json = (p.2.to_value : value F).write_json ops) :
    native.write_json.object_rest l
      = value.write_json.object_rest ops (native.to_value.entries l) := by
  induction l with
  | nil => rfl
  | cons p rest ih =>
    obtain ⟨k, x⟩ := p
    rw [native.write_json.object_rest, native.to_value.entries, value.write_json.object_rest,
      h (k, x) (List.mem_cons_self _ _), ih (fun y hy => h y (List.mem_cons_of_mem _ hy))]

/-- For a native datum built from bools, integers of the types wider than a character
that an `int64_t` holds, strings, vectors and maps, `stringify` of the datum is `stringify`
of the value it converts to. -/
theorem native_stringify_refines (x : native) :
    x.wide → x.stringify = stringify ops (x.to_value : value F) := by
  refine @native.rec
    (fun x => x.wide → x.write_json = (x.to_value : value F).write_json ops)
    (fun l => native.wide.each l →
      ∀ x ∈ l, x.write_json = (x.to_value : value F).write_json ops)
    (fun l => native.wide.each_entry l →
      ∀ p ∈ l, p.2.write_json = (p.2.to_value : value F).write_json ops)
    (fun p => p.2.wide → p.2.write_json = (p.2.to_value : value F).write_json ops)
    ?_ ?_ ?_ ?_ ?_ ?_ ?_ ?_ ?_ ?_ ?_ x
  · intro data _
    rfl
  · intro data h
    rw [native.wide] at h
    exact h.elim
  · intro data h
    rw [native.wide] at h
    rw [native.write_json, native.to_value, value.write_json, to_int64_of_range data h.1 h.2]
  · intro data _
    rfl
  · intro data ih h
    rw [native.wide] at h
    cases data with
    | nil => rfl
    | cons v rest =>
      rw [native.wide.each] at h
      have hall := ih (by rw [native.wide.each]; exact h)
      rw [native.write_json, native.to_value, native.to_value.elements, value.write_json,
        hall v (List.mem_cons_self _ _),
        native_array_rest ops rest (fun y hy => hall y (List.mem_cons_of_mem _ hy))]
  · intro data ih h
    rw [native.wide] at h
    cases data with
    | nil => rfl
    | cons p rest =>
      obtain ⟨k, v⟩ := p
      rw [native.wide.each_entry] at h
      have hall := ih (by rw [native.wide.each_entry]; exact h)
      rw [native.write_json, native.to_value, native.to_value.entries, value.write_json,
        hall (k, v) (List.mem_cons_self _ _),
        native_object_rest ops rest (fun y hy => hall y (List.mem_cons_of_mem _ hy))]
  · intro _ x hx
    simp at hx
  · intro v rest ihv ihr h x hx
    rw [native.wide.each] at h
    rcases List.mem_cons.1 hx with h1 | h1
    · rw [h1]; exact ihv h.1
    · exact ihr h.2 x h1
  · intro _ x hx
    simp at hx
  · intro p rest ihv ihr h x hx
    obtain ⟨k, v⟩ := p
    rw [native.wide.each_entry] at h
    rcases List.mem_cons.1 hx with h1 | h1
    · rw [h1]; exact ihv h.1
    · exact ihr h.2 x h1
  · intro k v ih
    exact ih

/-- C33: `stringify` of the `unsigned char` 65 writes the character `A`, and `stringify`
of the value made of it writes `65`; in a vector the character `"` is written between
the brackets as it is. For the `unsigned long long` `2^64 - 1`, `stringify` writes its
twenty digits, and `stringify` of the value made of it writes `-1`. -/
theorem character_written_as_it_is :
    native.stringify (.char8 65) = .ok (ascii "A") ∧
    stringify ops (native.to_value (.char8 65) : value F) = .ok (ascii "65") ∧
    native.stringify (.vector [.char8 0x22]) = .ok (ascii "[\"]") ∧
    stringify ops (native.to_value (.vector [.char8 0x22]) : value F) = .ok (ascii "[34]") ∧
    native.stringify (.integer (2 ^ 64 - 1)) = .ok (ascii "18446744073709551615") ∧
    stringify ops (native.to_value (.integer (2 ^ 64 - 1)) : value F) = .ok (ascii "-1") :=
  ⟨by rfl, by rfl, by rfl, by rfl, by rfl, by rfl⟩

/-- The vector of maps of vectors of strings of the test `stringify_strictly_typed_data`. -/
theorem native_stringify_sample :
    native.stringify (.vector [
        .map [(ascii "test1_1", .vector [.string (ascii "a"), .string (ascii "b"),
          .string (ascii "c")])],
        .map [(ascii "test2_1", .vector []),
          (ascii "test2_2", .vector [.string [], .string (ascii "X")])]])
      = .ok (ascii ("[\x7b\"test1_1\":[\"a\",\"b\",\"c\"]\x7d," ++
          "\x7b\"test2_1\":[],\"test2_2\":[\"\",\"X\"]\x7d]")) := by
  rfl

/-! ## What is unescaped from a literal of bytes below `0x80` is well-formed -/

theorem valid_utf8_append (a b : List Nat) (ha : valid_utf8 a) (hb : valid_utf8 b) :
    valid_utf8 (a ++ b) := by
  induction ha with
  | nil => exact hb
  | one c rest h _ ih => exact .one c _ h ih
  | two c c1 rest h1 h2 k1 _ ih => exact .two c c1 _ h1 h2 k1 ih
  | three c c1 c2 rest h1 h2 k1 k2 e1 e2 _ ih => exact .three c c1 c2 _ h1 h2 k1 k2 e1 e2 ih
  | four c c1 c2 c3 rest h1 h2 k1 k2 k3 e1 e2 _ ih =>
    exact .four c c1 c2 c3 _ h1 h2 k1 k2 k3 e1 e2 ih

/-- The encoding of a code point that is no surrogate and not above U+10FFFF is
well-formed. -/
theorem utf8_encode_valid (cp : Nat) (hmax : cp ≤ 0x10ffff) (hs : ¬ is_surrogate cp) :
    valid_utf8 (utf8_encode cp) := by
  unfold is_surrogate at hs
  unfold utf8_encode
  split_ifs with h1 h2 h3
  · exact .one _ _ h1 .nil
  · exact .two _ _ _ (by omega) (by omega) ⟨by omega, by omega⟩ .nil
  · exact .three _ _ _ _ (by omega) (by omega) ⟨by omega, by omega⟩ ⟨by omega, by omega⟩
      (by omega) (by omega) .nil
  · exact .four _ _ _ _ _ (by omega) (by omega) ⟨by omega, by omega⟩ ⟨by omega, by omega⟩
      ⟨by omega, by omega⟩ (by omega) (by omega) .nil

theorem read4hex_loop_lt (i : Nat) :
    ∀ rv it v it', rv < 65536 → impl.read4hex_loop i rv it = .ok (v, it') → v < 65536 := by
  induction i with
  | zero =>
    intro rv it v it' hrv h
    simp only [impl.read4hex_loop, Except.ok.injEq, Prod.mk.injEq] at h
    rw [← h.1]
    exact hrv
  | succ i ih =>
    intro rv it v it' hrv h
    cases it with
    | nil => simp [impl.read4hex_loop] at h
    | cons c rest =>
      simp only [impl.read4hex_loop] at h
      split_ifs at h
      · refine ih _ _ _ _ ?_ h
        rw [shl4_or rv (c - 0x30) (by omega)]
        omega
      · refine ih _ _ _ _ ?_ h
        rw [shl4_or rv (c - 0x61 + 0xa) (by omega)]
        omega
      · refine ih _ _ _ _ ?_ h
        rw [shl4_or rv (c - 0x41 + 0xa) (by omega)]
        omega

theorem unescape_surrogate_valid (cp : Nat) (it bytes it' : List Nat)
    (h1 : 0xd800 ≤ cp) (h2 : cp < 0xdc00)
    (h : impl.unescape_surrogate cp it = .ok (bytes, it')) : valid_utf8 bytes := by
  unfold impl.unescape_surrogate at h
  cases it with
  | nil => simp at h
  | cons b it =>
    simp only at h
    split_ifs at h
    cases it with
    | nil => simp at h
    | cons u it =>
      simp only at h
      split_ifs at h
      cases hr : impl.read4hex it with
      | error e => rw [hr] at h; simp at h
      | ok r =>
        obtain ⟨cp2, it2⟩ := r
        rw [hr] at h
        simp only at h
        split_ifs at h with hlow
        simp only [Except.ok.injEq, Prod.mk.injEq] at h
        have hv := surrogate_pair_value cp cp2 h1 (by omega) (by omega) (by omega)
        rw [← h.1, utf8_four_bytes _ (by omega) (by omega)]
        exact utf8_encode_valid _ (by omega) (by unfold is_surrogate; omega)

theorem unescape_unicode_valid (it bytes it' : List Nat)
    (h : impl.unescape_unicode it = .ok (bytes, it')) : valid_utf8 bytes := by
  unfold impl.unescape_unicode at h
  cases hr : impl.read4hex it with
  | error e => rw [hr] at h; simp at h
  | ok r =>
    obtain ⟨cp, it1⟩ := r
    rw [hr] at h
    simp only at h
    have hlt : cp < 65536 := read4hex_loop_lt 4 0 it cp it1 (by decide) hr
    split_ifs at h with c1 c2 c3 c4
    · simp only [Except.ok.injEq, Prod.mk.injEq] at h
      rw [← h.1]
      exact .one _ _ c1 .nil
    · simp only [Except.ok.injEq, Prod.mk.injEq] at h
      rw [← h.1, utf8_two_bytes cp (by omega) c2]
      exact utf8_encode_valid cp (by omega) (by unfold is_surrogate; omega)
    · simp only [Except.ok.injEq, Prod.mk.injEq] at h
      rw [← h.1, utf8_three_bytes cp (by omega) hlt]
      exact utf8_encode_valid cp (by omega) (by unfold is_surrogate; omega)
    · exact unescape_surrogate_valid cp it1 bytes it' (by omega) c4 h

/-- A turn of the loop at a byte below `0x80` stores a well-formed text. -/
theorem unescape_turn_valid (c : Nat) (it bytes it' : List Nat) (hc : c < 0x80)
    (h : impl.unescape_turn c it = .ok (bytes, it')) : valid_utf8 bytes := by
  unfold impl.unescape_turn at h
  split_ifs at h
  · cases it with
    | nil => simp at h
    | cons esc it =>
      simp only at h
      split_ifs at h with e1 e2 e3 e4 e5 e6 e7
      all_goals first
        | exact unescape_unicode_valid _ _ _ h
        | (simp only [Except.ok.injEq, Prod.mk.injEq] at h
           rw [← h.1]
           exact .one _ _ (by omega) .nil)
  · simp only [Except.ok.injEq, Prod.mk.injEq] at h
    rw [← h.1]
    exact .one _ _ hc .nil

/-- What the loop returns for an input of bytes below `0x80` is well-formed, when what it
had written before is. -/
theorem unescape_loop_valid (n : Nat) :
    ∀ out it r rest, valid_utf8 out → (∀ b ∈ it, b < 0x80) →
      impl.unescape_loop n out it = .ok (r, rest) → valid_utf8 r := by
  induction n with
  | zero =>
    intro out it r rest _ _ h
    simp [impl.unescape_loop] at h
  | succ n ih =>
    intro out it r rest hout hit h
    cases it with
    | nil => simp [impl.unescape_loop] at h
    | cons c it =>
      by_cases hq : c = 0x22
      · simp only [impl.unescape_loop, hq, if_true, Except.ok.injEq, Prod.mk.injEq] at h
        rw [← h.1]
        exact hout
      · cases ht : impl.unescape_turn c it with
        | error e => simp [impl.unescape_loop, hq, ht] at h
        | ok tr =>
          obtain ⟨bytes, it1⟩ := tr
          simp only [impl.unescape_loop, hq, if_false, ht] at h
          obtain ⟨p, hp, -⟩ := unescape_turn_consumed c it bytes it1 ht
          refine ih _ _ _ _ (valid_utf8_append _ _ hout
            (unescape_turn_valid c it bytes it1 (hit c (List.mem_cons_self _ _)) ht)) ?_ h
          intro b hb
          exact hit b (List.mem_cons_of_mem _ (by rw [hp]; exact List.mem_append_right _ hb))

/-- C38 (amended): for a well-formed UTF-8 text `s` and either value of `escape_slash`,
`escape_string` with the escaping of UTF-8 succeeds and the literal it writes is unescaped
to `s`, with the cursor after the closing quote; for any text `s` that `escape_string`
accepts, the literal is unescaped to `s` exactly when `s` is well-formed; and no other
well-formed text has the literal of a well-formed text. -/
theorem wellformed_escape_read_back (es : Bool) (s : List Nat) :
    (valid_utf8 s → ∃ body, escape_string s true es = .ok (0x22 :: (body ++ [0x22])) ∧
      ∀ rest, impl.unescape_string_inplace (body ++ 0x22 :: rest) = .ok (s, rest)) ∧
    (∀ body, escape_string s true es = .ok (0x22 :: (body ++ [0x22])) →
      (impl.unescape_string_inplace (body ++ [0x22]) = .ok (s, []) ↔ valid_utf8 s)) ∧
    (valid_utf8 s → ∀ t, valid_utf8 t →
      escape_string t true es = escape_string s true es → t = s) := by
  refine ⟨fun hs => escape_string_valid es s hs, ?_, ?_⟩
  · intro body hbody
    constructor
    · intro hun
      obtain ⟨body2, hloop, hout⟩ := escape_string_ok s true es _ hbody
      have hb : body2 = body := by
        have h1 : body ++ [0x22] = body2 ++ [0x22] := by
          injection hout with _ h2
        exact (List.append_cancel_right h1).symm
      rw [hb] at hloop
      have htok := escape_string_loop_tokens es _ s body hloop
      unfold impl.unescape_string_inplace at hun
      refine unescape_loop_valid _ [] _ s [] .nil ?_ hun
      intro b hb2
      rcases List.mem_append.1 hb2 with h3 | h3
      · have := (escaped_tokens_range body htok b h3).2
        omega
      · rw [List.mem_singleton.1 h3]
        decide
    · intro hs
      obtain ⟨body2, hbody2, hback⟩ := escape_string_valid es s hs
      rw [hbody2] at hbody
      have hb : body2 = body := by
        have h1 : body2 ++ [0x22] = body ++ [0x22] := by
          injection hbody with h2
          injection h2
        exact List.append_cancel_right h1
      rw [← hb]
      exact hback []
  · intro hs t ht heq
    obtain ⟨body, hbody, hback⟩ := escape_string_valid es s hs
    obtain ⟨tbody, htbody, htback⟩ := escape_string_valid es t ht
    rw [hbody, htbody] at heq
    have hb : tbody = body := by
      have h1 : tbody ++ [0x22] = body ++ [0x22] := by
        injection heq with h2
        injection h2
      exact List.append_cancel_right h1
    have h3 := htback []
    rw [hb, hback []] at h3
    injection h3 with h4
    injection h4 with h5
    exact h5.symm

/-- C38 (amended) at the text `a"`, U+00E9, U+1F600, with the slash escaped. -/
theorem wellformed_escape_read_back_witness :
    valid_utf8 [0x61, 0x22, 0xc3, 0xa9, 0xf0, 0x9f, 0x98, 0x80] ∧
    (∃ body, escape_string [0x61, 0x22, 0xc3, 0xa9, 0xf0, 0x9f, 0x98, 0x80] true true
        = .ok (0x22 :: (body ++ [0x22])) ∧
      ∀ rest, impl.unescape_string_inplace (body ++ 0x22 :: rest)
        = .ok ([0x61, 0x22, 0xc3, 0xa9, 0xf0, 0x9f, 0x98, 0x80], rest)) ∧
    ∀ t, valid_utf8 t →
      escape_string t true true
        = escape_string [0x61, 0x22, 0xc3, 0xa9, 0xf0, 0x9f, 0x98, 0x80] true true →
      t = [0x61, 0x22, 0xc3, 0xa9, 0xf0, 0x9f, 0x98, 0x80] :=
  have hv : valid_utf8 [0x61, 0x22, 0xc3, 0xa9, 0xf0, 0x9f, 0x98, 0x80] :=
    .one _ _ (by decide) (.one _ _ (by decide)
      (.two _ _ _ (by decide) (by decide) ⟨by decide, by decide⟩
        (.four _ _ _ _ _ (by decide) (by decide) ⟨by decide, by decide⟩
          ⟨by decide, by decide⟩ ⟨by decide, by decide⟩ (by decide) (by decide) .nil)))
  ⟨hv, (wellformed_escape_read_back true _).1 hv, (wellformed_escape_read_back true _).2.2 hv⟩

end lastjson
